import Mathlib

/-!
# Paritone: voxel path-finding engine

A shallow embedding of the Go packages `internal/world` and
`internal/pathfinding` (A*, Dijkstra, breadth-first, bidirectional and jump
point search, Theta*, IDA* and Bellman-Ford) and of the world builder
`setupWorld` of `cmd/paritone/main.go`, followed by theorems about it.

Modelling conventions

* In the embedding of the searches Go `int` coordinates are `Int` (no
  wrap-around: the searches only ever add or subtract one or two from a
  coordinate) and Go `float64` costs are exact rationals `ℚ`; every constant of
  the source (`1.414`, `0.2`, `5.0`, ...) is the rational with that decimal
  expansion.
* The arithmetic helpers whose result on cells that are far apart, or on extreme
  multipliers, depends on the machine (`abs`, `Heuristic`, `GetMovementCost`,
  the edge costs and `getLineOfSightPoints`) are embedded a second time on
  machine numbers, under the same name with the suffix `64`: a Go `int` is a
  64-bit two's-complement integer that wraps around, a `float64` operation
  rounds to the nearest double. Theorems relate the two embeddings
  (`GetMovementCost64_near`, `getLineOfSightPoints64_eq`).
* A Go `map[K]V` that is only read through lookups is a function `K → Option V`
  (or `K → Bool` for a `map[K]bool`); the world's block map is a finite
  association list searched from the front.
* Loops that Go runs until a condition holds take a `fuel : Nat` argument and
  return `none` when the fuel runs out; a counting loop
  `for i := lo; i <= hi; i++` is a fold over the list of its counter values.
* A method that updates the world in place is a function from the world
  before the call to the world after it.
* A `map[Point]Point` is a function `Point → Option Point`; reading a missing
  key gives the zero point, as in Go.
* The recursive `jump` of `jps.go` takes a fuel argument like the loops.
* `ComputationTime` (wall-clock time) is not modelled.
-/

set_option autoImplicit false

namespace Paritone

/-! ## Points, blocks and the world (`internal/world/world.go`) -/

/-- Cell coordinate, `pathfinding.Point`. -/
structure Point where
  X : Int
  Y : Int
  Z : Int
deriving DecidableEq, Repr

/-- Method `Point.IsEqual`. -/
def Point.IsEqual (p other : Point) : Bool :=
  p.X == other.X && p.Y == other.Y && p.Z == other.Z

/-- Record `world.Block`; the Go field `Type` is called `BlockType` here. -/
structure Block where
  BlockType : String
  Walkable : Bool
  Breakable : Bool
  MoveCost : ℚ
deriving DecidableEq, Repr

/-- Record `world.World`: the block map as an association list, the first
entry for a key being the live one. -/
structure World where
  Blocks : List (Point × Block)

/-- Constructor `NewWorld`. -/
def NewWorld : World := ⟨[]⟩

/-- Method `World.SetBlock`. -/
def World.SetBlock (w : World) (p : Point) (block : Block) : World :=
  ⟨(p, block) :: w.Blocks⟩

/-- Method `World.GetBlock`: the block and the `exists` flag as an option. -/
def World.GetBlock (w : World) (p : Point) : Option Block :=
  w.Blocks.lookup p

/-- Method `World.IsWalkable`. -/
def World.IsWalkable (w : World) (p : Point) : Bool :=
  match w.GetBlock p with
  | none => false
  | some block => block.Walkable

/-- Method `World.CanBreak`. -/
def World.CanBreak (w : World) (p : Point) : Bool :=
  match w.GetBlock p with
  | none => false
  | some block => block.Breakable

/-- Method `World.GetBlockType`. -/
def World.GetBlockType (w : World) (p : Point) : String :=
  match w.GetBlock p with
  | none => "unknown"
  | some block => block.BlockType

/-- Method `World.GetMovementCost` over unbounded integers and exact rationals;
the Go parameters `from` and `to` are `src` and `dst`. `GetMovementCost64` is
the method on machine numbers. -/
def World.GetMovementCost (w : World) (src dst : Point) : ℚ :=
  let baseCost : ℚ := 1
  let baseCost : ℚ := if src.X ≠ dst.X ∧ src.Z ≠ dst.Z then 1414 / 1000 else baseCost
  let baseCost : ℚ :=
    if dst.Y > src.Y then baseCost + 1 * ((dst.Y - src.Y : Int) : ℚ)
    else if dst.Y < src.Y then baseCost + (2 / 10) * ((src.Y - dst.Y : Int) : ℚ)
    else baseCost
  match w.GetBlock dst with
  | some toBlock => if toBlock.MoveCost > 0 then baseCost * toBlock.MoveCost else baseCost
  | none => baseCost

/-! ## Options and results (`internal/pathfinding/pathfinding.go`) -/

/-- Record `PathfindingOptions`. -/
structure PathfindingOptions where
  AllowBreaking : Bool := false
  AllowPlacing : Bool := false
  AvoidWater : Bool := false
  MinimiseHeight : Bool := false
  JumpPointOptimisation : Bool := false
  MaxIterations : Int := 0
  HeuristicWeight : ℚ := 0
deriving DecidableEq, Repr

/-- Record `PathfindingResult` without `ComputationTime`. A `nil` slice and an
empty slice are both the empty list. -/
structure PathfindingResult where
  Path : List Point := []
  NodesExplored : Int := 0
  BlocksBroken : List Point := []
  BlocksPlaced : List Point := []
  WaterCrossed : Int := 0
  VerticalChange : Int := 0
  TotalCost : ℚ := 0
  MaxMemoryUsed : Int := 0
  Iterations : Int := 0
  OptimalityRatio : ℚ := 0
deriving DecidableEq, Repr

/-- Helper `abs` of `astar.go` over unbounded integers; `abs64` is the helper on
the 64-bit `int`. -/
def abs (x : Int) : Int := if x < 0 then -x else x

/-! ## Search nodes and the open set (`astar.go`, Go `container/heap`) -/

/-- Record `Node` together with its `Parent *Node` chain: `root` is a node whose
parent pointer is nil. The `index` field is written by the queue and never read
by the searches, so it is left out. -/
inductive Node where
  | root (Position : Point) (GScore FScore : ℚ) : Node
  | child (Position : Point) (GScore FScore : ℚ) (Parent : Node) : Node
deriving DecidableEq, Repr

/-- Field `Position`. -/
def Node.Position : Node → Point
  | .root p _ _ => p
  | .child p _ _ _ => p

/-- Field `GScore`. -/
def Node.GScore : Node → ℚ
  | .root _ g _ => g
  | .child _ g _ _ => g

/-- Field `FScore`. -/
def Node.FScore : Node → ℚ
  | .root _ _ f => f
  | .child _ _ f _ => f

/-- Field `Parent`, `none` for the nil pointer. -/
def Node.Parent : Node → Option Node
  | .root _ _ _ => none
  | .child _ _ _ n => some n

/-- Type `PriorityQueue`, a slice of node pointers. -/
abbrev PriorityQueue := List Node

/-- Method `PriorityQueue.Less`; both indices are in range wherever the heap
routines call it. -/
def PriorityQueue.Less (pq : PriorityQueue) (i j : Nat) : Bool :=
  match pq[i]?, pq[j]? with
  | some a, some b => decide (a.FScore < b.FScore)
  | _, _ => false

/-- Method `PriorityQueue.Swap`; both indices are in range wherever the heap
routines call it (out of range, where Go would panic, the queue is returned
as it is). -/
def PriorityQueue.Swap (pq : PriorityQueue) (i j : Nat) : PriorityQueue :=
  match pq[i]?, pq[j]? with
  | some a, some b => (pq.set i b).set j a
  | _, _ => pq

/-- Loop of `heap.up`: the index at least halves on every round, so `fuel`
rounds with `fuel > j` always reach the `break`. -/
def heapUpLoop : Nat → PriorityQueue → Nat → PriorityQueue
  | 0, pq, _ => pq
  | fuel + 1, pq, j =>
    let i := (j - 1) / 2
    if i = j ∨ !pq.Less j i then pq
    else heapUpLoop fuel (pq.Swap i j) i

/-- Function `heap.up` of Go's `container/heap`. -/
def heapUp (pq : PriorityQueue) (j : Nat) : PriorityQueue :=
  heapUpLoop (j + 1) pq j

/-- Loop of `heap.down`: the index strictly grows on every round and stays
below `n`, so `n` rounds always reach the `break`. -/
def heapDownLoop : Nat → PriorityQueue → Nat → Nat → PriorityQueue
  | 0, pq, _, _ => pq
  | fuel + 1, pq, i, n =>
    let j1 := 2 * i + 1
    if j1 ≥ n then pq
    else
      let j := if j1 + 1 < n ∧ pq.Less (j1 + 1) j1 then j1 + 1 else j1
      if !pq.Less j i then pq
      else heapDownLoop fuel (pq.Swap i j) j n

/-- Function `heap.down` of Go's `container/heap`. -/
def heapDown (pq : PriorityQueue) (i0 n : Nat) : PriorityQueue :=
  heapDownLoop n pq i0 n

/-- Function `heap.Push`: append (`PriorityQueue.Push`), then sift up. -/
def heapPush (pq : PriorityQueue) (x : Node) : PriorityQueue :=
  heapUp (pq ++ [x]) pq.length

/-- Function `heap.Pop`: swap the root with the last slot, sift the new root
down within the first `n` slots, then cut the last slot off and return it
(`PriorityQueue.Pop`). `none` on an empty queue, where Go would panic. -/
def heapPop (pq : PriorityQueue) : Option (Node × PriorityQueue) :=
  match pq with
  | [] => none
  | _ :: _ =>
    let n := pq.length - 1
    let pq1 := heapDown (pq.Swap 0 n) 0 n
    match pq1.getLast? with
    | none => none
    | some node => some (node, pq1.dropLast)

/-! ## A* (`astar.go`) -/

/-- Function `Heuristic` over unbounded integers and exact rationals;
`Heuristic64` is the function on machine numbers. -/
def Heuristic (a b : Point) (options : PathfindingOptions) : ℚ :=
  let baseDist : ℚ := ((abs (a.X - b.X) + abs (a.Z - b.Z) : Int) : ℚ)
  let verticalDist : ℚ := ((abs (a.Y - b.Y) : Int) : ℚ)
  let verticalDist : ℚ := if options.MinimiseHeight then verticalDist * 2 else verticalDist
  baseDist + verticalDist

/-- The six axis directions in the order of the source. -/
def directions6 : List Point :=
  [⟨1, 0, 0⟩, ⟨-1, 0, 0⟩, ⟨0, 1, 0⟩, ⟨0, -1, 0⟩, ⟨0, 0, 1⟩, ⟨0, 0, -1⟩]

/-- Function `GetNeighbors`. -/
def GetNeighbors (p : Point) (world : World) : List Point :=
  (directions6.map fun dir => (⟨p.X + dir.X, p.Y + dir.Y, p.Z + dir.Z⟩ : Point)).filter
    fun newPoint => world.IsWalkable newPoint

/-- Reconstruction loop `for node := current; node != nil; node = node.Parent`
with `path = append([]Point{node.Position}, path...)`. -/
def findPathReconstruct : Node → List Point → List Point
  | .root p _ _, path => p :: path
  | .child p _ _ parent, path => findPathReconstruct parent (p :: path)

/-- Map type `map[Point]float64`. -/
abbrev GScoreMap := Point → Option ℚ

/-- Fresh map `make(map[Point]float64)`. -/
def GScoreMap.empty : GScoreMap := fun _ => none

/-- Assignment `m[p] = v`. -/
def GScoreMap.set (m : GScoreMap) (p : Point) (v : ℚ) : GScoreMap :=
  fun q => if q = p then some v else m q

/-- Read `m[p]` with Go's zero default for a missing key. -/
def GScoreMap.getD (m : GScoreMap) (p : Point) : ℚ := (m p).getD 0

/-- Inner loop of `FindPath` over the neighbours of `current`. -/
def findPathRelax (goal : Point) (current : Node) :
    List Point → PriorityQueue × GScoreMap → PriorityQueue × GScoreMap
  | [], st => st
  | neighbor :: rest, (openSet, gScore) =>
    let tentativeGScore := gScore.getD current.Position + 1
    let better : Bool :=
      match gScore neighbor with
      | none => true
      | some val => decide (tentativeGScore < val)
    if better then
      let neighborNode := Node.child neighbor tentativeGScore
        (tentativeGScore + Heuristic neighbor goal {}) current
      findPathRelax goal current rest
        (heapPush openSet neighborNode, gScore.set neighbor tentativeGScore)
    else findPathRelax goal current rest (openSet, gScore)

/-- One round of the main loop of `FindPath`: `Sum.inl path` when the function
returns (`[]` for `nil`), `Sum.inr` with the next open set and g-score map
otherwise. The write-only `cameFrom` map is left out. -/
def findPathStep (goal : Point) (world : World) (st : PriorityQueue × GScoreMap) :
    List Point ⊕ (PriorityQueue × GScoreMap) :=
  match heapPop st.1 with
  | none => Sum.inl []
  | some (current, openSet) =>
    if current.Position.IsEqual goal then Sum.inl (findPathReconstruct current [])
    else Sum.inr (findPathRelax goal current (GetNeighbors current.Position world) (openSet, st.2))

/-- Main loop of `FindPath`. -/
def findPathLoop (goal : Point) (world : World) :
    Nat → PriorityQueue × GScoreMap → Option (List Point)
  | 0, _ => none
  | fuel + 1, st =>
    match findPathStep goal world st with
    | Sum.inl path => some path
    | Sum.inr st1 => findPathLoop goal world fuel st1

/-- State of `FindPath` on entry to its main loop. -/
def findPathInit (start goal : Point) : PriorityQueue × GScoreMap :=
  (heapPush [] (Node.root start 0 (Heuristic start goal {})), GScoreMap.empty.set start 0)

/-- Function `FindPath`. -/
def FindPath (fuel : Nat) (start goal : Point) (world : World) : Option (List Point) :=
  findPathLoop goal world fuel (findPathInit start goal)

/-- Record `NeighborInfo`. -/
structure NeighborInfo where
  Point : Point
  RequiresBreaking : Bool
  RequiresPlacing : Bool
deriving DecidableEq, Repr

/-- The ten directions of `GetNeighborsWithBreaking` in the order of the source. -/
def directions10 : List Point :=
  [⟨1, 0, 0⟩, ⟨-1, 0, 0⟩, ⟨0, 0, 1⟩, ⟨0, 0, -1⟩,
   ⟨1, 0, 1⟩, ⟨1, 0, -1⟩, ⟨-1, 0, 1⟩, ⟨-1, 0, -1⟩,
   ⟨0, 1, 0⟩, ⟨0, -1, 0⟩]

/-- Function `GetNeighborsWithBreaking`. -/
def GetNeighborsWithBreaking (p : Point) (world : World) (options : PathfindingOptions) :
    List NeighborInfo :=
  directions10.filterMap fun dir =>
    let newPoint : Point := ⟨p.X + dir.X, p.Y + dir.Y, p.Z + dir.Z⟩
    if world.IsWalkable newPoint then some ⟨newPoint, false, false⟩
    else if options.AllowBreaking && world.CanBreak newPoint then some ⟨newPoint, true, false⟩
    else none

/-- Loop state of `findPathWithBreaking`. -/
structure BreakingState where
  openSet : PriorityQueue
  gScore : GScoreMap
  blocksBroken : List Point
  nodesExplored : Int

/-- Edge cost of `findPathWithBreaking`: movement cost plus surcharges. -/
def breakingMoveCost (world : World) (options : PathfindingOptions) (current : Point)
    (neighbor : NeighborInfo) : ℚ :=
  let moveCost := world.GetMovementCost current neighbor.Point
  let moveCost := if neighbor.RequiresBreaking then moveCost + 5 else moveCost
  let moveCost :=
    if options.AvoidWater && world.GetBlockType neighbor.Point == "water" then moveCost + 10
    else moveCost
  if options.MinimiseHeight && neighbor.Point.Y != current.Y then
    moveCost + 2 * ((abs (neighbor.Point.Y - current.Y) : Int) : ℚ)
  else moveCost

/-- Inner loop of `findPathWithBreaking` over the neighbours of `current`. -/
def breakingRelax (goal : Point) (world : World) (options : PathfindingOptions) (current : Node) :
    List NeighborInfo → BreakingState → BreakingState
  | [], st => st
  | neighbor :: rest, st =>
    let moveCost := breakingMoveCost world options current.Position neighbor
    let blocksBroken :=
      if neighbor.RequiresBreaking then st.blocksBroken ++ [neighbor.Point] else st.blocksBroken
    let tentativeGScore := st.gScore.getD current.Position + moveCost
    let better : Bool :=
      match st.gScore neighbor.Point with
      | none => true
      | some val => decide (tentativeGScore < val)
    if better then
      let neighborNode := Node.child neighbor.Point tentativeGScore
        (tentativeGScore + Heuristic neighbor.Point goal options) current
      breakingRelax goal world options current rest
        { st with openSet := heapPush st.openSet neighborNode,
                  gScore := st.gScore.set neighbor.Point tentativeGScore,
                  blocksBroken := blocksBroken }
    else breakingRelax goal world options current rest { st with blocksBroken := blocksBroken }

/-- Reconstruction loop of `findPathWithBreaking`: the path, the water count
and the vertical change, walking from `node` back to the root. -/
def breakingReconstruct (world : World) : Node → List Point × Int × Int → List Point × Int × Int
  | .root p _ _, (path, water, vert) => (p :: path, water, vert)
  | .child p _ _ parent, (path, water, vert) =>
    let vert := vert + abs (p.Y - parent.Position.Y)
    let water := if world.GetBlockType p == "water" then water + 1 else water
    breakingReconstruct world parent (p :: path, water, vert)

/-- The six results of `findPathWithBreaking` (and of `findPathWithPlacing`):
path, nodes explored, blocks broken or placed, water crossed, vertical change,
total cost. -/
abbrev SearchTuple := List Point × Int × List Point × Int × Int × ℚ

/-- One round of the main loop of `findPathWithBreaking`. -/
def breakingStep (goal : Point) (world : World) (options : PathfindingOptions)
    (st : BreakingState) : SearchTuple ⊕ BreakingState :=
  match heapPop st.openSet with
  | none => Sum.inl ([], st.nodesExplored, st.blocksBroken, 0, 0, 0)
  | some (current, openSet) =>
    let nodesExplored := st.nodesExplored + 1
    if current.Position.IsEqual goal then
      let r := breakingReconstruct world current ([], 0, 0)
      Sum.inl (r.1, nodesExplored, st.blocksBroken, r.2.1, r.2.2, current.GScore)
    else
      Sum.inr (breakingRelax goal world options current
        (GetNeighborsWithBreaking current.Position world options)
        { st with openSet := openSet, nodesExplored := nodesExplored })

/-- Main loop of `findPathWithBreaking`. -/
def breakingLoop (goal : Point) (world : World) (options : PathfindingOptions) :
    Nat → BreakingState → Option SearchTuple
  | 0, _ => none
  | fuel + 1, st =>
    match breakingStep goal world options st with
    | Sum.inl r => some r
    | Sum.inr st1 => breakingLoop goal world options fuel st1

/-- Function `findPathWithBreaking`. -/
def findPathWithBreaking (fuel : Nat) (start goal : Point) (world : World)
    (options : PathfindingOptions) : Option SearchTuple :=
  breakingLoop goal world options fuel
    { openSet := heapPush [] (Node.root start 0 (Heuristic start goal options)),
      gScore := GScoreMap.empty.set start 0,
      blocksBroken := [],
      nodesExplored := 0 }

/-! ## The default driver (`pathfinding.go`) -/

/-- Post-processing loop of `findPathStandard` over the cells of the path:
vertical change, last Y, water count and total cost. -/
def standardMetrics (world : World) : List Point → Int × Int × Int × ℚ → Int × Int × Int × ℚ
  | [], acc => acc
  | p :: rest, (verticalChange, lastY, waterCrossed, totalCost) =>
    standardMetrics world rest
      (verticalChange + abs (p.Y - lastY), p.Y,
       if world.GetBlockType p == "water" then waterCrossed + 1 else waterCrossed,
       totalCost + 1)

/-- Function `findPathStandard`: path, nodes explored, water crossed, vertical
change, total cost. The `options` argument is not used by the source. -/
def findPathStandard (fuel : Nat) (start goal : Point) (world : World)
    (_options : PathfindingOptions) : Option (List Point × Int × Int × Int × ℚ) :=
  match FindPath fuel start goal world with
  | none => none
  | some path =>
    let nodesExplored : Int := 0
    let m := standardMetrics world path (0, start.Y, 0, 0)
    some (path, nodesExplored, m.2.2.1, m.1, m.2.2.2)

/-- Function `findPathWithPlacing`. -/
def findPathWithPlacing (fuel : Nat) (start goal : Point) (world : World)
    (options : PathfindingOptions) : Option SearchTuple :=
  match findPathStandard fuel start goal world options with
  | none => none
  | some (path, nodesExplored, waterCrossed, verticalChange, totalCost) =>
    some (path, nodesExplored, [], waterCrossed, verticalChange, totalCost)

/-- Function `FindPathWithOptions`. -/
def FindPathWithOptions (fuel : Nat) (start goal : Point) (world : World)
    (options : PathfindingOptions) : Option PathfindingResult :=
  if options.AllowBreaking then
    match findPathWithBreaking fuel start goal world options with
    | none => none
    | some (path, nodesExplored, blocksBroken, waterCrossed, verticalChange, totalCost) =>
      some { Path := path, NodesExplored := nodesExplored, BlocksBroken := blocksBroken,
             WaterCrossed := waterCrossed, VerticalChange := verticalChange,
             TotalCost := totalCost }
  else if options.AllowPlacing then
    match findPathWithPlacing fuel start goal world options with
    | none => none
    | some (path, nodesExplored, blocksPlaced, waterCrossed, verticalChange, totalCost) =>
      some { Path := path, NodesExplored := nodesExplored, BlocksPlaced := blocksPlaced,
             WaterCrossed := waterCrossed, VerticalChange := verticalChange,
             TotalCost := totalCost }
  else
    match findPathStandard fuel start goal world options with
    | none => none
    | some (path, nodesExplored, waterCrossed, verticalChange, totalCost) =>
      some { Path := path, NodesExplored := nodesExplored,
             WaterCrossed := waterCrossed, VerticalChange := verticalChange,
             TotalCost := totalCost }

/-! ## Dijkstra (`dijkstra.go`) -/

/-- Map type `map[Point]bool`; a missing key reads `false`. -/
abbrev PointSet := Point → Bool

/-- Fresh map `make(map[Point]bool)`. -/
def PointSet.empty : PointSet := fun _ => false

/-- Assignment `m[p] = true`. -/
def PointSet.add (m : PointSet) (p : Point) : PointSet :=
  fun q => if q = p then true else m q

/-- The four horizontal directions of the placing branch, in source order. -/
def directions4 : List Point :=
  [⟨1, 0, 0⟩, ⟨-1, 0, 0⟩, ⟨0, 0, 1⟩, ⟨0, 0, -1⟩]

/-- Expander loop of the `AllowBreaking` branch over the directions still to be
tried: the neighbour slice and the `breakPoints` map. -/
def dijkstraExpandBreaking (world : World) (cur : Point) :
    List Point → List Point × PointSet → List Point × PointSet
  | [], acc => acc
  | dir :: rest, (neighbors, breakPoints) =>
    let neighbor : Point := ⟨cur.X + dir.X, cur.Y + dir.Y, cur.Z + dir.Z⟩
    if world.IsWalkable neighbor then
      dijkstraExpandBreaking world cur rest (neighbors ++ [neighbor], breakPoints)
    else if world.CanBreak neighbor then
      dijkstraExpandBreaking world cur rest (neighbors ++ [neighbor], breakPoints.add neighbor)
    else dijkstraExpandBreaking world cur rest (neighbors, breakPoints)

/-- Expander loop of the `AllowPlacing` branch: the neighbour slice and the
`placePoints` map. -/
def dijkstraExpandPlacing (world : World) (cur : Point) :
    List Point → List Point × PointSet → List Point × PointSet
  | [], acc => acc
  | dir :: rest, (neighbors, placePoints) =>
    let neighbor : Point := ⟨cur.X + dir.X, cur.Y + dir.Y, cur.Z + dir.Z⟩
    let neighbors := if world.IsWalkable neighbor then neighbors ++ [neighbor] else neighbors
    let placingNeighbor : Point := ⟨cur.X + dir.X * 2, cur.Y, cur.Z + dir.Z * 2⟩
    if !world.IsWalkable placingNeighbor then
      let below : Point := ⟨placingNeighbor.X, placingNeighbor.Y - 1, placingNeighbor.Z⟩
      if world.GetBlockType below != "air" then
        dijkstraExpandPlacing world cur rest
          (neighbors ++ [placingNeighbor], placePoints.add placingNeighbor)
      else dijkstraExpandPlacing world cur rest (neighbors, placePoints)
    else dijkstraExpandPlacing world cur rest (neighbors, placePoints)

/-- Expander loop of the plain branch. -/
def dijkstraExpandPlain (world : World) (options : PathfindingOptions) (cur : Point) :
    List Point → List Point → List Point
  | [], neighbors => neighbors
  | dir :: rest, neighbors =>
    let neighbor : Point := ⟨cur.X + dir.X, cur.Y + dir.Y, cur.Z + dir.Z⟩
    if world.IsWalkable neighbor then
      if !options.AvoidWater || world.GetBlockType neighbor != "water" then
        dijkstraExpandPlain world options cur rest (neighbors ++ [neighbor])
      else dijkstraExpandPlain world options cur rest neighbors
    else dijkstraExpandPlain world options cur rest neighbors

/-- Loop state of `FindPathDijkstraWithOptions`. The write-only `cameFrom` map
is left out; `blocksBroken`, `blocksPlaced` and `waterCrossed` are only written
by the reconstruction and so are not part of the loop state. -/
structure DijkstraState where
  openSet : PriorityQueue
  visited : PointSet
  gScore : GScoreMap
  breakPoints : PointSet
  placePoints : PointSet
  nodesExplored : Int

/-- The neighbour slice of `current` and the two scratch maps after the
expander branch selected by the options has run. -/
def dijkstraExpand (world : World) (options : PathfindingOptions) (cur : Point)
    (breakPoints placePoints : PointSet) : List Point × PointSet × PointSet :=
  if options.AllowBreaking then
    let r := dijkstraExpandBreaking world cur directions6 ([], breakPoints)
    (r.1, r.2, placePoints)
  else if options.AllowPlacing then
    let r := dijkstraExpandPlacing world cur directions4 ([], placePoints)
    (r.1, breakPoints, r.2)
  else
    (dijkstraExpandPlain world options cur directions6 [], breakPoints, placePoints)

/-- Edge cost of `FindPathDijkstraWithOptions`: movement cost plus surcharges,
read off the scratch maps as they stand when the edge is relaxed. -/
def dijkstraMoveCost (world : World) (options : PathfindingOptions)
    (breakPoints placePoints : PointSet) (current neighbor : Point) : ℚ :=
  let moveCost := world.GetMovementCost current neighbor
  let moveCost := if breakPoints neighbor then moveCost + 5 else moveCost
  let moveCost := if placePoints neighbor then moveCost + 3 else moveCost
  let moveCost :=
    if options.AvoidWater && world.GetBlockType neighbor == "water" then moveCost + 10
    else moveCost
  if options.MinimiseHeight && neighbor.Y != current.Y then
    moveCost + 2 * ((abs (neighbor.Y - current.Y) : Int) : ℚ)
  else moveCost

/-- Relaxation loop of `FindPathDijkstraWithOptions` over the neighbour slice. -/
def dijkstraRelax (world : World) (options : PathfindingOptions) (current : Node)
    (visited breakPoints placePoints : PointSet) :
    List Point → PriorityQueue × GScoreMap → PriorityQueue × GScoreMap
  | [], st => st
  | neighbor :: rest, (openSet, gScore) =>
    if visited neighbor then
      dijkstraRelax world options current visited breakPoints placePoints rest (openSet, gScore)
    else
      let moveCost :=
        dijkstraMoveCost world options breakPoints placePoints current.Position neighbor
      let tentativeGScore := gScore.getD current.Position + moveCost
      let better : Bool :=
        match gScore neighbor with
        | none => true
        | some val => decide (tentativeGScore < val)
      if better then
        let neighborNode := Node.child neighbor tentativeGScore tentativeGScore current
        dijkstraRelax world options current visited breakPoints placePoints rest
          (heapPush openSet neighborNode, gScore.set neighbor tentativeGScore)
      else
        dijkstraRelax world options current visited breakPoints placePoints rest
          (openSet, gScore)

/-- Accumulators of the reconstruction loop of `FindPathDijkstraWithOptions`. -/
structure DijkstraTrace where
  path : List Point := []
  totalVerticalChange : Int := 0
  lastY : Int
  waterCrossed : Int := 0
  blocksBroken : List Point := []
  blocksPlaced : List Point := []

/-- Reconstruction loop of `FindPathDijkstraWithOptions`, walking from `node`
back to the root. -/
def dijkstraReconstruct (world : World) (breakPoints placePoints : PointSet) :
    Node → DijkstraTrace → DijkstraTrace
  | .root pos _ _, t => { t with path := pos :: t.path }
  | .child pos _ _ parent, t =>
    dijkstraReconstruct world breakPoints placePoints parent
      { path := pos :: t.path,
        totalVerticalChange := t.totalVerticalChange + abs (pos.Y - t.lastY),
        lastY := pos.Y,
        waterCrossed := if world.GetBlockType pos == "water" then t.waterCrossed + 1
                        else t.waterCrossed,
        blocksBroken := if breakPoints pos then t.blocksBroken ++ [pos] else t.blocksBroken,
        blocksPlaced := if placePoints pos then t.blocksPlaced ++ [pos] else t.blocksPlaced }

/-- One round of the main loop of `FindPathDijkstraWithOptions`. -/
def dijkstraStep (start goal : Point) (world : World) (options : PathfindingOptions)
    (st : DijkstraState) : PathfindingResult ⊕ DijkstraState :=
  match heapPop st.openSet with
  | none =>
    Sum.inl { Path := [], NodesExplored := st.nodesExplored, BlocksBroken := [],
              BlocksPlaced := [], WaterCrossed := 0, VerticalChange := 0, TotalCost := 0 }
  | some (current, openSet) =>
    let nodesExplored := st.nodesExplored + 1
    let visited := st.visited.add current.Position
    if current.Position.X = goal.X ∧ current.Position.Y = goal.Y ∧ current.Position.Z = goal.Z then
      let t := dijkstraReconstruct world st.breakPoints st.placePoints current { lastY := start.Y }
      Sum.inl { Path := t.path, NodesExplored := nodesExplored, BlocksBroken := t.blocksBroken,
                BlocksPlaced := t.blocksPlaced, WaterCrossed := t.waterCrossed,
                VerticalChange := t.totalVerticalChange, TotalCost := current.GScore }
    else
      let e := dijkstraExpand world options current.Position st.breakPoints st.placePoints
      let r := dijkstraRelax world options current visited e.2.1 e.2.2 e.1 (openSet, st.gScore)
      Sum.inr { openSet := r.1, visited := visited, gScore := r.2,
                breakPoints := e.2.1, placePoints := e.2.2, nodesExplored := nodesExplored }

/-- Main loop of `FindPathDijkstraWithOptions`. -/
def dijkstraLoop (start goal : Point) (world : World) (options : PathfindingOptions) :
    Nat → DijkstraState → Option PathfindingResult
  | 0, _ => none
  | fuel + 1, st =>
    match dijkstraStep start goal world options st with
    | Sum.inl r => some r
    | Sum.inr st1 => dijkstraLoop start goal world options fuel st1

/-- State of `FindPathDijkstraWithOptions` on entry to its main loop. -/
def dijkstraInit (start : Point) : DijkstraState :=
  { openSet := heapPush [] (Node.root start 0 0),
    visited := PointSet.empty,
    gScore := GScoreMap.empty.set start 0,
    breakPoints := PointSet.empty,
    placePoints := PointSet.empty,
    nodesExplored := 0 }

/-- Function `FindPathDijkstraWithOptions`. -/
def FindPathDijkstraWithOptions (fuel : Nat) (start goal : Point) (world : World)
    (options : PathfindingOptions) : Option PathfindingResult :=
  dijkstraLoop start goal world options fuel (dijkstraInit start)

/-! ## The demo world (`cmd/paritone/main.go`) -/

/-- Record `PathRequest` of the server. -/
structure PathRequest where
  StartX : Int := 0
  StartY : Int := 0
  StartZ : Int := 0
  EndX : Int := 0
  EndY : Int := 0
  EndZ : Int := 0
  Algorithm : String := ""
  AllowBreaking : Bool := false
  AllowPlacing : Bool := false
  AvoidWater : Bool := false
  MinVertical : Bool := false

/-- Helper `max`; `main.go` and `pathfinding.go` each define it, with the same
body. -/
def max (a b : Int) : Int :=
  if a > b then a else b

/-- Values of the counter of a Go loop `for i := lo; i <= hi; i++`. -/
def intRange (lo hi : Int) : List Int :=
  (List.range (hi - lo + 1).toNat).map fun i => lo + (i : Int)

/-- A Go loop `for i := lo; i <= hi; i++ { body }` that updates the world. -/
def forRange (lo hi : Int) (body : World → Int → World) (w : World) : World :=
  (intRange lo hi).foldl body w

/-- Function `setupWorld`: the world after the call, from the world before
it. -/
def setupWorld (gameWorld : World) (req : PathRequest) : World :=
  let minX : Int := -20
  let maxX : Int := 20
  let minY : Int := 0
  let maxY : Int := 10
  let minZ : Int := -20
  let maxZ : Int := 20
  let w := forRange minX maxX (fun w x =>
    forRange minY maxY (fun w y =>
      forRange minZ maxZ (fun w z =>
        w.SetBlock ⟨x, y, z⟩ ⟨"air", decide (y > 0), false, 1⟩) w) w) gameWorld
  let w := forRange minX maxX (fun w x =>
    forRange minZ maxZ (fun w z =>
      w.SetBlock ⟨x, 0, z⟩ ⟨"grass", false, true, 1⟩) w) w
  let isMultiLevel := req.StartY != req.EndY
  if isMultiLevel then
    let maxHeight := max req.StartY req.EndY
    forRange 1 maxHeight (fun w level =>
      let startX := minX + (level - 1) * 8
      let startZ := minZ + (level - 1) * 8
      let w := forRange startX maxX (fun w x =>
        forRange startZ maxZ (fun w z =>
          let w := forRange 1 (level - 1) (fun w y =>
            w.SetBlock ⟨x, y, z⟩ ⟨"stone", false, true, 5⟩) w
          w.SetBlock ⟨x, level, z⟩ ⟨"air", true, false, 1⟩) w) w
      if level > 1 then
        let prevLevelX := startX - 8
        let prevLevelZ := startZ - 8
        forRange 0 7 (fun w i =>
          let rampX := prevLevelX + i
          let rampZ := prevLevelZ + i
          let w := w.SetBlock ⟨rampX, level - 1, rampZ⟩ ⟨"wood", true, false, 12 / 10⟩
          forRange 1 (level - 2) (fun w y =>
            w.SetBlock ⟨rampX, y, rampZ⟩ ⟨"stone", false, true, 5⟩) w) w
      else w) w
  else
    let w := forRange minX maxX (fun w x =>
      forRange minZ maxZ (fun w z =>
        w.SetBlock ⟨x, 1, z⟩ ⟨"air", true, false, 1⟩) w) w
    let w := forRange (-5) 5 (fun w x =>
      forRange (-5) 5 (fun w z =>
        w.SetBlock ⟨x, 1, z⟩ ⟨"stone", false, true, 5⟩) w) w
    let w := forRange 10 15 (fun w x =>
      forRange 10 15 (fun w z =>
        w.SetBlock ⟨x, 1, z⟩ ⟨"water", true, false, 3⟩) w) w
    let w := forRange (-15) (-10) (fun w x =>
      forRange 10 15 (fun w z =>
        w.SetBlock ⟨x, 1, z⟩ ⟨"sand", true, true, 15 / 10⟩) w) w
    let w := forRange (-15) (-10) (fun w x =>
      forRange (-15) (-10) (fun w z =>
        w.SetBlock ⟨x, 1, z⟩ ⟨"lava", false, true, 10⟩) w) w
    forRange 10 15 (fun w x =>
      forRange (-15) (-10) (fun w z =>
        w.SetBlock ⟨x, 1, z⟩ ⟨"ice", true, true, 7 / 10⟩) w) w

/-- World the request handlers search: `setupWorld` on a new world, then the
start and the goal of the request set to walkable air. -/
def requestWorld (req : PathRequest) : World :=
  ((setupWorld NewWorld req).SetBlock ⟨req.StartX, req.StartY, req.StartZ⟩
      ⟨"air", true, false, 1⟩).SetBlock ⟨req.EndX, req.EndY, req.EndZ⟩ ⟨"air", true, false, 1⟩

/-! ## Jump point search (`jps.go`) -/

/-- Helper `sign`. -/
def sign (x : Int) : Int :=
  if x > 0 then 1 else if x < 0 then -1 else 0

/-- Helper `manhattanDistance`. -/
def manhattanDistance (a b : Point) : Int :=
  abs (a.X - b.X) + abs (a.Y - b.Y) + abs (a.Z - b.Z)

/-- The ten directions of `getPrunedNeighbors` in the order of the source. -/
def directionsJPS : List Point :=
  [⟨1, 0, 0⟩, ⟨-1, 0, 0⟩, ⟨0, 1, 0⟩, ⟨0, -1, 0⟩, ⟨0, 0, 1⟩, ⟨0, 0, -1⟩,
   ⟨1, 0, 1⟩, ⟨1, 0, -1⟩, ⟨-1, 0, 1⟩, ⟨-1, 0, -1⟩]

/-- Function `getPrunedNeighbors`; `keep p` is the statement
`if world.IsWalkable(p) { neighbors = append(neighbors, p) }`. -/
def getPrunedNeighbors (current : Point) (parent : Option Node) (world : World) : List Point :=
  let keep (p : Point) : List Point := if world.IsWalkable p then [p] else []
  match parent with
  | none =>
    (directionsJPS.map fun dir =>
      (⟨current.X + dir.X, current.Y + dir.Y, current.Z + dir.Z⟩ : Point)).filter
        fun neighbor => world.IsWalkable neighbor
  | some parent =>
    let parentPos := parent.Position
    let dx := sign (current.X - parentPos.X)
    let dy := sign (current.Y - parentPos.Y)
    let dz := sign (current.Z - parentPos.Z)
    let upDown : List Point :=
      if dy ≠ 0 then keep ⟨current.X, current.Y + dy, current.Z⟩ else []
    if dx ≠ 0 ∧ dz ≠ 0 then
      keep ⟨current.X + dx, current.Y, current.Z + dz⟩ ++
      (if !world.IsWalkable ⟨current.X - dx, current.Y, current.Z⟩ then
        keep ⟨current.X - dx, current.Y, current.Z + dz⟩ else []) ++
      (if !world.IsWalkable ⟨current.X, current.Y, current.Z - dz⟩ then
        keep ⟨current.X + dx, current.Y, current.Z - dz⟩ else []) ++
      upDown
    else if dx ≠ 0 then
      keep ⟨current.X + dx, current.Y, current.Z⟩ ++
      (if !world.IsWalkable ⟨current.X, current.Y + 1, current.Z⟩ then
        keep ⟨current.X + dx, current.Y + 1, current.Z⟩ else []) ++
      (if !world.IsWalkable ⟨current.X, current.Y - 1, current.Z⟩ then
        keep ⟨current.X + dx, current.Y - 1, current.Z⟩ else []) ++
      upDown
    else if dz ≠ 0 then
      keep ⟨current.X, current.Y, current.Z + dz⟩ ++
      (if !world.IsWalkable ⟨current.X, current.Y + 1, current.Z⟩ then
        keep ⟨current.X, current.Y + 1, current.Z + dz⟩ else []) ++
      (if !world.IsWalkable ⟨current.X, current.Y - 1, current.Z⟩ then
        keep ⟨current.X, current.Y - 1, current.Z + dz⟩ else []) ++
      upDown
    else if dy ≠ 0 then
      keep ⟨current.X, current.Y + dy, current.Z⟩ ++
      (if !world.IsWalkable ⟨current.X + 1, current.Y, current.Z⟩ then
        keep ⟨current.X + 1, current.Y + dy, current.Z⟩ else []) ++
      (if !world.IsWalkable ⟨current.X - 1, current.Y, current.Z⟩ then
        keep ⟨current.X - 1, current.Y + dy, current.Z⟩ else []) ++
      (if !world.IsWalkable ⟨current.X, current.Y, current.Z + 1⟩ then
        keep ⟨current.X, current.Y + dy, current.Z + 1⟩ else []) ++
      (if !world.IsWalkable ⟨current.X, current.Y, current.Z - 1⟩ then
        keep ⟨current.X, current.Y + dy, current.Z - 1⟩ else [])
    else []

/-- Recursive function `jump`, at most `fuel` calls deep (`none` when the fuel
runs out). The point `(-1, -1, -1)` is the source's "no jump point" value. -/
def jump (world : World) (goal : Point) : Nat → Point → Int → Int → Int → Option Point
  | 0, _, _, _, _ => none
  | fuel + 1, current, dx, dy, dz =>
    let next : Point := ⟨current.X + dx, current.Y + dy, current.Z + dz⟩
    if !world.IsWalkable next then some ⟨-1, -1, -1⟩
    else if next.X = goal.X ∧ next.Y = goal.Y ∧ next.Z = goal.Z then some next
    else if dx ≠ 0 ∧ dz ≠ 0 then
      if world.IsWalkable ⟨next.X - dx, next.Y, next.Z + dz⟩ &&
          !world.IsWalkable ⟨next.X - dx, next.Y, next.Z⟩ then some next
      else if world.IsWalkable ⟨next.X + dx, next.Y, next.Z - dz⟩ &&
          !world.IsWalkable ⟨next.X, next.Y, next.Z - dz⟩ then some next
      else
        match jump world goal fuel next dx 0 0, jump world goal fuel next 0 0 dz with
        | some hJump, some vJump =>
          if hJump.X ≠ -1 ∨ vJump.X ≠ -1 then some next
          else jump world goal fuel next dx dy dz
        | _, _ => none
    else if dx ≠ 0 then
      if world.IsWalkable ⟨next.X, next.Y + 1, next.Z⟩ &&
          !world.IsWalkable ⟨current.X, current.Y + 1, current.Z⟩ then some next
      else if world.IsWalkable ⟨next.X, next.Y - 1, next.Z⟩ &&
          !world.IsWalkable ⟨current.X, current.Y - 1, current.Z⟩ then some next
      else jump world goal fuel next dx dy dz
    else if dz ≠ 0 then
      if world.IsWalkable ⟨next.X, next.Y + 1, next.Z⟩ &&
          !world.IsWalkable ⟨current.X, current.Y + 1, current.Z⟩ then some next
      else if world.IsWalkable ⟨next.X, next.Y - 1, next.Z⟩ &&
          !world.IsWalkable ⟨current.X, current.Y - 1, current.Z⟩ then some next
      else jump world goal fuel next dx dy dz
    else if dy ≠ 0 then
      if world.IsWalkable ⟨next.X + 1, next.Y, next.Z⟩ &&
          !world.IsWalkable ⟨current.X + 1, current.Y, current.Z⟩ then some next
      else if world.IsWalkable ⟨next.X - 1, next.Y, next.Z⟩ &&
          !world.IsWalkable ⟨current.X - 1, current.Y, current.Z⟩ then some next
      else if world.IsWalkable ⟨next.X, next.Y, next.Z + 1⟩ &&
          !world.IsWalkable ⟨current.X, current.Y, current.Z + 1⟩ then some next
      else if world.IsWalkable ⟨next.X, next.Y, next.Z - 1⟩ &&
          !world.IsWalkable ⟨current.X, current.Y, current.Z - 1⟩ then some next
      else jump world goal fuel next dx dy dz
    else jump world goal fuel next dx dy dz

/-- Loop of `identifySuccessors` over the pruned neighbours still to be tried;
every call of `jump` gets `fuel`. -/
def identifySuccessorsLoop (fuel : Nat) (current goal : Point) (world : World) :
    List Point → List Point → Option (List Point)
  | [], successors => some successors
  | neighbor :: rest, successors =>
    let dx := sign (neighbor.X - current.X)
    let dy := sign (neighbor.Y - current.Y)
    let dz := sign (neighbor.Z - current.Z)
    match jump world goal fuel current dx dy dz with
    | none => none
    | some jp =>
      if jp.X ≠ -1 then
        identifySuccessorsLoop fuel current goal world rest (successors ++ [jp])
      else identifySuccessorsLoop fuel current goal world rest successors

/-- Function `identifySuccessors`. -/
def identifySuccessors (fuel : Nat) (current goal : Point) (world : World)
    (parent : Option Node) : Option (List Point) :=
  identifySuccessorsLoop fuel current goal world (getPrunedNeighbors current parent world) []

/-- One round of the loop of `interpolatePath` (the Go parameters `from` and
`to` are `src` and `dst`). -/
def interpolateStep (src : Point) (dx dy dz : Int) (world : World) (points : List Point)
    (i : Int) : List Point :=
  let x := src.X + dx * i
  let y := src.Y + dy * i
  let z := src.Z + dz * i
  let point : Point := ⟨x, y, z⟩
  if !world.IsWalkable point then
    let altPoint : Point := ⟨x, src.Y, z⟩
    if world.IsWalkable altPoint then points ++ [altPoint]
    else
      let altPoint : Point := ⟨x, src.Y + 1, z⟩
      if world.IsWalkable altPoint then points ++ [altPoint]
      else
        let altPoint : Point := ⟨x, src.Y - 1, z⟩
        if world.IsWalkable altPoint then points ++ [altPoint]
        else points
  else points ++ [point]

/-- Function `interpolatePath`. -/
def interpolatePath (src dst : Point) (world : World) : List Point :=
  let dx := sign (dst.X - src.X)
  let dy := sign (dst.Y - src.Y)
  let dz := sign (dst.Z - src.Z)
  let steps := max (max (abs (dst.X - src.X)) (abs (dst.Y - src.Y))) (abs (dst.Z - src.Z))
  (intRange 1 steps).foldl (interpolateStep src dx dy dz world) []

/-- Relaxation loop of `FindPathJPSWithOptions` over the successors. The
write-only `cameFrom` map is left out. -/
def jpsRelax (goal : Point) (options : PathfindingOptions) (current : Node) :
    List Point → PriorityQueue × GScoreMap → PriorityQueue × GScoreMap
  | [], st => st
  | successor :: rest, (openSet, gScore) =>
    let tentativeGScore : ℚ :=
      gScore.getD current.Position + ((manhattanDistance current.Position successor : Int) : ℚ)
    let better : Bool :=
      match gScore successor with
      | none => true
      | some val => decide (tentativeGScore < val)
    if better then
      let successorNode := Node.child successor tentativeGScore
        (tentativeGScore + Heuristic successor goal options) current
      jpsRelax goal options current rest
        (heapPush openSet successorNode, gScore.set successor tentativeGScore)
    else jpsRelax goal options current rest (openSet, gScore)

/-- Reconstruction loop of `FindPathJPSWithOptions`, walking from `node` back
to the root: the node's cell is put in front of `path`, then the last element
of `path` is cut off (`path[:len(path)-1]`) and the interpolation from the
parent to the node is appended. -/
def jpsReconstruct (world : World) : Node → List Point → List Point
  | .root p _ _, path => p :: path
  | .child p _ _ parent, path =>
    let path := p :: path
    let interpolatedPoints := interpolatePath parent.Position p world
    jpsReconstruct world parent (path.dropLast ++ interpolatedPoints)

/-- Post-processing loop `for i, p := range path` of `FindPathJPSWithOptions`:
vertical change, last Y and water count. -/
def jpsMetrics (world : World) : Nat → List Point → Int × Int × Int → Int × Int × Int
  | _, [], acc => acc
  | i, p :: rest, (totalVerticalChange, lastY, waterCrossed) =>
    if i > 0 then
      jpsMetrics world (i + 1) rest
        (totalVerticalChange + abs (p.Y - lastY), p.Y,
         if world.GetBlockType p == "water" then waterCrossed + 1 else waterCrossed)
    else jpsMetrics world (i + 1) rest (totalVerticalChange, lastY, waterCrossed)

/-- Main loop of `FindPathJPSWithOptions` past the fallback test; `jfuel` is
the fuel of every call of `jump`. -/
def jpsLoop (jfuel : Nat) (start goal : Point) (world : World) (options : PathfindingOptions) :
    Nat → PriorityQueue × GScoreMap × Int → Option PathfindingResult
  | 0, _ => none
  | fuel + 1, (openSet, gScore, nodesExplored) =>
    match heapPop openSet with
    | none => some { Path := [], NodesExplored := nodesExplored }
    | some (current, openSet) =>
      let nodesExplored := nodesExplored + 1
      if current.Position.X = goal.X ∧ current.Position.Y = goal.Y ∧
          current.Position.Z = goal.Z then
        let path := jpsReconstruct world current []
        let m := jpsMetrics world 0 path (0, start.Y, 0)
        some { Path := path, NodesExplored := nodesExplored, WaterCrossed := m.2.2,
               VerticalChange := m.1, TotalCost := current.GScore }
      else
        match identifySuccessors jfuel current.Position goal world current.Parent with
        | none => none
        | some successors =>
          let r := jpsRelax goal options current successors (openSet, gScore)
          jpsLoop jfuel start goal world options fuel (r.1, r.2, nodesExplored)

/-- Function `FindPathJPSWithOptions`. -/
def FindPathJPSWithOptions (fuel : Nat) (start goal : Point) (world : World)
    (options : PathfindingOptions) : Option PathfindingResult :=
  if options.AllowBreaking || options.AllowPlacing || options.AvoidWater then
    FindPathWithOptions fuel start goal world options
  else
    jpsLoop fuel start goal world options fuel
      (heapPush [] (Node.root start 0 (Heuristic start goal options)),
       GScoreMap.empty.set start 0, 0)

/-! ## Parent maps and `isEqual` (`bfs.go`) -/

/-- Map type `map[Point]Point`. -/
abbrev ParentMap := Point → Option Point

/-- Fresh map `make(map[Point]Point)`. -/
def ParentMap.empty : ParentMap := fun _ => none

/-- Assignment `m[p] = v`. -/
def ParentMap.set (m : ParentMap) (p v : Point) : ParentMap :=
  fun q => if q = p then some v else m q

/-- Read `m[p]`, the zero point for a missing key. -/
def ParentMap.get (m : ParentMap) (p : Point) : Point := (m p).getD ⟨0, 0, 0⟩

/-- Helper `isEqual` of `bfs.go`. -/
def isEqual (a b : Point) : Bool :=
  a.X == b.X && a.Y == b.Y && a.Z == b.Z

/-! ## Bidirectional search (`bidirectional.go`) -/

/-- Function `getNeighborsWithOptions` of `bidirectional.go`: the neighbour
slice and the two scratch maps after the call. Its three branches are,
statement for statement, the expander loops of `FindPathDijkstraWithOptions`. -/
def getNeighborsWithOptions (current : Point) (world : World) (options : PathfindingOptions)
    (breakPoints placePoints : PointSet) : List Point × PointSet × PointSet :=
  if options.AllowBreaking then
    let r := dijkstraExpandBreaking world current directions6 ([], breakPoints)
    (r.1, r.2, placePoints)
  else if options.AllowPlacing then
    let r := dijkstraExpandPlacing world current directions4 ([], placePoints)
    (r.1, breakPoints, r.2)
  else
    (dijkstraExpandPlain world options current directions6 [], breakPoints, placePoints)

/-- Loop state of `FindPathBidirectionalWithOptions`. -/
structure BidiState where
  forwardQueue : List Point
  backwardQueue : List Point
  forwardVisited : PointSet
  backwardVisited : PointSet
  forwardParent : ParentMap
  backwardParent : ParentMap
  nodesExplored : Int
  breakPoints : PointSet
  placePoints : PointSet
  meetingPoint : Point
  meetFound : Bool

/-- The loop `for _, neighbor := range neighbors` of either half of a round of
`FindPathBidirectionalWithOptions`: queue, visited map and parent map of the
half's own side, and the meeting point if the loop left through `break`. -/
def bidiVisit (current : Point) (otherVisited : PointSet) :
    List Point → List Point × PointSet × ParentMap →
      (List Point × PointSet × ParentMap) × Option Point
  | [], st => (st, none)
  | neighbor :: rest, (queue, visited, parent) =>
    if !visited neighbor then
      let queue := queue ++ [neighbor]
      let visited := visited.add neighbor
      let parent := parent.set neighbor current
      if otherVisited neighbor then ((queue, visited, parent), some neighbor)
      else bidiVisit current otherVisited rest (queue, visited, parent)
    else bidiVisit current otherVisited rest (queue, visited, parent)

/-- First half of a round: `if !meetFound && forwardQueue.Len() > 0 { ... }`. -/
def bidiForward (world : World) (options : PathfindingOptions) (st : BidiState) : BidiState :=
  match st.forwardQueue with
  | [] => st
  | current :: queue =>
    if !st.meetFound then
      let e := getNeighborsWithOptions current world options st.breakPoints st.placePoints
      let r := bidiVisit current st.backwardVisited e.1
        (queue, st.forwardVisited, st.forwardParent)
      { st with
        forwardQueue := r.1.1, forwardVisited := r.1.2.1, forwardParent := r.1.2.2,
        nodesExplored := st.nodesExplored + 1,
        breakPoints := e.2.1, placePoints := e.2.2,
        meetingPoint := r.2.getD st.meetingPoint, meetFound := r.2.isSome }
    else st

/-- Second half of a round: `if !meetFound && backwardQueue.Len() > 0 { ... }`. -/
def bidiBackward (world : World) (options : PathfindingOptions) (st : BidiState) : BidiState :=
  match st.backwardQueue with
  | [] => st
  | current :: queue =>
    if !st.meetFound then
      let neighbors := dijkstraExpandPlain world options current directions6 []
      let r := bidiVisit current st.forwardVisited neighbors
        (queue, st.backwardVisited, st.backwardParent)
      { st with
        backwardQueue := r.1.1, backwardVisited := r.1.2.1, backwardParent := r.1.2.2,
        nodesExplored := st.nodesExplored + 1,
        meetingPoint := r.2.getD st.meetingPoint, meetFound := r.2.isSome }
    else st

/-- Main loop of `FindPathBidirectionalWithOptions`: the state in which the
loop condition fails. -/
def bidiLoop (world : World) (options : PathfindingOptions) : Nat → BidiState → Option BidiState
  | 0, _ => none
  | fuel + 1, st =>
    if st.forwardQueue ≠ [] ∧ st.backwardQueue ≠ [] ∧ st.meetFound = false then
      bidiLoop world options fuel (bidiBackward world options (bidiForward world options st))
    else some st

/-- Loop that builds `forwardPath`, `blocksBroken` and `blocksPlaced`, walking
the forward parent map from `p` until the start. -/
def bidiForwardPath (start : Point) (forwardParent : ParentMap) (breakPoints placePoints : PointSet) :
    Nat → Point → List Point × List Point × List Point →
      Option (List Point × List Point × List Point)
  | 0, _, _ => none
  | fuel + 1, p, (forwardPath, blocksBroken, blocksPlaced) =>
    if isEqual p start then some (forwardPath, blocksBroken, blocksPlaced)
    else
      bidiForwardPath start forwardParent breakPoints placePoints fuel (forwardParent.get p)
        (p :: forwardPath,
         if breakPoints p then blocksBroken ++ [p] else blocksBroken,
         if placePoints p then blocksPlaced ++ [p] else blocksPlaced)

/-- Loop that builds `backwardPath`, walking the backward parent map from `p`
until the goal. -/
def bidiBackwardPath (goal : Point) (backwardParent : ParentMap) :
    Nat → Point → List Point → Option (List Point)
  | 0, _, _ => none
  | fuel + 1, p, backwardPath =>
    if isEqual p goal then some backwardPath
    else bidiBackwardPath goal backwardParent fuel (backwardParent.get p) (backwardPath ++ [p])

/-- Post-processing loop of `FindPathBidirectionalWithOptions` over the cells
of the complete path: water count, vertical change and last Y. -/
def bidiMetrics (world : World) : List Point → Int × Int × Int → Int × Int × Int
  | [], acc => acc
  | p :: rest, (waterCrossed, totalVerticalChange, lastY) =>
    bidiMetrics world rest
      (if world.GetBlockType p == "water" then waterCrossed + 1 else waterCrossed,
       totalVerticalChange + abs (p.Y - lastY), p.Y)

/-- State of `FindPathBidirectionalWithOptions` on entry to its main loop. -/
def bidiInit (start goal : Point) : BidiState :=
  { forwardQueue := [start], backwardQueue := [goal],
    forwardVisited := PointSet.empty.add start, backwardVisited := PointSet.empty.add goal,
    forwardParent := ParentMap.empty, backwardParent := ParentMap.empty,
    nodesExplored := 0, breakPoints := PointSet.empty, placePoints := PointSet.empty,
    meetingPoint := ⟨0, 0, 0⟩, meetFound := false }

/-- Function `FindPathBidirectionalWithOptions`; each of its three loops gets
`fuel` rounds. -/
def FindPathBidirectionalWithOptions (fuel : Nat) (start goal : Point) (world : World)
    (options : PathfindingOptions) : Option PathfindingResult :=
  match bidiLoop world options fuel (bidiInit start goal) with
  | none => none
  | some st =>
    if st.meetFound then
      match bidiForwardPath start st.forwardParent st.breakPoints st.placePoints fuel
          st.meetingPoint ([], [], []) with
      | none => none
      | some (forwardPath, blocksBroken, blocksPlaced) =>
        let forwardPath := start :: forwardPath
        match bidiBackwardPath goal st.backwardParent fuel
            (st.backwardParent.get st.meetingPoint) [] with
        | none => none
        | some backwardPath =>
          let backwardPath := backwardPath ++ [goal]
          let completePath := forwardPath ++ backwardPath
          let m := bidiMetrics world completePath (0, 0, start.Y)
          some { Path := completePath, NodesExplored := st.nodesExplored,
                 BlocksBroken := blocksBroken, BlocksPlaced := blocksPlaced,
                 WaterCrossed := m.1, VerticalChange := m.2.1,
                 TotalCost := ((completePath.length : Nat) : ℚ) }
    else
      some { Path := [], NodesExplored := st.nodesExplored, BlocksBroken := [],
             BlocksPlaced := [] }

/-! ## Breadth-first search (`bfs.go`) -/

/-- Loop state of `FindPathBFSWithOptions`; `queue` is the `container/list`
queue, front first. `blocksBroken`, `blocksPlaced` and `waterCrossed` are only
written by the reconstruction and so are not part of the loop state. -/
structure BFSState where
  queue : List Point
  visited : PointSet
  cameFrom : ParentMap
  breakPoints : PointSet
  placePoints : PointSet
  nodesExplored : Int

/-- Accumulators of the reconstruction loop of `FindPathBFSWithOptions`. -/
structure BFSTrace where
  path : List Point := []
  totalVerticalChange : Int := 0
  lastY : Int
  waterCrossed : Int := 0
  blocksBroken : List Point := []
  blocksPlaced : List Point := []

/-- Reconstruction loop `for p := current; !isEqual(p, start); p = cameFrom[p]`
of `FindPathBFSWithOptions`, at most `fuel` rounds. -/
def bfsReconstruct (world : World) (start : Point) (cameFrom : ParentMap)
    (breakPoints placePoints : PointSet) : Nat → Point → BFSTrace → Option BFSTrace
  | 0, _, _ => none
  | fuel + 1, p, t =>
    if isEqual p start then some t
    else
      bfsReconstruct world start cameFrom breakPoints placePoints fuel (cameFrom.get p)
        { path := p :: t.path,
          totalVerticalChange := t.totalVerticalChange + abs (p.Y - t.lastY),
          lastY := p.Y,
          waterCrossed := if world.GetBlockType p == "water" then t.waterCrossed + 1
                          else t.waterCrossed,
          blocksBroken := if breakPoints p then t.blocksBroken ++ [p] else t.blocksBroken,
          blocksPlaced := if placePoints p then t.blocksPlaced ++ [p] else t.blocksPlaced }

/-- The neighbour slice of `current` and the two scratch maps after the
expander branch of `FindPathBFSWithOptions` selected by the options has run.
The three branches are, statement for statement, the expander loops of
`FindPathDijkstraWithOptions`. -/
def bfsExpand (world : World) (options : PathfindingOptions) (current : Point)
    (breakPoints placePoints : PointSet) : List Point × PointSet × PointSet :=
  if options.AllowBreaking then
    let r := dijkstraExpandBreaking world current directions6 ([], breakPoints)
    (r.1, r.2, placePoints)
  else if options.AllowPlacing then
    let r := dijkstraExpandPlacing world current directions4 ([], placePoints)
    (r.1, breakPoints, r.2)
  else
    (dijkstraExpandPlain world options current directions6 [], breakPoints, placePoints)

/-- The loop `for _, neighbor := range neighbors` of `FindPathBFSWithOptions`:
queue, visited map and `cameFrom` map. -/
def bfsEnqueue (current : Point) :
    List Point → List Point × PointSet × ParentMap → List Point × PointSet × ParentMap
  | [], st => st
  | neighbor :: rest, (queue, visited, cameFrom) =>
    if !visited neighbor then
      bfsEnqueue current rest
        (queue ++ [neighbor], visited.add neighbor, cameFrom.set neighbor current)
    else bfsEnqueue current rest (queue, visited, cameFrom)

/-- One round of the main loop of `FindPathBFSWithOptions`: `Sum.inl` when the
function returns (`none` inside when the reconstruction runs out of its
`rfuel` rounds), `Sum.inr` with the next state otherwise. -/
def bfsStep (rfuel : Nat) (start goal : Point) (world : World) (options : PathfindingOptions)
    (st : BFSState) : Option PathfindingResult ⊕ BFSState :=
  match st.queue with
  | [] => Sum.inl (some { Path := [], NodesExplored := st.nodesExplored })
  | current :: queue =>
    let nodesExplored := st.nodesExplored + 1
    if current.X = goal.X ∧ current.Y = goal.Y ∧ current.Z = goal.Z then
      match bfsReconstruct world start st.cameFrom st.breakPoints st.placePoints rfuel current
          { lastY := start.Y } with
      | none => Sum.inl none
      | some t =>
        let path := start :: t.path
        Sum.inl (some
          { Path := path, NodesExplored := nodesExplored, BlocksBroken := t.blocksBroken,
            BlocksPlaced := t.blocksPlaced, WaterCrossed := t.waterCrossed,
            VerticalChange := t.totalVerticalChange,
            TotalCost := ((path.length : Nat) : ℚ) })
    else
      let e := bfsExpand world options current st.breakPoints st.placePoints
      let r := bfsEnqueue current e.1 (queue, st.visited, st.cameFrom)
      Sum.inr { queue := r.1, visited := r.2.1, cameFrom := r.2.2,
                breakPoints := e.2.1, placePoints := e.2.2, nodesExplored := nodesExplored }

/-- Main loop of `FindPathBFSWithOptions`. -/
def bfsLoop (rfuel : Nat) (start goal : Point) (world : World) (options : PathfindingOptions) :
    Nat → BFSState → Option PathfindingResult
  | 0, _ => none
  | fuel + 1, st =>
    match bfsStep rfuel start goal world options st with
    | Sum.inl r => r
    | Sum.inr st1 => bfsLoop rfuel start goal world options fuel st1

/-- State of `FindPathBFSWithOptions` on entry to its main loop. -/
def bfsInit (start : Point) : BFSState :=
  { queue := [start], visited := PointSet.empty.add start, cameFrom := ParentMap.empty,
    breakPoints := PointSet.empty, placePoints := PointSet.empty, nodesExplored := 0 }

/-- Function `FindPathBFSWithOptions`; the main loop and the reconstruction
loop each get `fuel` rounds. -/
def FindPathBFSWithOptions (fuel : Nat) (start goal : Point) (world : World)
    (options : PathfindingOptions) : Option PathfindingResult :=
  bfsLoop fuel start goal world options fuel (bfsInit start)

/-! ## Theta* (`theta.go`) -/

/-- Helper `euclideanDistance`. The float64 square root `math.Sqrt` is the
parameter `sqrt`. -/
def euclideanDistance (sqrt : ℚ → ℚ) (a b : Point) : ℚ :=
  let dx : ℚ := ((a.X - b.X : Int) : ℚ)
  let dy : ℚ := ((a.Y - b.Y : Int) : ℚ)
  let dz : ℚ := ((a.Z - b.Z : Int) : ℚ)
  sqrt (dx * dx + dy * dy + dz * dz)

/-- Variables of a loop of `getLineOfSightPoints`. -/
structure LineState where
  points : List Point
  x : Int
  y : Int
  z : Int
  err1 : Int
  err2 : Int

/-- Body of the loop of `getLineOfSightPoints` taken when `dx` is largest. -/
def lineStepX (dx dy dz sx sy sz : Int) (s : LineState) : LineState :=
  let points := s.points ++ [(⟨s.x, s.y, s.z⟩ : Point)]
  let y := if s.err1 > 0 then s.y + sy else s.y
  let err1 := if s.err1 > 0 then s.err1 - 2 * dx else s.err1
  let z := if s.err2 > 0 then s.z + sz else s.z
  let err2 := if s.err2 > 0 then s.err2 - 2 * dx else s.err2
  ⟨points, s.x + sx, y, z, err1 + 2 * dy, err2 + 2 * dz⟩

/-- Body of the loop of `getLineOfSightPoints` taken when `dy` is largest. -/
def lineStepY (dx dy dz sx sy sz : Int) (s : LineState) : LineState :=
  let points := s.points ++ [(⟨s.x, s.y, s.z⟩ : Point)]
  let x := if s.err1 > 0 then s.x + sx else s.x
  let err1 := if s.err1 > 0 then s.err1 - 2 * dy else s.err1
  let z := if s.err2 > 0 then s.z + sz else s.z
  let err2 := if s.err2 > 0 then s.err2 - 2 * dy else s.err2
  ⟨points, x, s.y + sy, z, err1 + 2 * dx, err2 + 2 * dz⟩

/-- Body of the loop of `getLineOfSightPoints` taken when `dz` is largest. -/
def lineStepZ (dx dy dz sx sy sz : Int) (s : LineState) : LineState :=
  let points := s.points ++ [(⟨s.x, s.y, s.z⟩ : Point)]
  let y := if s.err1 > 0 then s.y + sy else s.y
  let err1 := if s.err1 > 0 then s.err1 - 2 * dz else s.err1
  let x := if s.err2 > 0 then s.x + sx else s.x
  let err2 := if s.err2 > 0 then s.err2 - 2 * dz else s.err2
  ⟨points, x, y, s.z + sz, err1 + 2 * dy, err2 + 2 * dx⟩

/-- Function `getLineOfSightPoints` over unbounded integers (the Go parameters
`from` and `to` are `src` and `dst`); each loop `for i := 0; i <= d; i++` is a
fold over the values of its counter. `getLineOfSightPoints64` is the function
on the 64-bit `int`. -/
def getLineOfSightPoints (src dst : Point) : List Point :=
  let dx := abs (dst.X - src.X)
  let dy := abs (dst.Y - src.Y)
  let dz := abs (dst.Z - src.Z)
  let sx := sign (dst.X - src.X)
  let sy := sign (dst.Y - src.Y)
  let sz := sign (dst.Z - src.Z)
  if dx ≥ dy ∧ dx ≥ dz then
    ((intRange 0 dx).foldl (fun s _ => lineStepX dx dy dz sx sy sz s)
      ⟨[], src.X, src.Y, src.Z, 2 * dy - dx, 2 * dz - dx⟩).points
  else if dy ≥ dx ∧ dy ≥ dz then
    ((intRange 0 dy).foldl (fun s _ => lineStepY dx dy dz sx sy sz s)
      ⟨[], src.X, src.Y, src.Z, 2 * dx - dy, 2 * dz - dy⟩).points
  else
    ((intRange 0 dz).foldl (fun s _ => lineStepZ dx dy dz sx sy sz s)
      ⟨[], src.X, src.Y, src.Z, 2 * dy - dz, 2 * dx - dz⟩).points

/-- Function `hasLineOfSight`; the loop that returns `false` at the first
blocked cell is `List.all`. -/
def hasLineOfSight (src dst : Point) (world : World) : Bool :=
  if !world.IsWalkable src || !world.IsWalkable dst then false
  else
    (getLineOfSightPoints src dst).all fun p =>
      !(!world.IsWalkable p && !isEqual p src && !isEqual p dst)

/-- The ten directions of the breaking and placing branches of
`FindPathThetaStarWithOptions`, in source order. -/
def directionsTheta10 : List Point :=
  [⟨1, 0, 0⟩, ⟨-1, 0, 0⟩, ⟨0, 1, 0⟩, ⟨0, -1, 0⟩, ⟨0, 0, 1⟩, ⟨0, 0, -1⟩,
   ⟨1, 0, 1⟩, ⟨1, 0, -1⟩, ⟨-1, 0, 1⟩, ⟨-1, 0, -1⟩]

/-- The eight two-step directions of the placing branch, in source order. -/
def directionsThetaFar : List Point :=
  [⟨2, 0, 0⟩, ⟨-2, 0, 0⟩, ⟨0, 0, 2⟩, ⟨0, 0, -2⟩,
   ⟨2, 0, 2⟩, ⟨2, 0, -2⟩, ⟨-2, 0, 2⟩, ⟨-2, 0, -2⟩]

/-- The eighteen directions of the plain branch, in source order. -/
def directionsTheta18 : List Point :=
  [⟨1, 0, 0⟩, ⟨-1, 0, 0⟩, ⟨0, 1, 0⟩, ⟨0, -1, 0⟩, ⟨0, 0, 1⟩, ⟨0, 0, -1⟩,
   ⟨1, 0, 1⟩, ⟨1, 0, -1⟩, ⟨-1, 0, 1⟩, ⟨-1, 0, -1⟩,
   ⟨1, 1, 0⟩, ⟨-1, 1, 0⟩, ⟨0, 1, 1⟩, ⟨0, 1, -1⟩,
   ⟨1, -1, 0⟩, ⟨-1, -1, 0⟩, ⟨0, -1, 1⟩, ⟨0, -1, -1⟩]

/-- Second loop of the placing branch of `FindPathThetaStarWithOptions`, over
the two-step directions still to be tried. -/
def thetaExpandFar (world : World) (cur : Point) :
    List Point → List Point × PointSet → List Point × PointSet
  | [], acc => acc
  | dir :: rest, (neighbors, placePoints) =>
    let far : Point := ⟨cur.X + dir.X, cur.Y, cur.Z + dir.Z⟩
    if !world.IsWalkable far then
      let below : Point := ⟨far.X, far.Y - 1, far.Z⟩
      if world.GetBlockType below != "air" then
        thetaExpandFar world cur rest (neighbors ++ [far], placePoints.add far)
      else thetaExpandFar world cur rest (neighbors, placePoints)
    else thetaExpandFar world cur rest (neighbors, placePoints)

/-- The neighbour slice of `current` in `FindPathThetaStarWithOptions` and the
two scratch maps after the branch selected by the options has run. The loops
of the breaking and plain branches have the bodies of the loops of
`dijkstra.go`, over other directions. -/
def thetaExpand (world : World) (options : PathfindingOptions) (cur : Point)
    (breakPoints placePoints : PointSet) : List Point × PointSet × PointSet :=
  if options.AllowBreaking then
    let r := dijkstraExpandBreaking world cur directionsTheta10 ([], breakPoints)
    (r.1, r.2, placePoints)
  else if options.AllowPlacing then
    let neighbors :=
      (directionsTheta10.map fun dir =>
        (⟨cur.X + dir.X, cur.Y + dir.Y, cur.Z + dir.Z⟩ : Point)).filter
          fun neighbor => world.IsWalkable neighbor
    let r := thetaExpandFar world cur directionsThetaFar (neighbors, placePoints)
    (r.1, breakPoints, r.2)
  else
    (dijkstraExpandPlain world options cur directionsTheta18 [], breakPoints, placePoints)

/-- Edge cost of `FindPathThetaStarWithOptions` from `src` (the parent of the
current node, or the current node) to `neighbor`. -/
def thetaMoveCost (sqrt : ℚ → ℚ) (world : World) (options : PathfindingOptions)
    (breakPoints placePoints : PointSet) (src neighbor : Point) : ℚ :=
  let moveCost := euclideanDistance sqrt src neighbor
  let moveCost := if breakPoints neighbor then moveCost + 5 else moveCost
  let moveCost := if placePoints neighbor then moveCost + 3 else moveCost
  let moveCost :=
    if options.AvoidWater && world.GetBlockType neighbor == "water" then moveCost + 10
    else moveCost
  if options.MinimiseHeight && neighbor.Y != src.Y then
    moveCost + 2 * ((abs (neighbor.Y - src.Y) : Int) : ℚ)
  else moveCost

/-- The line-of-sight block of the relaxation loop of
`FindPathThetaStarWithOptions` for one neighbour: the open set and the g-scores
after the block when it set `lineOfSight`, and `none` when it did not. The
write-only `cameFrom` map is left out. -/
def thetaViaParent (sqrt : ℚ → ℚ) (goal : Point) (world : World) (options : PathfindingOptions)
    (current : Node) (breakPoints placePoints : PointSet) (neighbor : Point)
    (st : PriorityQueue × GScoreMap) : Option (PriorityQueue × GScoreMap) :=
  match current.Parent with
  | none => none
  | some parent =>
    if hasLineOfSight parent.Position neighbor world then
      let moveCost :=
        thetaMoveCost sqrt world options breakPoints placePoints parent.Position neighbor
      let directCost := st.2.getD parent.Position + moveCost
      let better : Bool :=
        match st.2 neighbor with
        | none => true
        | some val => decide (directCost < val)
      if better then
        let neighborNode := Node.child neighbor directCost
          (directCost + Heuristic neighbor goal options) parent
        some (heapPush st.1 neighborNode, st.2.set neighbor directCost)
      else none
    else none

/-- The block `if !lineOfSight` of the relaxation loop of
`FindPathThetaStarWithOptions` for one neighbour. -/
def thetaViaCurrent (sqrt : ℚ → ℚ) (goal : Point) (world : World) (options : PathfindingOptions)
    (current : Node) (breakPoints placePoints : PointSet) (neighbor : Point)
    (st : PriorityQueue × GScoreMap) : PriorityQueue × GScoreMap :=
  let moveCost :=
    thetaMoveCost sqrt world options breakPoints placePoints current.Position neighbor
  let tentativeGScore := st.2.getD current.Position + moveCost
  let better : Bool :=
    match st.2 neighbor with
    | none => true
    | some val => decide (tentativeGScore < val)
  if better then
    let neighborNode := Node.child neighbor tentativeGScore
      (tentativeGScore + Heuristic neighbor goal options) current
    (heapPush st.1 neighborNode, st.2.set neighbor tentativeGScore)
  else st

/-- Relaxation loop of `FindPathThetaStarWithOptions` over the neighbour
slice. -/
def thetaRelax (sqrt : ℚ → ℚ) (goal : Point) (world : World) (options : PathfindingOptions)
    (current : Node) (breakPoints placePoints : PointSet) :
    List Point → PriorityQueue × GScoreMap → PriorityQueue × GScoreMap
  | [], st => st
  | neighbor :: rest, st =>
    match thetaViaParent sqrt goal world options current breakPoints placePoints neighbor st with
    | some st1 => thetaRelax sqrt goal world options current breakPoints placePoints rest st1
    | none =>
      thetaRelax sqrt goal world options current breakPoints placePoints rest
        (thetaViaCurrent sqrt goal world options current breakPoints placePoints neighbor st)

/-- Reconstruction loop of `FindPathThetaStarWithOptions`, walking from `node`
back to the root: the node's cell is put in front of `path`; when the line from
the parent to the node has more than two cells, the last element of `path` is
cut off (`path[:len(path)-1]`) and the line is appended. -/
def thetaReconstruct : Node → List Point → List Point
  | .root pos _ _, path => pos :: path
  | .child pos _ _ parent, path =>
    let path := pos :: path
    let directPath := getLineOfSightPoints parent.Position pos
    if directPath.length > 2 then thetaReconstruct parent (path.dropLast ++ directPath)
    else thetaReconstruct parent path

/-- Accumulators of the post-processing loop of `FindPathThetaStarWithOptions`. -/
structure ThetaTrace where
  waterCrossed : Int := 0
  totalVerticalChange : Int := 0
  blocksBroken : List Point := []
  blocksPlaced : List Point := []

/-- Post-processing loop `for i, p := range path` of
`FindPathThetaStarWithOptions`: the body runs for `i > 0`, with
`prevPoint = path[i-1]`. -/
def thetaMetrics (world : World) (breakPoints placePoints : PointSet) :
    List Point → ThetaTrace → ThetaTrace
  | prevPoint :: p :: rest, t =>
    thetaMetrics world breakPoints placePoints (p :: rest)
      { totalVerticalChange := t.totalVerticalChange + abs (p.Y - prevPoint.Y),
        waterCrossed := if world.GetBlockType p == "water" then t.waterCrossed + 1
                        else t.waterCrossed,
        blocksBroken := if breakPoints p then t.blocksBroken ++ [p] else t.blocksBroken,
        blocksPlaced := if placePoints p then t.blocksPlaced ++ [p] else t.blocksPlaced }
  | _, t => t

/-- Loop state of `FindPathThetaStarWithOptions`. -/
structure ThetaState where
  openSet : PriorityQueue
  gScore : GScoreMap
  breakPoints : PointSet
  placePoints : PointSet
  nodesExplored : Int

/-- One round of the main loop of `FindPathThetaStarWithOptions`. -/
def thetaStep (sqrt : ℚ → ℚ) (goal : Point) (world : World) (options : PathfindingOptions)
    (st : ThetaState) : PathfindingResult ⊕ ThetaState :=
  match heapPop st.openSet with
  | none => Sum.inl { Path := [], NodesExplored := st.nodesExplored }
  | some (current, openSet) =>
    let nodesExplored := st.nodesExplored + 1
    if current.Position.X = goal.X ∧ current.Position.Y = goal.Y ∧ current.Position.Z = goal.Z then
      let path := thetaReconstruct current []
      let t := thetaMetrics world st.breakPoints st.placePoints path {}
      Sum.inl { Path := path, NodesExplored := nodesExplored, BlocksBroken := t.blocksBroken,
                BlocksPlaced := t.blocksPlaced, WaterCrossed := t.waterCrossed,
                VerticalChange := t.totalVerticalChange, TotalCost := current.GScore }
    else
      let e := thetaExpand world options current.Position st.breakPoints st.placePoints
      let r := thetaRelax sqrt goal world options current e.2.1 e.2.2 e.1 (openSet, st.gScore)
      Sum.inr { openSet := r.1, gScore := r.2, breakPoints := e.2.1, placePoints := e.2.2,
                nodesExplored := nodesExplored }

/-- Main loop of `FindPathThetaStarWithOptions`. -/
def thetaLoop (sqrt : ℚ → ℚ) (goal : Point) (world : World) (options : PathfindingOptions) :
    Nat → ThetaState → Option PathfindingResult
  | 0, _ => none
  | fuel + 1, st =>
    match thetaStep sqrt goal world options st with
    | Sum.inl r => some r
    | Sum.inr st1 => thetaLoop sqrt goal world options fuel st1

/-- Function `FindPathThetaStarWithOptions`, with the square root of
`euclideanDistance` as a parameter. -/
def FindPathThetaStarWithOptions (sqrt : ℚ → ℚ) (fuel : Nat) (start goal : Point)
    (world : World) (options : PathfindingOptions) : Option PathfindingResult :=
  thetaLoop sqrt goal world options fuel
    { openSet := heapPush [] (Node.root start 0 (Heuristic start goal options)),
      gScore := GScoreMap.empty.set start 0,
      breakPoints := PointSet.empty,
      placePoints := PointSet.empty,
      nodesExplored := 0 }

/-! ## IDA* (`ida_star.go`) -/

/-- Body of the inner loop of `sortNeighborsByHeuristic` at the indices `i` and
`j`: the two cells are exchanged when the first is further from the goal. -/
def sortSwapStep (goal : Point) (options : PathfindingOptions) (i : Nat)
    (neighbors : List Point) (j : Nat) : List Point :=
  let ni := neighbors.getD i ⟨0, 0, 0⟩
  let nj := neighbors.getD j ⟨0, 0, 0⟩
  let h1 := Heuristic ni goal options
  let h2 := Heuristic nj goal options
  if h1 > h2 then (neighbors.set i nj).set j ni else neighbors

/-- Function `sortNeighborsByHeuristic`: the slice after the call. The loops
`for i := 0; i < len; i++` and `for j := i + 1; j < len; j++` are folds over
the values of their counters (the length does not change). -/
def sortNeighborsByHeuristic (neighbors : List Point) (goal : Point)
    (options : PathfindingOptions) : List Point :=
  (List.range neighbors.length).foldl
    (fun ns i =>
      (List.range' (i + 1) (neighbors.length - (i + 1))).foldl (sortSwapStep goal options i) ns)
    neighbors

/-! ## Bellman-Ford (`bellman_ford.go`) -/

/-- Function `GetWalkableNeighbors` of `dijkstra.go`. -/
def GetWalkableNeighbors (p : Point) (world : World) : List Point :=
  ([⟨p.X + 1, p.Y, p.Z⟩, ⟨p.X - 1, p.Y, p.Z⟩, ⟨p.X, p.Y + 1, p.Z⟩, ⟨p.X, p.Y - 1, p.Z⟩,
    ⟨p.X, p.Y, p.Z + 1⟩, ⟨p.X, p.Y, p.Z - 1⟩] : List Point).filter
      fun neighbor => world.IsWalkable neighbor

/-- Assignment `vertices[p] = true` on the key set of the map `vertices`, kept
as the list of its keys in the order they were first written. -/
def vertexAdd (vertices : List Point) (p : Point) : List Point :=
  if p ∈ vertices then vertices else vertices ++ [p]

/-- Loop state of `getLocalWalkableVertices`. -/
structure CollectState where
  vertices : List Point
  queue : List Point
  visited : PointSet

/-- The neighbour slice that `getLocalWalkableVertices` builds at `current`. -/
def collectNeighbors (world : World) (options : PathfindingOptions) (current : Point) :
    List Point :=
  if options.AllowBreaking then
    (directions6.map fun dir =>
      (⟨current.X + dir.X, current.Y + dir.Y, current.Z + dir.Z⟩ : Point)).filter
        fun neighbor => world.IsWalkable neighbor || world.CanBreak neighbor
  else if options.AllowPlacing then GetWalkableNeighbors current world
  else GetWalkableNeighbors current world

/-- Inner loop of `getLocalWalkableVertices` over the neighbour slice. -/
def collectVisit : List Point → CollectState → CollectState
  | [], st => st
  | neighbor :: rest, st =>
    if !st.visited neighbor then
      collectVisit rest
        { visited := st.visited.add neighbor,
          vertices := vertexAdd st.vertices neighbor,
          queue := st.queue ++ [neighbor] }
    else collectVisit rest st

/-- Main loop `for len(queue) > 0 && len(vertices) < maxExploration` of
`getLocalWalkableVertices`, at most `fuel` rounds; the result is the key set of
`vertices` when the loop ends. -/
def collectLoop (world : World) (options : PathfindingOptions) :
    Nat → CollectState → Option (List Point)
  | 0, _ => none
  | fuel + 1, st =>
    match st.queue with
    | [] => some st.vertices
    | current :: queue =>
      if st.vertices.length < 5000 then
        collectLoop world options fuel
          (collectVisit (collectNeighbors world options current) { st with queue := queue })
      else some st.vertices

/-- Function `getLocalWalkableVertices`: the keys of the map `vertices` in
the order they were first written. -/
def getLocalWalkableVertices (fuel : Nat) (start goal : Point) (world : World)
    (options : PathfindingOptions) : Option (List Point) :=
  collectLoop world options fuel
    { vertices := vertexAdd (vertexAdd [] start) goal,
      queue := [start],
      visited := PointSet.empty.add start }

/-- Map type `map[Point]float64` of Bellman-Ford, whose values may be `+Inf`:
`none` is a missing key, `some none` is `+Inf`. -/
abbrev DistMap := Point → Option (Option ℚ)

/-- Fresh map `make(map[Point]float64)`. -/
def DistMap.empty : DistMap := fun _ => none

/-- Assignment `m[p] = v`. -/
def DistMap.set (m : DistMap) (p : Point) (v : Option ℚ) : DistMap :=
  fun q => if q = p then some v else m q

/-- Read `m[p]` with Go's zero default for a missing key. -/
def DistMap.get (m : DistMap) (p : Point) : Option ℚ := (m p).getD (some 0)

/-- Sum `a + w` of a float that may be `+Inf` and a finite one. -/
def infAdd (a : Option ℚ) (w : ℚ) : Option ℚ := a.map fun x => x + w

/-- Comparison `a < b` of floats that may be `+Inf`. -/
def infLt : Option ℚ → Option ℚ → Bool
  | some x, some y => decide (x < y)
  | some _, none => true
  | none, _ => false

/-- The neighbour slice of `u` in the relaxation of
`FindPathBellmanFordWithOptions` and the two scratch maps after the branch
selected by the options has run. The loops of the breaking and placing
branches have the bodies of the loops of `dijkstra.go`. -/
def bfNeighbors (world : World) (options : PathfindingOptions) (u : Point)
    (breakPoints placePoints : PointSet) : List Point × PointSet × PointSet :=
  if options.AllowBreaking then
    let r := dijkstraExpandBreaking world u directions6 ([], breakPoints)
    (r.1, r.2, placePoints)
  else if options.AllowPlacing then
    let r := dijkstraExpandPlacing world u directions4 ([], placePoints)
    (r.1, breakPoints, r.2)
  else (GetWalkableNeighbors u world, breakPoints, placePoints)

/-- Edge weight of the relaxation of `FindPathBellmanFordWithOptions`. -/
def bfWeight (world : World) (options : PathfindingOptions)
    (breakPoints placePoints : PointSet) (u v : Point) : ℚ :=
  let weight := world.GetMovementCost u v
  let weight :=
    if breakPoints v then weight + 5
    else if placePoints v then weight + 3
    else weight
  let weight :=
    if options.AvoidWater && world.GetBlockType v == "water" then weight + 10 else weight
  if options.MinimiseHeight && v.Y != u.Y then
    weight + 2 * ((abs (v.Y - u.Y) : Int) : ℚ)
  else weight

/-- Relaxation loop of `FindPathBellmanFordWithOptions` over the neighbours of
`u`: the maps `dist` and `pred` and the flag `anyUpdate`. -/
def bfRelax (world : World) (options : PathfindingOptions) (u : Point)
    (breakPoints placePoints : PointSet) :
    List Point → DistMap × ParentMap × Bool → DistMap × ParentMap × Bool
  | [], st => st
  | v :: rest, (dist, pred, anyUpdate) =>
    match dist v with
    | none => bfRelax world options u breakPoints placePoints rest (dist, pred, anyUpdate)
    | some dv =>
      let weight := bfWeight world options breakPoints placePoints u v
      if infLt (infAdd (dist.get u) weight) dv then
        bfRelax world options u breakPoints placePoints rest
          (dist.set v (infAdd (dist.get u) weight), pred.set v u, true)
      else bfRelax world options u breakPoints placePoints rest (dist, pred, anyUpdate)

/-- Loop state of the relaxation passes of `FindPathBellmanFordWithOptions`. -/
structure BFState where
  dist : DistMap
  pred : ParentMap
  breakPoints : PointSet
  placePoints : PointSet
  nodesExplored : Int
  anyUpdate : Bool

/-- One pass `for _, u := range vertices` of the relaxation. -/
def bfPass (world : World) (options : PathfindingOptions) : List Point → BFState → BFState
  | [], st => st
  | u :: rest, st =>
    if st.dist.get u == none then bfPass world options rest st
    else
      let nodesExplored := st.nodesExplored + 1
      let e := bfNeighbors world options u st.breakPoints st.placePoints
      let r := bfRelax world options u e.2.1 e.2.2 e.1 (st.dist, st.pred, st.anyUpdate)
      bfPass world options rest
        { dist := r.1, pred := r.2.1, breakPoints := e.2.1, placePoints := e.2.2,
          nodesExplored := nodesExplored, anyUpdate := r.2.2 }

/-- Loop `for i := 0; i < len(vertices)-1; i++` of the relaxation, with `n`
rounds to go; it ends early after a pass without an update. -/
def bfPasses (world : World) (options : PathfindingOptions) (vertices : List Point) :
    Nat → BFState → BFState
  | 0, st => st
  | n + 1, st =>
    let st1 := bfPass world options vertices { st with anyUpdate := false }
    if !st1.anyUpdate then st1 else bfPasses world options vertices n st1

/-- Final pass of `FindPathBellmanFordWithOptions`: `true` when it finds an
edge that can still be relaxed and the function returns without a path. -/
def bfNegativeCycle (world : World) (dist : DistMap) (vertices : List Point) : Bool :=
  vertices.any fun u =>
    (GetWalkableNeighbors u world).any fun v =>
      match dist v with
      | none => false
      | some dv => infLt (infAdd (dist.get u) (world.GetMovementCost u v)) dv

/-- Loop `for current != start` that builds the path of
`FindPathBellmanFordWithOptions`, at most `fuel` rounds. -/
def bfPath (start : Point) (pred : ParentMap) : Nat → Point → List Point → Option (List Point)
  | 0, _, _ => none
  | fuel + 1, current, path =>
    if current ≠ start then
      let current := pred.get current
      bfPath start pred fuel current (current :: path)
    else some path

/-- Accumulators of the post-processing loop of
`FindPathBellmanFordWithOptions`. -/
structure BFTrace where
  waterCrossed : Int := 0
  verticalChange : Int := 0
  lastY : Int
  blocksBroken : List Point := []
  blocksPlaced : List Point := []

/-- Post-processing loop of `FindPathBellmanFordWithOptions` over the cells of
the path with index `i > 0`. -/
def bfMetrics (world : World) (breakPoints placePoints : PointSet) :
    List Point → BFTrace → BFTrace
  | [], t => t
  | pos :: rest, t =>
    bfMetrics world breakPoints placePoints rest
      { verticalChange := t.verticalChange + abs (pos.Y - t.lastY),
        lastY := pos.Y,
        waterCrossed := if world.GetBlockType pos == "water" then t.waterCrossed + 1
                        else t.waterCrossed,
        blocksBroken := if breakPoints pos then t.blocksBroken ++ [pos] else t.blocksBroken,
        blocksPlaced := if placePoints pos then t.blocksPlaced ++ [pos] else t.blocksPlaced }

/-- Function `FindPathBellmanFordWithOptions` from the slice `vertices` on. -/
def bellmanFordCore (fuel : Nat) (vertices : List Point) (start goal : Point) (world : World)
    (options : PathfindingOptions) : Option PathfindingResult :=
  let dist := vertices.foldl (fun d v => d.set v none) DistMap.empty
  let dist := dist.set start (some 0)
  let maxMemoryUsed : Int := (vertices.length : Int)
  let st := bfPasses world options vertices (vertices.length - 1)
    { dist := dist, pred := ParentMap.empty, breakPoints := PointSet.empty,
      placePoints := PointSet.empty, nodesExplored := 0, anyUpdate := false }
  if bfNegativeCycle world st.dist vertices then
    some { Path := [], NodesExplored := st.nodesExplored, MaxMemoryUsed := maxMemoryUsed }
  else if st.dist.get goal == none then
    some { Path := [], NodesExplored := st.nodesExplored, MaxMemoryUsed := maxMemoryUsed }
  else
    match bfPath start st.pred fuel goal [goal] with
    | none => none
    | some path =>
      let t := bfMetrics world st.breakPoints st.placePoints path.tail { lastY := start.Y }
      some { Path := path, NodesExplored := st.nodesExplored, BlocksBroken := t.blocksBroken,
             BlocksPlaced := t.blocksPlaced, WaterCrossed := t.waterCrossed,
             VerticalChange := t.verticalChange, TotalCost := (st.dist.get goal).getD 0,
             MaxMemoryUsed := maxMemoryUsed }

/-- Function `FindPathBellmanFordWithOptions`. Go leaves the order in which
`for v := range vertices` hands out the keys of a map open: `order` turns the
keys in the order they were written into the slice that
`getLocalWalkableVertices` returns. -/
def FindPathBellmanFordWithOptions (order : List Point → List Point) (fuel : Nat)
    (start goal : Point) (world : World) (options : PathfindingOptions) :
    Option PathfindingResult :=
  match getLocalWalkableVertices fuel start goal world options with
  | none => none
  | some keys => bellmanFordCore fuel (order keys) start goal world options

/-- Record `manipulationPoints`: the key sets of its two maps. -/
structure ManipulationPoints where
  breaks : PointSet := PointSet.empty
  places : PointSet := PointSet.empty

/-- The loop `for p := range src { dst[p] = true }`. -/
def PointSet.union (dst src : PointSet) : PointSet := fun p => dst p || src p

/-- Assignment `m[p] = false`. -/
def PointSet.remove (m : PointSet) (p : Point) : PointSet :=
  fun q => if q = p then false else m q

/-- What a call of `idaSearchWithOptions` returns (`newBound` is `none` for
`+Inf`), and the maps `visited` and `parents` as the call leaves them. -/
structure IDAOutcome where
  found : Bool
  newBound : Option ℚ
  explored : Int
  manip : ManipulationPoints
  visited : PointSet
  parents : ParentMap

/-- Variables of the loop of `idaSearchWithOptions` over the neighbours. -/
structure IDALoopState where
  minBound : Option ℚ
  totalExplored : Int
  all : ManipulationPoints
  visited : PointSet
  parents : ParentMap

/-- The neighbour slice of `current` in `idaSearchWithOptions` and the maps
`localBreakPoints` and `localPlacePoints`: the three branches have the bodies
of the branches of the expander of `dijkstra.go`, with fresh maps. -/
def idaExpand (world : World) (options : PathfindingOptions) (current : Point) :
    List Point × PointSet × PointSet :=
  dijkstraExpand world options current PointSet.empty PointSet.empty

/-- Edge cost of `idaSearchWithOptions`. -/
def idaCost (world : World) (options : PathfindingOptions)
    (localBreakPoints localPlacePoints : PointSet) (current neighbor : Point) : ℚ :=
  let cost := world.GetMovementCost current neighbor
  let cost :=
    if localBreakPoints neighbor then cost + 5
    else if localPlacePoints neighbor then cost + 3
    else cost
  let cost :=
    if options.AvoidWater && world.GetBlockType neighbor == "water" then cost + 10 else cost
  if options.MinimiseHeight && neighbor.Y != current.Y then
    cost + 2 * ((abs (neighbor.Y - current.Y) : Int) : ℚ)
  else cost

/-- Loop of `idaSearchWithOptions` over the sorted neighbours; `search` is the
recursive call with the goal, the bound, the world and the options filled in.
The flag of the result is `true` when the loop returned from inside (a
neighbour found the goal). The write-only map `gScores` and the slice
`pathStack` are left out. -/
def idaNeighbors (search : Point → ℚ → PointSet → ParentMap → Option IDAOutcome)
    (world : World) (options : PathfindingOptions) (current : Point) (g : ℚ)
    (localBreakPoints localPlacePoints : PointSet) :
    List Point → IDALoopState → Option (IDALoopState × Bool)
  | [], st => some (st, false)
  | neighbor :: rest, st =>
    if st.visited neighbor then
      idaNeighbors search world options current g localBreakPoints localPlacePoints rest st
    else
      let cost := idaCost world options localBreakPoints localPlacePoints current neighbor
      let newG := g + cost
      let parents := st.parents.set neighbor current
      match search neighbor newG st.visited parents with
      | none => none
      | some r =>
        let totalExplored := st.totalExplored + r.explored
        let all : ManipulationPoints :=
          { breaks := st.all.breaks.union r.manip.breaks,
            places := st.all.places.union r.manip.places }
        if r.found then
          some ({ minBound := st.minBound, totalExplored := totalExplored, all := all,
                  visited := r.visited, parents := r.parents }, true)
        else
          let minBound := if infLt r.newBound st.minBound then r.newBound else st.minBound
          idaNeighbors search world options current g localBreakPoints localPlacePoints rest
            { minBound := minBound, totalExplored := totalExplored, all := all,
              visited := r.visited, parents := r.parents }

/-- Recursive function `idaSearchWithOptions`, at most `fuel` calls deep
(`none` when the fuel runs out). The parameters `breakPoints` and
`placePoints` of the source are not used by it. -/
def idaSearchWithOptions (goal : Point) (world : World) (options : PathfindingOptions)
    (bound : ℚ) : Nat → Point → ℚ → PointSet → ParentMap → Option IDAOutcome
  | 0, _, _, _, _ => none
  | fuel + 1, current, g, visited, parents =>
    let f := g + Heuristic current goal options
    if f > bound then
      some { found := false, newBound := some f, explored := 1, manip := {},
             visited := visited, parents := parents }
    else if current.X = goal.X ∧ current.Y = goal.Y ∧ current.Z = goal.Z then
      some { found := true, newBound := some bound, explored := 1, manip := {},
             visited := visited, parents := parents }
    else
      let visited := visited.add current
      let e := idaExpand world options current
      let neighbors := sortNeighborsByHeuristic e.1 goal options
      match idaNeighbors (idaSearchWithOptions goal world options bound fuel) world options
          current g e.2.1 e.2.2 neighbors
          { minBound := none, totalExplored := 1, all := {}, visited := visited,
            parents := parents } with
      | none => none
      | some (st, true) =>
        some { found := true, newBound := some bound, explored := st.totalExplored,
               manip := { breaks := st.all.breaks.union e.2.1,
                          places := st.all.places.union e.2.2 },
               visited := st.visited, parents := st.parents }
      | some (st, false) =>
        some { found := false, newBound := st.minBound, explored := st.totalExplored,
               manip := { breaks := st.all.breaks.union e.2.1,
                          places := st.all.places.union e.2.2 },
               visited := st.visited.remove current, parents := st.parents }

/-- Loop of `reconstructPath`, at most `fuel` rounds. -/
def reconstructPathLoop (parents : ParentMap) : Nat → Point → List Point → Option (List Point)
  | 0, _, _ => none
  | fuel + 1, current, path =>
    match parents current with
    | none => some path
    | some parent => reconstructPathLoop parents fuel parent (parent :: path)

/-- Function `reconstructPath` of `ida_star.go`. -/
def reconstructPath (fuel : Nat) (goal : Point) (parents : ParentMap) : Option (List Point) :=
  reconstructPathLoop parents fuel goal [goal]

/-- Variables of the deepening loop of `FindPathIDAWithOptions` when it ends. -/
structure IDALoopResult where
  finalPath : Option (List Point)
  iterations : Int
  nodesExplored : Int
  breakPoints : PointSet
  placePoints : PointSet

/-- Deepening loop `for iterations < maxIterations` of `FindPathIDAWithOptions`
with `n = maxIterations - iterations` rounds to go at most; `fuel` is the fuel
of every call of `idaSearchWithOptions` and of `reconstructPath`. -/
def idaLoop (fuel : Nat) (start goal : Point) (world : World) (options : PathfindingOptions)
    (maxIterations : Int) :
    Nat → Int → Int → ℚ → PointSet → PointSet → Option IDALoopResult
  | 0, iterations, nodesExplored, _, breakPoints, placePoints =>
    some { finalPath := none, iterations := iterations, nodesExplored := nodesExplored,
           breakPoints := breakPoints, placePoints := placePoints }
  | n + 1, iterations, nodesExplored, bound, breakPoints, placePoints =>
    let iterations := iterations + 1
    match idaSearchWithOptions goal world options bound fuel start 0 PointSet.empty
        ParentMap.empty with
    | none => none
    | some r =>
      let nodesExplored := nodesExplored + r.explored
      let breakPoints := breakPoints.union r.manip.breaks
      let placePoints := placePoints.union r.manip.places
      if r.found then
        match reconstructPath fuel goal r.parents with
        | none => none
        | some finalPath =>
          some { finalPath := some finalPath, iterations := iterations,
                 nodesExplored := nodesExplored, breakPoints := breakPoints,
                 placePoints := placePoints }
      else
        match r.newBound with
        | none =>
          some { finalPath := none, iterations := iterations, nodesExplored := nodesExplored,
                 breakPoints := breakPoints, placePoints := placePoints }
        | some newBound =>
          if iterations ≥ maxIterations then
            some { finalPath := none, iterations := iterations, nodesExplored := nodesExplored,
                   breakPoints := breakPoints, placePoints := placePoints }
          else
            idaLoop fuel start goal world options maxIterations n iterations nodesExplored
              newBound breakPoints placePoints

/-- Accumulators of the post-processing loop of `FindPathIDAWithOptions`. -/
structure IDATrace where
  waterCrossed : Int := 0
  verticalChange : Int := 0
  lastY : Int
  totalCost : ℚ := 0
  blocksBroken : List Point := []
  blocksPlaced : List Point := []

/-- Post-processing loop of `FindPathIDAWithOptions` over the cells of the path
with index `i > 0`; `prev` is `finalPath[i-1]`. -/
def idaMetrics (world : World) (breakPoints placePoints : PointSet) :
    Point → List Point → IDATrace → IDATrace
  | _, [], t => t
  | prev, pos :: rest, t =>
    idaMetrics world breakPoints placePoints pos rest
      { verticalChange := t.verticalChange + abs (pos.Y - t.lastY),
        lastY := pos.Y,
        waterCrossed := if world.GetBlockType pos == "water" then t.waterCrossed + 1
                        else t.waterCrossed,
        totalCost := t.totalCost + world.GetMovementCost prev pos,
        blocksBroken := if breakPoints pos then t.blocksBroken ++ [pos] else t.blocksBroken,
        blocksPlaced := if placePoints pos then t.blocksPlaced ++ [pos] else t.blocksPlaced }

/-- Function `FindPathIDAWithOptions`. The slice that `reconstructPath` returns
is never empty; an empty one would come out as it does in the source, with
all metrics zero. -/
def FindPathIDAWithOptions (fuel : Nat) (start goal : Point) (world : World)
    (options : PathfindingOptions) : Option PathfindingResult :=
  let maxIterations := options.MaxIterations
  let maxIterations := if maxIterations ≤ 0 then 1000 else maxIterations
  let bound := Heuristic start goal options
  match idaLoop fuel start goal world options maxIterations maxIterations.toNat 0 0 bound
      PointSet.empty PointSet.empty with
  | none => none
  | some out =>
    match out.finalPath with
    | none =>
      some { Path := [], NodesExplored := out.nodesExplored, Iterations := out.iterations }
    | some [] =>
      some { Path := [], NodesExplored := out.nodesExplored, Iterations := out.iterations }
    | some (first :: rest) =>
      let t := idaMetrics world out.breakPoints out.placePoints first rest { lastY := start.Y }
      some { Path := first :: rest, NodesExplored := out.nodesExplored,
             BlocksBroken := t.blocksBroken, BlocksPlaced := t.blocksPlaced,
             WaterCrossed := t.waterCrossed, VerticalChange := t.verticalChange,
             TotalCost := t.totalCost, Iterations := out.iterations }

/-! ## Machine numbers (Go `int` and `float64`)

The searches above are embedded over unbounded integers and exact rationals.
The definitions of this section follow the arithmetic of the machine: a Go
`int` is a 64-bit two's-complement integer whose operations wrap around, and a
`float64` operation returns the IEEE 754 double nearest to the exact result
(ties to even, overflow to an infinity); operations are rounded one by one. -/

/-- Result of a Go `int` operation whose exact value is `x`, on a platform with
64-bit `int`: the value in `[-2^63, 2^63)` congruent to `x` modulo `2^64`. -/
def wrap64 (x : Int) : Int := (x + 2 ^ 63) % 2 ^ 64 - 2 ^ 63

/-- Two to the power `e`, as a rational. -/
def pow2 (e : Int) : ℚ :=
  if 0 ≤ e then ((2 ^ e.toNat : Nat) : ℚ) else 1 / ((2 ^ (-e).toNat : Nat) : ℚ)

/-- Nearest integer to `y`, a tie going to the even neighbour. -/
def roundHalfEven (y : ℚ) : Int :=
  let f := ⌊y⌋
  let d := y - (f : ℚ)
  if d < 1 / 2 then f else if d > 1 / 2 then f + 1 else if f % 2 = 0 then f else f + 1

/-- Binary logarithm of `n`, rounded down, by halving at most `fuel` times. -/
def log2Fuel : Nat → Nat → Nat
  | 0, _ => 0
  | fuel + 1, n => if 2 ≤ n then log2Fuel fuel (n / 2) + 1 else 0

/-- For `n ≥ 1`, the `k` with `2^k ≤ n < 2^(k+1)`. -/
def natLog2 (n : Nat) : Nat := log2Fuel n n

/-- For `q > 0`, the exponent `e` with `2^e ≤ q < 2^(e+1)`. -/
def binaryExponent (q : ℚ) : Int :=
  let e0 : Int := (natLog2 q.num.natAbs : Int) - (natLog2 q.den : Int)
  if pow2 e0 ≤ q then e0 else e0 - 1

/-- For `q > 0`, the double nearest to `q` when the exponent range is not
bounded above: doubles carry 53 significant bits, and below `2^-1022` they are
the multiples of `2^-1074`. -/
def roundPos (q : ℚ) : ℚ :=
  let e := max (binaryExponent q) (-1022)
  let s := pow2 (e - 52)
  (roundHalfEven (q / s) : ℚ) * s

/-- A `float64`: a finite value (the two zeros are not told apart), an infinity
or a NaN. -/
inductive Float64 where
  | finite (value : ℚ)
  | posInf
  | negInf
  | nan
deriving DecidableEq

/-- The `float64` nearest to the exact value `q`: a result of magnitude
`2^1024` or more after rounding is an infinity. -/
def Float64.round (q : ℚ) : Float64 :=
  if q = 0 then .finite 0
  else if 0 < q then
    if roundPos q < pow2 1024 then .finite (roundPos q) else .posInf
  else
    if roundPos (-q) < pow2 1024 then .finite (-roundPos (-q)) else .negInf

/-- Go conversion `float64(n)` of an `int`. -/
def Float64.ofInt (n : Int) : Float64 := Float64.round (n : ℚ)

/-- Go `a + b` on `float64`. -/
def Float64.add : Float64 → Float64 → Float64
  | .finite a, .finite b => Float64.round (a + b)
  | .nan, _ => .nan
  | _, .nan => .nan
  | .posInf, .negInf => .nan
  | .negInf, .posInf => .nan
  | .posInf, _ => .posInf
  | _, .posInf => .posInf
  | .negInf, _ => .negInf
  | _, .negInf => .negInf

/-- Product of an infinity of sign `s` and the finite value `a`. -/
def Float64.scaleInf (positive : Bool) (a : ℚ) : Float64 :=
  if a = 0 then .nan else if (0 < a) = positive then .posInf else .negInf

/-- Go `a * b` on `float64`. -/
def Float64.mul : Float64 → Float64 → Float64
  | .finite a, .finite b => Float64.round (a * b)
  | .nan, _ => .nan
  | _, .nan => .nan
  | .finite a, .posInf => Float64.scaleInf true a
  | .finite a, .negInf => Float64.scaleInf false a
  | .posInf, .finite b => Float64.scaleInf true b
  | .negInf, .finite b => Float64.scaleInf false b
  | .posInf, .posInf => .posInf
  | .negInf, .negInf => .posInf
  | .posInf, .negInf => .negInf
  | .negInf, .posInf => .negInf

/-- Go `a < b` on `float64`; a comparison with NaN is false. -/
def Float64.lt : Float64 → Float64 → Bool
  | .finite a, .finite b => decide (a < b)
  | .finite _, .posInf => true
  | .negInf, .finite _ => true
  | .negInf, .posInf => true
  | _, _ => false

/-- Function `abs` of `astar.go` on the 64-bit `int`: the negation wraps, so
the most negative integer is returned as it is. -/
def abs64 (x : Int) : Int := if x < 0 then wrap64 (-x) else x

/-- Function `Heuristic` of `astar.go` on machine numbers. -/
def Heuristic64 (a b : Point) (options : PathfindingOptions) : Float64 :=
  let baseDist : Float64 :=
    Float64.ofInt (wrap64 (abs64 (wrap64 (a.X - b.X)) + abs64 (wrap64 (a.Z - b.Z))))
  let verticalDist : Float64 := Float64.ofInt (abs64 (wrap64 (a.Y - b.Y)))
  let verticalDist : Float64 :=
    if options.MinimiseHeight then verticalDist.mul (.finite 2) else verticalDist
  baseDist.add verticalDist

/-- Method `World.GetMovementCost` of `world.go` on machine numbers (the Go
parameters `from` and `to` are `src` and `dst`). The `MoveCost` of a block is
the `float64` nearest to the rational the block of the model carries. -/
def GetMovementCost64 (w : World) (src dst : Point) : Float64 :=
  let baseCost : Float64 := .finite 1
  let baseCost : Float64 :=
    if src.X ≠ dst.X ∧ src.Z ≠ dst.Z then Float64.round (1414 / 1000) else baseCost
  let baseCost : Float64 :=
    if dst.Y > src.Y then
      baseCost.add ((Float64.finite 1).mul (Float64.ofInt (wrap64 (dst.Y - src.Y))))
    else if dst.Y < src.Y then
      baseCost.add ((Float64.round (2 / 10)).mul (Float64.ofInt (wrap64 (src.Y - dst.Y))))
    else baseCost
  match w.GetBlock dst with
  | some toBlock =>
    if (Float64.finite 0).lt (Float64.round toBlock.MoveCost) then
      baseCost.mul (Float64.round toBlock.MoveCost)
    else baseCost
  | none => baseCost

/-- Edge cost of `FindPathDijkstraWithOptions` on machine numbers. -/
def dijkstraMoveCost64 (world : World) (options : PathfindingOptions)
    (breakPoints placePoints : PointSet) (current neighbor : Point) : Float64 :=
  let moveCost := GetMovementCost64 world current neighbor
  let moveCost := if breakPoints neighbor then moveCost.add (.finite 5) else moveCost
  let moveCost := if placePoints neighbor then moveCost.add (.finite 3) else moveCost
  let moveCost :=
    if options.AvoidWater && world.GetBlockType neighbor == "water" then
      moveCost.add (.finite 10)
    else moveCost
  if options.MinimiseHeight && neighbor.Y != current.Y then
    moveCost.add ((Float64.finite 2).mul
      (Float64.ofInt (abs64 (wrap64 (neighbor.Y - current.Y)))))
  else moveCost

/-- Edge cost of `findPathWithBreaking` on machine numbers. -/
def breakingMoveCost64 (world : World) (options : PathfindingOptions) (current : Point)
    (neighbor : NeighborInfo) : Float64 :=
  let moveCost := GetMovementCost64 world current neighbor.Point
  let moveCost := if neighbor.RequiresBreaking then moveCost.add (.finite 5) else moveCost
  let moveCost :=
    if options.AvoidWater && world.GetBlockType neighbor.Point == "water" then
      moveCost.add (.finite 10)
    else moveCost
  if options.MinimiseHeight && neighbor.Point.Y != current.Y then
    moveCost.add ((Float64.finite 2).mul
      (Float64.ofInt (abs64 (wrap64 (neighbor.Point.Y - current.Y)))))
  else moveCost

/-- Body of the loop of `getLineOfSightPoints` taken when `dx` is largest, on the
64-bit `int`. -/
def lineStepX64 (dx dy dz sx sy sz : Int) (s : LineState) : LineState :=
  let points := s.points ++ [(⟨s.x, s.y, s.z⟩ : Point)]
  let y := if s.err1 > 0 then wrap64 (s.y + sy) else s.y
  let err1 := if s.err1 > 0 then wrap64 (s.err1 - wrap64 (2 * dx)) else s.err1
  let z := if s.err2 > 0 then wrap64 (s.z + sz) else s.z
  let err2 := if s.err2 > 0 then wrap64 (s.err2 - wrap64 (2 * dx)) else s.err2
  ⟨points, wrap64 (s.x + sx), y, z, wrap64 (err1 + wrap64 (2 * dy)),
    wrap64 (err2 + wrap64 (2 * dz))⟩

/-- Body of the loop of `getLineOfSightPoints` taken when `dy` is largest, on the
64-bit `int`. -/
def lineStepY64 (dx dy dz sx sy sz : Int) (s : LineState) : LineState :=
  let points := s.points ++ [(⟨s.x, s.y, s.z⟩ : Point)]
  let x := if s.err1 > 0 then wrap64 (s.x + sx) else s.x
  let err1 := if s.err1 > 0 then wrap64 (s.err1 - wrap64 (2 * dy)) else s.err1
  let z := if s.err2 > 0 then wrap64 (s.z + sz) else s.z
  let err2 := if s.err2 > 0 then wrap64 (s.err2 - wrap64 (2 * dy)) else s.err2
  ⟨points, x, wrap64 (s.y + sy), z, wrap64 (err1 + wrap64 (2 * dx)),
    wrap64 (err2 + wrap64 (2 * dz))⟩

/-- Body of the loop of `getLineOfSightPoints` taken when `dz` is largest, on the
64-bit `int`. -/
def lineStepZ64 (dx dy dz sx sy sz : Int) (s : LineState) : LineState :=
  let points := s.points ++ [(⟨s.x, s.y, s.z⟩ : Point)]
  let y := if s.err1 > 0 then wrap64 (s.y + sy) else s.y
  let err1 := if s.err1 > 0 then wrap64 (s.err1 - wrap64 (2 * dz)) else s.err1
  let x := if s.err2 > 0 then wrap64 (s.x + sx) else s.x
  let err2 := if s.err2 > 0 then wrap64 (s.err2 - wrap64 (2 * dz)) else s.err2
  ⟨points, x, y, wrap64 (s.z + sz), wrap64 (err1 + wrap64 (2 * dy)),
    wrap64 (err2 + wrap64 (2 * dx))⟩

/-- A Go loop `for i := 0; i <= d; i++ { body }` on the 64-bit `int`, from the
counter value `i` on. The counter wraps, so the loop does not end when `d` is
the largest `int`; `none` when the fuel runs out. -/
def lineLoop64 (body : LineState → LineState) (d : Int) : Nat → Int → LineState → Option LineState
  | 0, _, _ => none
  | fuel + 1, i, s =>
    if i ≤ d then lineLoop64 body d fuel (wrap64 (i + 1)) (body s) else some s

/-- Function `getLineOfSightPoints` of `theta.go` on the 64-bit `int` (the Go
parameters `from` and `to` are `src` and `dst`). -/
def getLineOfSightPoints64 (fuel : Nat) (src dst : Point) : Option (List Point) :=
  let dx := abs64 (wrap64 (dst.X - src.X))
  let dy := abs64 (wrap64 (dst.Y - src.Y))
  let dz := abs64 (wrap64 (dst.Z - src.Z))
  let sx := sign (wrap64 (dst.X - src.X))
  let sy := sign (wrap64 (dst.Y - src.Y))
  let sz := sign (wrap64 (dst.Z - src.Z))
  if dx ≥ dy ∧ dx ≥ dz then
    (lineLoop64 (lineStepX64 dx dy dz sx sy sz) dx fuel 0
      ⟨[], src.X, src.Y, src.Z, wrap64 (wrap64 (2 * dy) - dx),
        wrap64 (wrap64 (2 * dz) - dx)⟩).map fun s => s.points
  else if dy ≥ dx ∧ dy ≥ dz then
    (lineLoop64 (lineStepY64 dx dy dz sx sy sz) dy fuel 0
      ⟨[], src.X, src.Y, src.Z, wrap64 (wrap64 (2 * dx) - dy),
        wrap64 (wrap64 (2 * dz) - dy)⟩).map fun s => s.points
  else
    (lineLoop64 (lineStepZ64 dx dy dz sx sy sz) dz fuel 0
      ⟨[], src.X, src.Y, src.Z, wrap64 (wrap64 (2 * dy) - dz),
        wrap64 (wrap64 (2 * dx) - dz)⟩).map fun s => s.points

/-! ## Vocabulary of the statements -/

/-- Cells `a` and `b` differ by exactly `k` units along exactly one axis and
agree on the other two. -/
def axisStep (k : Int) (a b : Point) : Prop :=
  (abs (b.X - a.X) = k ∧ b.Y = a.Y ∧ b.Z = a.Z) ∨
  (b.X = a.X ∧ abs (b.Y - a.Y) = k ∧ b.Z = a.Z) ∨
  (b.X = a.X ∧ b.Y = a.Y ∧ abs (b.Z - a.Z) = k)

instance (k : Int) (a b : Point) : Decidable (axisStep k a b) := by
  unfold axisStep
  infer_instance

/-- Cell `cur` moved by the direction `d`. -/
def Point.shift (cur d : Point) : Point := ⟨cur.X + d.X, cur.Y + d.Y, cur.Z + d.Z⟩

/-- Cell two steps from `cur` in the horizontal direction `d`, at the same
height: the `placingNeighbor` of the placing branch. -/
def Point.shift2 (cur d : Point) : Point := ⟨cur.X + d.X * 2, cur.Y, cur.Z + d.Z * 2⟩

/-- Cell directly below. -/
def Point.below (p : Point) : Point := ⟨p.X, p.Y - 1, p.Z⟩

/-- The neighbour slice that the expander of `FindPathDijkstraWithOptions`
builds at `cur` (it does not depend on the scratch maps). -/
def dijkstraNeighbors (world : World) (options : PathfindingOptions) (cur : Point) : List Point :=
  (dijkstraExpand world options cur PointSet.empty PointSet.empty).1

/-- The cells the breaking branch records in `breakPoints`: non-walkable
breakable cells, when `AllowBreaking` is set. -/
def isBreakPoint (world : World) (options : PathfindingOptions) (p : Point) : Bool :=
  options.AllowBreaking && !world.IsWalkable p && world.CanBreak p

/-- The cells the placing branch records in `placePoints`: non-walkable cells
above a cell whose type is not "air", when `AllowPlacing` is set and
`AllowBreaking` is not. -/
def isPlacePoint (world : World) (options : PathfindingOptions) (p : Point) : Bool :=
  !options.AllowBreaking && options.AllowPlacing && !world.IsWalkable p &&
    (world.GetBlockType ⟨p.X, p.Y - 1, p.Z⟩ != "air")

/-- Cost the search charges for the edge `u → v`: `GetMovementCost` plus the
break, place, water and height surcharges. When the edge is relaxed the scratch
maps agree with `isBreakPoint` and `isPlacePoint` on `v`
(`dijkstraExpand_scratch`), so this is `dijkstraMoveCost` as the loop calls it. -/
def edgeCost (world : World) (options : PathfindingOptions) (u v : Point) : ℚ :=
  dijkstraMoveCost world options (isBreakPoint world options) (isPlacePoint world options) u v

/-- Sum of `c a b` over the consecutive cells `a, b` of a path. -/
def pathCost (c : Point → Point → ℚ) : List Point → ℚ
  | a :: b :: rest => c a b + pathCost c (b :: rest)
  | _ => 0

/-- Edge cost as the specification words it, the break and place points being
read off the result: `GetMovementCost`, plus 5 into a broken block, plus 3 into
a placed block, plus 10 into water under `AvoidWater`, plus twice the height
difference under `MinimiseHeight`. -/
def claimedEdgeCost (w : World) (o : PathfindingOptions) (r : PathfindingResult)
    (a b : Point) : ℚ :=
  w.GetMovementCost a b
    + (if b ∈ r.BlocksBroken then 5 else 0)
    + (if b ∈ r.BlocksPlaced then 3 else 0)
    + (if o.AvoidWater = true ∧ w.GetBlockType b = "water" then 10 else 0)
    + (if o.MinimiseHeight = true then 2 * ((abs (b.Y - a.Y) : Int) : ℚ) else 0)

/-- Multiplier that `GetMovementCost` applies for moving into `p`: the block's
`MoveCost` when the cell has a block and that cost is positive, 1 otherwise. -/
def effectiveMultiplier (w : World) (p : Point) : ℚ :=
  match w.GetBlock p with
  | some b => if b.MoveCost > 0 then b.MoveCost else 1
  | none => 1

/-- Cost of the move `src → dst` before the multiplier: the base cost plus the
ascent or descent penalty. -/
def climbCost (src dst : Point) : ℚ :=
  (if src.X ≠ dst.X ∧ src.Z ≠ dst.Z then (1414 / 1000 : ℚ) else 1)
    + (if dst.Y > src.Y then 1 * ((dst.Y - src.Y : Int) : ℚ)
       else if dst.Y < src.Y then (2 / 10) * ((src.Y - dst.Y : Int) : ℚ) else 0)

/-- The move `u → v` is one that the A* expander `GetNeighborsWithBreaking`
offers at `u`. -/
def astarStep (w : World) (o : PathfindingOptions) (u v : Point) : Prop :=
  ∃ ni ∈ GetNeighborsWithBreaking u w o, ni.Point = v

instance (w : World) (o : PathfindingOptions) (u v : Point) : Decidable (astarStep w o u v) := by
  unfold astarStep
  infer_instance

/-- Cost `findPathWithBreaking` charges for the move `u → v`: the expander
marks the neighbour as requiring breaking exactly when it is not walkable. -/
def astarEdgeCost (w : World) (o : PathfindingOptions) (u v : Point) : ℚ :=
  breakingMoveCost w o u ⟨v, !w.IsWalkable v, false⟩

/-- Sum of `|ΔY|` over the consecutive cells of a path. -/
def verticalSum : List Point → Int
  | a :: b :: rest => |b.Y - a.Y| + verticalSum (b :: rest)
  | _ => 0

/-- Number of cells of a path, the first one apart, whose block type is
"water". -/
def waterAfterStart (w : World) (path : List Point) : Int :=
  ((path.tail.filter fun p => w.GetBlockType p == "water").length : Int)

/-- There is a walk of `k` moves of the expander (the neighbour slice the
searches build under the options) from `start` to the cell. -/
inductive Reach (w : World) (o : PathfindingOptions) (start : Point) : Nat → Point → Prop where
  | nil : Reach w o start 0 start
  | snoc {k : Nat} {u v : Point} : Reach w o start k u → v ∈ dijkstraNeighbors w o u →
      Reach w o start (k + 1) v

/-- Number of cells of a list whose block type is "water". -/
def waterCount (w : World) (cells : List Point) : Int :=
  ((cells.filter fun p => w.GetBlockType p == "water").length : Int)

/-- The largest of the three coordinate distances between two cells: the number
of steps of the line between them. -/
def dominantDistance (a b : Point) : Int :=
  max (max (abs (b.X - a.X)) (abs (b.Y - a.Y))) (abs (b.Z - a.Z))

/-- Consecutive cells `p`, `q` of the rasterised line from `a` to `b`: they
differ by at most one unit on each axis, and by exactly one unit on an axis
along which `a` and `b` are `dominantDistance a b` apart. -/
def lineStep (a b p q : Point) : Prop :=
  abs (q.X - p.X) ≤ 1 ∧ abs (q.Y - p.Y) ≤ 1 ∧ abs (q.Z - p.Z) ≤ 1 ∧
  (abs (b.X - a.X) = dominantDistance a b → abs (q.X - p.X) = 1) ∧
  (abs (b.Y - a.Y) = dominantDistance a b → abs (q.Y - p.Y) = 1) ∧
  (abs (b.Z - a.Z) = dominantDistance a b → abs (q.Z - p.Z) = 1)

/-- The cap on the deepenings of IDA*: `MaxIterations` when that is positive,
1000 otherwise. -/
def iterationCap (options : PathfindingOptions) : Int :=
  if options.MaxIterations > 0 then options.MaxIterations else 1000

/-- The closed form of `GetMovementCost`, each operation rounded to `float64`,
on the exact difference of the heights. -/
def movementCostFormula64 (w : World) (src dst : Point) : Float64 :=
  let base : Float64 :=
    if src.X ≠ dst.X ∧ src.Z ≠ dst.Z then Float64.round (1414 / 1000) else .finite 1
  let cost : Float64 :=
    if dst.Y > src.Y then
      base.add ((Float64.finite 1).mul (Float64.round ((dst.Y - src.Y : Int) : ℚ)))
    else if dst.Y < src.Y then
      base.add ((Float64.round (2 / 10)).mul (Float64.round ((src.Y - dst.Y : Int) : ℚ)))
    else base
  match w.GetBlock dst with
  | some b =>
    if (Float64.finite 0).lt (Float64.round b.MoveCost) then cost.mul (Float64.round b.MoveCost)
    else cost
  | none => cost

/-- A cell each of whose coordinates has a magnitude of at most `2^60`. -/
def Point.Small (p : Point) : Prop :=
  (-2 ^ 60 ≤ p.X ∧ p.X ≤ 2 ^ 60) ∧ (-2 ^ 60 ≤ p.Y ∧ p.Y ≤ 2 ^ 60) ∧
    (-2 ^ 60 ≤ p.Z ∧ p.Z ≤ 2 ^ 60)

/-! ## Example worlds and the results of the searches on them -/

/-- Walkable air with unit cost multiplier. -/
def airBlock : Block := ⟨"air", true, false, 1⟩

/-- A flat walkable strip of the plane `Y = 1`: `X` from 0 to 3, `Z` from -1 to 1. -/
def flatPlane : World :=
  ⟨[(⟨0, 1, 0⟩, airBlock), (⟨1, 1, 0⟩, airBlock), (⟨2, 1, 0⟩, airBlock), (⟨3, 1, 0⟩, airBlock),
    (⟨0, 1, 1⟩, airBlock), (⟨1, 1, 1⟩, airBlock), (⟨2, 1, 1⟩, airBlock), (⟨3, 1, 1⟩, airBlock),
    (⟨0, 1, -1⟩, airBlock), (⟨1, 1, -1⟩, airBlock), (⟨2, 1, -1⟩, airBlock),
    (⟨3, 1, -1⟩, airBlock)]⟩

/-- A two-by-two walkable square in the plane `Y = 1`. -/
def squareWorld : World :=
  ⟨[(⟨0, 1, 0⟩, airBlock), (⟨1, 1, 0⟩, airBlock), (⟨0, 1, 1⟩, airBlock), (⟨1, 1, 1⟩, airBlock)]⟩

/-- A strip of three cells with a breakable stone block in the middle. -/
def wallWorld : World :=
  ⟨[(⟨0, 1, 0⟩, airBlock), (⟨1, 1, 0⟩, ⟨"stone", false, true, 5⟩), (⟨2, 1, 0⟩, airBlock)]⟩

/-- Result of Dijkstra on `flatPlane` from (0,1,0) to (3,1,0) with no options. -/
def flatPlaneResult : PathfindingResult :=
  { Path := [⟨0, 1, 0⟩, ⟨1, 1, 0⟩, ⟨2, 1, 0⟩, ⟨3, 1, 0⟩], NodesExplored := 9, TotalCost := 3 }

/-- Result of Dijkstra on `wallWorld` from (0,1,0) to (2,1,0) with `AllowBreaking`. -/
def wallWorldResult : PathfindingResult :=
  { Path := [⟨0, 1, 0⟩, ⟨1, 1, 0⟩, ⟨2, 1, 0⟩], NodesExplored := 3,
    BlocksBroken := [⟨1, 1, 0⟩], TotalCost := 11 }

/-- Result of Dijkstra on `squareWorld` from (0,1,0) to (1,1,1) with no options. -/
def squareWorldResult : PathfindingResult :=
  { Path := [⟨0, 1, 0⟩, ⟨1, 1, 0⟩, ⟨1, 1, 1⟩], NodesExplored := 4, TotalCost := 2 }

/-- Two sand cells (multiplier 1.5) two levels apart. -/
def sandSteps : World :=
  ⟨[(⟨0, 1, 0⟩, ⟨"sand", true, true, 3 / 2⟩), (⟨0, 3, 0⟩, ⟨"sand", true, true, 3 / 2⟩)]⟩

/-- A walkable square whose cell (1,1,0) is ice with multiplier 0.5. -/
def iceWorld : World :=
  ⟨[(⟨0, 1, 0⟩, airBlock), (⟨1, 1, 0⟩, ⟨"ice", true, true, 1 / 2⟩)]⟩

/-- A walkable column of three cells above each other. -/
def columnWorld : World :=
  ⟨[(⟨0, 1, 0⟩, airBlock), (⟨0, 2, 0⟩, airBlock), (⟨0, 3, 0⟩, airBlock)]⟩

/-- A walkable water cell next to a walkable air cell. -/
def pondWorld : World :=
  ⟨[(⟨0, 1, 0⟩, ⟨"water", true, false, 3⟩), (⟨1, 1, 0⟩, airBlock)]⟩

/-- Two walkable cells side by side and a breakable stone block next to the
first one, off the way between them. -/
def sideWallWorld : World :=
  ⟨[(⟨0, 1, 0⟩, airBlock), (⟨1, 1, 0⟩, airBlock), (⟨0, 1, 1⟩, ⟨"stone", false, true, 5⟩)]⟩

/-- Result of the default driver with `AllowBreaking` on `sideWallWorld`. -/
def sideWallResult : PathfindingResult :=
  { Path := [⟨0, 1, 0⟩, ⟨1, 1, 0⟩], NodesExplored := 2, BlocksBroken := [⟨0, 1, 1⟩],
    TotalCost := 1 }

/-- A corridor of three walkable cells with a fourth one above the middle. -/
def stepWorld : World :=
  ⟨[(⟨0, 1, 0⟩, airBlock), (⟨1, 1, 0⟩, airBlock), (⟨2, 1, 0⟩, airBlock),
    (⟨1, 2, 0⟩, airBlock)]⟩

/-- Two walkable cells side by side. -/
def pairWorld : World :=
  ⟨[(⟨0, 1, 0⟩, airBlock), (⟨1, 1, 0⟩, airBlock)]⟩

/-- Two walkable cells side by side, one of them at the origin. -/
def originWorld : World :=
  ⟨[(⟨0, 0, 0⟩, airBlock), (⟨1, 0, 0⟩, airBlock)]⟩

/-- Two rows of three walkable cells; the middle cell of the first row is
water. -/
def fordWorld : World :=
  ⟨[(⟨0, 1, 0⟩, airBlock), (⟨1, 1, 0⟩, ⟨"water", true, false, 3⟩), (⟨2, 1, 0⟩, airBlock),
    (⟨0, 1, 1⟩, airBlock), (⟨1, 1, 1⟩, airBlock), (⟨2, 1, 1⟩, airBlock)]⟩

/-- Result of the breadth-first search on `fordWorld` with no options. -/
def fordBFSResult : PathfindingResult :=
  { Path := [⟨0, 1, 0⟩, ⟨1, 1, 0⟩, ⟨2, 1, 0⟩], NodesExplored := 4, WaterCrossed := 1,
    TotalCost := 3 }

/-- Result of the breadth-first search on `fordWorld` with `AvoidWater`. -/
def fordAvoidResult : PathfindingResult :=
  { Path := [⟨0, 1, 0⟩, ⟨0, 1, 1⟩, ⟨1, 1, 1⟩, ⟨2, 1, 1⟩, ⟨2, 1, 0⟩], NodesExplored := 5,
    TotalCost := 5 }

/-- A corridor of three walkable cells, the middle one water. -/
def waterLine : World :=
  ⟨[(⟨0, 1, 0⟩, airBlock), (⟨1, 1, 0⟩, ⟨"water", true, false, 3⟩), (⟨2, 1, 0⟩, airBlock)]⟩

/-- Two ways from (0,1,0) to (3,1,0): straight through two water cells, or
round by the row `Z = 2` through one water cell. -/
def twoFords : World :=
  ⟨[(⟨0, 1, 0⟩, airBlock), (⟨1, 1, 0⟩, ⟨"water", true, false, 3⟩),
    (⟨2, 1, 0⟩, ⟨"water", true, false, 3⟩), (⟨3, 1, 0⟩, airBlock),
    (⟨0, 1, 1⟩, airBlock), (⟨3, 1, 1⟩, airBlock),
    (⟨0, 1, 2⟩, airBlock), (⟨1, 1, 2⟩, airBlock), (⟨2, 1, 2⟩, ⟨"water", true, false, 3⟩),
    (⟨3, 1, 2⟩, airBlock)]⟩

/-- Two walkable cells side by side, the second at `X = -1`. -/
def westWorld : World :=
  ⟨[(⟨0, 1, 0⟩, airBlock), (⟨-1, 1, 0⟩, airBlock)]⟩

/-- A corridor of 4999 walkable cells (0,1,0) to (4998,1,0), with one more
walkable cell on either side of its last cell. -/
def forkWorld : World :=
  ⟨(List.range 4999).map (fun (k : Nat) => ((⟨(k : Int), 1, 0⟩ : Point), airBlock)) ++
    [(⟨4998, 1, 1⟩, airBlock), (⟨4998, 1, -1⟩, airBlock)]⟩

/-- A corridor of three walkable cells. -/
def lineWorld : World :=
  ⟨[(⟨0, 1, 0⟩, airBlock), (⟨1, 1, 0⟩, airBlock), (⟨2, 1, 0⟩, airBlock)]⟩

/-- Two cells two levels apart with the multiplier 1.6e308. -/
def heavySteps : World :=
  ⟨[(⟨0, 1, 0⟩, ⟨"sand", true, true, 16 * 10 ^ 307⟩),
    (⟨0, 3, 0⟩, ⟨"sand", true, true, 16 * 10 ^ 307⟩)]⟩

/-- Two cells one level apart on a horizontal diagonal, with the smallest
positive `float64`, `2^-1074`, as multiplier. -/
def faintSteps : World :=
  ⟨[(⟨0, 1, 0⟩, ⟨"sand", true, true, 1 / 2 ^ 1074⟩),
    (⟨1, 2, 1⟩, ⟨"sand", true, true, 1 / 2 ^ 1074⟩)]⟩

/-! ## Vocabulary of the proofs -/

/-- F-score stored at index `i` of the queue (0 out of range). -/
def fAt (pq : PriorityQueue) (i : Nat) : ℚ := ((pq[i]?).map Node.FScore).getD 0

/-- Heap order on the first `n` slots: no slot is smaller than its parent slot. -/
def HeapOrdered (pq : PriorityQueue) (n : Nat) : Prop :=
  ∀ i, 0 < i → i < n → fAt pq ((i - 1) / 2) ≤ fAt pq i

/-- Heap order on all slots but `j`, whose children are already no smaller
than its parent: the state of the queue inside `heap.up`. -/
def UpInv (pq : PriorityQueue) (j : Nat) : Prop :=
  (∀ i, 0 < i → i < pq.length → i ≠ j → fAt pq ((i - 1) / 2) ≤ fAt pq i) ∧
  (∀ c, 0 < c → c < pq.length → (c - 1) / 2 = j → 0 < j → fAt pq ((j - 1) / 2) ≤ fAt pq c)

/-- Heap order on the first `n` slots except between `i` and its children,
which are already no smaller than the parent of `i`: the state of the queue
inside `heap.down`. -/
def DownInv (pq : PriorityQueue) (n i : Nat) : Prop :=
  (∀ k, 0 < k → k < n → (k - 1) / 2 ≠ i → fAt pq ((k - 1) / 2) ≤ fAt pq k) ∧
  (∀ c, 0 < c → c < n → (c - 1) / 2 = i → 0 < i → fAt pq ((i - 1) / 2) ≤ fAt pq c)

/-- Cells of the parent chain of a node, the root first. -/
def Node.cells : Node → List Point
  | .root p _ _ => [p]
  | .child p _ _ parent => parent.cells ++ [p]

/-- The parent chain of a node starts at `start` with g-score 0, every link is
an edge of the expander, and every g-score is the parent's plus the edge cost. -/
def Node.Good (world : World) (options : PathfindingOptions) (start : Point) : Node → Prop
  | .root p g _ => p = start ∧ g = 0
  | .child p g _ parent =>
    Node.Good world options start parent ∧
    p ∈ dijkstraNeighbors world options parent.Position ∧
    g = parent.GScore + edgeCost world options parent.Position p

/-- There is a walk from `start` to the cell along edges of the expander whose
edge costs sum to the given number. -/
inductive Route (world : World) (options : PathfindingOptions) (start : Point) :
    Point → ℚ → Prop where
  | nil : Route world options start start 0
  | snoc {u v : Point} {c : ℚ} : Route world options start u c →
      v ∈ dijkstraNeighbors world options u →
      Route world options start v (c + edgeCost world options u v)

/-- The part of the loop invariant of `FindPathDijkstraWithOptions` that speaks
about the open set and the g-score map, for a given closed set `V` and scratch
maps `bp`, `pp`. -/
structure OpenInv (w : World) (o : PathfindingOptions) (start : Point) (V bp pp : PointSet)
    (os : PriorityQueue) (g : GScoreMap) : Prop where
  ordered : HeapOrdered os os.length
  good : ∀ n ∈ os, n.Good w o start
  fg : ∀ n ∈ os, n.FScore = n.GScore
  recorded : ∀ n ∈ os, ∀ p ∈ n.cells.tail,
    bp p = isBreakPoint w o p ∧ pp p = isPlacePoint w o p
  i1 : ∀ n ∈ os, ∃ gv, g n.Position = some gv ∧ gv ≤ n.GScore
  i2 : ∀ p gv, V p = false → g p = some gv → ∃ n ∈ os, n.Position = p ∧ n.GScore = gv
  gnonneg : ∀ p gv, g p = some gv → 0 ≤ gv
  gstart : g start = some 0

/-- Loop invariant of `FindPathDijkstraWithOptions`. -/
structure DijkstraInv (w : World) (o : PathfindingOptions) (start goal : Point)
    (s : DijkstraState) : Prop where
  opens : OpenInv w o start s.visited s.breakPoints s.placePoints s.openSet s.gScore
  bpSub : ∀ p, s.breakPoints p = true → isBreakPoint w o p = true
  ppSub : ∀ p, s.placePoints p = true → isPlacePoint w o p = true
  i3 : ∀ p, s.visited p = true → ∀ v ∈ dijkstraNeighbors w o p, s.visited v = false →
    ∃ gp gv, s.gScore p = some gp ∧ s.gScore v = some gv ∧ gv ≤ gp + edgeCost w o p v
  k1 : ∀ p, s.visited p = true → ∀ c, Route w o start p c →
    ∃ gp, s.gScore p = some gp ∧ gp ≤ c
  notgoal : ∀ p, s.visited p = true → p ≠ goal

/-- The result record built when the goal node `cur` is popped in state `s`. -/
def dijkstraResult (start : Point) (w : World) (s : DijkstraState) (cur : Node) :
    PathfindingResult :=
  let t := dijkstraReconstruct w s.breakPoints s.placePoints cur { lastY := start.Y }
  { Path := t.path, NodesExplored := s.nodesExplored + 1, BlocksBroken := t.blocksBroken,
    BlocksPlaced := t.blocksPlaced, WaterCrossed := t.waterCrossed,
    VerticalChange := t.totalVerticalChange, TotalCost := cur.GScore }

/-- The state after the popped node `cur` has been expanded in state `s`, the
open set being `os1` after the pop. -/
def dijkstraNext (w : World) (o : PathfindingOptions) (s : DijkstraState) (cur : Node)
    (os1 : PriorityQueue) : DijkstraState :=
  let e := dijkstraExpand w o cur.Position s.breakPoints s.placePoints
  let r := dijkstraRelax w o cur (s.visited.add cur.Position) e.2.1 e.2.2 e.1 (os1, s.gScore)
  { openSet := r.1, visited := s.visited.add cur.Position, gScore := r.2,
    breakPoints := e.2.1, placePoints := e.2.2, nodesExplored := s.nodesExplored + 1 }

/-- What a successful search returns: the cells of a good parent chain ending
at the goal, its g-score, which no walk from `start` to `goal` beats, and the
recorded break and place points among the cells after the first. -/
def DijkstraPost (w : World) (o : PathfindingOptions) (start goal : Point)
    (r : PathfindingResult) : Prop :=
  ∃ cur : Node, cur.Good w o start ∧ cur.Position = goal ∧ r.Path = cur.cells ∧
    r.TotalCost = cur.GScore ∧
    (∀ c, Route w o start goal c → cur.GScore ≤ c) ∧
    (∀ x, x ∈ r.BlocksBroken ↔ x ∈ cur.cells.tail ∧ isBreakPoint w o x = true) ∧
    (∀ x, x ∈ r.BlocksPlaced ↔ x ∈ cur.cells.tail ∧ isPlacePoint w o x = true)

/-- The cells a search over `w` from `start` can ever reach in plain mode: the
start and the cells that have a block. -/
def worldCells (w : World) (start : Point) : Finset Point :=
  insert start (w.Blocks.map Prod.fst).toFinset

/-- Number of cells of `U` without a g-score. -/
def unseenCount (U : Finset Point) (g : GScoreMap) : Nat :=
  Finset.sum U (fun p => if g p = none then 1 else 0)

/-- Sum of the (whole-number) g-scores over the cells of `U`. -/
def gSum (U : Finset Point) (g : GScoreMap) : Nat :=
  Finset.sum U (fun p => ⌊(g p).getD 0⌋₊)

/-- The g-score map `g1` is lexicographically smaller than `g0`: fewer cells
are unseen, or as many and the g-scores sum to less. -/
def gLess (U : Finset Point) (g1 g0 : GScoreMap) : Prop :=
  unseenCount U g1 < unseenCount U g0 ∨
    (unseenCount U g1 = unseenCount U g0 ∧ gSum U g1 < gSum U g0)

/-- A block that, when neither walkable nor unbreakable, is grass, stone or
lava. -/
def BlockOK (b : Block) : Prop :=
  b.Walkable = false → b.Breakable = true →
    b.BlockType = "grass" ∨ b.BlockType = "stone" ∨ b.BlockType = "lava"

/-- Every entry of the block map is `BlockOK`. -/
def WorldOK (w : World) : Prop :=
  ∀ p b, (p, b) ∈ w.Blocks → BlockOK b

/-- Loop invariant of `FindPathBFSWithOptions` in terms of a level function
`lev`: visited cells other than the start have a visited parent one level
down, levels are shortest walk lengths, the queue is sorted by level within
`d` and `d + 1`, and every visited cell that has left the queue, the cell
`busy` being expanded apart, has all its neighbours visited. No level exceeds
`n`. -/
structure BFSInv (w : World) (o : PathfindingOptions) (start goal : Point) (lev : Point → Nat)
    (d n : Nat) (busy : Option Point) (q : List Point) (vis : PointSet) (cf : ParentMap) :
    Prop where
  start_vis : vis start = true
  lev_start : lev start = 0
  q_vis : ∀ x ∈ q, vis x = true
  parent : ∀ v, vis v = true → v ≠ start →
    ∃ u, cf v = some u ∧ vis u = true ∧ v ∈ dijkstraNeighbors w o u ∧ lev v = lev u + 1
  minimal : ∀ v k, vis v = true → Reach w o start k v → lev v ≤ k
  sorted : q.Pairwise (fun a b => lev a ≤ lev b)
  range : ∀ x ∈ q, d ≤ lev x ∧ lev x ≤ d + 1
  busy_lev : ∀ y, busy = some y → lev y = d ∧ vis y = true
  closed : ∀ x, vis x = true → x ∉ q → busy ≠ some x →
    ∀ v ∈ dijkstraNeighbors w o x, vis v = true
  notgoal : ∀ x, vis x = true → x ∉ q → x ≠ goal
  bound : ∀ x, vis x = true → lev x ≤ n

/-- What `FindPathBFSWithOptions` returns: the empty path when no walk of the
expander reaches the goal (with no water counted), and otherwise a walk from the start to the goal
with the fewest moves, the water cells after the start counted in
`WaterCrossed` and the number of cells in `TotalCost`. -/
def BFSPost (w : World) (o : PathfindingOptions) (start goal : Point)
    (r : PathfindingResult) : Prop :=
  (r.Path = [] ∧ r.WaterCrossed = 0 ∧ ∀ k, ¬ Reach w o start k goal) ∨
  ∃ cells : List Point, r.Path = start :: cells ∧
    List.Chain' (fun u v => v ∈ dijkstraNeighbors w o u) (start :: cells) ∧
    (start :: cells).getLast? = some goal ∧
    Reach w o start cells.length goal ∧
    (∀ k, Reach w o start k goal → cells.length ≤ k) ∧
    r.WaterCrossed = waterCount w cells ∧
    r.TotalCost = ((cells.length + 1 : Nat) : ℚ)

/-- Number of cells of `U` that are not visited. -/
def unvisited (U : Finset Point) (vis : PointSet) : Nat :=
  (U.filter fun p => vis p = false).card

/-- The cells within `R` of `c` on every axis. -/
def boxCells (c : Point) (R : Nat) : Finset Point :=
  (Finset.Icc (c.X - R) (c.X + R) ×ˢ Finset.Icc (c.Y - R) (c.Y + R) ×ˢ
    Finset.Icc (c.Z - R) (c.Z + R)).image fun t => (⟨t.1, t.2.1, t.2.2⟩ : Point)

/-- A lower bound of the multipliers `GetMovementCost` applies in the world:
the least positive `MoveCost` of a block, at most 1. -/
def minMultiplier (w : World) : ℚ :=
  (w.Blocks.map fun pb => if pb.2.MoveCost > 0 then pb.2.MoveCost else 1).foldr min 1

/-- Number of links of the parent chain of a node. -/
def Node.depth : Node → Nat
  | .root _ _ _ => 0
  | .child _ _ _ parent => parent.depth + 1

/-- A step of the loop of `getLineOfSightPoints` along the X axis, from `p` to
`q`: one unit along X, at most one unit along Y and Z, and exactly one along Y
(along Z) when `ey` (`ez`) holds. -/
def LineRel (ey ez : Prop) (p q : Point) : Prop :=
  (q.X - p.X = 1 ∨ q.X - p.X = -1) ∧
  (-1 ≤ q.Y - p.Y ∧ q.Y - p.Y ≤ 1) ∧ (-1 ≤ q.Z - p.Z ∧ q.Z - p.Z ≤ 1) ∧
  (ey → q.Y - p.Y = 1 ∨ q.Y - p.Y = -1) ∧ (ez → q.Z - p.Z = 1 ∨ q.Z - p.Z = -1)

/-- Invariant of the X loop of `getLineOfSightPoints` after `n` rounds, for a
line from `(x0, y0, z0)` with `dx ≥ 1` steps. -/
structure LineInv (x0 y0 z0 dx dy dz sx sy sz : Int) (n : Nat) (s : LineState) : Prop where
  len : s.points.length = n
  hx : s.x = x0 + n * sx
  e1_lo : 2 * dy - 2 * dx < s.err1
  e1_hi : s.err1 ≤ 2 * dy
  e2_lo : 2 * dz - 2 * dx < s.err2
  e2_hi : s.err2 ≤ 2 * dz
  hy : ∃ k : Int, s.y = y0 + k * sy ∧ s.err1 = 2 * dy - dx + 2 * dy * n - 2 * dx * k
  hz : ∃ k : Int, s.z = z0 + k * sz ∧ s.err2 = 2 * dz - dx + 2 * dz * n - 2 * dx * k
  head : (s.points ++ [(⟨s.x, s.y, s.z⟩ : Point)]).head? = some ⟨x0, y0, z0⟩
  chain : List.Chain' (LineRel (dy = dx) (dz = dx)) (s.points ++ [(⟨s.x, s.y, s.z⟩ : Point)])

/-- Exchange of the X and Y coordinates. -/
def Point.swapXY (p : Point) : Point := ⟨p.Y, p.X, p.Z⟩

/-- Exchange of the X and Z coordinates. -/
def Point.swapXZ (p : Point) : Point := ⟨p.Z, p.Y, p.X⟩

/-- Exchange of the X and Y coordinates of a loop state. -/
def LineState.swapXY (s : LineState) : LineState :=
  ⟨s.points.map Point.swapXY, s.y, s.x, s.z, s.err1, s.err2⟩

/-- Exchange of the X and Z coordinates of a loop state. -/
def LineState.swapXZ (s : LineState) : LineState :=
  ⟨s.points.map Point.swapXZ, s.z, s.y, s.x, s.err1, s.err2⟩

/-- The cells before index `i` are in place: each is no further from the goal
than every cell behind it. -/
def SortedUpTo (goal : Point) (o : PathfindingOptions) (i : Nat) (l : List Point) : Prop :=
  ∀ a b, a < i → a < b → b < l.length →
    Heuristic (l.getD a ⟨0, 0, 0⟩) goal o ≤ Heuristic (l.getD b ⟨0, 0, 0⟩) goal o

/-- The cell number `k` of the corridor of `forkWorld`. -/
def forkCell (k : Nat) : Point := ⟨(k : Int), 1, 0⟩

/-- State of the collector on `forkWorld` from (0,1,0) when the cell `k` of the
corridor is about to be popped. -/
structure ForkInv (k : Nat) (st : CollectState) : Prop where
  queue : st.queue = [forkCell k]
  vertices : st.vertices = (List.range (k + 1)).map forkCell
  visited : ∀ p, st.visited p = true ↔ p ∈ st.vertices

/-- Invariant of the maps `dist` and `pred` of Bellman-Ford: the keys of `dist`
are the start and the vertices, the start is at distance 0, finite distances
are not negative, and every other cell at a finite distance has a predecessor
at a smaller finite distance. -/
structure BFInv (start : Point) (vertices : List Point) (dist : DistMap) (pred : ParentMap) :
    Prop where
  start_zero : dist start = some (some 0)
  keys : ∀ v, dist v ≠ none ↔ (v = start ∨ v ∈ vertices)
  nonneg : ∀ v d, dist v = some (some d) → 0 ≤ d
  parent : ∀ v d, dist v = some (some d) → v ≠ start →
    ∃ u du, pred v = some u ∧ dist u = some (some du) ∧ du < d

/-- The finite distances of the start and the vertices. -/
def finiteDists (start : Point) (vertices : List Point) (dist : DistMap) : List ℚ :=
  (start :: vertices).filterMap fun x => (dist x).bind id

/-- The cell of a node and the cell of its parent lie in `S`. -/
def Node.InSet (S : Point → Prop) (n : Node) : Prop :=
  S n.Position ∧ ∀ parent, n.Parent = some parent → S parent.Position

/-- Following the map `par` for `n` steps from `a` leads to `b`. -/
def Climbs (par : ParentMap) : Nat → Point → Point → Prop
  | 0, a, b => a = b
  | n + 1, a, b => ∃ c, par a = some c ∧ Climbs par n c b

/-- What a call of `idaSearchWithOptions` at `current`, entered with the maps
`visited` and `parents`, leaves behind: the parents of the visited cells and of
`current` are untouched; a call that does not find the goal restores
`visited`; a call that finds it leaves a chain of at most `k` parents from the
goal to `current`. -/
def IDASpec (goal : Point) (visited : PointSet) (parents : ParentMap) (current : Point)
    (k : Nat) (r : IDAOutcome) : Prop :=
  (∀ p, (visited p = true ∨ p = current) → r.parents p = parents p) ∧
  (r.found = false → r.visited = visited) ∧
  (r.found = true → ∃ len, len ≤ k ∧ Climbs r.parents len goal current)

/-- Relative error of one rounding in the normal range, `2^-53`. -/
def unitRoundoff : ℚ := 1 / 2 ^ 53

/-- The value `r` is `E` up to `k` roundings: it lies between `E (1 - u)^k` and
`E (1 + u)^k`, with `u` the unit roundoff. -/
def Near (k : Nat) (r E : ℚ) : Prop :=
  E * (1 - unitRoundoff) ^ k ≤ r ∧ r ≤ E * (1 + unitRoundoff) ^ k


/-- The cost that `GetMovementCost64` has reached before it reads the block of
the destination: the base cost plus the ascent or descent penalty. -/
def climbCost64 (src dst : Point) : Float64 :=
  let baseCost : Float64 := .finite 1
  let baseCost : Float64 :=
    if src.X ≠ dst.X ∧ src.Z ≠ dst.Z then Float64.round (1414 / 1000) else baseCost
  if dst.Y > src.Y then
    baseCost.add ((Float64.finite 1).mul (Float64.ofInt (wrap64 (dst.Y - src.Y))))
  else if dst.Y < src.Y then
    baseCost.add ((Float64.round (2 / 10)).mul (Float64.ofInt (wrap64 (src.Y - dst.Y))))
  else baseCost

/-- A `float64` that compares greater than zero: a positive double, which is at
least `2^-1074`, or `+Inf`. -/
def Float64.Positive (f : Float64) : Prop :=
  f = .posInf ∨ ∃ r, f = .finite r ∧ (2 : ℚ) ^ (-1074 : Int) ≤ r


/-- Bounds on the state of a loop of `getLineOfSightPoints` after `n` rounds:
`D` is the distance along the axis of the loop, `p` and `q` the distances that
`err1` and `err2` follow. -/
def LineBound (x0 y0 z0 D p q : Int) (n : Nat) (s : LineState) : Prop :=
  (-(n : Int) ≤ s.x - x0 ∧ s.x - x0 ≤ n) ∧ (-(n : Int) ≤ s.y - y0 ∧ s.y - y0 ≤ n) ∧
  (-(n : Int) ≤ s.z - z0 ∧ s.z - z0 ≤ n) ∧
  (2 * p - 2 * D ≤ s.err1 ∧ s.err1 ≤ 2 * p) ∧ (2 * q - 2 * D ≤ s.err2 ∧ s.err2 ≤ 2 * q)

/-! # Theorems -/

/-! ## Small facts about the embedding -/

theorem Point.IsEqual_iff (p q : Point) : p.IsEqual q = true ↔ p = q := by
  cases p; cases q
  simp [Point.IsEqual]
  tauto

theorem abs_zero_eq : abs 0 = 0 := by simp [abs]

theorem heapPush_nil (x : Node) : heapPush [] x = [x] := by
  simp [heapPush, heapUp, heapUpLoop]

theorem heapPop_singleton (x : Node) : heapPop [x] = some (x, []) := by
  simp [heapPop, heapDown, heapDownLoop, PriorityQueue.Swap]

theorem FindPath_self (fuel : Nat) (s : Point) (w : World) :
    FindPath (fuel + 1) s s w = some [s] := by
  simp [FindPath, findPathInit, findPathLoop, findPathStep, heapPush_nil, heapPop_singleton,
    Node.Position, (Point.IsEqual_iff s s).2 rfl, findPathReconstruct]

/-! ## The movement cost -/

/-- Over unbounded integers and exact rationals `GetMovementCost from to` is the
base cost (1.414 on a horizontal diagonal, 1 otherwise) plus the ascent (1 per
unit) or descent (0.2 per unit) penalty, multiplied by the destination block's
`MoveCost` exactly when the destination has a block and that multiplier is
positive. -/
theorem GetMovementCost_formula (w : World) (src dst : Point) :
    w.GetMovementCost src dst =
      ((if src.X ≠ dst.X ∧ src.Z ≠ dst.Z then (1414 / 1000 : ℚ) else 1)
        + (if dst.Y > src.Y then 1 * ((dst.Y - src.Y : Int) : ℚ)
           else if dst.Y < src.Y then (2 / 10) * ((src.Y - dst.Y : Int) : ℚ) else 0))
      * (match w.GetBlock dst with
         | some b => if b.MoveCost > 0 then b.MoveCost else 1
         | none => 1) := by
  unfold World.GetMovementCost
  cases w.GetBlock dst with
  | none => simp; split_ifs <;> simp
  | some b => simp; split_ifs <;> simp

/-! ## The default driver -/

/-- C9: with no options and `start = goal` the default driver returns the
one-cell path, but with `TotalCost = 1` and `NodesExplored = 0` (the claim says
0 and at least 1): `findPathStandard` counts one unit per path cell, the start
included, and never counts the popped nodes. -/
theorem FindPathWithOptions_self_no_options (fuel : Nat) (w : World) (s : Point) :
    FindPathWithOptions (fuel + 1) s s w {} =
      some { Path := [s], NodesExplored := 0,
             WaterCrossed := if w.GetBlockType s == "water" then 1 else 0,
             VerticalChange := 0, TotalCost := 1 } := by
  simp [FindPathWithOptions, findPathStandard, FindPath_self, standardMetrics, abs_zero_eq]

/-- C8: on the flat plane the default driver goes from (0,1,0) to (3,1,0) by
the four-cell straight path with `VerticalChange = 0`, and reports
`TotalCost = 4`, one unit per cell, where the three edges cost 3. -/
theorem FindPathWithOptions_flat_plane :
    FindPathWithOptions 40 ⟨0, 1, 0⟩ ⟨3, 1, 0⟩ flatPlane {} =
      some { Path := [⟨0, 1, 0⟩, ⟨1, 1, 0⟩, ⟨2, 1, 0⟩, ⟨3, 1, 0⟩], VerticalChange := 0,
             TotalCost := 4 } ∧
    flatPlane.GetMovementCost ⟨0, 1, 0⟩ ⟨1, 1, 0⟩ + flatPlane.GetMovementCost ⟨1, 1, 0⟩ ⟨2, 1, 0⟩
      + flatPlane.GetMovementCost ⟨2, 1, 0⟩ ⟨3, 1, 0⟩ = 3 := by
  constructor <;> decide!

/-! ## The open set is a binary min-heap -/

theorem Less_iff (pq : PriorityQueue) (i j : Nat) (hi : i < pq.length) (hj : j < pq.length) :
    pq.Less i j = true ↔ fAt pq i < fAt pq j := by
  simp [PriorityQueue.Less, fAt, List.getElem?_eq_getElem hi, List.getElem?_eq_getElem hj]

theorem Swap_length (pq : PriorityQueue) (i j : Nat) : (pq.Swap i j).length = pq.length := by
  unfold PriorityQueue.Swap
  split <;> simp

theorem Swap_getElem? (pq : PriorityQueue) (i j k : Nat) (hi : i < pq.length)
    (hj : j < pq.length) :
    (pq.Swap i j)[k]? = if k = j then pq[i]? else if k = i then pq[j]? else pq[k]? := by
  unfold PriorityQueue.Swap
  rw [List.getElem?_eq_getElem hi, List.getElem?_eq_getElem hj]
  simp only [List.getElem?_set, List.length_set]
  by_cases h1 : j = k
  · subst h1; simp [hj]
  · by_cases h2 : i = k
    · subst h2; simp [h1, hi, Ne.symm h1]
    · simp [h1, h2, Ne.symm h1, Ne.symm h2]

theorem Swap_fAt (pq : PriorityQueue) (i j k : Nat) (hi : i < pq.length) (hj : j < pq.length) :
    fAt (pq.Swap i j) k = if k = j then fAt pq i else if k = i then fAt pq j else fAt pq k := by
  unfold fAt
  rw [Swap_getElem? pq i j k hi hj]
  split_ifs <;> rfl

theorem Swap_mem (pq : PriorityQueue) (i j : Nat) (x : Node) :
    x ∈ pq.Swap i j ↔ x ∈ pq := by
  by_cases hi : i < pq.length
  · by_cases hj : j < pq.length
    · simp only [List.mem_iff_getElem?]
      constructor
      · rintro ⟨k, hk⟩
        rw [Swap_getElem? pq i j k hi hj] at hk
        split_ifs at hk
        · exact ⟨i, hk⟩
        · exact ⟨j, hk⟩
        · exact ⟨k, hk⟩
      · rintro ⟨k, hk⟩
        by_cases h1 : k = i
        · subst h1
          refine ⟨j, ?_⟩
          rw [Swap_getElem? pq k j j hi hj]
          simp [hk]
        · by_cases h2 : k = j
          · subst h2
            refine ⟨i, ?_⟩
            rw [Swap_getElem? pq i k i hi hj]
            by_cases h3 : i = k
            · simp [h3, hk]
            · simp [h3, hk]
          · refine ⟨k, ?_⟩
            rw [Swap_getElem? pq i j k hi hj]
            simp [h1, h2, hk]
    · have : pq[j]? = none := List.getElem?_eq_none (by omega)
      simp [PriorityQueue.Swap, this]
  · have : pq[i]? = none := List.getElem?_eq_none (by omega)
    simp [PriorityQueue.Swap, this]

theorem heapUpLoop_length (fuel : Nat) (pq : PriorityQueue) (j : Nat) :
    (heapUpLoop fuel pq j).length = pq.length := by
  induction fuel generalizing pq j with
  | zero => rfl
  | succ fuel ih =>
    unfold heapUpLoop
    simp only
    split_ifs
    · rfl
    · rw [ih, Swap_length]

theorem heapUpLoop_mem (fuel : Nat) (pq : PriorityQueue) (j : Nat) (x : Node) :
    x ∈ heapUpLoop fuel pq j ↔ x ∈ pq := by
  induction fuel generalizing pq j with
  | zero => rfl
  | succ fuel ih =>
    unfold heapUpLoop
    simp only
    split_ifs
    · rfl
    · rw [ih, Swap_mem]

theorem heapUpLoop_ordered (fuel : Nat) (pq : PriorityQueue) (j : Nat) (hf : j < fuel)
    (hj : j < pq.length) (hinv : UpInv pq j) :
    HeapOrdered (heapUpLoop fuel pq j) pq.length := by
  induction fuel generalizing pq j with
  | zero => omega
  | succ fuel ih =>
    unfold heapUpLoop
    simp only
    have hi : (j - 1) / 2 < pq.length := by omega
    split_ifs with hc
    · intro k hk0 hk
      by_cases hkj : k = j
      · subst hkj
        rcases hc with hc | hc
        · omega
        · have : ¬ (fAt pq k < fAt pq ((k - 1) / 2)) := by
            rw [← Less_iff pq k _ hj hi]; simpa using hc
          exact not_lt.mp this
      · exact hinv.1 k hk0 hk hkj
    · push_neg at hc
      obtain ⟨hne, hless⟩ := hc
      have hlt : fAt pq j < fAt pq ((j - 1) / 2) := by
        rw [← Less_iff pq j _ hj hi]; simpa using hless
      have hj0 : 0 < j := by omega
      have := ih (pq.Swap ((j - 1) / 2) j) ((j - 1) / 2) (by omega)
        (by rw [Swap_length]; exact hi) ?_
      · rwa [Swap_length] at this
      · constructor
        · intro k hk0 hk hki
          rw [Swap_length] at hk
          rw [Swap_fAt pq _ _ _ hi hj, Swap_fAt pq _ _ _ hi hj]
          by_cases hkj : k = j
          · subst hkj
            simp [hne]
            exact le_of_lt hlt
          · simp only [hkj, hki, if_false]
            by_cases hp : (k - 1) / 2 = j
            · simp only [hp, if_true]
              have := hinv.2 k hk0 hk hp hj0
              exact this
            · simp only [hp, if_false]
              by_cases hq : (k - 1) / 2 = (j - 1) / 2
              · simp only [hq, if_true]
                have := hinv.1 k hk0 hk hkj
                rw [hq] at this
                exact le_trans (le_of_lt hlt) this
              · simp only [hq, if_false]
                exact hinv.1 k hk0 hk hkj
        · intro c hc0 hc hcp hi0
          rw [Swap_length] at hc
          rw [Swap_fAt pq _ _ _ hi hj, Swap_fAt pq _ _ _ hi hj]
          have hgp : fAt pq (((j - 1) / 2 - 1) / 2) ≤ fAt pq ((j - 1) / 2) :=
            hinv.1 _ hi0 hi (by omega)
          have h1 : ((j - 1) / 2 - 1) / 2 ≠ j := by omega
          have h2 : ((j - 1) / 2 - 1) / 2 ≠ (j - 1) / 2 := by omega
          simp only [h1, h2, if_false]
          by_cases hcj : c = j
          · simp only [hcj, if_true]
            exact hgp
          · have hci : c ≠ (j - 1) / 2 := by omega
            simp only [hcj, hci, if_false]
            have := hinv.1 c hc0 hc hcj
            rw [hcp] at this
            exact le_trans hgp this

theorem fAt_append_left (pq : PriorityQueue) (x : Node) (i : Nat) (hi : i < pq.length) :
    fAt (pq ++ [x]) i = fAt pq i := by
  unfold fAt
  rw [List.getElem?_append_left hi]

theorem heapPush_length (pq : PriorityQueue) (x : Node) :
    (heapPush pq x).length = pq.length + 1 := by
  simp [heapPush, heapUp, heapUpLoop_length]

theorem heapPush_mem (pq : PriorityQueue) (x y : Node) :
    y ∈ heapPush pq x ↔ y = x ∨ y ∈ pq := by
  simp [heapPush, heapUp, heapUpLoop_mem, or_comm]

theorem heapPush_ordered (pq : PriorityQueue) (x : Node) (h : HeapOrdered pq pq.length) :
    HeapOrdered (heapPush pq x) (heapPush pq x).length := by
  rw [heapPush_length]
  have := heapUpLoop_ordered (pq.length + 1) (pq ++ [x]) pq.length (by omega) (by simp) ?_
  · simpa [heapPush, heapUp] using this
  · constructor
    · intro i hi0 hi hne
      have hi2 : i < pq.length := by
        simp at hi; omega
      rw [fAt_append_left pq x i hi2, fAt_append_left pq x _ (by omega)]
      exact h i hi0 hi2
    · intro c hc0 hc hcp _
      simp at hc
      omega

theorem heapDownLoop_length (fuel : Nat) (pq : PriorityQueue) (i n : Nat) :
    (heapDownLoop fuel pq i n).length = pq.length := by
  induction fuel generalizing pq i with
  | zero => rfl
  | succ fuel ih =>
    unfold heapDownLoop
    simp only
    split_ifs <;> first | rfl | (rw [ih, Swap_length])

theorem heapDownLoop_mem (fuel : Nat) (pq : PriorityQueue) (i n : Nat) (x : Node) :
    x ∈ heapDownLoop fuel pq i n ↔ x ∈ pq := by
  induction fuel generalizing pq i with
  | zero => rfl
  | succ fuel ih =>
    unfold heapDownLoop
    simp only
    split_ifs <;> first | rfl | (rw [ih, Swap_mem])

theorem heapDownLoop_beyond (fuel : Nat) (pq : PriorityQueue) (i n k : Nat) (hn : n ≤ pq.length)
    (hk : n ≤ k) : (heapDownLoop fuel pq i n)[k]? = pq[k]? := by
  induction fuel generalizing pq i with
  | zero => rfl
  | succ fuel ih =>
    unfold heapDownLoop
    simp only
    split_ifs with h1 h2 h3 h3
    · rfl
    · rfl
    · rw [ih _ _ (by rw [Swap_length]; exact hn),
        Swap_getElem? pq _ _ _ (by omega) (by omega)]
      have : k ≠ 2 * i + 1 + 1 := by omega
      have : k ≠ i := by omega
      simp [*]
    · rfl
    · rw [ih _ _ (by rw [Swap_length]; exact hn),
        Swap_getElem? pq _ _ _ (by omega) (by omega)]
      have : k ≠ 2 * i + 1 := by omega
      have : k ≠ i := by omega
      simp [*]

theorem downInv_swap (pq : PriorityQueue) (n i j : Nat) (hn : n ≤ pq.length) (hj : j < n)
    (hji : (j - 1) / 2 = i) (hj0 : 0 < j) (hinv : DownInv pq n i)
    (hsib : ∀ k, 0 < k → k < n → (k - 1) / 2 = i → fAt pq j ≤ fAt pq k)
    (hlt : fAt pq j < fAt pq i) : DownInv (pq.Swap i j) n j := by
  have hi : i < pq.length := by omega
  have hjl : j < pq.length := by omega
  have hij : i ≠ j := by omega
  constructor
  · intro k hk0 hk hkp
    rw [Swap_fAt pq _ _ _ hi hjl, Swap_fAt pq _ _ _ hi hjl]
    simp only [hkp, if_false]
    by_cases hkj : k = j
    · subst hkj
      simp [hji]
      exact le_of_lt hlt
    · simp only [hkj, if_false]
      by_cases hki : k = i
      · subst hki
        have h1 : (k - 1) / 2 ≠ k := by omega
        simp only [h1, if_false, if_true]
        exact hinv.2 j hj0 hj hji hk0
      · simp only [hki, if_false]
        by_cases hp : (k - 1) / 2 = i
        · simp only [hp, if_true]
          exact hsib k hk0 hk hp
        · simp only [hp, if_false]
          exact hinv.1 k hk0 hk hp
  · intro c hc0 hc hcp _
    rw [Swap_fAt pq _ _ _ hi hjl, Swap_fAt pq _ _ _ hi hjl]
    have h1 : (j - 1) / 2 ≠ j := by omega
    have h2 : c ≠ j := by omega
    have h3 : c ≠ i := by omega
    simp only [h1, hji, h2, h3, hij, if_false, if_true]
    have := hinv.1 c hc0 hc (by omega)
    rwa [hcp] at this

theorem heapDownLoop_ordered (fuel : Nat) (pq : PriorityQueue) (i n : Nat) (hf : n ≤ fuel + i)
    (hn : n ≤ pq.length) (hinv : DownInv pq n i) :
    HeapOrdered (heapDownLoop fuel pq i n) n := by
  induction fuel generalizing pq i with
  | zero =>
    intro k hk0 hk
    exact hinv.1 k hk0 hk (by omega)
  | succ fuel ih =>
    unfold heapDownLoop
    simp only
    split_ifs with h1 h2 h3 h3
    · intro k hk0 hk
      exact hinv.1 k hk0 hk (by omega)
    · -- right child is the smaller one and is not below the parent
      have hr : fAt pq (2 * i + 1 + 1) < fAt pq (2 * i + 1) := by
        rw [← Less_iff pq _ _ (by omega) (by omega)]; exact h2.2
      have hp : ¬ fAt pq (2 * i + 1 + 1) < fAt pq i := by
        rw [← Less_iff pq _ _ (by omega) (by omega)]; simpa using h3
      intro k hk0 hk
      by_cases hkp : (k - 1) / 2 = i
      · rw [hkp]
        have : k = 2 * i + 1 ∨ k = 2 * i + 1 + 1 := by omega
        rcases this with rfl | rfl
        · exact le_trans (not_lt.mp hp) (le_of_lt hr)
        · exact not_lt.mp hp
      · exact hinv.1 k hk0 hk hkp
    · have hr : fAt pq (2 * i + 1 + 1) < fAt pq (2 * i + 1) := by
        rw [← Less_iff pq _ _ (by omega) (by omega)]; exact h2.2
      have hp : fAt pq (2 * i + 1 + 1) < fAt pq i := by
        rw [← Less_iff pq _ _ (by omega) (by omega)]; simpa using h3
      have := ih (pq.Swap i (2 * i + 1 + 1)) (2 * i + 1 + 1) (by omega)
        (by rw [Swap_length]; exact hn)
        (downInv_swap pq n i _ hn h2.1 (by omega) (by omega) hinv ?_ hp)
      · exact this
      · intro k hk0 hk hkp
        have : k = 2 * i + 1 ∨ k = 2 * i + 1 + 1 := by omega
        rcases this with rfl | rfl
        · exact le_of_lt hr
        · exact le_refl _
    · have hr : 2 * i + 1 + 1 < n → fAt pq (2 * i + 1) ≤ fAt pq (2 * i + 1 + 1) := by
        intro hlt
        have : ¬ fAt pq (2 * i + 1 + 1) < fAt pq (2 * i + 1) := by
          rw [← Less_iff pq _ _ (by omega) (by omega)]
          intro hc; exact h2 ⟨hlt, hc⟩
        exact not_lt.mp this
      have hp : ¬ fAt pq (2 * i + 1) < fAt pq i := by
        rw [← Less_iff pq _ _ (by omega) (by omega)]; simpa using h3
      intro k hk0 hk
      by_cases hkp : (k - 1) / 2 = i
      · rw [hkp]
        have : k = 2 * i + 1 ∨ k = 2 * i + 1 + 1 := by omega
        rcases this with rfl | rfl
        · exact not_lt.mp hp
        · exact le_trans (not_lt.mp hp) (hr hk)
      · exact hinv.1 k hk0 hk hkp
    · have hr : 2 * i + 1 + 1 < n → fAt pq (2 * i + 1) ≤ fAt pq (2 * i + 1 + 1) := by
        intro hlt
        have : ¬ fAt pq (2 * i + 1 + 1) < fAt pq (2 * i + 1) := by
          rw [← Less_iff pq _ _ (by omega) (by omega)]
          intro hc; exact h2 ⟨hlt, hc⟩
        exact not_lt.mp this
      have hp : fAt pq (2 * i + 1) < fAt pq i := by
        rw [← Less_iff pq _ _ (by omega) (by omega)]; simpa using h3
      have := ih (pq.Swap i (2 * i + 1)) (2 * i + 1) (by omega)
        (by rw [Swap_length]; exact hn)
        (downInv_swap pq n i _ hn (by omega) (by omega) (by omega) hinv ?_ hp)
      · exact this
      · intro k hk0 hk hkp
        have : k = 2 * i + 1 ∨ k = 2 * i + 1 + 1 := by omega
        rcases this with rfl | rfl
        · exact le_refl _
        · exact hr hk

theorem heapOrdered_root_le (pq : PriorityQueue) (n : Nat) (h : HeapOrdered pq n) (k : Nat)
    (hk : k < n) : fAt pq 0 ≤ fAt pq k := by
  induction k using Nat.strong_induction_on with
  | _ k ih =>
    by_cases hk0 : k = 0
    · subst hk0; exact le_refl _
    · exact le_trans (ih ((k - 1) / 2) (by omega) (by omega)) (h k (by omega) hk)

theorem fAt_of_getElem? (pq : PriorityQueue) (k : Nat) (y : Node) (h : pq[k]? = some y) :
    fAt pq k = y.FScore := by
  simp [fAt, h]

/-- What `heap.Pop` returns on a non-empty queue: the old root, and the queue
cut by one slot with the same remaining nodes. -/
theorem heapPop_spec (pq : PriorityQueue) (hne : pq ≠ []) :
    ∃ x pq1, heapPop pq = some (x, pq1) ∧ pq[0]? = some x ∧
      pq1.length + 1 = pq.length ∧ (∀ y, y ∈ pq ↔ y = x ∨ y ∈ pq1) ∧
      (HeapOrdered pq pq.length → HeapOrdered pq1 pq1.length) := by
  obtain ⟨a, l, rfl⟩ := List.exists_cons_of_ne_nil hne
  set pq : PriorityQueue := a :: l with hpq
  set n := pq.length - 1 with hn
  have hlen : pq.length = n + 1 := by simp [hn, hpq]
  set pq0 : PriorityQueue := PriorityQueue.Swap pq 0 n with hpq0
  set pq1 : PriorityQueue := heapDownLoop n pq0 0 n with hpq1
  have hlen0 : pq0.length = n + 1 := by rw [hpq0, Swap_length, hlen]
  have hlen1 : pq1.length = n + 1 := by rw [hpq1, heapDownLoop_length, hlen0]
  have hlast : pq1[n]? = pq[0]? := by
    rw [hpq1, heapDownLoop_beyond n pq0 0 n n (by omega) (le_refl _), hpq0,
      Swap_getElem? pq 0 n n (by omega) (by omega)]
    simp
  have hx : pq[0]? = some a := by simp [hpq]
  have hgl : pq1.getLast? = some a := by
    rw [List.getLast?_eq_getElem?, hlen1]
    simpa [hx] using hlast
  refine ⟨a, pq1.dropLast, ?_, hx, ?_, ?_, ?_⟩
  · show heapPop (a :: l) = _
    simp only [heapPop, heapDown]
    rw [← hpq, ← hn, ← hpq0, ← hpq1, hgl]
  · simp [hlen1, hlen]
  · intro y
    have h1 : y ∈ pq ↔ y ∈ pq1 := by
      rw [hpq1, heapDownLoop_mem, hpq0, Swap_mem]
    have h2 : pq1 = pq1.dropLast ++ [a] := (List.dropLast_append_getLast? a hgl).symm
    rw [h1]
    constructor
    · intro hy
      rw [h2] at hy
      simp at hy
      tauto
    · intro hy
      rw [h2]
      simp
      tauto
  · intro ho
    have hd : DownInv pq0 n 0 := by
      constructor
      · intro k hk0 hk hkp
        rw [hpq0, Swap_fAt pq 0 n _ (by omega) (by omega),
          Swap_fAt pq 0 n _ (by omega) (by omega)]
        have h1 : k ≠ n := by omega
        have h2 : k ≠ 0 := by omega
        have h3 : (k - 1) / 2 ≠ n := by omega
        simp only [h1, h2, h3, hkp, if_false]
        exact ho k hk0 (by omega)
      · intro c _ _ _ h0
        omega
    have hord := heapDownLoop_ordered n pq0 0 n (by omega) (by omega) hd
    rw [← hpq1] at hord
    intro k hk0 hk
    simp [hlen1] at hk
    have e : ∀ m, m < n → fAt pq1.dropLast m = fAt pq1 m := by
      intro m hm
      unfold fAt
      rw [List.dropLast_eq_take, List.getElem?_take_of_lt (by omega)]
    rw [e k hk, e _ (by omega)]
    exact hord k hk0 hk

theorem heapPop_nil : heapPop [] = none := rfl

theorem heapPop_min (pq : PriorityQueue) (x : Node) (pq1 : PriorityQueue)
    (h : heapPop pq = some (x, pq1)) (ho : HeapOrdered pq pq.length) :
    ∀ y ∈ pq, x.FScore ≤ y.FScore := by
  have hne : pq ≠ [] := by
    rintro rfl
    simp [heapPop_nil] at h
  obtain ⟨x', pq1', hp, hx, -⟩ := heapPop_spec pq hne
  rw [h] at hp
  obtain ⟨rfl, rfl⟩ := Prod.mk.inj (Option.some.inj hp)
  intro y hy
  obtain ⟨k, hk⟩ := List.mem_iff_getElem?.1 hy
  have hkl : k < pq.length := by
    by_contra hc
    rw [List.getElem?_eq_none (by omega)] at hk
    cases hk
  have := heapOrdered_root_le pq pq.length ho k hkl
  rwa [fAt_of_getElem? pq 0 x hx, fAt_of_getElem? pq k y hk] at this

theorem heapPop_some (pq : PriorityQueue) (x : Node) (pq1 : PriorityQueue)
    (h : heapPop pq = some (x, pq1)) :
    pq1.length + 1 = pq.length ∧ (∀ y, y ∈ pq ↔ y = x ∨ y ∈ pq1) ∧
      (HeapOrdered pq pq.length → HeapOrdered pq1 pq1.length) := by
  have hne : pq ≠ [] := by
    rintro rfl
    simp [heapPop_nil] at h
  obtain ⟨x', pq1', hp, -, h1, h2, h3⟩ := heapPop_spec pq hne
  rw [h] at hp
  obtain ⟨rfl, rfl⟩ := Prod.mk.inj (Option.some.inj hp)
  exact ⟨h1, h2, h3⟩

theorem heapPop_eq_none (pq : PriorityQueue) (h : heapPop pq = none) : pq = [] := by
  by_contra hne
  obtain ⟨x, pq1, hp, -⟩ := heapPop_spec pq hne
  rw [h] at hp
  cases hp

theorem heapOrdered_nil : HeapOrdered [] ([] : PriorityQueue).length := by
  intro i _ hi
  simp at hi

/-! ## The neighbour expander of Dijkstra -/

theorem mem_expandBreaking (w : World) (cur : Point) (dirs ns : List Point) (bp : PointSet)
    (v : Point) :
    v ∈ (dijkstraExpandBreaking w cur dirs (ns, bp)).1 ↔
      v ∈ ns ∨ ∃ d ∈ dirs, v = cur.shift d ∧ (w.IsWalkable v = true ∨ w.CanBreak v = true) := by
  induction dirs generalizing ns bp with
  | nil => simp [dijkstraExpandBreaking]
  | cons d rest ih =>
    unfold dijkstraExpandBreaking
    simp only
    have e : (⟨cur.X + d.X, cur.Y + d.Y, cur.Z + d.Z⟩ : Point) = cur.shift d := rfl
    rw [e]
    split_ifs with h1 h2
    · rw [ih]
      simp only [List.mem_append, List.mem_cons, List.not_mem_nil, or_false, exists_eq_or_imp]
      constructor
      · rintro ((h | h) | h)
        · exact Or.inl h
        · exact Or.inr (Or.inl ⟨h, by rw [h]; exact Or.inl h1⟩)
        · exact Or.inr (Or.inr h)
      · rintro (h | ⟨h, _⟩ | h)
        · exact Or.inl (Or.inl h)
        · exact Or.inl (Or.inr h)
        · exact Or.inr h
    · rw [ih]
      simp only [List.mem_append, List.mem_cons, List.not_mem_nil, or_false, exists_eq_or_imp]
      constructor
      · rintro ((h | h) | h)
        · exact Or.inl h
        · exact Or.inr (Or.inl ⟨h, by rw [h]; exact Or.inr h2⟩)
        · exact Or.inr (Or.inr h)
      · rintro (h | ⟨h, _⟩ | h)
        · exact Or.inl (Or.inl h)
        · exact Or.inl (Or.inr h)
        · exact Or.inr h
    · rw [ih]
      simp only [List.mem_cons, exists_eq_or_imp]
      constructor
      · rintro (h | h)
        · exact Or.inl h
        · exact Or.inr (Or.inr h)
      · rintro (h | ⟨h, h3⟩ | h)
        · exact Or.inl h
        · rw [h] at h3; rcases h3 with h3 | h3
          · exact absurd h3 h1
          · exact absurd h3 h2
        · exact Or.inr h

theorem expandBreaking_marks (w : World) (cur : Point) (dirs ns : List Point) (bp : PointSet)
    (p : Point) :
    (dijkstraExpandBreaking w cur dirs (ns, bp)).2 p = true ↔
      bp p = true ∨ ∃ d ∈ dirs, p = cur.shift d ∧ w.IsWalkable p = false ∧ w.CanBreak p = true := by
  induction dirs generalizing ns bp with
  | nil => simp [dijkstraExpandBreaking]
  | cons d rest ih =>
    unfold dijkstraExpandBreaking
    simp only
    have e : (⟨cur.X + d.X, cur.Y + d.Y, cur.Z + d.Z⟩ : Point) = cur.shift d := rfl
    rw [e]
    split_ifs with h1 h2
    · rw [ih]
      simp only [List.mem_cons, exists_eq_or_imp]
      constructor
      · rintro (h | h)
        · exact Or.inl h
        · exact Or.inr (Or.inr h)
      · rintro (h | ⟨h, h3, _⟩ | h)
        · exact Or.inl h
        · rw [h, h1] at h3; cases h3
        · exact Or.inr h
    · rw [ih]
      simp only [List.mem_cons, exists_eq_or_imp, PointSet.add]
      constructor
      · rintro (h | h)
        · by_cases hp : p = cur.shift d
          · exact Or.inr (Or.inl ⟨hp, by rw [hp]; simpa using h1, by rw [hp]; exact h2⟩)
          · simp only [hp, if_false] at h; exact Or.inl h
        · exact Or.inr (Or.inr h)
      · rintro (h | ⟨h, _⟩ | h)
        · left; split_ifs <;> simp [h]
        · left; simp [h]
        · exact Or.inr h
    · rw [ih]
      simp only [List.mem_cons, exists_eq_or_imp]
      constructor
      · rintro (h | h)
        · exact Or.inl h
        · exact Or.inr (Or.inr h)
      · rintro (h | ⟨h, _, h3⟩ | h)
        · exact Or.inl h
        · rw [h] at h3; exact absurd h3 h2
        · exact Or.inr h

theorem eq_and_iff {α : Type} (P : α → Prop) (v a : α) : (v = a ∧ P v) ↔ (v = a ∧ P a) := by
  constructor
  · rintro ⟨rfl, h⟩; exact ⟨rfl, h⟩
  · rintro ⟨rfl, h⟩; exact ⟨rfl, h⟩

theorem mem_expandPlain (w : World) (o : PathfindingOptions) (cur : Point)
    (dirs ns : List Point) (v : Point) :
    v ∈ dijkstraExpandPlain w o cur dirs ns ↔
      v ∈ ns ∨ ∃ d ∈ dirs, v = cur.shift d ∧ w.IsWalkable v = true ∧
        (!o.AvoidWater || w.GetBlockType v != "water") = true := by
  induction dirs generalizing ns with
  | nil => simp [dijkstraExpandPlain]
  | cons d rest ih =>
    simp only [List.mem_cons, exists_eq_or_imp]
    rw [eq_and_iff (fun x => w.IsWalkable x = true ∧
        (!o.AvoidWater || w.GetBlockType x != "water") = true) v (cur.shift d)]
    unfold dijkstraExpandPlain
    show v ∈ (if w.IsWalkable (cur.shift d) = true then
        if (!o.AvoidWater || w.GetBlockType (cur.shift d) != "water") = true then
          dijkstraExpandPlain w o cur rest (ns ++ [cur.shift d])
        else dijkstraExpandPlain w o cur rest ns
      else dijkstraExpandPlain w o cur rest ns) ↔ _
    split_ifs with h1 h2
    · rw [ih, List.mem_append, List.mem_singleton]
      simp only [h1, h2, and_true]
      tauto
    · rw [ih]
      simp [h1, h2]
    · rw [ih]
      simp [h1]

theorem mem_expandPlacing (w : World) (cur : Point) (dirs ns : List Point) (pp : PointSet)
    (v : Point) :
    v ∈ (dijkstraExpandPlacing w cur dirs (ns, pp)).1 ↔
      v ∈ ns ∨ ∃ d ∈ dirs, (v = cur.shift d ∧ w.IsWalkable v = true) ∨
        (v = cur.shift2 d ∧ w.IsWalkable v = false ∧ (w.GetBlockType v.below != "air") = true) := by
  induction dirs generalizing ns pp with
  | nil => simp [dijkstraExpandPlacing]
  | cons d rest ih =>
    simp only [List.mem_cons, exists_eq_or_imp]
    rw [eq_and_iff (fun x => w.IsWalkable x = true) v (cur.shift d),
      eq_and_iff (fun x => w.IsWalkable x = false ∧ (w.GetBlockType x.below != "air") = true)
        v (cur.shift2 d)]
    generalize (∃ d ∈ rest, (v = cur.shift d ∧ w.IsWalkable v = true) ∨
        (v = cur.shift2 d ∧ w.IsWalkable v = false ∧
          (w.GetBlockType v.below != "air") = true)) = E at ih ⊢
    unfold dijkstraExpandPlacing
    show v ∈ (if (!w.IsWalkable (cur.shift2 d)) = true then
        if (w.GetBlockType (cur.shift2 d).below != "air") = true then
          dijkstraExpandPlacing w cur rest
            ((if w.IsWalkable (cur.shift d) = true then ns ++ [cur.shift d] else ns)
              ++ [cur.shift2 d], pp.add (cur.shift2 d))
        else dijkstraExpandPlacing w cur rest
          (if w.IsWalkable (cur.shift d) = true then ns ++ [cur.shift d] else ns, pp)
      else dijkstraExpandPlacing w cur rest
          (if w.IsWalkable (cur.shift d) = true then ns ++ [cur.shift d] else ns, pp)).1 ↔ _
    generalize w.IsWalkable (cur.shift d) = A
    generalize w.IsWalkable (cur.shift2 d) = B
    generalize (w.GetBlockType (cur.shift2 d).below != "air") = C
    cases A <;> cases B <;> cases C <;> simp [ih] <;> tauto

theorem expandPlacing_marks (w : World) (cur : Point) (dirs ns : List Point) (pp : PointSet)
    (p : Point) :
    (dijkstraExpandPlacing w cur dirs (ns, pp)).2 p = true ↔
      pp p = true ∨ ∃ d ∈ dirs, p = cur.shift2 d ∧ w.IsWalkable p = false ∧
        (w.GetBlockType p.below != "air") = true := by
  induction dirs generalizing ns pp with
  | nil => simp [dijkstraExpandPlacing]
  | cons d rest ih =>
    simp only [List.mem_cons, exists_eq_or_imp]
    rw [eq_and_iff (fun x => w.IsWalkable x = false ∧ (w.GetBlockType x.below != "air") = true)
        p (cur.shift2 d)]
    generalize (∃ d ∈ rest, p = cur.shift2 d ∧ w.IsWalkable p = false ∧
        (w.GetBlockType p.below != "air") = true) = E at ih ⊢
    unfold dijkstraExpandPlacing
    show (if (!w.IsWalkable (cur.shift2 d)) = true then
        if (w.GetBlockType (cur.shift2 d).below != "air") = true then
          dijkstraExpandPlacing w cur rest
            ((if w.IsWalkable (cur.shift d) = true then ns ++ [cur.shift d] else ns)
              ++ [cur.shift2 d], pp.add (cur.shift2 d))
        else dijkstraExpandPlacing w cur rest
          (if w.IsWalkable (cur.shift d) = true then ns ++ [cur.shift d] else ns, pp)
      else dijkstraExpandPlacing w cur rest
          (if w.IsWalkable (cur.shift d) = true then ns ++ [cur.shift d] else ns, pp)).2 p = true
      ↔ _
    generalize w.IsWalkable (cur.shift d) = A
    generalize w.IsWalkable (cur.shift2 d) = B
    generalize (w.GetBlockType (cur.shift2 d).below != "air") = C
    by_cases hp : p = cur.shift2 d
    · subst hp
      cases A <;> cases B <;> cases C <;> simp [ih, PointSet.add]
    · cases A <;> cases B <;> cases C <;> simp [ih, PointSet.add, hp]

theorem isBreakPoint_iff (w : World) (o : PathfindingOptions) (p : Point) :
    isBreakPoint w o p = true ↔
      o.AllowBreaking = true ∧ w.IsWalkable p = false ∧ w.CanBreak p = true := by
  simp [isBreakPoint, and_assoc]

theorem isPlacePoint_iff (w : World) (o : PathfindingOptions) (p : Point) :
    isPlacePoint w o p = true ↔
      o.AllowBreaking = false ∧ o.AllowPlacing = true ∧ w.IsWalkable p = false ∧
        (w.GetBlockType p.below != "air") = true := by
  simp [isPlacePoint, Point.below, and_assoc]

theorem mem_dijkstraNeighbors (w : World) (o : PathfindingOptions) (u v : Point) :
    v ∈ dijkstraNeighbors w o u ↔
      (o.AllowBreaking = true ∧ ∃ d ∈ directions6, v = u.shift d ∧
        (w.IsWalkable v = true ∨ w.CanBreak v = true)) ∨
      (o.AllowBreaking = false ∧ o.AllowPlacing = true ∧ ∃ d ∈ directions4,
        (v = u.shift d ∧ w.IsWalkable v = true) ∨
        (v = u.shift2 d ∧ w.IsWalkable v = false ∧ (w.GetBlockType v.below != "air") = true)) ∨
      (o.AllowBreaking = false ∧ o.AllowPlacing = false ∧ ∃ d ∈ directions6,
        v = u.shift d ∧ w.IsWalkable v = true ∧
          (!o.AvoidWater || w.GetBlockType v != "water") = true) := by
  unfold dijkstraNeighbors dijkstraExpand
  cases hb : o.AllowBreaking <;> cases hp : o.AllowPlacing <;>
    simp [mem_expandBreaking, mem_expandPlacing, mem_expandPlain]

theorem mem_dijkstraExpand (w : World) (o : PathfindingOptions) (u : Point) (bp pp : PointSet)
    (v : Point) :
    v ∈ (dijkstraExpand w o u bp pp).1 ↔ v ∈ dijkstraNeighbors w o u := by
  unfold dijkstraNeighbors dijkstraExpand
  cases hb : o.AllowBreaking <;> cases hp : o.AllowPlacing <;>
    simp [mem_expandBreaking, mem_expandPlacing, mem_expandPlain]

theorem dijkstraExpand_breakPoints (w : World) (o : PathfindingOptions) (u : Point)
    (bp pp : PointSet) (p : Point) :
    (dijkstraExpand w o u bp pp).2.1 p = true ↔
      bp p = true ∨ (p ∈ dijkstraNeighbors w o u ∧ isBreakPoint w o p = true) := by
  rw [mem_dijkstraNeighbors, isBreakPoint_iff]
  unfold dijkstraExpand
  cases hb : o.AllowBreaking <;> cases hp : o.AllowPlacing <;>
    simp [expandBreaking_marks]
  all_goals apply or_congr_right
  all_goals constructor
  all_goals first
    | (rintro ⟨d, hd, h1, h2, h3⟩; exact ⟨⟨d, hd, h1, Or.inr h3⟩, h2, h3⟩)
    | (rintro ⟨⟨d, hd, h1, _⟩, h2, h3⟩; exact ⟨d, hd, h1, h2, h3⟩)

theorem dijkstraExpand_placePoints (w : World) (o : PathfindingOptions) (u : Point)
    (bp pp : PointSet) (p : Point) :
    (dijkstraExpand w o u bp pp).2.2 p = true ↔
      pp p = true ∨ (p ∈ dijkstraNeighbors w o u ∧ isPlacePoint w o p = true) := by
  rw [mem_dijkstraNeighbors, isPlacePoint_iff]
  unfold dijkstraExpand
  cases hb : o.AllowBreaking <;> cases hp : o.AllowPlacing <;>
    simp [expandPlacing_marks]
  apply or_congr_right
  constructor
  · rintro ⟨d, hd, h1, h2, h3⟩
    exact ⟨⟨d, hd, Or.inr ⟨h1, h2, h3⟩⟩, h2, h3⟩
  · rintro ⟨⟨d, hd, h | h⟩, h2, h3⟩
    · rw [h.2] at h2; cases h2
    · exact ⟨d, hd, h.1, h2, h3⟩

/-! ## Edge costs -/

theorem GetMovementCost_pos (w : World) (u v : Point) : 0 < w.GetMovementCost u v := by
  have hup : v.Y > u.Y → (0 : ℚ) ≤ 1 * ((v.Y - u.Y : Int) : ℚ) := by
    intro h
    have : (0 : ℚ) ≤ ((v.Y - u.Y : Int) : ℚ) := by
      exact_mod_cast (by omega : (0 : Int) ≤ v.Y - u.Y)
    linarith
  have hdn : v.Y < u.Y → (0 : ℚ) ≤ (2 / 10) * ((u.Y - v.Y : Int) : ℚ) := by
    intro h
    have : (0 : ℚ) ≤ ((u.Y - v.Y : Int) : ℚ) := by
      exact_mod_cast (by omega : (0 : Int) ≤ u.Y - v.Y)
    linarith
  have hbase : (0 : ℚ) < (if u.X ≠ v.X ∧ u.Z ≠ v.Z then (1414 / 1000 : ℚ) else 1) := by
    split_ifs <;> norm_num
  unfold World.GetMovementCost
  dsimp only
  generalize (if u.X ≠ v.X ∧ u.Z ≠ v.Z then (1414 / 1000 : ℚ) else 1) = base at hbase ⊢
  generalize 1 * ((v.Y - u.Y : Int) : ℚ) = up at hup ⊢
  generalize (2 / 10) * ((u.Y - v.Y : Int) : ℚ) = dn at hdn ⊢
  have hcore : (0 : ℚ) < (if v.Y > u.Y then base + up else if v.Y < u.Y then base + dn
      else base) := by
    split_ifs with h1 h2
    · linarith [hup h1]
    · linarith [hdn h2]
    · exact hbase
  generalize (if v.Y > u.Y then base + up else if v.Y < u.Y then base + dn else base) = core
    at hcore ⊢
  cases w.GetBlock v with
  | none => exact hcore
  | some b =>
    dsimp only
    split_ifs with hm
    · exact mul_pos hcore hm
    · exact hcore

theorem abs_nonneg_int (x : Int) : 0 ≤ abs x := by
  unfold abs
  split_ifs <;> omega

theorem dijkstraMoveCost_pos (w : World) (o : PathfindingOptions) (bp pp : PointSet)
    (u v : Point) : 0 < dijkstraMoveCost w o bp pp u v := by
  unfold dijkstraMoveCost
  have h0 := GetMovementCost_pos w u v
  have h1 : (0 : ℚ) ≤ ((abs (v.Y - u.Y) : Int) : ℚ) := by
    exact_mod_cast abs_nonneg_int _
  simp only
  split_ifs <;> linarith

theorem edgeCost_pos (w : World) (o : PathfindingOptions) (u v : Point) :
    0 < edgeCost w o u v :=
  dijkstraMoveCost_pos w o _ _ u v

theorem dijkstraMoveCost_eq_edgeCost (w : World) (o : PathfindingOptions) (bp pp : PointSet)
    (u v : Point) (h1 : bp v = isBreakPoint w o v) (h2 : pp v = isPlacePoint w o v) :
    dijkstraMoveCost w o bp pp u v = edgeCost w o u v := by
  unfold edgeCost dijkstraMoveCost
  rw [h1, h2]

/-! ## Parent chains -/

theorem Node.cells_ne_nil (n : Node) : n.cells ≠ [] := by
  cases n <;> simp [Node.cells]

theorem Node.cells_getLast? (n : Node) : n.cells.getLast? = some n.Position := by
  cases n <;> simp [Node.cells, Node.Position]

theorem Node.cells_tail_child (p : Point) (g f : ℚ) (parent : Node) :
    (Node.child p g f parent).cells.tail = parent.cells.tail ++ [p] := by
  simp only [Node.cells]
  cases h : parent.cells with
  | nil => exact absurd h parent.cells_ne_nil
  | cons a l => simp

theorem Node.cells_head? (w : World) (o : PathfindingOptions) (start : Point) (n : Node)
    (h : n.Good w o start) : n.cells.head? = some start := by
  induction n with
  | root p g f => simp [Node.cells, h.1]
  | child p g f parent ih =>
    have := ih h.1
    simp only [Node.cells]
    cases hc : parent.cells with
    | nil => exact absurd hc parent.cells_ne_nil
    | cons a l => rw [hc] at this; simpa using this

/-! ## The relaxation loop of Dijkstra -/

theorem dijkstraRelax_cons_visited (w : World) (o : PathfindingOptions) (cur : Node)
    (V bp pp : PointSet) (v : Point) (rest : List Point) (os : PriorityQueue) (g : GScoreMap)
    (h : V v = true) :
    dijkstraRelax w o cur V bp pp (v :: rest) (os, g) =
      dijkstraRelax w o cur V bp pp rest (os, g) := by
  rw [dijkstraRelax]
  simp [h]

theorem dijkstraRelax_cons_better (w : World) (o : PathfindingOptions) (cur : Node)
    (V bp pp : PointSet) (v : Point) (rest : List Point) (os : PriorityQueue) (g : GScoreMap)
    (h : V v = false)
    (hb : ∀ val, g v = some val →
      g.getD cur.Position + dijkstraMoveCost w o bp pp cur.Position v < val) :
    dijkstraRelax w o cur V bp pp (v :: rest) (os, g) =
      dijkstraRelax w o cur V bp pp rest
        (heapPush os (Node.child v (g.getD cur.Position + dijkstraMoveCost w o bp pp cur.Position v)
            (g.getD cur.Position + dijkstraMoveCost w o bp pp cur.Position v) cur),
         g.set v (g.getD cur.Position + dijkstraMoveCost w o bp pp cur.Position v)) := by
  rw [dijkstraRelax]
  cases hg : g v with
  | none => simp [h, hg]
  | some val => simp [h, hg, hb val hg]

theorem dijkstraRelax_cons_worse (w : World) (o : PathfindingOptions) (cur : Node)
    (V bp pp : PointSet) (v : Point) (rest : List Point) (os : PriorityQueue) (g : GScoreMap)
    (h : V v = false) (val : ℚ) (hg : g v = some val)
    (hb : ¬ g.getD cur.Position + dijkstraMoveCost w o bp pp cur.Position v < val) :
    dijkstraRelax w o cur V bp pp (v :: rest) (os, g) =
      dijkstraRelax w o cur V bp pp rest (os, g) := by
  rw [dijkstraRelax]
  simp [h, hg, hb]

theorem GScoreMap.set_self (g : GScoreMap) (p : Point) (x : ℚ) : g.set p x p = some x := by
  simp [GScoreMap.set]

theorem GScoreMap.set_ne (g : GScoreMap) (p q : Point) (x : ℚ) (h : q ≠ p) :
    g.set p x q = g q := by
  simp [GScoreMap.set, h]

theorem GScoreMap.getD_of_some (g : GScoreMap) (p : Point) (x : ℚ) (h : g p = some x) :
    g.getD p = x := by
  simp [GScoreMap.getD, h]

/-- Pushing a relaxed neighbour keeps the open-set invariant. -/
theorem OpenInv.push (w : World) (o : PathfindingOptions) (start : Point) (V bp pp : PointSet)
    (os : PriorityQueue) (g : GScoreMap) (cur : Node) (v : Point)
    (hinv : OpenInv w o start V bp pp os g)
    (hgood : cur.Good w o start)
    (hrec : ∀ p ∈ cur.cells.tail, bp p = isBreakPoint w o p ∧ pp p = isPlacePoint w o p)
    (hcur : g cur.Position = some cur.GScore)
    (hv : v ∈ dijkstraNeighbors w o cur.Position)
    (hbp : bp v = isBreakPoint w o v) (hpp : pp v = isPlacePoint w o v)
    (hb : ∀ val, g v = some val → cur.GScore + edgeCost w o cur.Position v < val) :
    OpenInv w o start V bp pp
      (heapPush os (Node.child v (cur.GScore + edgeCost w o cur.Position v)
        (cur.GScore + edgeCost w o cur.Position v) cur))
      (g.set v (cur.GScore + edgeCost w o cur.Position v)) := by
  have hpos := edgeCost_pos w o cur.Position v
  have hcur0 : 0 ≤ cur.GScore := hinv.gnonneg _ _ hcur
  constructor
  · exact heapPush_ordered _ _ hinv.ordered
  · intro n hn
    rcases (heapPush_mem _ _ _).1 hn with rfl | hn
    · exact ⟨hgood, hv, rfl⟩
    · exact hinv.good n hn
  · intro n hn
    rcases (heapPush_mem _ _ _).1 hn with rfl | hn
    · rfl
    · exact hinv.fg n hn
  · intro n hn p hp
    rcases (heapPush_mem _ _ _).1 hn with rfl | hn
    · rw [Node.cells_tail_child, List.mem_append, List.mem_singleton] at hp
      rcases hp with hp | rfl
      · exact hrec p hp
      · exact ⟨hbp, hpp⟩
    · exact hinv.recorded n hn p hp
  · intro n hn
    rcases (heapPush_mem _ _ _).1 hn with rfl | hn
    · exact ⟨_, GScoreMap.set_self _ _ _, le_refl _⟩
    · obtain ⟨gv, hgv, hle⟩ := hinv.i1 n hn
      by_cases hp : n.Position = v
      · refine ⟨_, by rw [hp]; exact GScoreMap.set_self _ _ _, ?_⟩
        rw [hp] at hgv
        exact le_trans (le_of_lt (hb gv hgv)) hle
      · exact ⟨gv, by rw [GScoreMap.set_ne _ _ _ _ hp]; exact hgv, hle⟩
  · intro p gv hV hg
    by_cases hp : p = v
    · subst hp
      rw [GScoreMap.set_self] at hg
      refine ⟨_, (heapPush_mem _ _ _).2 (Or.inl rfl), rfl, ?_⟩
      exact Option.some.inj hg
    · rw [GScoreMap.set_ne _ _ _ _ hp] at hg
      obtain ⟨n, hn, h1, h2⟩ := hinv.i2 p gv hV hg
      exact ⟨n, (heapPush_mem _ _ _).2 (Or.inr hn), h1, h2⟩
  · intro p gv hg
    by_cases hp : p = v
    · subst hp
      rw [GScoreMap.set_self] at hg
      have := Option.some.inj hg
      linarith
    · rw [GScoreMap.set_ne _ _ _ _ hp] at hg
      exact hinv.gnonneg p gv hg
  · by_cases hp : start = v
    · have := hb 0 (by rw [← hp]; exact hinv.gstart)
      linarith
    · rw [GScoreMap.set_ne _ _ _ _ hp]
      exact hinv.gstart

/-- Result of the relaxation loop: the invariant is kept, closed cells keep
their g-score, no g-score grows, and every open neighbour in the slice ends up
with a g-score no larger than the one through `cur`. -/
theorem dijkstraRelax_inv (w : World) (o : PathfindingOptions) (start : Point)
    (V bp pp : PointSet) (cur : Node)
    (hgood : cur.Good w o start)
    (hrec : ∀ p ∈ cur.cells.tail, bp p = isBreakPoint w o p ∧ pp p = isPlacePoint w o p)
    (hVcur : V cur.Position = true)
    (l : List Point) (os : PriorityQueue) (g : GScoreMap)
    (hl : ∀ v ∈ l, v ∈ dijkstraNeighbors w o cur.Position ∧
      bp v = isBreakPoint w o v ∧ pp v = isPlacePoint w o v)
    (hinv : OpenInv w o start V bp pp os g)
    (hcur : g cur.Position = some cur.GScore) :
    OpenInv w o start V bp pp (dijkstraRelax w o cur V bp pp l (os, g)).1
        (dijkstraRelax w o cur V bp pp l (os, g)).2 ∧
      (∀ p, V p = true → (dijkstraRelax w o cur V bp pp l (os, g)).2 p = g p) ∧
      (∀ p gv, g p = some gv →
        ∃ gv1, (dijkstraRelax w o cur V bp pp l (os, g)).2 p = some gv1 ∧ gv1 ≤ gv) ∧
      (∀ v ∈ l, V v = false →
        ∃ gv, (dijkstraRelax w o cur V bp pp l (os, g)).2 v = some gv ∧
          gv ≤ cur.GScore + edgeCost w o cur.Position v) := by
  induction l generalizing os g with
  | nil =>
    refine ⟨hinv, fun _ _ => rfl, fun p gv h => ⟨gv, h, le_refl _⟩, ?_⟩
    intro v hv
    cases hv
  | cons v rest ih =>
    have hrest : ∀ x ∈ rest, x ∈ dijkstraNeighbors w o cur.Position ∧
        bp x = isBreakPoint w o x ∧ pp x = isPlacePoint w o x :=
      fun x hx => hl x (List.mem_cons_of_mem _ hx)
    obtain ⟨hv, hbp, hpp⟩ := hl v (List.mem_cons_self _ _)
    have hmc := dijkstraMoveCost_eq_edgeCost w o bp pp cur.Position v hbp hpp
    have hgd := GScoreMap.getD_of_some g _ _ hcur
    by_cases hV : V v = true
    · rw [dijkstraRelax_cons_visited _ _ _ _ _ _ _ _ _ _ hV]
      obtain ⟨h1, h2, h3, h4⟩ := ih os g hrest hinv hcur
      refine ⟨h1, h2, h3, ?_⟩
      intro x hx hVx
      rcases List.mem_cons.1 hx with rfl | hx
      · rw [hV] at hVx; cases hVx
      · exact h4 x hx hVx
    · have hVf : V v = false := by simpa using hV
      by_cases hb : ∀ val, g v = some val → cur.GScore + edgeCost w o cur.Position v < val
      · rw [dijkstraRelax_cons_better _ _ _ _ _ _ _ _ _ _ hVf (by rw [hmc, hgd]; exact hb),
          hmc, hgd]
        have hne : cur.Position ≠ v := by
          intro h; rw [h] at hVcur; exact hV hVcur
        have hinv1 := OpenInv.push w o start V bp pp os g cur v hinv hgood hrec hcur hv hbp hpp hb
        obtain ⟨h1, h2, h3, h4⟩ := ih _ _ hrest hinv1
          (by rw [GScoreMap.set_ne _ _ _ _ hne]; exact hcur)
        refine ⟨h1, ?_, ?_, ?_⟩
        · intro p hp
          rw [h2 p hp, GScoreMap.set_ne]
          intro h; rw [h] at hp; exact hV hp
        · intro p gv hg
          by_cases hpv : p = v
          · subst hpv
            obtain ⟨gv1, hg1, hle⟩ := h3 p _ (GScoreMap.set_self _ _ _)
            exact ⟨gv1, hg1, le_trans hle (le_of_lt (hb gv hg))⟩
          · exact h3 p gv (by rw [GScoreMap.set_ne _ _ _ _ hpv]; exact hg)
        · intro x hx hVx
          rcases List.mem_cons.1 hx with rfl | hx
          · exact h3 x _ (GScoreMap.set_self _ _ _)
          · exact h4 x hx hVx
      · push_neg at hb
        obtain ⟨val, hg, hle⟩ := hb
        rw [dijkstraRelax_cons_worse _ _ _ _ _ _ _ _ _ _ hVf val hg
          (by rw [hmc, hgd]; exact not_lt.mpr hle)]
        obtain ⟨h1, h2, h3, h4⟩ := ih os g hrest hinv hcur
        refine ⟨h1, h2, h3, ?_⟩
        intro x hx hVx
        rcases List.mem_cons.1 hx with rfl | hx
        · obtain ⟨gv1, hg1, hle1⟩ := h3 x val hg
          exact ⟨gv1, hg1, le_trans hle1 hle⟩
        · exact h4 x hx hVx

/-- When every open neighbour already has a g-score no larger than the one
through `cur`, the relaxation loop changes nothing. -/
theorem dijkstraRelax_noop (w : World) (o : PathfindingOptions)
    (V bp pp : PointSet) (cur : Node) (gc : ℚ)
    (l : List Point) (os : PriorityQueue) (g : GScoreMap)
    (hcur : g cur.Position = some gc)
    (hl : ∀ v ∈ l, V v = false →
      ∃ gv, g v = some gv ∧ gv ≤ gc + dijkstraMoveCost w o bp pp cur.Position v) :
    dijkstraRelax w o cur V bp pp l (os, g) = (os, g) := by
  induction l with
  | nil => rfl
  | cons v rest ih =>
    have hrest := ih (fun x hx => hl x (List.mem_cons_of_mem _ hx))
    by_cases hV : V v = true
    · rw [dijkstraRelax_cons_visited _ _ _ _ _ _ _ _ _ _ hV, hrest]
    · have hVf : V v = false := by simpa using hV
      obtain ⟨gv, hg, hle⟩ := hl v (List.mem_cons_self _ _) hVf
      rw [dijkstraRelax_cons_worse _ _ _ _ _ _ _ _ _ _ hVf gv hg
        (by rw [GScoreMap.getD_of_some g _ _ hcur]; exact not_lt.mpr hle), hrest]

/-! ## The main loop of Dijkstra -/

theorem Point.eq_of_coords (p q : Point) (h : p.X = q.X ∧ p.Y = q.Y ∧ p.Z = q.Z) : p = q := by
  cases p; cases q
  simp only at h
  obtain ⟨rfl, rfl, rfl⟩ := h
  rfl

theorem dijkstraStep_inr (start goal : Point) (w : World) (o : PathfindingOptions)
    (s s1 : DijkstraState) (h : dijkstraStep start goal w o s = Sum.inr s1) :
    ∃ cur os1, heapPop s.openSet = some (cur, os1) ∧ cur.Position ≠ goal ∧
      s1 = dijkstraNext w o s cur os1 := by
  unfold dijkstraStep at h
  cases hp : heapPop s.openSet with
  | none => rw [hp] at h; cases h
  | some x =>
    obtain ⟨cur, os1⟩ := x
    rw [hp] at h
    simp only at h
    split_ifs at h with hg
    refine ⟨cur, os1, rfl, ?_, ?_⟩
    · intro hc; apply hg; rw [hc]; exact ⟨rfl, rfl, rfl⟩
    · exact (Sum.inr.inj h).symm

theorem dijkstraStep_inl (start goal : Point) (w : World) (o : PathfindingOptions)
    (s : DijkstraState) (r : PathfindingResult)
    (h : dijkstraStep start goal w o s = Sum.inl r) :
    r.Path = [] ∨ ∃ cur os1, heapPop s.openSet = some (cur, os1) ∧ cur.Position = goal ∧
      r = dijkstraResult start w s cur := by
  unfold dijkstraStep at h
  cases hp : heapPop s.openSet with
  | none =>
    rw [hp] at h
    left
    rw [← Sum.inl.inj h]
  | some x =>
    obtain ⟨cur, os1⟩ := x
    rw [hp] at h
    simp only at h
    split_ifs at h with hg
    right
    exact ⟨cur, os1, rfl, Point.eq_of_coords _ _ hg, (Sum.inl.inj h).symm⟩

theorem PointSet.add_eq_true (m : PointSet) (p q : Point) :
    m.add p q = true ↔ q = p ∨ m q = true := by
  unfold PointSet.add
  split_ifs with h <;> simp [h]

theorem PointSet.add_eq_false (m : PointSet) (p q : Point) :
    m.add p q = false ↔ q ≠ p ∧ m q = false := by
  unfold PointSet.add
  split_ifs with h <;> simp [h]

/-- Every walk from `start` to an open cell passes an open-set node that is
no more expensive than the walk. -/
theorem DijkstraInv.frontier (w : World) (o : PathfindingOptions) (start goal : Point)
    (s : DijkstraState) (hinv : DijkstraInv w o start goal s) (u : Point) (c : ℚ)
    (hr : Route w o start u c) (hu : s.visited u = false) :
    ∃ n ∈ s.openSet, n.GScore ≤ c := by
  induction hr with
  | nil =>
    obtain ⟨n, hn, -, h2⟩ := hinv.opens.i2 start 0 hu hinv.opens.gstart
    exact ⟨n, hn, le_of_eq h2⟩
  | @snoc x y c hxr hy ih =>
    have hpos := edgeCost_pos w o x y
    by_cases hx : s.visited x = true
    · obtain ⟨gp, hgp, hle⟩ := hinv.k1 x hx c hxr
      obtain ⟨gp1, gv, h1, h2, h3⟩ := hinv.i3 x hx y hy hu
      rw [hgp] at h1
      have := Option.some.inj h1
      obtain ⟨n, hn, -, h5⟩ := hinv.opens.i2 y gv hu h2
      exact ⟨n, hn, by rw [h5]; linarith⟩
    · obtain ⟨n, hn, hle⟩ := ih (by simpa using hx)
      exact ⟨n, hn, by linarith⟩

/-- The popped node is no more expensive than any node of the open set. -/
theorem DijkstraInv.pop_min (w : World) (o : PathfindingOptions) (start goal : Point)
    (s : DijkstraState) (hinv : DijkstraInv w o start goal s) (cur : Node)
    (os1 : PriorityQueue) (hp : heapPop s.openSet = some (cur, os1)) :
    cur ∈ s.openSet ∧ ∀ n ∈ s.openSet, cur.GScore ≤ n.GScore := by
  have hmem := (heapPop_some _ _ _ hp).2.1
  have hcur : cur ∈ s.openSet := (hmem cur).2 (Or.inl rfl)
  refine ⟨hcur, fun n hn => ?_⟩
  have := heapPop_min _ _ _ hp hinv.opens.ordered n hn
  rwa [hinv.opens.fg cur hcur, hinv.opens.fg n hn] at this

theorem bool_eq_of_iff (a b : Bool) (h : a = true ↔ b = true) : a = b := by
  cases a <;> cases b <;> simp_all

/-- Facts about the scratch maps after the expander has run at `u`. -/
theorem dijkstraExpand_scratch (w : World) (o : PathfindingOptions) (u : Point)
    (bp pp : PointSet) (hbp : ∀ p, bp p = true → isBreakPoint w o p = true)
    (hpp : ∀ p, pp p = true → isPlacePoint w o p = true) :
    (∀ p, (dijkstraExpand w o u bp pp).2.1 p = true → isBreakPoint w o p = true) ∧
    (∀ p, (dijkstraExpand w o u bp pp).2.2 p = true → isPlacePoint w o p = true) ∧
    (∀ p, bp p = isBreakPoint w o p → (dijkstraExpand w o u bp pp).2.1 p = isBreakPoint w o p) ∧
    (∀ p, pp p = isPlacePoint w o p → (dijkstraExpand w o u bp pp).2.2 p = isPlacePoint w o p) ∧
    (∀ v ∈ (dijkstraExpand w o u bp pp).1, v ∈ dijkstraNeighbors w o u ∧
      (dijkstraExpand w o u bp pp).2.1 v = isBreakPoint w o v ∧
      (dijkstraExpand w o u bp pp).2.2 v = isPlacePoint w o v) := by
  have h1 : ∀ p, (dijkstraExpand w o u bp pp).2.1 p = true → isBreakPoint w o p = true := by
    intro p h
    rcases (dijkstraExpand_breakPoints w o u bp pp p).1 h with h | h
    · exact hbp p h
    · exact h.2
  have h2 : ∀ p, (dijkstraExpand w o u bp pp).2.2 p = true → isPlacePoint w o p = true := by
    intro p h
    rcases (dijkstraExpand_placePoints w o u bp pp p).1 h with h | h
    · exact hpp p h
    · exact h.2
  refine ⟨h1, h2, ?_, ?_, ?_⟩
  · intro p h
    apply bool_eq_of_iff
    refine ⟨h1 p, fun h3 => ?_⟩
    exact (dijkstraExpand_breakPoints w o u bp pp p).2 (Or.inl (by rw [h]; exact h3))
  · intro p h
    apply bool_eq_of_iff
    refine ⟨h2 p, fun h3 => ?_⟩
    exact (dijkstraExpand_placePoints w o u bp pp p).2 (Or.inl (by rw [h]; exact h3))
  · intro v hv
    have hv1 := (mem_dijkstraExpand w o u bp pp v).1 hv
    refine ⟨hv1, ?_, ?_⟩
    · apply bool_eq_of_iff
      exact ⟨h1 v, fun h3 => (dijkstraExpand_breakPoints w o u bp pp v).2 (Or.inr ⟨hv1, h3⟩)⟩
    · apply bool_eq_of_iff
      exact ⟨h2 v, fun h3 => (dijkstraExpand_placePoints w o u bp pp v).2 (Or.inr ⟨hv1, h3⟩)⟩

/-- One round of the main loop keeps the invariant. -/
theorem DijkstraInv.step (w : World) (o : PathfindingOptions) (start goal : Point)
    (s : DijkstraState) (hinv : DijkstraInv w o start goal s) (cur : Node)
    (os1 : PriorityQueue) (hp : heapPop s.openSet = some (cur, os1))
    (hng : cur.Position ≠ goal) :
    DijkstraInv w o start goal (dijkstraNext w o s cur os1) := by
  obtain ⟨hcur, hmin⟩ := hinv.pop_min w o start goal s cur os1 hp
  obtain ⟨-, hmem, hord⟩ := heapPop_some _ _ _ hp
  have hsub : ∀ n ∈ os1, n ∈ s.openSet := fun n hn => (hmem n).2 (Or.inr hn)
  obtain ⟨hb1, hp1, hb2, hp2, hnb⟩ :=
    dijkstraExpand_scratch w o cur.Position s.breakPoints s.placePoints hinv.bpSub hinv.ppSub
  obtain ⟨gc, hgc, hgcle⟩ := hinv.opens.i1 cur hcur
  have hrec : ∀ p ∈ cur.cells.tail,
      (dijkstraExpand w o cur.Position s.breakPoints s.placePoints).2.1 p = isBreakPoint w o p ∧
      (dijkstraExpand w o cur.Position s.breakPoints s.placePoints).2.2 p = isPlacePoint w o p :=
    fun p hp => ⟨hb2 p (hinv.opens.recorded cur hcur p hp).1,
      hp2 p (hinv.opens.recorded cur hcur p hp).2⟩
  have hVcur : s.visited.add cur.Position cur.Position = true :=
    (PointSet.add_eq_true _ _ _).2 (Or.inl rfl)
  -- the open set after the pop still satisfies its invariant
  have hopen1 : OpenInv w o start (s.visited.add cur.Position)
      (dijkstraExpand w o cur.Position s.breakPoints s.placePoints).2.1
      (dijkstraExpand w o cur.Position s.breakPoints s.placePoints).2.2 os1 s.gScore := by
    constructor
    · exact hord hinv.opens.ordered
    · exact fun n hn => hinv.opens.good n (hsub n hn)
    · exact fun n hn => hinv.opens.fg n (hsub n hn)
    · exact fun n hn p hp => ⟨hb2 p (hinv.opens.recorded n (hsub n hn) p hp).1,
        hp2 p (hinv.opens.recorded n (hsub n hn) p hp).2⟩
    · exact fun n hn => hinv.opens.i1 n (hsub n hn)
    · intro p gv hV hg
      obtain ⟨hne, hV0⟩ := (PointSet.add_eq_false _ _ _).1 hV
      obtain ⟨n, hn, h1, h2⟩ := hinv.opens.i2 p gv hV0 hg
      rcases (hmem n).1 hn with rfl | hn1
      · exact absurd h1.symm hne
      · exact ⟨n, hn1, h1, h2⟩
    · exact hinv.opens.gnonneg
    · exact hinv.opens.gstart
  by_cases hvis : s.visited cur.Position = true
  · -- a stale node: nothing is relaxed
    have hVeq : ∀ p, s.visited.add cur.Position p = s.visited p := by
      intro p
      apply bool_eq_of_iff
      rw [PointSet.add_eq_true]
      constructor
      · rintro (rfl | h)
        · exact hvis
        · exact h
      · exact Or.inr
    have hnoop := dijkstraRelax_noop w o (s.visited.add cur.Position)
      (dijkstraExpand w o cur.Position s.breakPoints s.placePoints).2.1
      (dijkstraExpand w o cur.Position s.breakPoints s.placePoints).2.2 cur gc
      (dijkstraExpand w o cur.Position s.breakPoints s.placePoints).1 os1 s.gScore hgc
      (by
        intro v hv hV
        obtain ⟨hv1, hv2, hv3⟩ := hnb v hv
        rw [hVeq] at hV
        obtain ⟨gp, gv, h1, h2, h3⟩ := hinv.i3 _ hvis v hv1 hV
        rw [hgc] at h1
        rw [dijkstraMoveCost_eq_edgeCost w o _ _ _ _ hv2 hv3, Option.some.inj h1]
        exact ⟨gv, h2, h3⟩)
    unfold dijkstraNext
    simp only [hnoop]
    constructor
    · exact hopen1
    · exact hb1
    · exact hp1
    · intro p hpV v hv hvV
      simp only [hVeq] at hpV hvV
      exact hinv.i3 p hpV v hv hvV
    · intro p hpV c hr
      simp only [hVeq] at hpV
      exact hinv.k1 p hpV c hr
    · intro p hpV
      simp only [hVeq] at hpV
      exact hinv.notgoal p hpV
  · -- a fresh node: its g-score is final
    have hvisf : s.visited cur.Position = false := by simpa using hvis
    have hgcur : s.gScore cur.Position = some cur.GScore := by
      obtain ⟨n, hn, -, h2⟩ := hinv.opens.i2 _ gc hvisf hgc
      have := hmin n hn
      rw [h2] at this
      rw [hgc, le_antisymm hgcle this]
    obtain ⟨h1, h2, h3, h4⟩ := dijkstraRelax_inv w o start (s.visited.add cur.Position)
      (dijkstraExpand w o cur.Position s.breakPoints s.placePoints).2.1
      (dijkstraExpand w o cur.Position s.breakPoints s.placePoints).2.2 cur
      (hinv.opens.good cur hcur) hrec hVcur
      (dijkstraExpand w o cur.Position s.breakPoints s.placePoints).1 os1 s.gScore
      hnb hopen1 hgcur
    unfold dijkstraNext
    constructor
    · exact h1
    · exact hb1
    · exact hp1
    · intro p hpV v hv hvV
      simp only at hpV hvV ⊢
      obtain ⟨hne, hvV0⟩ := (PointSet.add_eq_false _ _ _).1 hvV
      by_cases hpc : p = cur.Position
      · subst hpc
        obtain ⟨gv, hg, hle⟩ := h4 v ((mem_dijkstraExpand w o _ _ _ v).2 hv) hvV
        exact ⟨cur.GScore, gv, by rw [h2 _ hpV]; exact hgcur, hg, hle⟩
      · have hpV0 : s.visited p = true := by
          rcases (PointSet.add_eq_true _ _ _).1 hpV with h | h
          · exact absurd h hpc
          · exact h
        obtain ⟨gp, gv, hg1, hg2, hle⟩ := hinv.i3 p hpV0 v hv hvV0
        obtain ⟨gv1, hg3, hle1⟩ := h3 v gv hg2
        exact ⟨gp, gv1, by rw [h2 _ hpV]; exact hg1, hg3, le_trans hle1 hle⟩
    · intro p hpV c hr
      simp only at hpV ⊢
      rw [h2 _ hpV]
      by_cases hpV0 : s.visited p = true
      · exact hinv.k1 p hpV0 c hr
      · have hpc : p = cur.Position := by
          rcases (PointSet.add_eq_true _ _ _).1 hpV with h | h
          · exact h
          · exact absurd h hpV0
        subst hpc
        obtain ⟨n, hn, hle⟩ := hinv.frontier w o start goal s _ c hr hvisf
        exact ⟨cur.GScore, hgcur, le_trans (hmin n hn) hle⟩
    · intro p hpV
      simp only at hpV
      rcases (PointSet.add_eq_true _ _ _).1 hpV with h | h
      · rw [h]; exact hng
      · exact hinv.notgoal p h

theorem dijkstraInit_inv (w : World) (o : PathfindingOptions) (start goal : Point) :
    DijkstraInv w o start goal (dijkstraInit start) := by
  unfold dijkstraInit
  rw [heapPush_nil]
  constructor
  · constructor
    · intro i hi0 hi
      simp at hi
      omega
    · intro n hn
      rw [List.mem_singleton] at hn
      subst hn
      exact ⟨rfl, rfl⟩
    · intro n hn
      rw [List.mem_singleton] at hn
      subst hn
      rfl
    · intro n hn p hp
      rw [List.mem_singleton] at hn
      subst hn
      simp [Node.cells] at hp
    · intro n hn
      rw [List.mem_singleton] at hn
      subst hn
      exact ⟨0, GScoreMap.set_self _ _ _, le_refl _⟩
    · intro p gv _ hg
      simp only [GScoreMap.set, GScoreMap.empty] at hg
      split_ifs at hg with h
      exact ⟨_, List.mem_singleton.2 rfl, h.symm, Option.some.inj hg⟩
    · intro p gv hg
      simp only [GScoreMap.set, GScoreMap.empty] at hg
      split_ifs at hg with h
      exact le_of_eq (Option.some.inj hg)
    · exact GScoreMap.set_self _ _ _
  · intro p h
    simp [PointSet.empty] at h
  · intro p h
    simp [PointSet.empty] at h
  · intro p h
    simp [PointSet.empty] at h
  · intro p h
    simp [PointSet.empty] at h
  · intro p h
    simp [PointSet.empty] at h

theorem dijkstraReconstruct_spec (w : World) (bp pp : PointSet) (n : Node) (t : DijkstraTrace) :
    (dijkstraReconstruct w bp pp n t).path = n.cells ++ t.path ∧
    (∀ x, x ∈ (dijkstraReconstruct w bp pp n t).blocksBroken ↔
      x ∈ t.blocksBroken ∨ (x ∈ n.cells.tail ∧ bp x = true)) ∧
    (∀ x, x ∈ (dijkstraReconstruct w bp pp n t).blocksPlaced ↔
      x ∈ t.blocksPlaced ∨ (x ∈ n.cells.tail ∧ pp x = true)) := by
  induction n generalizing t with
  | root p g f => simp [dijkstraReconstruct, Node.cells]
  | child p g f parent ih =>
    rw [dijkstraReconstruct]
    obtain ⟨h1, h2, h3⟩ := ih
      { path := p :: t.path,
        totalVerticalChange := t.totalVerticalChange + abs (p.Y - t.lastY),
        lastY := p.Y,
        waterCrossed := if w.GetBlockType p == "water" then t.waterCrossed + 1
                        else t.waterCrossed,
        blocksBroken := if bp p then t.blocksBroken ++ [p] else t.blocksBroken,
        blocksPlaced := if pp p then t.blocksPlaced ++ [p] else t.blocksPlaced }
    refine ⟨?_, ?_, ?_⟩
    · rw [h1]; simp [Node.cells]
    · intro x
      rw [h2, Node.cells_tail_child]
      simp only [List.mem_append, List.mem_singleton]
      by_cases hb : bp p = true
      · simp only [hb, if_true, List.mem_append, List.mem_singleton]
        constructor
        · rintro ((h | h) | h)
          · exact Or.inl h
          · exact Or.inr ⟨Or.inr h, by rw [h]; exact hb⟩
          · exact Or.inr ⟨Or.inl h.1, h.2⟩
        · rintro (h | ⟨h | h, h5⟩)
          · exact Or.inl (Or.inl h)
          · exact Or.inr ⟨h, h5⟩
          · exact Or.inl (Or.inr h)
      · simp only [hb]
        constructor
        · rintro (h | h)
          · exact Or.inl h
          · exact Or.inr ⟨Or.inl h.1, h.2⟩
        · rintro (h | ⟨h | h, h5⟩)
          · exact Or.inl h
          · exact Or.inr ⟨h, h5⟩
          · rw [h] at h5; exact absurd h5 hb
    · intro x
      rw [h3, Node.cells_tail_child]
      simp only [List.mem_append, List.mem_singleton]
      by_cases hb : pp p = true
      · simp only [hb, if_true, List.mem_append, List.mem_singleton]
        constructor
        · rintro ((h | h) | h)
          · exact Or.inl h
          · exact Or.inr ⟨Or.inr h, by rw [h]; exact hb⟩
          · exact Or.inr ⟨Or.inl h.1, h.2⟩
        · rintro (h | ⟨h | h, h5⟩)
          · exact Or.inl (Or.inl h)
          · exact Or.inr ⟨h, h5⟩
          · exact Or.inl (Or.inr h)
      · simp only [hb]
        constructor
        · rintro (h | h)
          · exact Or.inl h
          · exact Or.inr ⟨Or.inl h.1, h.2⟩
        · rintro (h | ⟨h | h, h5⟩)
          · exact Or.inl h
          · exact Or.inr ⟨h, h5⟩
          · rw [h] at h5; exact absurd h5 hb

/-- Popping the goal in a state that satisfies the invariant gives a result
with the properties `DijkstraPost`. -/
theorem DijkstraInv.result (w : World) (o : PathfindingOptions) (start goal : Point)
    (s : DijkstraState) (hinv : DijkstraInv w o start goal s) (cur : Node)
    (os1 : PriorityQueue) (hp : heapPop s.openSet = some (cur, os1))
    (hg : cur.Position = goal) :
    DijkstraPost w o start goal (dijkstraResult start w s cur) := by
  obtain ⟨hcur, hmin⟩ := hinv.pop_min w o start goal s cur os1 hp
  obtain ⟨h1, h2, h3⟩ := dijkstraReconstruct_spec w s.breakPoints s.placePoints cur
    { lastY := start.Y }
  have hrec := hinv.opens.recorded cur hcur
  refine ⟨cur, hinv.opens.good cur hcur, hg, ?_, rfl, ?_, ?_, ?_⟩
  · show (dijkstraReconstruct w s.breakPoints s.placePoints cur { lastY := start.Y }).path = _
    rw [h1]; simp
  · intro c hr
    have hgv : s.visited goal = false := by
      by_contra h
      exact hinv.notgoal goal (by simpa using h) rfl
    obtain ⟨n, hn, hle⟩ := hinv.frontier w o start goal s goal c hr hgv
    exact le_trans (hmin n hn) hle
  · intro x
    show x ∈ (dijkstraReconstruct w s.breakPoints s.placePoints cur
      { lastY := start.Y }).blocksBroken ↔ _
    rw [h2]
    simp only [List.not_mem_nil, false_or]
    constructor
    · rintro ⟨hx, hb⟩
      exact ⟨hx, by rw [← (hrec x hx).1]; exact hb⟩
    · rintro ⟨hx, hb⟩
      exact ⟨hx, by rw [(hrec x hx).1]; exact hb⟩
  · intro x
    show x ∈ (dijkstraReconstruct w s.breakPoints s.placePoints cur
      { lastY := start.Y }).blocksPlaced ↔ _
    rw [h3]
    simp only [List.not_mem_nil, false_or]
    constructor
    · rintro ⟨hx, hb⟩
      exact ⟨hx, by rw [← (hrec x hx).2]; exact hb⟩
    · rintro ⟨hx, hb⟩
      exact ⟨hx, by rw [(hrec x hx).2]; exact hb⟩

theorem dijkstraLoop_post (w : World) (o : PathfindingOptions) (start goal : Point)
    (fuel : Nat) (s : DijkstraState) (hinv : DijkstraInv w o start goal s)
    (r : PathfindingResult) (h : dijkstraLoop start goal w o fuel s = some r)
    (hne : r.Path ≠ []) : DijkstraPost w o start goal r := by
  induction fuel generalizing s with
  | zero => simp [dijkstraLoop] at h
  | succ fuel ih =>
    rw [dijkstraLoop] at h
    cases hs : dijkstraStep start goal w o s with
    | inl r1 =>
      rw [hs] at h
      have hr : r1 = r := Option.some.inj h
      subst hr
      rcases dijkstraStep_inl start goal w o s r1 hs with h0 | ⟨cur, os1, hp, hg, hr⟩
      · exact absurd h0 hne
      · rw [hr]
        exact hinv.result w o start goal s cur os1 hp hg
    | inr s1 =>
      rw [hs] at h
      obtain ⟨cur, os1, hp, hng, hs1⟩ := dijkstraStep_inr start goal w o s s1 hs
      rw [hs1] at h
      exact ih _ (hinv.step w o start goal s cur os1 hp hng) h

/-- Every non-empty path returned by `FindPathDijkstraWithOptions` comes from a
good parent chain that ends at the goal and is as cheap as any walk. -/
theorem FindPathDijkstraWithOptions_post (w : World) (o : PathfindingOptions)
    (start goal : Point) (fuel : Nat) (r : PathfindingResult)
    (h : FindPathDijkstraWithOptions fuel start goal w o = some r) (hne : r.Path ≠ []) :
    DijkstraPost w o start goal r :=
  dijkstraLoop_post w o start goal fuel _ (dijkstraInit_inv w o start goal) r h hne

/-! ## Paths returned by Dijkstra -/

theorem pathCost_append_singleton (c : Point → Point → ℚ) (l : List Point) (a b : Point)
    (h : l.getLast? = some a) : pathCost c (l ++ [b]) = pathCost c l + c a b := by
  induction l with
  | nil => simp at h
  | cons x rest ih =>
    cases rest with
    | nil =>
      simp at h
      subst h
      simp [pathCost]
    | cons y rest1 =>
      have h1 : (y :: rest1).getLast? = some a := by
        simpa [List.getLast?_cons_cons] using h
      have := ih h1
      show c x y + pathCost c ((y :: rest1) ++ [b]) = c x y + pathCost c (y :: rest1) + c a b
      rw [this]
      ring

theorem pathCost_congr (c1 c2 : Point → Point → ℚ) (l : List Point)
    (h : ∀ a b, b ∈ l.tail → c1 a b = c2 a b) : pathCost c1 l = pathCost c2 l := by
  induction l with
  | nil => rfl
  | cons x rest ih =>
    cases rest with
    | nil => rfl
    | cons y rest1 =>
      simp only [pathCost]
      rw [h x y (by simp), ih]
      intro a b hb
      exact h a b (by simp at hb ⊢; exact Or.inr hb)

theorem Node.Good.gScore_eq (w : World) (o : PathfindingOptions) (start : Point) (n : Node)
    (h : n.Good w o start) : n.GScore = pathCost (edgeCost w o) n.cells := by
  induction n with
  | root p g f => simp [Node.GScore, Node.cells, pathCost, h.2]
  | child p g f parent ih =>
    obtain ⟨h1, -, h3⟩ := h
    simp only [Node.cells, Node.GScore]
    rw [pathCost_append_singleton _ _ _ _ parent.cells_getLast?, ← ih h1, h3]

theorem Node.Good.chain (w : World) (o : PathfindingOptions) (start : Point) (n : Node)
    (h : n.Good w o start) :
    List.Chain' (fun u v => v ∈ dijkstraNeighbors w o u) n.cells := by
  induction n with
  | root p g f => simp [Node.cells]
  | child p g f parent ih =>
    obtain ⟨h1, h2, -⟩ := h
    simp only [Node.cells]
    rw [List.chain'_append]
    refine ⟨ih h1, by simp, ?_⟩
    intro x hx y hy
    rw [parent.cells_getLast?] at hx
    simp at hx hy
    subst hx hy
    exact h2

theorem Node.Good.tail_entered (w : World) (o : PathfindingOptions) (start : Point) (n : Node)
    (h : n.Good w o start) : ∀ p ∈ n.cells.tail, ∃ u, p ∈ dijkstraNeighbors w o u := by
  induction n with
  | root p g f => simp [Node.cells]
  | child p g f parent ih =>
    obtain ⟨h1, h2, -⟩ := h
    intro x hx
    rw [Node.cells_tail_child, List.mem_append, List.mem_singleton] at hx
    rcases hx with hx | rfl
    · exact ih h1 x hx
    · exact ⟨_, h2⟩

theorem route_of_path (w : World) (o : PathfindingOptions) (start : Point) (path : List Point)
    (hs : path.head? = some start)
    (hc : List.Chain' (fun u v => v ∈ dijkstraNeighbors w o u) path) :
    ∀ u, path.getLast? = some u → Route w o start u (pathCost (edgeCost w o) path) := by
  induction path using List.reverseRecOn with
  | nil => simp at hs
  | append_singleton l b ih =>
    intro u hu
    simp at hu
    subst hu
    cases l with
    | nil =>
      simp at hs
      rw [hs]
      simpa [pathCost] using (Route.nil : Route w o start start 0)
    | cons x rest =>
      have hs1 : (x :: rest).head? = some start := by simpa using hs
      rw [List.chain'_append] at hc
      obtain ⟨hc1, -, hc3⟩ := hc
      obtain ⟨a, ha⟩ : ∃ a, (x :: rest).getLast? = some a :=
        ⟨_, List.getLast?_eq_getLast _ (by simp)⟩
      have hr := ih hs1 hc1 a ha
      rw [pathCost_append_singleton _ _ _ _ ha]
      exact Route.snoc hr (hc3 a (by rw [ha]; simp) b (by simp))

/-- C2: whenever `FindPathDijkstraWithOptions` returns a non-empty path, its
`TotalCost` is at most the summed edge cost (`GetMovementCost` plus the break,
place, water and height surcharges) of every cell sequence from start to goal
whose steps are neighbours produced by the active expander mode. -/
theorem dijkstra_total_cost_minimal (fuel : Nat) (w : World) (start goal : Point)
    (o : PathfindingOptions) (r : PathfindingResult)
    (h : FindPathDijkstraWithOptions fuel start goal w o = some r) (hne : r.Path ≠ [])
    (path : List Point) (hs : path.head? = some start) (hg : path.getLast? = some goal)
    (hc : List.Chain' (fun u v => v ∈ dijkstraNeighbors w o u) path) :
    r.TotalCost ≤ pathCost (edgeCost w o) path := by
  obtain ⟨cur, -, -, -, hcost, hopt, -, -⟩ :=
    FindPathDijkstraWithOptions_post w o start goal fuel r h hne
  rw [hcost]
  exact hopt _ (route_of_path w o start path hs hc goal hg)

theorem dijkstra_total_cost_minimal_witness :
    FindPathDijkstraWithOptions 40 ⟨0, 1, 0⟩ ⟨3, 1, 0⟩ flatPlane {} = some flatPlaneResult ∧
    flatPlaneResult.TotalCost ≤ pathCost (edgeCost flatPlane {})
      [⟨0, 1, 0⟩, ⟨0, 1, 1⟩, ⟨1, 1, 1⟩, ⟨2, 1, 1⟩, ⟨3, 1, 1⟩, ⟨3, 1, 0⟩] :=
  ⟨by decide!,
   dijkstra_total_cost_minimal 40 flatPlane ⟨0, 1, 0⟩ ⟨3, 1, 0⟩ {} flatPlaneResult
     (by decide!) (by decide!)
     [⟨0, 1, 0⟩, ⟨0, 1, 1⟩, ⟨1, 1, 1⟩, ⟨2, 1, 1⟩, ⟨3, 1, 1⟩, ⟨3, 1, 0⟩]
     (by decide!) (by decide!)
     (by simp only [List.chain'_cons, List.chain'_singleton, and_true]; decide!)⟩

/-- C3: when `FindPathDijkstraWithOptions` returns a non-empty path, `TotalCost`
is the sum over consecutive cells of `GetMovementCost` plus 5 into a break
point, plus 3 into a place point, plus 10 into water under `AvoidWater`, plus
twice the height difference under `MinimiseHeight`. -/
theorem dijkstra_total_cost_is_path_sum (fuel : Nat) (w : World) (start goal : Point)
    (o : PathfindingOptions) (r : PathfindingResult)
    (h : FindPathDijkstraWithOptions fuel start goal w o = some r) (hne : r.Path ≠ []) :
    r.TotalCost = pathCost (claimedEdgeCost w o r) r.Path := by
  obtain ⟨cur, hgood, -, hpath, hcost, -, hbb, hbpl⟩ :=
    FindPathDijkstraWithOptions_post w o start goal fuel r h hne
  rw [hcost, hgood.gScore_eq, hpath]
  apply pathCost_congr
  intro a b hb
  have e1 : (b ∈ r.BlocksBroken) ↔ isBreakPoint w o b = true := by
    rw [hbb]; exact ⟨fun h => h.2, fun h => ⟨hb, h⟩⟩
  have e2 : (b ∈ r.BlocksPlaced) ↔ isPlacePoint w o b = true := by
    rw [hbpl]; exact ⟨fun h => h.2, fun h => ⟨hb, h⟩⟩
  unfold edgeCost dijkstraMoveCost claimedEdgeCost
  simp only [e1, e2]
  by_cases hy : b.Y = a.Y
  · cases isBreakPoint w o b <;> cases isPlacePoint w o b <;> cases o.AvoidWater <;>
      cases o.MinimiseHeight <;> simp [hy, abs_zero_eq] <;> split_ifs <;> simp
  · cases isBreakPoint w o b <;> cases isPlacePoint w o b <;> cases o.AvoidWater <;>
      cases o.MinimiseHeight <;> simp [hy] <;> split_ifs <;> simp

theorem dijkstra_total_cost_is_path_sum_witness :
    FindPathDijkstraWithOptions 20 ⟨0, 1, 0⟩ ⟨2, 1, 0⟩ wallWorld { AllowBreaking := true }
      = some wallWorldResult ∧
    wallWorldResult.TotalCost =
      pathCost (claimedEdgeCost wallWorld { AllowBreaking := true } wallWorldResult)
        wallWorldResult.Path :=
  ⟨by decide!,
   dijkstra_total_cost_is_path_sum 20 wallWorld ⟨0, 1, 0⟩ ⟨2, 1, 0⟩ { AllowBreaking := true }
     wallWorldResult (by decide!) (by decide!)⟩

/-- C4: every non-empty path returned by `FindPathDijkstraWithOptions` has
start as its first cell and goal as its last cell. -/
theorem dijkstra_path_endpoints (fuel : Nat) (w : World) (start goal : Point)
    (o : PathfindingOptions) (r : PathfindingResult)
    (h : FindPathDijkstraWithOptions fuel start goal w o = some r) (hne : r.Path ≠ []) :
    r.Path.head? = some start ∧ r.Path.getLast? = some goal := by
  obtain ⟨cur, hgood, hpos, hpath, -⟩ :=
    FindPathDijkstraWithOptions_post w o start goal fuel r h hne
  rw [hpath, Node.cells_head? w o start cur hgood, cur.cells_getLast?, hpos]
  exact ⟨rfl, rfl⟩

theorem dijkstra_path_endpoints_witness :
    FindPathDijkstraWithOptions 20 ⟨0, 1, 0⟩ ⟨1, 1, 1⟩ squareWorld {} = some squareWorldResult ∧
    squareWorldResult.Path.head? = some ⟨0, 1, 0⟩ ∧
    squareWorldResult.Path.getLast? = some ⟨1, 1, 1⟩ :=
  ⟨by decide!,
   dijkstra_path_endpoints 20 squareWorld ⟨0, 1, 0⟩ ⟨1, 1, 1⟩ {} squareWorldResult
     (by decide!) (by decide!)⟩

/-- C5: every cell after the first of a path returned by
`FindPathDijkstraWithOptions` is walkable, or (with `AllowBreaking`) a breakable
cell listed as broken, or (with `AllowBreaking` off and `AllowPlacing` on) a
non-walkable cell above a cell of type other than "air", listed as placed. -/
theorem dijkstra_path_cells_enterable (fuel : Nat) (w : World) (start goal : Point)
    (o : PathfindingOptions) (r : PathfindingResult)
    (h : FindPathDijkstraWithOptions fuel start goal w o = some r) (hne : r.Path ≠ []) :
    ∀ p ∈ r.Path.tail,
      w.IsWalkable p = true ∨
      (o.AllowBreaking = true ∧ w.CanBreak p = true ∧ p ∈ r.BlocksBroken) ∨
      (o.AllowBreaking = false ∧ o.AllowPlacing = true ∧ w.IsWalkable p = false ∧
        w.GetBlockType p.below ≠ "air" ∧ p ∈ r.BlocksPlaced) := by
  obtain ⟨cur, hgood, -, hpath, -, -, hbb, hbpl⟩ :=
    FindPathDijkstraWithOptions_post w o start goal fuel r h hne
  intro p hp
  rw [hpath] at hp
  obtain ⟨u, hu⟩ := hgood.tail_entered w o start cur p hp
  by_cases hw : w.IsWalkable p = true
  · exact Or.inl hw
  · have hwf : w.IsWalkable p = false := by simpa using hw
    right
    rcases (mem_dijkstraNeighbors w o u p).1 hu with
      ⟨hb, d, -, -, h3⟩ | ⟨hb, hpl, d, -, h3⟩ | ⟨-, -, d, -, -, h3, -⟩
    · rcases h3 with h3 | h3
      · exact absurd h3 hw
      · exact Or.inl ⟨hb, h3, (hbb p).2 ⟨hp, (isBreakPoint_iff w o p).2 ⟨hb, hwf, h3⟩⟩⟩
    · rcases h3 with h3 | h3
      · exact absurd h3.2 hw
      · refine Or.inr ⟨hb, hpl, hwf, ?_, (hbpl p).2 ⟨hp, (isPlacePoint_iff w o p).2
          ⟨hb, hpl, hwf, h3.2.2⟩⟩⟩
        simpa using h3.2.2
    · exact absurd h3 hw

theorem dijkstra_path_cells_enterable_witness :
    FindPathDijkstraWithOptions 20 ⟨0, 1, 0⟩ ⟨2, 1, 0⟩ wallWorld { AllowBreaking := true }
      = some wallWorldResult ∧
    ∀ p ∈ wallWorldResult.Path.tail,
      wallWorld.IsWalkable p = true ∨
      (({ AllowBreaking := true } : PathfindingOptions).AllowBreaking = true ∧
        wallWorld.CanBreak p = true ∧ p ∈ wallWorldResult.BlocksBroken) ∨
      (({ AllowBreaking := true } : PathfindingOptions).AllowBreaking = false ∧
        ({ AllowBreaking := true } : PathfindingOptions).AllowPlacing = true ∧
        wallWorld.IsWalkable p = false ∧
        wallWorld.GetBlockType p.below ≠ "air" ∧ p ∈ wallWorldResult.BlocksPlaced) :=
  ⟨by decide!,
   dijkstra_path_cells_enterable 20 wallWorld ⟨0, 1, 0⟩ ⟨2, 1, 0⟩ { AllowBreaking := true }
     wallWorldResult (by decide!) (by decide!)⟩

theorem mem_GetNeighbors (w : World) (p v : Point) :
    v ∈ GetNeighbors p w ↔ ∃ d ∈ directions6, v = p.shift d ∧ w.IsWalkable v = true := by
  unfold GetNeighbors
  simp only [List.mem_filter, List.mem_map]
  constructor
  · rintro ⟨⟨d, hd, rfl⟩, h⟩
    exact ⟨d, hd, rfl, h⟩
  · rintro ⟨d, hd, rfl, h⟩
    exact ⟨⟨d, hd, rfl⟩, h⟩

theorem lookup_mem {α β : Type} [BEq α] [LawfulBEq α] (l : List (α × β)) (a : α) (b : β)
    (h : l.lookup a = some b) : a ∈ l.map Prod.fst := by
  induction l with
  | nil => simp at h
  | cons x rest ih =>
    obtain ⟨k, v⟩ := x
    by_cases hk : a = k
    · simp [hk]
    · have : (a == k) = false := by simpa using hk
      rw [List.lookup_cons, this] at h
      simp only [List.map_cons, List.mem_cons]
      exact Or.inr (ih h)

theorem walkable_mem_worldCells (w : World) (start p : Point) (h : w.IsWalkable p = true) :
    p ∈ worldCells w start := by
  unfold World.IsWalkable World.GetBlock at h
  cases hl : w.Blocks.lookup p with
  | none => rw [hl] at h; cases h
  | some b =>
    unfold worldCells
    rw [Finset.mem_insert, List.mem_toFinset]
    exact Or.inr (lookup_mem _ _ _ hl)

theorem findPathLoop_mono (goal : Point) (w : World) (fuel k : Nat)
    (st : PriorityQueue × GScoreMap) (path : List Point)
    (h : findPathLoop goal w fuel st = some path) :
    findPathLoop goal w (fuel + k) st = some path := by
  induction fuel generalizing st with
  | zero => simp [findPathLoop] at h
  | succ fuel ih =>
    rw [Nat.add_right_comm]
    rw [findPathLoop] at h ⊢
    cases hs : findPathStep goal w st with
    | inl p => rw [hs] at h; simpa using h
    | inr st1 =>
      rw [hs] at h
      exact ih st1 h

theorem gLess_trans (U : Finset Point) (g2 g1 g0 : GScoreMap) (h1 : gLess U g2 g1)
    (h2 : gLess U g1 g0) : gLess U g2 g0 := by
  unfold gLess at *
  omega

theorem gLess_set_new (U : Finset Point) (g : GScoreMap) (v : Point) (t : ℚ) (hv : v ∈ U)
    (hg : g v = none) : gLess U (g.set v t) g := by
  left
  unfold unseenCount
  apply Finset.sum_lt_sum
  · intro p _
    by_cases hp : p = v
    · subst hp; simp [GScoreMap.set_self, hg]
    · rw [GScoreMap.set_ne _ _ _ _ hp]
  · exact ⟨v, hv, by simp [GScoreMap.set_self, hg]⟩

theorem gLess_set_better (U : Finset Point) (g : GScoreMap) (v : Point) (t val : ℚ)
    (hv : v ∈ U) (hg : g v = some val) (kt kv : ℕ) (ht : t = (kt : ℚ)) (hval : val = (kv : ℚ))
    (hlt : t < val) : gLess U (g.set v t) g := by
  right
  constructor
  · unfold unseenCount
    apply Finset.sum_congr rfl
    intro p _
    by_cases hp : p = v
    · subst hp; simp [GScoreMap.set_self, hg]
    · rw [GScoreMap.set_ne _ _ _ _ hp]
  · unfold gSum
    have hk : kt < kv := by
      rw [ht, hval] at hlt
      exact_mod_cast hlt
    apply Finset.sum_lt_sum
    · intro p _
      by_cases hp : p = v
      · subst hp
        simp only [GScoreMap.set_self, hg, Option.getD_some, ht, hval, Nat.floor_natCast]
        omega
      · rw [GScoreMap.set_ne _ _ _ _ hp]
    · refine ⟨v, hv, ?_⟩
      simp only [GScoreMap.set_self, hg, Option.getD_some, ht, hval, Nat.floor_natCast]
      exact hk

theorem findPathRelax_cons_better (goal : Point) (cur : Node) (v : Point) (rest : List Point)
    (os : PriorityQueue) (g : GScoreMap)
    (hb : ∀ val, g v = some val → g.getD cur.Position + 1 < val) :
    findPathRelax goal cur (v :: rest) (os, g) =
      findPathRelax goal cur rest
        (heapPush os (Node.child v (g.getD cur.Position + 1)
            (g.getD cur.Position + 1 + Heuristic v goal {}) cur),
         g.set v (g.getD cur.Position + 1)) := by
  rw [findPathRelax]
  cases hg : g v with
  | none => simp [hg]
  | some val => simp [hg, hb val hg]

theorem findPathRelax_cons_worse (goal : Point) (cur : Node) (v : Point) (rest : List Point)
    (os : PriorityQueue) (g : GScoreMap) (val : ℚ) (hg : g v = some val)
    (hb : ¬ g.getD cur.Position + 1 < val) :
    findPathRelax goal cur (v :: rest) (os, g) = findPathRelax goal cur rest (os, g) := by
  rw [findPathRelax]
  simp [hg, hb]

theorem mem_GetNeighborsWithBreaking (w : World) (o : PathfindingOptions) (p : Point)
    (ni : NeighborInfo) :
    ni ∈ GetNeighborsWithBreaking p w o ↔
      ∃ d ∈ directions10,
        (w.IsWalkable (p.shift d) = true ∧ ni = ⟨p.shift d, false, false⟩) ∨
        (w.IsWalkable (p.shift d) = false ∧ o.AllowBreaking = true ∧
          w.CanBreak (p.shift d) = true ∧ ni = ⟨p.shift d, true, false⟩) := by
  unfold GetNeighborsWithBreaking
  rw [List.mem_filterMap]
  constructor
  · rintro ⟨d, hd, h⟩
    refine ⟨d, hd, ?_⟩
    change (if w.IsWalkable (p.shift d) = true then some (⟨p.shift d, false, false⟩ : NeighborInfo)
      else if (o.AllowBreaking && w.CanBreak (p.shift d)) = true then
        some ⟨p.shift d, true, false⟩ else none) = some ni at h
    split_ifs at h with h1 h2
    · exact Or.inl ⟨h1, (Option.some.inj h).symm⟩
    · simp only [Bool.and_eq_true] at h2
      exact Or.inr ⟨by simpa using h1, h2.1, h2.2, (Option.some.inj h).symm⟩
  · rintro ⟨d, hd, h⟩
    refine ⟨d, hd, ?_⟩
    change (if w.IsWalkable (p.shift d) = true then some (⟨p.shift d, false, false⟩ : NeighborInfo)
      else if (o.AllowBreaking && w.CanBreak (p.shift d)) = true then
        some ⟨p.shift d, true, false⟩ else none) = some ni
    rcases h with ⟨h1, rfl⟩ | ⟨h1, h2, h3, rfl⟩
    · simp [h1]
    · simp [h1, h2, h3]

theorem breakingRelax_cons_better (goal : Point) (w : World) (o : PathfindingOptions)
    (cur : Node) (ni : NeighborInfo) (rest : List NeighborInfo) (st : BreakingState)
    (hb : ∀ val, st.gScore ni.Point = some val →
      st.gScore.getD cur.Position + breakingMoveCost w o cur.Position ni < val) :
    breakingRelax goal w o cur (ni :: rest) st =
      breakingRelax goal w o cur rest
        { st with
          openSet := heapPush st.openSet
            (Node.child ni.Point
              (st.gScore.getD cur.Position + breakingMoveCost w o cur.Position ni)
              (st.gScore.getD cur.Position + breakingMoveCost w o cur.Position ni
                + Heuristic ni.Point goal o) cur),
          gScore := st.gScore.set ni.Point
            (st.gScore.getD cur.Position + breakingMoveCost w o cur.Position ni),
          blocksBroken := if ni.RequiresBreaking then st.blocksBroken ++ [ni.Point]
            else st.blocksBroken } := by
  rw [breakingRelax]
  cases hg : st.gScore ni.Point with
  | none => simp [hg]
  | some val => simp [hg, hb val hg]

theorem breakingRelax_cons_worse (goal : Point) (w : World) (o : PathfindingOptions)
    (cur : Node) (ni : NeighborInfo) (rest : List NeighborInfo) (st : BreakingState)
    (val : ℚ) (hg : st.gScore ni.Point = some val)
    (hb : ¬ st.gScore.getD cur.Position + breakingMoveCost w o cur.Position ni < val) :
    breakingRelax goal w o cur (ni :: rest) st =
      breakingRelax goal w o cur rest
        { st with
          blocksBroken := if ni.RequiresBreaking then st.blocksBroken ++ [ni.Point]
            else st.blocksBroken } := by
  rw [breakingRelax]
  simp [hg, hb]

theorem standardMetrics_totalCost (w : World) (l : List Point) (acc : Int × Int × Int × ℚ) :
    (standardMetrics w l acc).2.2.2 = acc.2.2.2 + (l.length : ℚ) := by
  induction l generalizing acc with
  | nil => simp [standardMetrics]
  | cons p rest ih =>
    obtain ⟨v, y, wc, tc⟩ := acc
    rw [standardMetrics, ih]
    simp only [List.length_cons]
    push_cast
    ring

/-- Without `AllowBreaking` the default driver reports one unit of `TotalCost`
per cell of the path, the start included, and no explored node. -/
theorem FindPathWithOptions_standard_totals (fuel : Nat) (w : World) (start goal : Point)
    (o : PathfindingOptions) (r : PathfindingResult) (hb : o.AllowBreaking = false)
    (h : FindPathWithOptions fuel start goal w o = some r) :
    r.TotalCost = (r.Path.length : ℚ) ∧ r.NodesExplored = 0 := by
  unfold FindPathWithOptions at h
  simp only [hb, Bool.false_eq_true, if_false] at h
  unfold findPathWithPlacing findPathStandard at h
  cases hp : FindPath fuel start goal w with
  | none => simp [hp] at h
  | some path =>
    simp only [hp] at h
    have e := standardMetrics_totalCost w path (0, start.Y, 0, 0)
    simp only [zero_add] at e
    split_ifs at h <;>
      (have hr := Option.some.inj h
       subst hr
       exact ⟨e, rfl⟩)

/-! ## The heuristic and the world queries -/

theorem abs_eq_abs (x : Int) : abs x = |x| := by
  unfold abs
  split_ifs with h
  · exact (abs_of_neg h).symm
  · exact (abs_of_nonneg (not_lt.mp h)).symm

/-- Over unbounded integers and exact rationals `Heuristic a b options` is
`|a.X-b.X| + |a.Z-b.Z| + w*|a.Y-b.Y|` with `w = 2` when `MinimiseHeight` is set
and `w = 1` otherwise. -/
theorem Heuristic_formula (a b : Point) (options : PathfindingOptions) :
    Heuristic a b options =
      ((|a.X - b.X| : Int) : ℚ) + ((|a.Z - b.Z| : Int) : ℚ)
        + (if options.MinimiseHeight = true then 2 else 1) * ((|a.Y - b.Y| : Int) : ℚ) := by
  unfold Heuristic
  simp only [abs_eq_abs]
  split_ifs <;> push_cast <;> ring

/-- C12, counterexample: with `HeuristicWeight = 2` the heuristic from (0,0,0)
to (1,0,0) is 1, the same as with weight 0, and not 2 times it. -/
theorem Heuristic_weight_not_applied :
    Heuristic ⟨0, 0, 0⟩ ⟨1, 0, 0⟩ { HeuristicWeight := 2 } = 1 ∧
    Heuristic ⟨0, 0, 0⟩ ⟨1, 0, 0⟩ { HeuristicWeight := 0 } = 1 ∧
    Heuristic ⟨0, 0, 0⟩ ⟨1, 0, 0⟩ { HeuristicWeight := 2 } ≠
      2 * Heuristic ⟨0, 0, 0⟩ ⟨1, 0, 0⟩ { HeuristicWeight := 0 } := by
  refine ⟨by decide!, by decide!, by decide!⟩

/-- C12, amended: `Heuristic` does not read `HeuristicWeight`: for every
option record it returns the value it returns for the same options with
`HeuristicWeight = 0`. -/
theorem Heuristic_ignores_weight (a b : Point) (options : PathfindingOptions) :
    Heuristic a b options = Heuristic a b { options with HeuristicWeight := 0 } := by
  rfl

/-- C14: a cell without a block is not walkable, not breakable and of type
"unknown"; a cell with a block answers with the block's `Walkable` and
`Breakable` flags and its type. -/
theorem world_queries (w : World) (p : Point) :
    match w.GetBlock p with
    | none => w.IsWalkable p = false ∧ w.CanBreak p = false ∧ w.GetBlockType p = "unknown"
    | some b => w.IsWalkable p = b.Walkable ∧ w.CanBreak p = b.Breakable ∧
        w.GetBlockType p = b.BlockType := by
  unfold World.IsWalkable World.CanBreak World.GetBlockType
  cases w.GetBlock p <;> exact ⟨rfl, rfl, rfl⟩

/-! ## More on the movement cost -/

theorem GetMovementCost_eq_mul (w : World) (u v : Point) :
    w.GetMovementCost u v = climbCost u v * effectiveMultiplier w v := by
  unfold World.GetMovementCost climbCost effectiveMultiplier
  cases w.GetBlock v with
  | none => simp; split_ifs <;> simp
  | some b => simp; split_ifs <;> simp

theorem effectiveMultiplier_pos (w : World) (p : Point) : 0 < effectiveMultiplier w p := by
  unfold effectiveMultiplier
  cases w.GetBlock p with
  | none => norm_num
  | some b =>
    simp only
    split_ifs with h
    · exact h
    · norm_num

/-- Over unbounded integers and exact rationals, for cells `a`, `b` with
`b.Y > a.Y` whose blocks apply the same effective multiplier `m`, going up from
`a` to `b` costs strictly more than going down from `b` to `a`, by
`0.8 * (b.Y - a.Y) * m`. -/
theorem GetMovementCost_asymmetry (w : World) (a b : Point) (m : ℚ) (hy : b.Y > a.Y)
    (ha : effectiveMultiplier w a = m) (hb : effectiveMultiplier w b = m) :
    w.GetMovementCost a b - w.GetMovementCost b a = (8 / 10) * ((b.Y - a.Y : Int) : ℚ) * m ∧
      w.GetMovementCost b a < w.GetMovementCost a b := by
  have hm : 0 < m := by rw [← ha]; exact effectiveMultiplier_pos w a
  have hd : (0 : ℚ) < ((b.Y - a.Y : Int) : ℚ) := by
    exact_mod_cast (by omega : (0 : Int) < b.Y - a.Y)
  have e : w.GetMovementCost a b - w.GetMovementCost b a
      = (8 / 10) * ((b.Y - a.Y : Int) : ℚ) * m := by
    rw [GetMovementCost_eq_mul, GetMovementCost_eq_mul, ha, hb]
    unfold climbCost
    have h1 : ¬ (a.Y > b.Y) := by omega
    have h2 : ¬ (b.Y < a.Y) := by omega
    have h3 : a.Y < b.Y := hy
    have h4 : (b.X ≠ a.X ∧ b.Z ≠ a.Z) ↔ (a.X ≠ b.X ∧ a.Z ≠ b.Z) := by
      constructor <;> rintro ⟨h, h'⟩ <;> exact ⟨Ne.symm h, Ne.symm h'⟩
    simp only [hy, h1, h2, h3, h4, if_true, if_false]
    ring
  refine ⟨e, ?_⟩
  have : 0 < (8 / 10) * ((b.Y - a.Y : Int) : ℚ) * m := by positivity
  linarith

theorem GetMovementCost_asymmetry_witness :
    sandSteps.GetMovementCost ⟨0, 1, 0⟩ ⟨0, 3, 0⟩ - sandSteps.GetMovementCost ⟨0, 3, 0⟩ ⟨0, 1, 0⟩
      = (8 / 10) * (((3 : Int) - 1 : Int) : ℚ) * (3 / 2) ∧
    sandSteps.GetMovementCost ⟨0, 3, 0⟩ ⟨0, 1, 0⟩ < sandSteps.GetMovementCost ⟨0, 1, 0⟩ ⟨0, 3, 0⟩ :=
  GetMovementCost_asymmetry sandSteps ⟨0, 1, 0⟩ ⟨0, 3, 0⟩ (3 / 2) (by decide) (by decide!)
    (by decide!)

theorem breakingMoveCost_ge (w : World) (o : PathfindingOptions) (u : Point)
    (ni : NeighborInfo) : w.GetMovementCost u ni.Point ≤ breakingMoveCost w o u ni := by
  unfold breakingMoveCost
  have h1 : (0 : ℚ) ≤ ((abs (ni.Point.Y - u.Y) : Int) : ℚ) := by
    exact_mod_cast abs_nonneg_int _
  simp only
  split_ifs <;> linarith

/-- Over unbounded integers and exact rationals `GetMovementCost` is strictly
positive in every world, whatever the multipliers of its blocks, and so are
the edge costs the strategies build from it by adding surcharges. -/
theorem edge_costs_positive (w : World) (o : PathfindingOptions) (u v : Point)
    (bp pp : PointSet) (ni : NeighborInfo) :
    0 < w.GetMovementCost u v ∧ 0 < dijkstraMoveCost w o bp pp u v ∧
      0 < breakingMoveCost w o u ni :=
  ⟨GetMovementCost_pos w u v, dijkstraMoveCost_pos w o bp pp u v,
    lt_of_lt_of_le (GetMovementCost_pos w u ni.Point) (breakingMoveCost_ge w o u ni)⟩

/-! ## Admissibility of the heuristic -/

theorem neighborInfo_eq (w : World) (o : PathfindingOptions) (u : Point) (ni : NeighborInfo)
    (h : ni ∈ GetNeighborsWithBreaking u w o) :
    ni = ⟨ni.Point, !w.IsWalkable ni.Point, false⟩ := by
  obtain ⟨d, -, h1⟩ := (mem_GetNeighborsWithBreaking w o u ni).1 h
  rcases h1 with ⟨h1, rfl⟩ | ⟨h1, -, -, rfl⟩ <;> simp [h1]

theorem climbCost_ge_one (u v : Point) : 1 ≤ climbCost u v := by
  unfold climbCost
  have h1 : (1 : ℚ) ≤ (if u.X ≠ v.X ∧ u.Z ≠ v.Z then (1414 / 1000 : ℚ) else 1) := by
    split_ifs <;> norm_num
  have h2 : (0 : ℚ) ≤ (if v.Y > u.Y then 1 * ((v.Y - u.Y : Int) : ℚ)
      else if v.Y < u.Y then (2 / 10) * ((u.Y - v.Y : Int) : ℚ) else 0) := by
    split_ifs with h h'
    · have : (0 : ℚ) ≤ ((v.Y - u.Y : Int) : ℚ) := by
        exact_mod_cast (by omega : (0 : Int) ≤ v.Y - u.Y)
      linarith
    · have : (0 : ℚ) ≤ ((u.Y - v.Y : Int) : ℚ) := by
        exact_mod_cast (by omega : (0 : Int) ≤ u.Y - v.Y)
      linarith
    · exact le_refl _
  linarith

theorem effectiveMultiplier_ge_one (w : World) (v : Point)
    (hw : ∀ p b, w.GetBlock p = some b → b.MoveCost ≤ 0 ∨ 1 ≤ b.MoveCost) :
    1 ≤ effectiveMultiplier w v := by
  unfold effectiveMultiplier
  cases h : w.GetBlock v with
  | none => exact le_refl _
  | some b =>
    simp only
    split_ifs with hm
    · rcases hw v b h with h1 | h1
      · linarith
      · exact h1
    · exact le_refl _

theorem Heuristic_self (g : Point) (o : PathfindingOptions) : Heuristic g g o = 0 := by
  unfold Heuristic
  simp [abs_zero_eq]

theorem Heuristic_axisStep (a b g : Point) (o : PathfindingOptions)
    (ho : o.MinimiseHeight = false) (h : axisStep 1 a b) :
    Heuristic a g o ≤ 1 + Heuristic b g o := by
  unfold Heuristic
  simp only [ho, Bool.false_eq_true, if_false]
  have key : abs (a.X - g.X) + abs (a.Z - g.Z) + abs (a.Y - g.Y)
      ≤ 1 + (abs (b.X - g.X) + abs (b.Z - g.Z) + abs (b.Y - g.Y)) := by
    unfold axisStep at h
    simp only [abs_eq_abs] at h ⊢
    rcases h with ⟨h1, h2, h3⟩ | ⟨h1, h2, h3⟩ | ⟨h1, h2, h3⟩
    · rw [h2, h3]
      have := abs_sub_abs_le_abs_sub (a.X - g.X) (b.X - g.X)
      have e : a.X - g.X - (b.X - g.X) = -(b.X - a.X) := by ring
      rw [e, abs_neg, h1] at this
      linarith
    · rw [h1, h3]
      have := abs_sub_abs_le_abs_sub (a.Y - g.Y) (b.Y - g.Y)
      have e : a.Y - g.Y - (b.Y - g.Y) = -(b.Y - a.Y) := by ring
      rw [e, abs_neg, h2] at this
      linarith
    · rw [h1, h2]
      have := abs_sub_abs_le_abs_sub (a.Z - g.Z) (b.Z - g.Z)
      have e : a.Z - g.Z - (b.Z - g.Z) = -(b.Z - a.Z) := by ring
      rw [e, abs_neg, h3] at this
      linarith
  have key2 : ((abs (a.X - g.X) + abs (a.Z - g.Z) + abs (a.Y - g.Y) : Int) : ℚ)
      ≤ ((1 + (abs (b.X - g.X) + abs (b.Z - g.Z) + abs (b.Y - g.Y)) : Int) : ℚ) := by
    exact_mod_cast key
  push_cast at key2 ⊢
  linarith

/-- C13, counterexample: with `MinimiseHeight` off the heuristic from (0,1,0)
to (1,1,1) is 2 while the diagonal move the A* expander offers costs 1.414;
and the heuristic from (0,1,0) to (1,1,0) is 1 while the move into ice with
multiplier 0.5 costs 0.5. -/
theorem Heuristic_not_admissible :
    (List.Chain' (astarStep squareWorld {}) [⟨0, 1, 0⟩, ⟨1, 1, 1⟩] ∧
      pathCost (astarEdgeCost squareWorld {}) [⟨0, 1, 0⟩, ⟨1, 1, 1⟩]
        < Heuristic ⟨0, 1, 0⟩ ⟨1, 1, 1⟩ {}) ∧
    (List.Chain' (astarStep iceWorld {}) [⟨0, 1, 0⟩, ⟨1, 1, 0⟩] ∧
      pathCost (astarEdgeCost iceWorld {}) [⟨0, 1, 0⟩, ⟨1, 1, 0⟩]
        < Heuristic ⟨0, 1, 0⟩ ⟨1, 1, 0⟩ {}) := by
  refine ⟨⟨?_, by decide!⟩, ⟨?_, by decide!⟩⟩ <;>
    (simp only [List.chain'_cons, List.chain'_singleton, and_true]; decide!)

/-- C13, amended: with `MinimiseHeight` off, in a world none of whose blocks
has a multiplier strictly between 0 and 1, `Heuristic a g` is at most the
total edge cost of every path from `a` to `g` made of non-diagonal moves that
the A* expander permits. -/
theorem Heuristic_admissible_axis (w : World) (o : PathfindingOptions)
    (ho : o.MinimiseHeight = false)
    (hw : ∀ p b, w.GetBlock p = some b → b.MoveCost ≤ 0 ∨ 1 ≤ b.MoveCost)
    (path : List Point) (a g : Point) (ha : path.head? = some a)
    (hg : path.getLast? = some g)
    (hc : List.Chain' (fun u v => astarStep w o u v ∧ axisStep 1 u v) path) :
    Heuristic a g o ≤ pathCost (astarEdgeCost w o) path := by
  induction path generalizing a with
  | nil => simp at ha
  | cons x rest ih =>
    simp only [List.head?_cons, Option.some.injEq] at ha
    subst ha
    cases rest with
    | nil =>
      simp only [List.getLast?_singleton, Option.some.injEq] at hg
      subst hg
      rw [Heuristic_self]
      simp [pathCost]
    | cons y rest1 =>
      have hc1 := List.chain'_cons.1 hc
      have hrest := ih y rfl (by simpa [List.getLast?_cons_cons] using hg) hc1.2
      have hstep := Heuristic_axisStep x y g o ho hc1.1.2
      have hcost : 1 ≤ astarEdgeCost w o x y := by
        unfold astarEdgeCost
        refine le_trans ?_ (breakingMoveCost_ge w o x _)
        rw [GetMovementCost_eq_mul]
        have h1 := climbCost_ge_one x y
        have h2 := effectiveMultiplier_ge_one w y hw
        nlinarith
      simp only [pathCost]
      linarith

theorem Heuristic_admissible_axis_witness :
    Heuristic ⟨0, 1, 0⟩ ⟨2, 1, 0⟩ { AllowBreaking := true } ≤
      pathCost (astarEdgeCost wallWorld { AllowBreaking := true })
        [⟨0, 1, 0⟩, ⟨1, 1, 0⟩, ⟨2, 1, 0⟩] :=
  Heuristic_admissible_axis wallWorld { AllowBreaking := true } rfl
    (by
      intro p b h
      simp only [wallWorld, World.GetBlock, List.lookup] at h
      split at h
      · cases h; right; decide!
      · split at h
        · cases h; right; decide!
        · split at h
          · cases h; right; decide!
          · cases h)
    [⟨0, 1, 0⟩, ⟨1, 1, 0⟩, ⟨2, 1, 0⟩] ⟨0, 1, 0⟩ ⟨2, 1, 0⟩ rfl rfl
    (by simp only [List.chain'_cons, List.chain'_singleton, and_true]; decide!)

/-! ## Metrics of the returned result -/

/-- C17: on a walkable column Dijkstra climbs from (0,1,0) to (0,3,0) by two
steps of one level each, so the consecutive height differences sum to 2, and
reports `VerticalChange = 3`: the reconstruction walks back from the goal with
`lastY` starting at the height of the start. -/
theorem dijkstra_vertical_change_column :
    FindPathDijkstraWithOptions 20 ⟨0, 1, 0⟩ ⟨0, 3, 0⟩ columnWorld {} =
      some { Path := [⟨0, 1, 0⟩, ⟨0, 2, 0⟩, ⟨0, 3, 0⟩], NodesExplored := 3,
             VerticalChange := 3, TotalCost := 4 } ∧
    verticalSum [⟨0, 1, 0⟩, ⟨0, 2, 0⟩, ⟨0, 3, 0⟩] = 2 := by
  constructor <;> decide!

/-- C18: without options, from a water cell to the air cell next to it, the
default driver reports `WaterCrossed = 1` although no cell of the path other
than the start is water: `findPathStandard` counts the start as well. -/
theorem FindPathWithOptions_counts_water_start :
    FindPathWithOptions 20 ⟨0, 1, 0⟩ ⟨1, 1, 0⟩ pondWorld {} =
      some { Path := [⟨0, 1, 0⟩, ⟨1, 1, 0⟩], WaterCrossed := 1, TotalCost := 2 } ∧
    waterAfterStart pondWorld [⟨0, 1, 0⟩, ⟨1, 1, 0⟩] = 0 := by
  constructor <;> decide!

/-- C19: with `AllowBreaking`, from (0,1,0) to the walkable cell (1,1,0) next
to it, the default driver lists the stone block (0,1,1) in `BlocksBroken`
although the returned path does not pass it: the list collects every breakable
neighbour met while relaxing. -/
theorem FindPathWithOptions_lists_unvisited_block :
    FindPathWithOptions 20 ⟨0, 1, 0⟩ ⟨1, 1, 0⟩ sideWallWorld { AllowBreaking := true } =
      some { Path := [⟨0, 1, 0⟩, ⟨1, 1, 0⟩], NodesExplored := 2,
             BlocksBroken := [⟨0, 1, 1⟩], TotalCost := 1 } ∧
    (⟨0, 1, 1⟩ : Point) ∉ [(⟨0, 1, 0⟩ : Point), ⟨1, 1, 0⟩] := by
  constructor <;> decide!

/-! ## The list of broken blocks -/

theorem breakingRelax_blocksBroken (Q : Point → Prop) (goal : Point) (w : World)
    (o : PathfindingOptions) (cur : Node) (l : List NeighborInfo) (st : BreakingState)
    (hl : ∀ ni ∈ l, ni.RequiresBreaking = true → Q ni.Point)
    (hst : ∀ x ∈ st.blocksBroken, Q x) :
    ∀ x ∈ (breakingRelax goal w o cur l st).blocksBroken, Q x := by
  induction l generalizing st with
  | nil => simpa [breakingRelax] using hst
  | cons ni rest ih =>
    have hnew : ∀ x ∈ (if ni.RequiresBreaking then st.blocksBroken ++ [ni.Point]
        else st.blocksBroken), Q x := by
      intro x hx
      split_ifs at hx with hr
      · rcases List.mem_append.1 hx with hx | hx
        · exact hst x hx
        · rw [List.mem_singleton] at hx
          subst hx
          exact hl ni (List.mem_cons_self _ _) hr
      · exact hst x hx
    have hrest : ∀ n ∈ rest, n.RequiresBreaking = true → Q n.Point :=
      fun n hn => hl n (List.mem_cons_of_mem _ hn)
    by_cases hb : ∀ val, st.gScore ni.Point = some val →
        st.gScore.getD cur.Position + breakingMoveCost w o cur.Position ni < val
    · rw [breakingRelax_cons_better goal w o cur ni rest st hb]
      exact ih _ hrest hnew
    · push_neg at hb
      obtain ⟨val, hg, hv⟩ := hb
      rw [breakingRelax_cons_worse goal w o cur ni rest st val hg (not_lt.2 hv)]
      exact ih _ hrest hnew

theorem breakingLoop_blocksBroken (Q : Point → Prop) (goal : Point) (w : World)
    (o : PathfindingOptions)
    (hQ : ∀ u ni, ni ∈ GetNeighborsWithBreaking u w o → ni.RequiresBreaking = true →
      Q ni.Point)
    (fuel : Nat) (st : BreakingState) (hst : ∀ x ∈ st.blocksBroken, Q x)
    (r : SearchTuple) (h : breakingLoop goal w o fuel st = some r) :
    ∀ x ∈ r.2.2.1, Q x := by
  induction fuel generalizing st with
  | zero => simp [breakingLoop] at h
  | succ fuel ih =>
    rw [breakingLoop] at h
    unfold breakingStep at h
    cases hp : heapPop st.openSet with
    | none =>
      rw [hp] at h
      simp only [Option.some.injEq] at h
      subst h
      exact hst
    | some co =>
      obtain ⟨cur, os⟩ := co
      rw [hp] at h
      dsimp only at h
      split_ifs at h with hgoal
      · simp only [Option.some.injEq] at h
        subst h
        exact hst
      · simp only [] at h
        refine ih _ ?_ h
        exact breakingRelax_blocksBroken Q goal w o cur _ _
          (fun ni hni => hQ cur.Position ni hni) hst

theorem requiresBreaking_spec (w : World) (o : PathfindingOptions) (u : Point)
    (ni : NeighborInfo) (h : ni ∈ GetNeighborsWithBreaking u w o)
    (hr : ni.RequiresBreaking = true) :
    w.IsWalkable ni.Point = false ∧ w.CanBreak ni.Point = true := by
  obtain ⟨d, -, h1⟩ := (mem_GetNeighborsWithBreaking w o u ni).1 h
  rcases h1 with ⟨-, rfl⟩ | ⟨h1, -, h3, rfl⟩
  · simp at hr
  · exact ⟨h1, h3⟩

theorem FindPathWithOptions_blocksBroken (w : World) (o : PathfindingOptions)
    (start goal : Point) (fuel : Nat) (r : PathfindingResult) (hb : o.AllowBreaking = true)
    (h : FindPathWithOptions fuel start goal w o = some r) :
    ∀ x ∈ r.BlocksBroken, w.IsWalkable x = false ∧ w.CanBreak x = true := by
  unfold FindPathWithOptions at h
  simp only [hb, if_true] at h
  cases ht : findPathWithBreaking fuel start goal w o with
  | none => rw [ht] at h; cases h
  | some t =>
    rw [ht] at h
    obtain ⟨path, ne, bb, wc, vc, tc⟩ := t
    simp only [Option.some.injEq] at h
    subst h
    exact breakingLoop_blocksBroken (fun x => w.IsWalkable x = false ∧ w.CanBreak x = true)
      goal w o (requiresBreaking_spec w o) fuel _ (by simp) _ ht

theorem lookup_some_mem {α β : Type} [BEq α] [LawfulBEq α] (l : List (α × β)) (a : α)
    (b : β) (h : l.lookup a = some b) : (a, b) ∈ l := by
  induction l with
  | nil => simp at h
  | cons x rest ih =>
    obtain ⟨k, v⟩ := x
    by_cases hk : a = k
    · subst hk
      simp only [List.lookup, beq_self_eq_true, Option.some.injEq] at h
      subst h
      exact List.mem_cons_self _ _
    · have : (a == k) = false := by simpa using hk
      simp only [List.lookup, this] at h
      exact List.mem_cons_of_mem _ (ih h)

theorem SetBlock_ok (w : World) (p : Point) (b : Block) (hb : BlockOK b) (hw : WorldOK w) :
    WorldOK (w.SetBlock p b) := by
  intro q c hq
  rcases List.mem_cons.1 hq with hq | hq
  · rw [(Prod.mk.inj hq).2]
    exact hb
  · exact hw q c hq

theorem forRange_ok (lo hi : Int) (body : World → Int → World) (w : World)
    (hb : ∀ w i, WorldOK w → WorldOK (body w i)) (hw : WorldOK w) :
    WorldOK (forRange lo hi body w) := by
  unfold forRange
  generalize intRange lo hi = l
  induction l generalizing w with
  | nil => exact hw
  | cons i rest ih => exact ih _ (hb w i hw)

theorem NewWorld_ok : WorldOK NewWorld := by
  intro p b h
  simp [NewWorld] at h

theorem setupWorld_ok (w : World) (req : PathRequest) (hw : WorldOK w) :
    WorldOK (setupWorld w req) := by
  unfold setupWorld
  dsimp only
  split_ifs
  all_goals
    repeat' first
      | assumption
      | (show BlockOK _; simp [BlockOK])
      | apply forRange_ok
      | apply SetBlock_ok
      | split_ifs
      | intro _ _ _

theorem worldOK_spec (w : World) (hw : WorldOK w) (x : Point)
    (h1 : w.IsWalkable x = false) (h2 : w.CanBreak x = true) :
    w.GetBlockType x = "grass" ∨ w.GetBlockType x = "stone" ∨ w.GetBlockType x = "lava" := by
  unfold World.IsWalkable at h1
  unfold World.CanBreak at h2
  unfold World.GetBlockType
  cases hg : w.GetBlock x with
  | none => rw [hg] at h2; simp at h2
  | some b =>
    rw [hg] at h1 h2
    exact hw x b (lookup_some_mem _ _ _ hg) h1 h2

/-- C20: with `AllowBreaking`, every cell the default driver lists in
`BlocksBroken` is non-walkable and breakable in the world; in the world built
by `setupWorld`, and in the one the request handlers derive from it, every
listed cell therefore has type grass, stone or lava. -/
theorem blocksBroken_breakable (fuel : Nat) (w : World) (start goal : Point)
    (o : PathfindingOptions) (r : PathfindingResult) (hb : o.AllowBreaking = true)
    (h : FindPathWithOptions fuel start goal w o = some r) :
    (∀ x ∈ r.BlocksBroken, w.IsWalkable x = false ∧ w.CanBreak x = true) ∧
    ((∃ req, w = setupWorld NewWorld req ∨ w = requestWorld req) →
      ∀ x ∈ r.BlocksBroken,
        w.GetBlockType x = "grass" ∨ w.GetBlockType x = "stone" ∨ w.GetBlockType x = "lava") := by
  have hbb := FindPathWithOptions_blocksBroken w o start goal fuel r hb h
  refine ⟨hbb, ?_⟩
  rintro ⟨req, hreq⟩ x hx
  have hs : WorldOK (setupWorld NewWorld req) := setupWorld_ok _ _ NewWorld_ok
  have hw : WorldOK w := by
    rcases hreq with rfl | rfl
    · exact hs
    · exact SetBlock_ok _ _ _ (by simp [BlockOK]) (SetBlock_ok _ _ _ (by simp [BlockOK]) hs)
  exact worldOK_spec w hw x (hbb x hx).1 (hbb x hx).2

theorem blocksBroken_breakable_witness :
    (∀ x ∈ sideWallResult.BlocksBroken,
      sideWallWorld.IsWalkable x = false ∧ sideWallWorld.CanBreak x = true) ∧
    ((∃ req, sideWallWorld = setupWorld NewWorld req ∨ sideWallWorld = requestWorld req) →
      ∀ x ∈ sideWallResult.BlocksBroken,
        sideWallWorld.GetBlockType x = "grass" ∨ sideWallWorld.GetBlockType x = "stone" ∨
          sideWallWorld.GetBlockType x = "lava") :=
  blocksBroken_breakable 20 sideWallWorld ⟨0, 1, 0⟩ ⟨1, 1, 0⟩ { AllowBreaking := true }
    sideWallResult rfl (by decide!)

/-! ## `AvoidWater` in the default driver -/

/-- C21: on two rows of three walkable cells, the middle cell of the first row
being water, the default driver with `AvoidWater` alone goes from (0,1,0) to
(2,1,0) straight through the water cell and reports `WaterCrossed = 1`,
although the second row is a way round through walkable cells none of which is
water: `findPathStandard` does not read its options. -/
theorem FindPathWithOptions_avoid_water_ignored :
    FindPathWithOptions 30 ⟨0, 1, 0⟩ ⟨2, 1, 0⟩ fordWorld { AvoidWater := true } =
      some { Path := [⟨0, 1, 0⟩, ⟨1, 1, 0⟩, ⟨2, 1, 0⟩], WaterCrossed := 1, TotalCost := 3 } ∧
    List.Chain' (axisStep 1) [⟨0, 1, 0⟩, ⟨0, 1, 1⟩, ⟨1, 1, 1⟩, ⟨2, 1, 1⟩, ⟨2, 1, 0⟩] ∧
    ∀ p ∈ [(⟨0, 1, 0⟩ : Point), ⟨0, 1, 1⟩, ⟨1, 1, 1⟩, ⟨2, 1, 1⟩, ⟨2, 1, 0⟩],
      fordWorld.IsWalkable p = true ∧ fordWorld.GetBlockType p ≠ "water" := by
  refine ⟨by decide!, ?_, by decide!⟩
  simp only [List.chain'_cons, List.chain'_singleton, and_true]
  decide!

/-! ## Jump point search -/

/-- C27: when `AllowBreaking`, `AllowPlacing` or `AvoidWater` is set,
`FindPathJPSWithOptions` returns the result of `FindPathWithOptions` on the
same input. -/
theorem FindPathJPSWithOptions_fallback (fuel : Nat) (start goal : Point) (w : World)
    (o : PathfindingOptions)
    (h : o.AllowBreaking = true ∨ o.AllowPlacing = true ∨ o.AvoidWater = true) :
    FindPathJPSWithOptions fuel start goal w o = FindPathWithOptions fuel start goal w o := by
  unfold FindPathJPSWithOptions
  have hc : (o.AllowBreaking || o.AllowPlacing || o.AvoidWater) = true := by
    rcases h with h | h | h <;> simp [h]
  rw [if_pos hc]

theorem FindPathJPSWithOptions_fallback_witness :
    FindPathJPSWithOptions 20 ⟨0, 1, 0⟩ ⟨2, 1, 0⟩ wallWorld { AllowBreaking := true } =
      FindPathWithOptions 20 ⟨0, 1, 0⟩ ⟨2, 1, 0⟩ wallWorld { AllowBreaking := true } :=
  FindPathJPSWithOptions_fallback 20 ⟨0, 1, 0⟩ ⟨2, 1, 0⟩ wallWorld { AllowBreaking := true }
    (Or.inl rfl)

/-- C28: on a corridor (0,1,0), (1,1,0), (2,1,0) with a walkable cell above
the middle one, the route from (0,1,0) to (2,1,0) has the jump point (1,1,0),
and the path returned is (0,1,0), (1,1,0), (1,1,0): it does not end at the
goal and repeats a cell. The reconstruction cuts the last cell of the path
built so far before it appends the next interpolated segment. -/
theorem FindPathJPSWithOptions_two_segments :
    FindPathJPSWithOptions 20 ⟨0, 1, 0⟩ ⟨2, 1, 0⟩ stepWorld {} =
      some { Path := [⟨0, 1, 0⟩, ⟨1, 1, 0⟩, ⟨1, 1, 0⟩], NodesExplored := 3, TotalCost := 2 } ∧
    [(⟨0, 1, 0⟩ : Point), ⟨1, 1, 0⟩, ⟨1, 1, 0⟩].getLast? ≠ some ⟨2, 1, 0⟩ := by
  constructor <;> decide!

/-! ## Bidirectional search -/

theorem bidiBackwardPath_stuck (goal : Point) (hg : isEqual ⟨0, 0, 0⟩ goal = false)
    (fuel : Nat) (acc : List Point) :
    bidiBackwardPath goal ParentMap.empty fuel ⟨0, 0, 0⟩ acc = none := by
  induction fuel generalizing acc with
  | zero => rfl
  | succ fuel ih =>
    rw [bidiBackwardPath, hg]
    exact ih _

/-- C29: from (0,1,0) to the walkable cell (1,1,0) next to it the search never
returns: the forward half meets the goal itself, which has no backward parent,
and the loop that builds the backward path then walks from the zero point
without ever reaching the goal. When the goal is the origin, as from (1,0,0)
to (0,0,0), that loop is skipped and the path (1,0,0), (0,0,0), (0,0,0) lists
the goal twice. -/
theorem FindPathBidirectionalWithOptions_adjacent :
    (∀ fuel, FindPathBidirectionalWithOptions fuel ⟨0, 1, 0⟩ ⟨1, 1, 0⟩ pairWorld {} = none) ∧
    FindPathBidirectionalWithOptions 50 ⟨1, 0, 0⟩ ⟨0, 0, 0⟩ originWorld {} =
      some { Path := [⟨1, 0, 0⟩, ⟨0, 0, 0⟩, ⟨0, 0, 0⟩], NodesExplored := 1, TotalCost := 3 } := by
  refine ⟨?_, by decide!⟩
  intro fuel
  rcases fuel with _ | _ | n
  · rfl
  · rfl
  · have h1 : bidiLoop pairWorld {} (n + 2) (bidiInit ⟨0, 1, 0⟩ ⟨1, 1, 0⟩) =
        some (bidiForward pairWorld {} (bidiInit ⟨0, 1, 0⟩ ⟨1, 1, 0⟩)) := rfl
    have h2 : bidiForwardPath ⟨0, 1, 0⟩
        (bidiForward pairWorld {} (bidiInit ⟨0, 1, 0⟩ ⟨1, 1, 0⟩)).forwardParent
        (bidiForward pairWorld {} (bidiInit ⟨0, 1, 0⟩ ⟨1, 1, 0⟩)).breakPoints
        (bidiForward pairWorld {} (bidiInit ⟨0, 1, 0⟩ ⟨1, 1, 0⟩)).placePoints (n + 2)
        (bidiForward pairWorld {} (bidiInit ⟨0, 1, 0⟩ ⟨1, 1, 0⟩)).meetingPoint ([], [], []) =
        some ([⟨1, 1, 0⟩], [], []) := rfl
    have h3 : (bidiForward pairWorld {} (bidiInit ⟨0, 1, 0⟩ ⟨1, 1, 0⟩)).meetFound = true := rfl
    have h4 := bidiBackwardPath_stuck ⟨1, 1, 0⟩ rfl (n + 2) []
    unfold FindPathBidirectionalWithOptions
    rw [h1]
    simp only [h3, if_true, h2]
    exact (by rw [show (bidiForward pairWorld {} (bidiInit ⟨0, 1, 0⟩ ⟨1, 1, 0⟩)).backwardParent
      = ParentMap.empty from rfl, show ParentMap.get ParentMap.empty
        (bidiForward pairWorld {} (bidiInit ⟨0, 1, 0⟩ ⟨1, 1, 0⟩)).meetingPoint = ⟨0, 0, 0⟩ from rfl,
      h4])

/-- C30: with start = goal = (0,1,0) and a walkable cell (1,1,0) beside it the
search returns the three-cell path (0,1,0), (1,1,0), (0,1,0), and on the empty
world the empty path; on no input is the returned path the one-element path,
since a non-empty path is the start, the forward cells, the backward cells and
the goal. -/
theorem FindPathBidirectionalWithOptions_same_cell :
    FindPathBidirectionalWithOptions 50 ⟨0, 1, 0⟩ ⟨0, 1, 0⟩ pairWorld {} =
      some { Path := [⟨0, 1, 0⟩, ⟨1, 1, 0⟩, ⟨0, 1, 0⟩], NodesExplored := 2, TotalCost := 3 } ∧
    FindPathBidirectionalWithOptions 50 ⟨0, 1, 0⟩ ⟨0, 1, 0⟩ NewWorld {} =
      some { Path := [], NodesExplored := 2 } ∧
    ∀ (fuel : Nat) (w : World) (s : Point) (o : PathfindingOptions) (r : PathfindingResult),
      FindPathBidirectionalWithOptions fuel s s w o = some r → r.Path ≠ [s] := by
  refine ⟨by decide!, by decide!, ?_⟩
  intro fuel w s o r h
  unfold FindPathBidirectionalWithOptions at h
  split at h
  · cases h
  · split_ifs at h
    · split at h
      · cases h
      · split at h
        · cases h
        · simp only [Option.some.injEq] at h
          subst h
          intro hp
          have := congrArg List.length hp
          simp at this
    · simp only [Option.some.injEq] at h
      subst h
      simp

/-! ## Breadth-first search -/

theorem isEqual_iff (p q : Point) : isEqual p q = true ↔ p = q := by
  cases p; cases q
  simp [isEqual]
  tauto

theorem bfsExpand_eq (w : World) (o : PathfindingOptions) (u : Point) (bp pp : PointSet) :
    bfsExpand w o u bp pp = dijkstraExpand w o u bp pp := rfl

theorem mem_bfsExpand (w : World) (o : PathfindingOptions) (u : Point) (bp pp : PointSet)
    (v : Point) : v ∈ (bfsExpand w o u bp pp).1 ↔ v ∈ dijkstraNeighbors w o u := by
  rw [bfsExpand_eq]
  exact mem_dijkstraExpand w o u bp pp v

theorem PointSet.add_self (m : PointSet) (p : Point) : m.add p p = true := by
  simp [PointSet.add]

theorem PointSet.add_of_true (m : PointSet) (p q : Point) (h : m q = true) :
    m.add p q = true := by
  unfold PointSet.add
  split_ifs
  · rfl
  · exact h

theorem PointSet.add_ne (m : PointSet) (p q : Point) (h : q ≠ p) : m.add p q = m q := by
  simp [PointSet.add, h]

theorem ParentMap.set_same (m : ParentMap) (p v : Point) : m.set p v p = some v := by
  simp [ParentMap.set]

theorem ParentMap.set_other (m : ParentMap) (p v q : Point) (h : q ≠ p) : m.set p v q = m q := by
  simp [ParentMap.set, h]

theorem ParentMap.get_of_some (m : ParentMap) (p u : Point) (h : m p = some u) :
    m.get p = u := by
  simp [ParentMap.get, h]

/-- A walk from the visited start to a cell that is not visited leaves the
visited cells somewhere before its end. -/
theorem reach_frontier (w : World) (o : PathfindingOptions) (start : Point) (vis : PointSet)
    (hs : vis start = true) (k : Nat) (v : Point) (hr : Reach w o start k v)
    (hv : vis v = false) :
    ∃ i x y, i < k ∧ Reach w o start i x ∧ vis x = true ∧ y ∈ dijkstraNeighbors w o x ∧
      vis y = false := by
  induction hr with
  | nil => rw [hs] at hv; cases hv
  | @snoc k u v hu huv ih =>
    cases hvu : vis u with
    | true => exact ⟨k, u, v, Nat.lt_succ_self k, hu, hvu, huv, hv⟩
    | false =>
      obtain ⟨i, x, y, hi, hx, hvx, hy, hvy⟩ := ih hvu
      exact ⟨i, x, y, Nat.lt_succ_of_lt hi, hx, hvx, hy, hvy⟩

theorem BFSInv.init (w : World) (o : PathfindingOptions) (start goal : Point) :
    BFSInv w o start goal (fun _ => 0) 0 0 none [start] (PointSet.empty.add start)
      ParentMap.empty := by
  have hv : ∀ x, (PointSet.empty.add start) x = true → x = start := by
    intro x hx
    by_contra hne
    rw [PointSet.add_ne _ _ _ hne] at hx
    cases hx
  refine ⟨PointSet.add_self _ _, rfl, ?_, ?_, ?_, ?_, ?_, ?_, ?_, ?_, ?_⟩
  · intro x hx
    rw [List.mem_singleton] at hx
    subst hx
    exact PointSet.add_self _ _
  · intro v h1 h2
    exact absurd (hv v h1) h2
  · intro v k _ _
    exact Nat.zero_le _
  · exact List.pairwise_singleton _ _
  · intro x _
    exact ⟨le_refl _, Nat.zero_le _⟩
  · intro y hy
    cases hy
  · intro x hx hq
    exact absurd (List.mem_singleton.2 (hv x hx)) hq
  · intro x hx hq
    exact absurd (List.mem_singleton.2 (hv x hx)) hq
  · intro x _
    exact le_refl _

theorem BFSInv.pop (w : World) (o : PathfindingOptions) (start goal : Point) (lev : Point → Nat)
    (d n : Nat) (u : Point) (q : List Point) (vis : PointSet) (cf : ParentMap)
    (h : BFSInv w o start goal lev d n none (u :: q) vis cf) (hg : u ≠ goal) :
    BFSInv w o start goal lev (lev u) (n + 1) (some u) q vis cf := by
  have hu := h.range u (List.mem_cons_self _ _)
  have hs := List.pairwise_cons.1 h.sorted
  refine ⟨h.start_vis, h.lev_start, fun x hx => h.q_vis x (List.mem_cons_of_mem _ hx),
    h.parent, h.minimal, hs.2, ?_, ?_, ?_, ?_, ?_⟩
  · intro x hx
    have := h.range x (List.mem_cons_of_mem _ hx)
    exact ⟨hs.1 x hx, by omega⟩
  · intro y hy
    cases hy
    exact ⟨rfl, h.q_vis u (List.mem_cons_self _ _)⟩
  · intro x hx hq hb
    have hxu : x ≠ u := fun e => hb (by rw [e])
    exact h.closed x hx (by simp [hxu, hq]) (by simp)
  · intro x hx hq
    by_cases hxu : x = u
    · rw [hxu]; exact hg
    · exact h.notgoal x hx (by simp [hxu, hq])
  · intro x hx
    exact Nat.le_succ_of_le (h.bound x hx)

theorem BFSInv.finish (w : World) (o : PathfindingOptions) (start goal : Point)
    (lev : Point → Nat) (d n : Nat) (u : Point) (q : List Point) (vis : PointSet)
    (cf : ParentMap) (h : BFSInv w o start goal lev d n (some u) q vis cf)
    (hu : ∀ v ∈ dijkstraNeighbors w o u, vis v = true) :
    BFSInv w o start goal lev d n none q vis cf := by
  refine ⟨h.start_vis, h.lev_start, h.q_vis, h.parent, h.minimal, h.sorted, h.range, ?_, ?_,
    h.notgoal, h.bound⟩
  · intro y hy
    cases hy
  · intro x hx hq _
    by_cases hxu : x = u
    · rw [hxu]; exact hu
    · exact h.closed x hx hq (fun e => hxu (Option.some.inj e).symm)

theorem BFSInv.push_cell (w : World) (o : PathfindingOptions) (start goal : Point)
    (lev : Point → Nat) (d n : Nat) (u v : Point) (q : List Point) (vis : PointSet)
    (cf : ParentMap) (h : BFSInv w o start goal lev d n (some u) q vis cf)
    (hn : d + 1 ≤ n) (hv : v ∈ dijkstraNeighbors w o u) (hvis : vis v = false) :
    BFSInv w o start goal (Function.update lev v (d + 1)) d n (some u) (q ++ [v]) (vis.add v)
      (cf.set v u) := by
  have hbu := h.busy_lev u rfl
  have hne : ∀ x, vis x = true → x ≠ v := by
    intro x hx e
    rw [e, hvis] at hx
    cases hx
  have hlev : ∀ x, vis x = true → Function.update lev v (d + 1) x = lev x := fun x hx =>
    Function.update_noteq (hne x hx) _ _
  have hlv : Function.update lev v (d + 1) v = d + 1 := Function.update_same _ _ _
  have hold : ∀ x, vis.add v x = true → x ≠ v → vis x = true := by
    intro x hx hxv
    rw [PointSet.add_ne _ _ _ hxv] at hx
    exact hx
  refine ⟨PointSet.add_of_true _ _ _ h.start_vis, ?_, ?_, ?_, ?_, ?_, ?_, ?_, ?_, ?_, ?_⟩
  · rw [hlev start h.start_vis]
    exact h.lev_start
  · intro x hx
    rcases List.mem_append.1 hx with hx | hx
    · exact PointSet.add_of_true _ _ _ (h.q_vis x hx)
    · rw [List.mem_singleton] at hx
      rw [hx]
      exact PointSet.add_self _ _
  · intro x hx hxs
    by_cases hxv : x = v
    · subst hxv
      refine ⟨u, ParentMap.set_same _ _ _, PointSet.add_of_true _ _ _ hbu.2, hv, ?_⟩
      rw [hlv, hlev u hbu.2, hbu.1]
    · obtain ⟨p, hp1, hp2, hp3, hp4⟩ := h.parent x (hold x hx hxv) hxs
      refine ⟨p, ?_, PointSet.add_of_true _ _ _ hp2, hp3, ?_⟩
      · rw [ParentMap.set_other _ _ _ _ hxv]
        exact hp1
      · rw [hlev x (hold x hx hxv), hlev p hp2]
        exact hp4
  · intro x k hx hr
    by_cases hxv : x = v
    · subst hxv
      rw [hlv]
      by_contra hk
      obtain ⟨i, a, b, hi, ha, hva, hb, hvb⟩ :=
        reach_frontier w o start vis h.start_vis k x hr hvis
      have hla := h.minimal a i hva ha
      have hcl := h.closed a hva
        (fun hq => by have := (h.range a hq).1; omega)
        (fun e => by
          have := (Option.some.inj e)
          rw [← this] at hla
          omega)
        b hb
      rw [hcl] at hvb
      cases hvb
    · rw [hlev x (hold x hx hxv)]
      exact h.minimal x k (hold x hx hxv) hr
  · rw [List.pairwise_append]
    refine ⟨?_, List.pairwise_singleton _ _, ?_⟩
    · refine List.Pairwise.imp_of_mem ?_ h.sorted
      intro a b ha hb hab
      rw [hlev a (h.q_vis a ha), hlev b (h.q_vis b hb)]
      exact hab
    · intro a ha b hb
      rw [List.mem_singleton] at hb
      rw [hb, hlv, hlev a (h.q_vis a ha)]
      exact (h.range a ha).2
  · intro x hx
    rcases List.mem_append.1 hx with hx | hx
    · rw [hlev x (h.q_vis x hx)]
      exact h.range x hx
    · rw [List.mem_singleton] at hx
      rw [hx, hlv]
      omega
  · intro y hy
    cases hy
    exact ⟨by rw [hlev u hbu.2]; exact hbu.1, PointSet.add_of_true _ _ _ hbu.2⟩
  · intro x hx hq hb y hy
    have hxv : x ≠ v := fun e => hq (by rw [e]; simp)
    exact PointSet.add_of_true _ _ _
      (h.closed x (hold x hx hxv) (fun hq1 => hq (List.mem_append_left _ hq1)) hb y hy)
  · intro x hx hq
    have hxv : x ≠ v := fun e => hq (by rw [e]; simp)
    exact h.notgoal x (hold x hx hxv) (fun hq1 => hq (List.mem_append_left _ hq1))
  · intro x hx
    by_cases hxv : x = v
    · rw [hxv, hlv]; exact hn
    · rw [hlev x (hold x hx hxv)]
      exact h.bound x (hold x hx hxv)

theorem bfsEnqueue_inv (w : World) (o : PathfindingOptions) (start goal : Point) (d n : Nat)
    (u : Point) (hn : d + 1 ≤ n) (l : List Point)
    (hl : ∀ v ∈ l, v ∈ dijkstraNeighbors w o u)
    (lev : Point → Nat) (q : List Point) (vis : PointSet) (cf : ParentMap)
    (h : BFSInv w o start goal lev d n (some u) q vis cf) :
    (∃ lev1, BFSInv w o start goal lev1 d n (some u) (bfsEnqueue u l (q, vis, cf)).1
      (bfsEnqueue u l (q, vis, cf)).2.1 (bfsEnqueue u l (q, vis, cf)).2.2) ∧
    (∀ x, vis x = true → (bfsEnqueue u l (q, vis, cf)).2.1 x = true) ∧
    (∀ v ∈ l, (bfsEnqueue u l (q, vis, cf)).2.1 v = true) := by
  induction l generalizing lev q vis cf with
  | nil => exact ⟨⟨lev, h⟩, fun x hx => hx, fun v hv => by cases hv⟩
  | cons v rest ih =>
    have hrest : ∀ x ∈ rest, x ∈ dijkstraNeighbors w o u :=
      fun x hx => hl x (List.mem_cons_of_mem _ hx)
    cases hvis : vis v with
    | true =>
      have e : bfsEnqueue u (v :: rest) (q, vis, cf) = bfsEnqueue u rest (q, vis, cf) := by
        rw [bfsEnqueue]; simp [hvis]
      rw [e]
      obtain ⟨h1, h2, h3⟩ := ih hrest lev q vis cf h
      refine ⟨h1, h2, ?_⟩
      intro x hx
      rcases List.mem_cons.1 hx with hx | hx
      · rw [hx]; exact h2 v hvis
      · exact h3 x hx
    | false =>
      have e : bfsEnqueue u (v :: rest) (q, vis, cf) =
          bfsEnqueue u rest (q ++ [v], vis.add v, cf.set v u) := by
        rw [bfsEnqueue]; simp [hvis]
      rw [e]
      obtain ⟨h1, h2, h3⟩ := ih hrest _ _ _ _
        (BFSInv.push_cell w o start goal lev d n u v q vis cf h hn (hl v (List.mem_cons_self _ _)) hvis)
      refine ⟨h1, fun x hx => h2 x (PointSet.add_of_true _ _ _ hx), ?_⟩
      intro x hx
      rcases List.mem_cons.1 hx with hx | hx
      · rw [hx]; exact h2 v (PointSet.add_self _ _)
      · exact h3 x hx

theorem waterCount_append_singleton (w : World) (cells : List Point) (p : Point) :
    waterCount w (cells ++ [p]) =
      waterCount w cells + (if w.GetBlockType p == "water" then 1 else 0) := by
  unfold waterCount
  rw [List.filter_append, List.length_append]
  by_cases hp : (w.GetBlockType p == "water") = true
  · simp [List.filter, hp]
  · simp [List.filter, hp]

/-- The reconstruction loop of the breadth-first search from a visited cell:
the cells it puts in front of the path are a walk from the start to that cell
with as many moves as the level of the cell. -/
theorem bfsReconstruct_spec (w : World) (o : PathfindingOptions) (start goal : Point)
    (lev : Point → Nat) (d n : Nat) (busy : Option Point) (q : List Point) (vis : PointSet)
    (cf : ParentMap) (h : BFSInv w o start goal lev d n busy q vis cf) (bp pp : PointSet)
    (fuel : Nat) (p : Point) (t t1 : BFSTrace) (hp : vis p = true)
    (hr : bfsReconstruct w start cf bp pp fuel p t = some t1) :
    ∃ cells : List Point, t1.path = cells ++ t.path ∧ cells.length = lev p ∧
      List.Chain' (fun u v => v ∈ dijkstraNeighbors w o u) (start :: cells) ∧
      (start :: cells).getLast? = some p ∧
      Reach w o start cells.length p ∧
      t1.waterCrossed = t.waterCrossed + waterCount w cells := by
  induction fuel generalizing p t with
  | zero => simp [bfsReconstruct] at hr
  | succ fuel ih =>
    rw [bfsReconstruct] at hr
    by_cases hps : p = start
    · have he : isEqual p start = true := (isEqual_iff p start).2 hps
      rw [if_pos he] at hr
      have e := Option.some.inj hr
      subst e
      subst hps
      exact ⟨[], rfl, h.lev_start.symm, List.chain'_singleton _, rfl, Reach.nil,
        by simp [waterCount]⟩
    · have he : ¬ isEqual p start = true := fun e => hps ((isEqual_iff p start).1 e)
      rw [if_neg he] at hr
      obtain ⟨u, hu1, hu2, hu3, hu4⟩ := h.parent p hp hps
      rw [ParentMap.get_of_some _ _ _ hu1] at hr
      obtain ⟨cells, hc1, hc2, hc3, hc4, hc5, hc6⟩ := ih u _ hu2 hr
      refine ⟨cells ++ [p], ?_, ?_, ?_, ?_, ?_, ?_⟩
      · rw [hc1]
        simp
      · rw [List.length_append, hc2, hu4]
        rfl
      · have : start :: (cells ++ [p]) = (start :: cells) ++ [p] := rfl
        rw [this]
        refine List.Chain'.append hc3 (List.chain'_singleton _) ?_
        intro x hx y hy
        rw [hc4] at hx
        cases hx
        cases hy
        exact hu3
      · have : start :: (cells ++ [p]) = (start :: cells) ++ [p] := rfl
        rw [this, List.getLast?_append]
        rfl
      · rw [List.length_append]
        exact Reach.snoc hc5 hu3
      · rw [hc6, waterCount_append_singleton]
        dsimp only
        split_ifs <;> ring

/-- With an empty queue every cell a walk reaches is visited. -/
theorem BFSInv.complete (w : World) (o : PathfindingOptions) (start goal : Point)
    (lev : Point → Nat) (d n : Nat) (vis : PointSet) (cf : ParentMap)
    (h : BFSInv w o start goal lev d n none [] vis cf) (k : Nat) (v : Point)
    (hr : Reach w o start k v) : vis v = true := by
  induction hr with
  | nil => exact h.start_vis
  | @snoc k u v _ huv ih =>
    exact h.closed u ih (List.not_mem_nil _) (by simp) v huv

/-- The loop invariant of the breadth-first search as a property of the loop
state. -/
theorem bfsStep_inr (w : World) (o : PathfindingOptions) (start goal : Point) (rfuel : Nat)
    (lev : Point → Nat) (d n : Nat) (st st1 : BFSState)
    (h : BFSInv w o start goal lev d n none st.queue st.visited st.cameFrom)
    (hs : bfsStep rfuel start goal w o st = Sum.inr st1) :
    ∃ lev1 d1, BFSInv w o start goal lev1 d1 (n + 1) none st1.queue st1.visited st1.cameFrom := by
  unfold bfsStep at hs
  cases hq : st.queue with
  | nil => rw [hq] at hs; cases hs
  | cons u q =>
    rw [hq] at hs h
    dsimp only at hs
    by_cases hg : u = goal
    · have hc : u.X = goal.X ∧ u.Y = goal.Y ∧ u.Z = goal.Z := by rw [hg]; exact ⟨rfl, rfl, rfl⟩
      rw [if_pos hc] at hs
      split at hs <;> cases hs
    · have hc : ¬ (u.X = goal.X ∧ u.Y = goal.Y ∧ u.Z = goal.Z) := by
        intro hc
        exact hg (Point.eq_of_coords u goal hc)
      rw [if_neg hc] at hs
      have e := Sum.inr.inj hs
      subst e
      dsimp only
      have hpop := BFSInv.pop w o start goal lev d n u q st.visited st.cameFrom h hg
      have hu := h.range u (List.mem_cons_self _ _)
      have hb := h.bound u (h.q_vis u (List.mem_cons_self _ _))
      obtain ⟨⟨lev1, h1⟩, _, h3⟩ := bfsEnqueue_inv w o start goal (lev u) (n + 1) u (by omega)
        (bfsExpand w o u st.breakPoints st.placePoints).1
        (fun v hv => (mem_bfsExpand w o u _ _ v).1 hv) lev q st.visited st.cameFrom hpop
      exact ⟨lev1, lev u, BFSInv.finish w o start goal lev1 (lev u) (n + 1) u _ _ _ h1
        (fun v hv => h3 v ((mem_bfsExpand w o u _ _ v).2 hv))⟩

theorem bfsStep_inl (w : World) (o : PathfindingOptions) (start goal : Point) (rfuel : Nat)
    (lev : Point → Nat) (d n : Nat) (st : BFSState) (r : PathfindingResult)
    (h : BFSInv w o start goal lev d n none st.queue st.visited st.cameFrom)
    (hs : bfsStep rfuel start goal w o st = Sum.inl (some r)) :
    BFSPost w o start goal r := by
  unfold bfsStep at hs
  cases hq : st.queue with
  | nil =>
    rw [hq] at hs h
    have e := Option.some.inj (Sum.inl.inj hs)
    subst e
    left
    refine ⟨rfl, rfl, ?_⟩
    intro k hr
    have hv := BFSInv.complete w o start goal lev d n _ _ h k goal hr
    exact h.notgoal goal hv (List.not_mem_nil _) rfl
  | cons u q =>
    rw [hq] at hs h
    dsimp only at hs
    by_cases hg : u = goal
    · have hc : u.X = goal.X ∧ u.Y = goal.Y ∧ u.Z = goal.Z := by rw [hg]; exact ⟨rfl, rfl, rfl⟩
      rw [if_pos hc] at hs
      cases hrec : bfsReconstruct w start st.cameFrom st.breakPoints st.placePoints rfuel u
          { lastY := start.Y } with
      | none => rw [hrec] at hs; cases hs
      | some t =>
        rw [hrec] at hs
        have e := Option.some.inj (Sum.inl.inj hs)
        subst e
        obtain ⟨cells, hc1, hc2, hc3, hc4, hc5, hc6⟩ :=
          bfsReconstruct_spec w o start goal lev d n none _ _ _ h _ _ rfuel u _ t
            (h.q_vis u (List.mem_cons_self _ _)) hrec
        simp only [List.append_nil] at hc1
        right
        refine ⟨cells, by rw [hc1], hc3, by rw [hc4, hg], by rw [← hg]; exact hc5, ?_, ?_, ?_⟩
        · intro k hk
          rw [hc2, hg]
          exact h.minimal goal k (by rw [← hg]; exact h.q_vis u (List.mem_cons_self _ _)) hk
        · simp only [hc6, zero_add]
        · simp only [hc1, List.length_cons]
    · have hc : ¬ (u.X = goal.X ∧ u.Y = goal.Y ∧ u.Z = goal.Z) := by
        intro hc
        exact hg (Point.eq_of_coords u goal hc)
      rw [if_neg hc] at hs
      cases hs

theorem bfsLoop_post (w : World) (o : PathfindingOptions) (start goal : Point) (rfuel : Nat)
    (fuel : Nat) (lev : Point → Nat) (d n : Nat) (st : BFSState) (r : PathfindingResult)
    (h : BFSInv w o start goal lev d n none st.queue st.visited st.cameFrom)
    (hl : bfsLoop rfuel start goal w o fuel st = some r) :
    BFSPost w o start goal r := by
  induction fuel generalizing lev d n st with
  | zero => simp [bfsLoop] at hl
  | succ fuel ih =>
    rw [bfsLoop] at hl
    cases hs : bfsStep rfuel start goal w o st with
    | inl r1 =>
      rw [hs] at hl
      dsimp only at hl
      subst hl
      exact bfsStep_inl w o start goal rfuel lev d n st r h hs
    | inr st1 =>
      rw [hs] at hl
      obtain ⟨lev1, d1, h1⟩ := bfsStep_inr w o start goal rfuel lev d n st st1 h hs
      exact ih lev1 d1 (n + 1) st1 h1 hl

/-- Whatever `FindPathBFSWithOptions` returns satisfies `BFSPost`. -/
theorem FindPathBFSWithOptions_post (w : World) (o : PathfindingOptions) (start goal : Point)
    (fuel : Nat) (r : PathfindingResult)
    (h : FindPathBFSWithOptions fuel start goal w o = some r) : BFSPost w o start goal r :=
  bfsLoop_post w o start goal fuel fuel _ 0 0 (bfsInit start) r
    (BFSInv.init w o start goal) h

theorem unvisited_add (U : Finset Point) (vis : PointSet) (v : Point) (hv : v ∈ U)
    (hvis : vis v = false) : unvisited U (vis.add v) + 1 = unvisited U vis := by
  unfold unvisited
  have e : U.filter (fun p => vis.add v p = false) =
      (U.filter (fun p => vis p = false)).erase v := by
    ext p
    simp only [Finset.mem_filter, Finset.mem_erase]
    by_cases hp : p = v
    · subst hp
      simp [PointSet.add_self]
    · rw [PointSet.add_ne _ _ _ hp]
      tauto
  have hm : v ∈ U.filter (fun p => vis p = false) := Finset.mem_filter.2 ⟨hv, hvis⟩
  rw [e, Finset.card_erase_of_mem hm]
  have := Finset.card_pos.2 ⟨v, hm⟩
  omega

theorem mem_boxCells (c : Point) (R : Nat) (p : Point) :
    p ∈ boxCells c R ↔
      (c.X - R ≤ p.X ∧ p.X ≤ c.X + R) ∧ (c.Y - R ≤ p.Y ∧ p.Y ≤ c.Y + R) ∧
        (c.Z - R ≤ p.Z ∧ p.Z ≤ c.Z + R) := by
  unfold boxCells
  simp only [Finset.mem_image, Finset.mem_product, Finset.mem_Icc, Prod.exists]
  constructor
  · rintro ⟨x, y, z, h, rfl⟩
    exact h
  · intro h
    exact ⟨p.X, p.Y, p.Z, h, rfl⟩

/-- A move of the expander changes no coordinate by more than two. -/
theorem dijkstraNeighbors_near (w : World) (o : PathfindingOptions) (u v : Point)
    (h : v ∈ dijkstraNeighbors w o u) :
    (u.X - 2 ≤ v.X ∧ v.X ≤ u.X + 2) ∧ (u.Y - 2 ≤ v.Y ∧ v.Y ≤ u.Y + 2) ∧
      (u.Z - 2 ≤ v.Z ∧ v.Z ≤ u.Z + 2) := by
  have h6 : ∀ d ∈ directions6, v = u.shift d →
      (u.X - 2 ≤ v.X ∧ v.X ≤ u.X + 2) ∧ (u.Y - 2 ≤ v.Y ∧ v.Y ≤ u.Y + 2) ∧
        (u.Z - 2 ≤ v.Z ∧ v.Z ≤ u.Z + 2) := by
    intro d hd hv
    simp only [directions6, List.mem_cons, List.mem_singleton, List.not_mem_nil, or_false] at hd
    rcases hd with rfl | rfl | rfl | rfl | rfl | rfl <;> subst hv <;>
      simp only [Point.shift] <;> omega
  have h4 : ∀ d ∈ directions4, (v = u.shift d ∨ v = u.shift2 d) →
      (u.X - 2 ≤ v.X ∧ v.X ≤ u.X + 2) ∧ (u.Y - 2 ≤ v.Y ∧ v.Y ≤ u.Y + 2) ∧
        (u.Z - 2 ≤ v.Z ∧ v.Z ≤ u.Z + 2) := by
    intro d hd hv
    simp only [directions4, List.mem_cons, List.mem_singleton, List.not_mem_nil, or_false] at hd
    rcases hd with rfl | rfl | rfl | rfl <;> rcases hv with hv | hv <;> subst hv <;>
      simp only [Point.shift, Point.shift2] <;> omega
  rcases (mem_dijkstraNeighbors w o u v).1 h with ⟨_, d, hd, hv, _⟩ | ⟨_, _, d, hd, hv⟩ |
    ⟨_, _, d, hd, hv, _⟩
  · exact h6 d hd hv
  · rcases hv with ⟨hv, _⟩ | ⟨hv, _⟩
    · exact h4 d hd (Or.inl hv)
    · exact h4 d hd (Or.inr hv)
  · exact h6 d hd hv

theorem reach_box (w : World) (o : PathfindingOptions) (start : Point) (k : Nat) (v : Point)
    (h : Reach w o start k v) : v ∈ boxCells start (2 * k) := by
  rw [mem_boxCells]
  induction h with
  | nil => simp
  | @snoc k u v _ huv ih =>
    have := dijkstraNeighbors_near w o u v huv
    push_cast at ih ⊢
    omega

theorem canBreak_mem_worldCells (w : World) (start p : Point) (h : w.CanBreak p = true) :
    p ∈ worldCells w start := by
  unfold World.CanBreak at h
  cases hg : w.GetBlock p with
  | none => rw [hg] at h; cases h
  | some b =>
    unfold worldCells
    rw [Finset.mem_insert, List.mem_toFinset]
    exact Or.inr (lookup_mem _ _ _ hg)

theorem chain_tail_rel {α : Type} (R : α → α → Prop) (a : α) (l : List α)
    (h : List.Chain' R (a :: l)) : ∀ x ∈ l, ∃ u, R u x := by
  induction l generalizing a with
  | nil => intro x hx; cases hx
  | cons b rest ih =>
    rw [List.chain'_cons] at h
    intro x hx
    rcases List.mem_cons.1 hx with e | hx1
    · exact ⟨a, by rw [e]; exact h.1⟩
    · exact ih b h.2 x hx1

/-! ### The placing branch on the empty world -/

theorem plain_neighbor (w : World) (o : PathfindingOptions) (u v : Point)
    (hb : o.AllowBreaking = false) (hp : o.AllowPlacing = false)
    (h : v ∈ dijkstraNeighbors w o u) :
    ∃ d ∈ directions6, v = u.shift d ∧ w.IsWalkable v = true ∧
      (!o.AvoidWater || w.GetBlockType v != "water") = true := by
  rcases (mem_dijkstraNeighbors w o u v).1 h with ⟨h1, _⟩ | ⟨_, h2, _⟩ | ⟨_, _, h3⟩
  · rw [hb] at h1; cases h1
  · rw [hp] at h2; cases h2
  · exact h3

/-- C23: with `AvoidWater` set and `AllowBreaking` and `AllowPlacing` off, no
cell after the first of the path returned by `FindPathBFSWithOptions` has type
"water", and `WaterCrossed` is 0. -/
theorem bfs_avoids_water (fuel : Nat) (w : World) (start goal : Point) (o : PathfindingOptions)
    (r : PathfindingResult) (ha : o.AvoidWater = true) (hb : o.AllowBreaking = false)
    (hp : o.AllowPlacing = false)
    (h : FindPathBFSWithOptions fuel start goal w o = some r) :
    (∀ p ∈ r.Path.tail, w.GetBlockType p ≠ "water") ∧ r.WaterCrossed = 0 := by
  rcases FindPathBFSWithOptions_post w o start goal fuel r h with
    ⟨h1, h2, _⟩ | ⟨cells, h1, h2, _, _, _, h3, _⟩
  · rw [h1]
    exact ⟨by simp, h2⟩
  · have hc : ∀ p ∈ cells, w.GetBlockType p ≠ "water" := by
      intro p hp1
      obtain ⟨u, hu⟩ := chain_tail_rel _ start cells h2 p hp1
      obtain ⟨d, -, -, -, hw⟩ := plain_neighbor w o u p hb hp hu
      rw [ha] at hw
      simpa using hw
    rw [h1]
    refine ⟨hc, ?_⟩
    rw [h3]
    unfold waterCount
    rw [List.filter_eq_nil_iff.2 (fun p hp1 => by simpa using hc p hp1)]
    rfl

theorem bfs_avoids_water_witness :
    FindPathBFSWithOptions 50 ⟨0, 1, 0⟩ ⟨2, 1, 0⟩ fordWorld { AvoidWater := true } =
      some fordAvoidResult ∧
    (∀ p ∈ fordAvoidResult.Path.tail, fordWorld.GetBlockType p ≠ "water") ∧
      fordAvoidResult.WaterCrossed = 0 :=
  ⟨by decide!,
    bfs_avoids_water 50 fordWorld ⟨0, 1, 0⟩ ⟨2, 1, 0⟩ { AvoidWater := true } fordAvoidResult
      rfl rfl rfl (by decide!)⟩

/-- C24: when `FindPathBFSWithOptions` returns a non-empty path, `TotalCost`
is the number of cells of the path. -/
theorem bfs_total_cost_is_length (fuel : Nat) (w : World) (start goal : Point)
    (o : PathfindingOptions) (r : PathfindingResult)
    (h : FindPathBFSWithOptions fuel start goal w o = some r) (hne : r.Path ≠ []) :
    r.TotalCost = ((r.Path.length : Nat) : ℚ) := by
  rcases FindPathBFSWithOptions_post w o start goal fuel r h with
    ⟨h1, _⟩ | ⟨cells, h1, _, _, _, _, _, h2⟩
  · exact absurd h1 hne
  · rw [h2, h1, List.length_cons]

theorem bfs_total_cost_is_length_witness :
    FindPathBFSWithOptions 50 ⟨0, 1, 0⟩ ⟨2, 1, 0⟩ fordWorld {} = some fordBFSResult ∧
    fordBFSResult.TotalCost = ((fordBFSResult.Path.length : Nat) : ℚ) :=
  ⟨by decide!,
    bfs_total_cost_is_length 50 fordWorld ⟨0, 1, 0⟩ ⟨2, 1, 0⟩ {} fordBFSResult (by decide!)
      (by decide)⟩

theorem foldr_min_le (l : List ℚ) : l.foldr min 1 ≤ 1 ∧ ∀ x ∈ l, l.foldr min 1 ≤ x := by
  induction l with
  | nil => exact ⟨le_refl _, fun x hx => by cases hx⟩
  | cons a rest ih =>
    refine ⟨le_trans (min_le_right _ _) ih.1, ?_⟩
    intro x hx
    rcases List.mem_cons.1 hx with e | hx1
    · rw [e]; exact min_le_left _ _
    · exact le_trans (min_le_right _ _) (ih.2 x hx1)

theorem foldr_min_pos (l : List ℚ) (h : ∀ x ∈ l, 0 < x) : 0 < l.foldr min 1 := by
  induction l with
  | nil => exact one_pos
  | cons a rest ih =>
    exact lt_min (h a (List.mem_cons_self _ _))
      (ih (fun x hx => h x (List.mem_cons_of_mem _ hx)))

theorem minMultiplier_pos (w : World) : 0 < minMultiplier w := by
  unfold minMultiplier
  apply foldr_min_pos
  intro x hx
  obtain ⟨pb, _, rfl⟩ := List.mem_map.1 hx
  split_ifs with h
  · exact h
  · exact one_pos

theorem minMultiplier_le (w : World) (p : Point) : minMultiplier w ≤ effectiveMultiplier w p := by
  unfold effectiveMultiplier
  cases hg : w.GetBlock p with
  | none => exact (foldr_min_le _).1
  | some b =>
    have hm : (p, b) ∈ w.Blocks := lookup_some_mem _ _ _ hg
    exact (foldr_min_le _).2 _ (List.mem_map.2 ⟨(p, b), hm, rfl⟩)

theorem dijkstraMoveCost_ge (w : World) (o : PathfindingOptions) (bp pp : PointSet)
    (u v : Point) : w.GetMovementCost u v ≤ dijkstraMoveCost w o bp pp u v := by
  unfold dijkstraMoveCost
  have h1 : (0 : ℚ) ≤ ((abs (v.Y - u.Y) : Int) : ℚ) := by
    exact_mod_cast abs_nonneg_int _
  simp only
  split_ifs <;> linarith

theorem edgeCost_ge_min (w : World) (o : PathfindingOptions) (u v : Point) :
    minMultiplier w ≤ edgeCost w o u v := by
  have h1 := dijkstraMoveCost_ge w o (isBreakPoint w o) (isPlacePoint w o) u v
  have h2 := GetMovementCost_eq_mul w u v
  have h3 := climbCost_ge_one u v
  have h4 := minMultiplier_le w v
  have h5 := minMultiplier_pos w
  have h6 : effectiveMultiplier w v ≤ climbCost u v * effectiveMultiplier w v := by
    have := mul_le_mul_of_nonneg_right h3 (le_of_lt (lt_of_lt_of_le h5 h4))
    linarith
  unfold edgeCost
  linarith

theorem Node.Good.reach_depth (w : World) (o : PathfindingOptions) (start : Point) (n : Node)
    (h : n.Good w o start) :
    Reach w o start n.depth n.Position ∧ minMultiplier w * (n.depth : ℚ) ≤ n.GScore := by
  induction n with
  | root p g f =>
    obtain ⟨h1, h2⟩ := h
    subst h1
    subst h2
    exact ⟨Reach.nil, by simp [Node.depth, Node.GScore]⟩
  | child p g f parent ih =>
    obtain ⟨h1, h2, h3⟩ := h
    obtain ⟨i1, i2⟩ := ih h1
    refine ⟨Reach.snoc i1 h2, ?_⟩
    have := edgeCost_ge_min w o parent.Position p
    show minMultiplier w * ((parent.depth + 1 : Nat) : ℚ) ≤ g
    rw [h3]
    push_cast
    have e : minMultiplier w * ((parent.depth : ℚ) + 1) =
        minMultiplier w * (parent.depth : ℚ) + minMultiplier w := by ring
    rw [e]
    linarith

theorem Reach.to_route (w : World) (o : PathfindingOptions) (start : Point) (k : Nat) (v : Point)
    (h : Reach w o start k v) : ∃ c, Route w o start v c := by
  induction h with
  | nil => exact ⟨0, Route.nil⟩
  | snoc _ hv ih =>
    obtain ⟨c, hc⟩ := ih
    exact ⟨_, Route.snoc hc hv⟩

theorem expandBreaking_length (w : World) (cur : Point) (dirs ns : List Point) (bp : PointSet) :
    (dijkstraExpandBreaking w cur dirs (ns, bp)).1.length ≤ ns.length + dirs.length := by
  induction dirs generalizing ns bp with
  | nil => simp [dijkstraExpandBreaking]
  | cons d rest ih =>
    rw [dijkstraExpandBreaking]
    split_ifs
    · have := ih (ns ++ [⟨cur.X + d.X, cur.Y + d.Y, cur.Z + d.Z⟩]) bp
      simp only [List.length_append, List.length_singleton, List.length_cons, List.length_nil] at this ⊢
      omega
    · have := ih (ns ++ [⟨cur.X + d.X, cur.Y + d.Y, cur.Z + d.Z⟩])
        (bp.add ⟨cur.X + d.X, cur.Y + d.Y, cur.Z + d.Z⟩)
      simp only [List.length_append, List.length_singleton, List.length_cons, List.length_nil] at this ⊢
      omega
    · have := ih ns bp
      simp only [List.length_cons]
      omega

theorem expandPlain_length (w : World) (o : PathfindingOptions) (cur : Point)
    (dirs ns : List Point) :
    (dijkstraExpandPlain w o cur dirs ns).length ≤ ns.length + dirs.length := by
  induction dirs generalizing ns with
  | nil => simp [dijkstraExpandPlain]
  | cons d rest ih =>
    rw [dijkstraExpandPlain]
    split_ifs
    · have := ih (ns ++ [⟨cur.X + d.X, cur.Y + d.Y, cur.Z + d.Z⟩])
      simp only [List.length_append, List.length_singleton, List.length_cons, List.length_nil] at this ⊢
      omega
    · have := ih ns
      simp only [List.length_cons]
      omega
    · have := ih ns
      simp only [List.length_cons]
      omega

theorem expandPlacing_length (w : World) (cur : Point) (dirs ns : List Point) (pp : PointSet) :
    (dijkstraExpandPlacing w cur dirs (ns, pp)).1.length ≤ ns.length + 2 * dirs.length := by
  induction dirs generalizing ns pp with
  | nil => simp [dijkstraExpandPlacing]
  | cons d rest ih =>
    rw [dijkstraExpandPlacing]
    dsimp only
    have hlen : (if w.IsWalkable ⟨cur.X + d.X, cur.Y + d.Y, cur.Z + d.Z⟩ = true then
        ns ++ [(⟨cur.X + d.X, cur.Y + d.Y, cur.Z + d.Z⟩ : Point)] else ns).length
        ≤ ns.length + 1 := by
      split_ifs <;> simp
    generalize (if w.IsWalkable ⟨cur.X + d.X, cur.Y + d.Y, cur.Z + d.Z⟩ = true then
        ns ++ [(⟨cur.X + d.X, cur.Y + d.Y, cur.Z + d.Z⟩ : Point)] else ns) = ns1 at hlen ⊢
    split_ifs
    · have := ih (ns1 ++ [⟨cur.X + d.X * 2, cur.Y, cur.Z + d.Z * 2⟩])
        (pp.add ⟨cur.X + d.X * 2, cur.Y, cur.Z + d.Z * 2⟩)
      simp only [List.length_append, List.length_singleton, List.length_cons, List.length_nil] at this ⊢
      omega
    · have := ih ns1 pp
      simp only [List.length_cons]
      omega
    · have := ih ns1 pp
      simp only [List.length_cons]
      omega

theorem dijkstraExpand_length (w : World) (o : PathfindingOptions) (u : Point)
    (bp pp : PointSet) : (dijkstraExpand w o u bp pp).1.length ≤ 8 := by
  unfold dijkstraExpand
  split_ifs
  · have := expandBreaking_length w u directions6 [] bp
    simp only [directions6, List.length_cons, List.length_nil] at this ⊢
    omega
  · have := expandPlacing_length w u directions4 [] pp
    simp only [directions4, List.length_cons, List.length_nil] at this ⊢
    omega
  · have := expandPlain_length w o u directions6 []
    simp only [directions6, List.length_cons, List.length_nil] at this ⊢
    omega

theorem dijkstraRelax_length (w : World) (o : PathfindingOptions) (cur : Node)
    (V bp pp : PointSet) (l : List Point) (os : PriorityQueue) (g : GScoreMap) :
    (dijkstraRelax w o cur V bp pp l (os, g)).1.length ≤ os.length + l.length := by
  induction l generalizing os g with
  | nil => simp [dijkstraRelax]
  | cons v rest ih =>
    cases hv : V v with
    | true =>
      rw [dijkstraRelax_cons_visited w o cur V bp pp v rest os g hv]
      have := ih os g
      simp only [List.length_cons]
      omega
    | false =>
      by_cases hb : ∀ val, g v = some val →
          g.getD cur.Position + dijkstraMoveCost w o bp pp cur.Position v < val
      · rw [dijkstraRelax_cons_better w o cur V bp pp v rest os g hv hb]
        have := ih (heapPush os (Node.child v
          (g.getD cur.Position + dijkstraMoveCost w o bp pp cur.Position v)
          (g.getD cur.Position + dijkstraMoveCost w o bp pp cur.Position v) cur))
          (g.set v (g.getD cur.Position + dijkstraMoveCost w o bp pp cur.Position v))
        rw [heapPush_length] at this
        simp only [List.length_cons]
        omega
      · push_neg at hb
        obtain ⟨val, hg, hle⟩ := hb
        rw [dijkstraRelax_cons_worse w o cur V bp pp v rest os g hv val hg (not_lt.2 hle)]
        have := ih os g
        simp only [List.length_cons]
        omega

theorem unvisited_add_le (U : Finset Point) (vis : PointSet) (p : Point) :
    unvisited U (vis.add p) ≤ unvisited U vis := by
  unfold unvisited
  apply Finset.card_le_card
  intro x hx
  rw [Finset.mem_filter] at hx ⊢
  refine ⟨hx.1, ?_⟩
  cases hv : vis x with
  | false => rfl
  | true =>
    rw [PointSet.add_of_true _ _ _ hv] at hx
    exact absurd hx.2 (by simp)

/-- Popping a node whose cell is already visited leaves the open set as the
pop left it. -/
theorem DijkstraInv.stale (w : World) (o : PathfindingOptions) (start goal : Point)
    (s : DijkstraState) (hinv : DijkstraInv w o start goal s) (cur : Node)
    (os1 : PriorityQueue) (hp : heapPop s.openSet = some (cur, os1))
    (hvis : s.visited cur.Position = true) :
    (dijkstraNext w o s cur os1).openSet = os1 := by
  obtain ⟨hcur, -⟩ := hinv.pop_min w o start goal s cur os1 hp
  obtain ⟨-, -, -, -, hnb⟩ :=
    dijkstraExpand_scratch w o cur.Position s.breakPoints s.placePoints hinv.bpSub hinv.ppSub
  obtain ⟨gc, hgc, -⟩ := hinv.opens.i1 cur hcur
  have hVeq : ∀ p, s.visited.add cur.Position p = s.visited p := by
    intro p
    apply bool_eq_of_iff
    rw [PointSet.add_eq_true]
    constructor
    · rintro (rfl | h)
      · exact hvis
      · exact h
    · exact Or.inr
  have hnoop := dijkstraRelax_noop w o (s.visited.add cur.Position)
    (dijkstraExpand w o cur.Position s.breakPoints s.placePoints).2.1
    (dijkstraExpand w o cur.Position s.breakPoints s.placePoints).2.2 cur gc
    (dijkstraExpand w o cur.Position s.breakPoints s.placePoints).1 os1 s.gScore hgc
    (by
      intro v hv hV
      obtain ⟨hv1, hv2, hv3⟩ := hnb v hv
      rw [hVeq] at hV
      obtain ⟨gp, gv, h1, h2, h3⟩ := hinv.i3 _ hvis v hv1 hV
      rw [hgc] at h1
      rw [dijkstraMoveCost_eq_edgeCost w o _ _ _ _ hv2 hv3, Option.some.inj h1]
      exact ⟨gv, h2, h3⟩)
  unfold dijkstraNext
  simp only [hnoop]

/-- Each round of the main loop of Dijkstra lowers nine times the number of
unvisited cells of `U` plus the length of the open set, if `U` holds every cell
that is visited for the first time. -/
theorem dijkstraNext_measure (w : World) (o : PathfindingOptions) (start goal : Point)
    (U : Finset Point) (s : DijkstraState) (hinv : DijkstraInv w o start goal s) (cur : Node)
    (os1 : PriorityQueue) (hp : heapPop s.openSet = some (cur, os1))
    (hU : s.visited cur.Position = false → cur.Position ∈ U) :
    9 * unvisited U (dijkstraNext w o s cur os1).visited +
        (dijkstraNext w o s cur os1).openSet.length
      < 9 * unvisited U s.visited + s.openSet.length := by
  obtain ⟨hlen, -, -⟩ := heapPop_some _ _ _ hp
  have hvis1 : (dijkstraNext w o s cur os1).visited = s.visited.add cur.Position := rfl
  rw [hvis1]
  cases hvis : s.visited cur.Position with
  | true =>
    rw [DijkstraInv.stale w o start goal s hinv cur os1 hp hvis]
    have := unvisited_add_le U s.visited cur.Position
    omega
  | false =>
    have h1 := unvisited_add U s.visited cur.Position (hU hvis) hvis
    have h2 : (dijkstraNext w o s cur os1).openSet.length ≤ os1.length + 8 := by
      unfold dijkstraNext
      dsimp only
      have := dijkstraRelax_length w o cur (s.visited.add cur.Position)
        (dijkstraExpand w o cur.Position s.breakPoints s.placePoints).2.1
        (dijkstraExpand w o cur.Position s.breakPoints s.placePoints).2.2
        (dijkstraExpand w o cur.Position s.breakPoints s.placePoints).1 os1 s.gScore
      have := dijkstraExpand_length w o cur.Position s.breakPoints s.placePoints
      omega
    omega

theorem dijkstraStep_goal (start goal : Point) (w : World) (o : PathfindingOptions)
    (s : DijkstraState) (cur : Node) (os1 : PriorityQueue)
    (hp : heapPop s.openSet = some (cur, os1)) (hg : cur.Position = goal) :
    dijkstraStep start goal w o s = Sum.inl (dijkstraResult start w s cur) := by
  unfold dijkstraStep
  rw [hp]
  have hc : cur.Position.X = goal.X ∧ cur.Position.Y = goal.Y ∧ cur.Position.Z = goal.Z := by
    rw [hg]; exact ⟨rfl, rfl, rfl⟩
  simp only [if_pos hc]
  rfl

theorem dijkstraStep_next (start goal : Point) (w : World) (o : PathfindingOptions)
    (s : DijkstraState) (cur : Node) (os1 : PriorityQueue)
    (hp : heapPop s.openSet = some (cur, os1)) (hg : cur.Position ≠ goal) :
    dijkstraStep start goal w o s = Sum.inr (dijkstraNext w o s cur os1) := by
  unfold dijkstraStep
  rw [hp]
  have hc : ¬ (cur.Position.X = goal.X ∧ cur.Position.Y = goal.Y ∧
      cur.Position.Z = goal.Z) := fun hc => hg (Point.eq_of_coords _ _ hc)
  simp only [if_neg hc]
  rfl

theorem boxCells_mono (c : Point) (R S : Nat) (h : R ≤ S) (p : Point)
    (hp : p ∈ boxCells c R) : p ∈ boxCells c S := by
  rw [mem_boxCells] at hp ⊢
  have : (R : Int) ≤ S := by exact_mod_cast h
  omega

/-- The main loop of Dijkstra returns a non-empty path once its fuel exceeds
the measure, when some walk to the goal costs `C`: only cells within
`C / minMultiplier` moves of the start are ever popped. -/
theorem dijkstraLoop_some (w : World) (o : PathfindingOptions) (start goal : Point) (C : ℚ)
    (hC : Route w o start goal C) (fuel : Nat) (s : DijkstraState)
    (hinv : DijkstraInv w o start goal s)
    (hf : 9 * unvisited (boxCells start (2 * ⌊C / minMultiplier w⌋₊)) s.visited +
      s.openSet.length < fuel) :
    ∃ r, dijkstraLoop start goal w o fuel s = some r ∧ r.Path ≠ [] := by
  induction fuel generalizing s with
  | zero => omega
  | succ fuel ih =>
    rw [dijkstraLoop]
    have hvg : s.visited goal = false := by
      cases hv : s.visited goal with
      | false => rfl
      | true => exact absurd rfl (hinv.notgoal goal hv)
    obtain ⟨n, hn, hnC⟩ := hinv.frontier w o start goal s goal C hC hvg
    have hne : s.openSet ≠ [] := by
      intro e
      rw [e] at hn
      cases hn
    obtain ⟨cur, os1, hp, -⟩ := heapPop_spec s.openSet hne
    obtain ⟨hcur, hmin⟩ := hinv.pop_min w o start goal s cur os1 hp
    by_cases hg : cur.Position = goal
    · rw [dijkstraStep_goal start goal w o s cur os1 hp hg]
      refine ⟨_, rfl, ?_⟩
      obtain ⟨c, -, -, hpath, -⟩ := DijkstraInv.result w o start goal s hinv cur os1 hp hg
      rw [hpath]
      exact Node.cells_ne_nil c
    · rw [dijkstraStep_next start goal w o s cur os1 hp hg]
      dsimp only
      refine ih _ (DijkstraInv.step w o start goal s hinv cur os1 hp hg) ?_
      have hm := dijkstraNext_measure w o start goal
        (boxCells start (2 * ⌊C / minMultiplier w⌋₊)) s hinv cur os1 hp
        (by
          intro _
          obtain ⟨hr, hd⟩ := Node.Good.reach_depth w o start cur (hinv.opens.good cur hcur)
          have hε := minMultiplier_pos w
          have hle : (cur.depth : ℚ) ≤ C / minMultiplier w := by
            rw [le_div_iff₀ hε]
            have := hmin n hn
            linarith
          have hk : cur.depth ≤ ⌊C / minMultiplier w⌋₊ := Nat.le_floor hle
          exact boxCells_mono start _ _ (by omega) _ (reach_box w o start _ _ hr))
      omega

/-- `FindPathDijkstraWithOptions` returns a non-empty path, for every fuel from
some number on, when some walk of the expander reaches the goal. -/
theorem FindPathDijkstraWithOptions_some (w : World) (o : PathfindingOptions)
    (start goal : Point) (h : ∃ k, Reach w o start k goal) :
    ∃ N, ∀ fuel, N ≤ fuel →
      ∃ r, FindPathDijkstraWithOptions fuel start goal w o = some r ∧ r.Path ≠ [] := by
  obtain ⟨k, hk⟩ := h
  obtain ⟨C, hC⟩ := Reach.to_route w o start k goal hk
  refine ⟨9 * unvisited (boxCells start (2 * ⌊C / minMultiplier w⌋₊))
    (dijkstraInit start).visited + (dijkstraInit start).openSet.length + 1, ?_⟩
  intro fuel hf
  exact dijkstraLoop_some w o start goal C hC fuel (dijkstraInit start)
    (dijkstraInit_inv w o start goal) (by omega)

/-! ## `AvoidWater` in Dijkstra -/

theorem edgeCost_avoid_water (w : World) (o : PathfindingOptions) (ha : o.AvoidWater = true)
    (u v : Point) :
    edgeCost w o u v =
      edgeCost w { o with AvoidWater := false } u v +
        (if w.GetBlockType v = "water" then 10 else 0) := by
  unfold edgeCost dijkstraMoveCost
  have hb : isBreakPoint w { o with AvoidWater := false } = isBreakPoint w o := rfl
  have hp : isPlacePoint w { o with AvoidWater := false } = isPlacePoint w o := rfl
  rw [hb, hp]
  dsimp only
  rw [ha, show (if w.GetBlockType v = "water" then (10 : ℚ) else 0) =
    (if (w.GetBlockType v == "water") = true then 10 else 0) from by simp]
  generalize (if isPlacePoint w o v = true then
    (if isBreakPoint w o v = true then w.GetMovementCost u v + 5 else w.GetMovementCost u v) + 3
    else (if isBreakPoint w o v = true then w.GetMovementCost u v + 5
      else w.GetMovementCost u v)) = m
  cases (w.GetBlockType v == "water") <;> cases (o.MinimiseHeight && v.Y != u.Y) <;>
    simp only [Bool.and_false, Bool.and_true, Bool.false_eq_true, if_true, if_false] <;> ring

theorem pathCost_avoid_water (w : World) (o : PathfindingOptions) (ha : o.AvoidWater = true)
    (l : List Point) :
    pathCost (edgeCost w o) l =
      pathCost (edgeCost w { o with AvoidWater := false }) l +
        10 * ((waterAfterStart w l : Int) : ℚ) := by
  induction l with
  | nil => simp [pathCost, waterAfterStart]
  | cons a rest ih =>
    cases rest with
    | nil => simp [pathCost, waterAfterStart]
    | cons b rest1 =>
      have e : ((waterAfterStart w (a :: b :: rest1) : Int) : ℚ) =
          (if w.GetBlockType b = "water" then 1 else 0) +
            ((waterAfterStart w (b :: rest1) : Int) : ℚ) := by
        unfold waterAfterStart
        simp only [List.tail_cons, List.filter_cons, beq_iff_eq]
        split_ifs
        · rw [List.length_cons]
          push_cast
          ring
        · ring
      rw [pathCost, pathCost, ih, e, edgeCost_avoid_water w o ha a b]
      split_ifs <;> ring

theorem dijkstraNeighbors_avoid_water (w : World) (o : PathfindingOptions)
    (hm : o.AllowBreaking = true ∨ o.AllowPlacing = true) (u : Point) :
    dijkstraNeighbors w o u = dijkstraNeighbors w { o with AvoidWater := false } u := by
  unfold dijkstraNeighbors dijkstraExpand
  rcases hm with hm | hm
  · simp only [hm, if_true]
  · by_cases hb : o.AllowBreaking = true
    · simp only [hb, if_true]
    · simp only [hb, hm, if_true, if_false]

/-- C22, counterexample: with `AvoidWater` alone, on a corridor whose middle
cell is water, Dijkstra returns the empty path although it returns the
three-cell path without the option: the plain branch of the expander leaves
water cells out. With `AllowBreaking` as well, on a world with a straight way
through two water cells and a longer way through one, it returns the straight
way without `AvoidWater` and the longer one with it. -/
theorem dijkstra_avoid_water_changes_path :
    (FindPathDijkstraWithOptions 60 ⟨0, 1, 0⟩ ⟨2, 1, 0⟩ waterLine { AvoidWater := true } =
      some { Path := [], NodesExplored := 1 } ∧
     FindPathDijkstraWithOptions 60 ⟨0, 1, 0⟩ ⟨2, 1, 0⟩ waterLine {} =
      some { Path := [⟨0, 1, 0⟩, ⟨1, 1, 0⟩, ⟨2, 1, 0⟩], NodesExplored := 3,
             WaterCrossed := 1, TotalCost := 4 }) ∧
    (FindPathDijkstraWithOptions 60 ⟨0, 1, 0⟩ ⟨3, 1, 0⟩ twoFords { AllowBreaking := true } =
      some { Path := [⟨0, 1, 0⟩, ⟨1, 1, 0⟩, ⟨2, 1, 0⟩, ⟨3, 1, 0⟩], NodesExplored := 8,
             WaterCrossed := 2, TotalCost := 7 } ∧
     FindPathDijkstraWithOptions 60 ⟨0, 1, 0⟩ ⟨3, 1, 0⟩ twoFords
        { AllowBreaking := true, AvoidWater := true } =
      some { Path := [⟨0, 1, 0⟩, ⟨0, 1, 1⟩, ⟨0, 1, 2⟩, ⟨1, 1, 2⟩, ⟨2, 1, 2⟩, ⟨3, 1, 2⟩,
                      ⟨3, 1, 1⟩, ⟨3, 1, 0⟩], NodesExplored := 9,
             WaterCrossed := 1, TotalCost := 19 }) := by
  refine ⟨⟨by decide!, by decide!⟩, by decide!, by decide!⟩

/-- C22, amended: with `AvoidWater` set together with `AllowBreaking` or
`AllowPlacing`, the expander offers the same neighbours as without
`AvoidWater`, every edge costs what it costs without it plus 10 when it enters
a water cell, and when some walk of the expander reaches the goal the search
returns, for every fuel from some number on, a non-empty path whose `TotalCost`
is its cost without `AvoidWater` plus 10 per water cell after the start. With
`AvoidWater` alone no cell after the start of a returned path is water. -/
theorem dijkstra_avoid_water (w : World) (start goal : Point) (o : PathfindingOptions)
    (ha : o.AvoidWater = true) :
    ((o.AllowBreaking = true ∨ o.AllowPlacing = true) →
      (∀ u, dijkstraNeighbors w o u = dijkstraNeighbors w { o with AvoidWater := false } u) ∧
      (∀ u v, edgeCost w o u v =
        edgeCost w { o with AvoidWater := false } u v +
          (if w.GetBlockType v = "water" then 10 else 0)) ∧
      ((∃ k, Reach w o start k goal) →
        ∃ N, ∀ fuel, N ≤ fuel →
          ∃ r, FindPathDijkstraWithOptions fuel start goal w o = some r ∧ r.Path ≠ [] ∧
            r.TotalCost = pathCost (edgeCost w { o with AvoidWater := false }) r.Path +
              10 * ((waterAfterStart w r.Path : Int) : ℚ))) ∧
    (o.AllowBreaking = false → o.AllowPlacing = false →
      ∀ fuel r, FindPathDijkstraWithOptions fuel start goal w o = some r →
        ∀ p ∈ r.Path.tail, w.GetBlockType p ≠ "water") := by
  constructor
  · intro hm
    refine ⟨dijkstraNeighbors_avoid_water w o hm, edgeCost_avoid_water w o ha, ?_⟩
    intro hr
    obtain ⟨N, hN⟩ := FindPathDijkstraWithOptions_some w o start goal hr
    refine ⟨N, ?_⟩
    intro fuel hf
    obtain ⟨r, h1, h2⟩ := hN fuel hf
    refine ⟨r, h1, h2, ?_⟩
    obtain ⟨cur, hgood, -, hpath, hcost, -⟩ :=
      FindPathDijkstraWithOptions_post w o start goal fuel r h1 h2
    rw [hcost, hpath, Node.Good.gScore_eq w o start cur hgood]
    exact pathCost_avoid_water w o ha _
  · intro hb hp fuel r h p hpm
    by_cases hne : r.Path = []
    · rw [hne] at hpm
      cases hpm
    · obtain ⟨cur, hgood, -, hpath, -⟩ :=
        FindPathDijkstraWithOptions_post w o start goal fuel r h hne
      rw [hpath] at hpm
      obtain ⟨u, hu⟩ := Node.Good.tail_entered w o start cur hgood p hpm
      obtain ⟨d, -, -, -, hw⟩ := plain_neighbor w o u p hb hp hu
      rw [ha] at hw
      simpa using hw

theorem dijkstra_avoid_water_witness :
    ∃ N, ∀ fuel, N ≤ fuel →
      ∃ r, FindPathDijkstraWithOptions fuel ⟨0, 1, 0⟩ ⟨3, 1, 0⟩ twoFords
          { AllowBreaking := true, AvoidWater := true } = some r ∧ r.Path ≠ [] ∧
        r.TotalCost =
          pathCost (edgeCost twoFords { AllowBreaking := true, AvoidWater := false }) r.Path +
            10 * ((waterAfterStart twoFords r.Path : Int) : ℚ) :=
  ((dijkstra_avoid_water twoFords ⟨0, 1, 0⟩ ⟨3, 1, 0⟩
      { AllowBreaking := true, AvoidWater := true } rfl).1 (Or.inl rfl)).2.2
    ⟨3, Reach.snoc (Reach.snoc (Reach.snoc Reach.nil
      (show (⟨1, 1, 0⟩ : Point) ∈ dijkstraNeighbors twoFords
        { AllowBreaking := true, AvoidWater := true } ⟨0, 1, 0⟩ by decide))
      (show (⟨2, 1, 0⟩ : Point) ∈ dijkstraNeighbors twoFords
        { AllowBreaking := true, AvoidWater := true } ⟨1, 1, 0⟩ by decide))
      (show (⟨3, 1, 0⟩ : Point) ∈ dijkstraNeighbors twoFords
        { AllowBreaking := true, AvoidWater := true } ⟨2, 1, 0⟩ by decide)⟩

/-! ## Shortest paths by breadth-first search -/

/-- C35: on a world of the two walkable cells (0,1,0) and (-1,1,0), from
(0,1,0) with goal (-1,1,0), the only pruned neighbour is the goal, `jump` in
its direction reaches the goal and returns it, and `identifySuccessors` leaves
it out (its test `jp.X != -1` takes every cell with `X = -1` for the "no jump
point" value); the search then returns no path although the goal is next to
the start. -/
theorem identifySuccessors_drops_goal :
    getPrunedNeighbors ⟨0, 1, 0⟩ none westWorld = [⟨-1, 1, 0⟩] ∧
    westWorld.IsWalkable ⟨-1, 1, 0⟩ = true ∧
    jump westWorld ⟨-1, 1, 0⟩ 20 ⟨0, 1, 0⟩ (-1) 0 0 = some ⟨-1, 1, 0⟩ ∧
    identifySuccessors 20 ⟨0, 1, 0⟩ ⟨-1, 1, 0⟩ westWorld none = some [] ∧
    FindPathJPSWithOptions 20 ⟨0, 1, 0⟩ ⟨-1, 1, 0⟩ westWorld {} =
      some { Path := [], NodesExplored := 1 } := by
  refine ⟨?_, ?_, ?_, ?_, ?_⟩ <;> decide!

/-! ## The default driver without `AllowBreaking` -/

/-- The relaxation loop of `FindPath` keeps the g-scores whole numbers on cells
of `U`, and either changes nothing or makes the g-score map smaller. -/
theorem findPathRelax_measure (goal : Point) (U : Finset Point) (cur : Node) (l : List Point)
    (os : PriorityQueue) (g : GScoreMap)
    (hnat : ∀ p x, g p = some x → ∃ k : ℕ, x = (k : ℚ))
    (hdom : ∀ p x, g p = some x → p ∈ U) (hl : ∀ v ∈ l, v ∈ U) :
    ((∀ p x, (findPathRelax goal cur l (os, g)).2 p = some x → ∃ k : ℕ, x = (k : ℚ)) ∧
      (∀ p x, (findPathRelax goal cur l (os, g)).2 p = some x → p ∈ U)) ∧
      (findPathRelax goal cur l (os, g) = (os, g) ∨
        gLess U (findPathRelax goal cur l (os, g)).2 g) := by
  induction l generalizing os g with
  | nil => exact ⟨⟨hnat, hdom⟩, Or.inl rfl⟩
  | cons v rest ih =>
    have hrest : ∀ x ∈ rest, x ∈ U := fun x hx => hl x (List.mem_cons_of_mem _ hx)
    have hvU := hl v (List.mem_cons_self _ _)
    obtain ⟨kt, hkt⟩ : ∃ k : ℕ, g.getD cur.Position + 1 = (k : ℚ) := by
      unfold GScoreMap.getD
      cases hc : g cur.Position with
      | none => exact ⟨1, by simp⟩
      | some x =>
        obtain ⟨k, hk⟩ := hnat _ _ hc
        exact ⟨k + 1, by simp [hk]⟩
    by_cases hb : ∀ val, g v = some val → g.getD cur.Position + 1 < val
    · rw [findPathRelax_cons_better goal cur v rest os g hb]
      have hless : gLess U (g.set v (g.getD cur.Position + 1)) g := by
        cases hg : g v with
        | none => exact gLess_set_new U g v _ hvU hg
        | some val =>
          obtain ⟨kv, hkv⟩ := hnat _ _ hg
          exact gLess_set_better U g v _ val hvU hg kt kv hkt hkv (hb val hg)
      have hnat1 : ∀ p x, (g.set v (g.getD cur.Position + 1)) p = some x →
          ∃ k : ℕ, x = (k : ℚ) := by
        intro p x hx
        by_cases hp : p = v
        · subst hp
          rw [GScoreMap.set_self] at hx
          exact ⟨kt, by rw [← Option.some.inj hx]; exact hkt⟩
        · rw [GScoreMap.set_ne _ _ _ _ hp] at hx
          exact hnat p x hx
      have hdom1 : ∀ p x, (g.set v (g.getD cur.Position + 1)) p = some x → p ∈ U := by
        intro p x hx
        by_cases hp : p = v
        · subst hp; exact hvU
        · rw [GScoreMap.set_ne _ _ _ _ hp] at hx
          exact hdom p x hx
      obtain ⟨h1, h2⟩ := ih _ _ hnat1 hdom1 hrest
      refine ⟨h1, Or.inr ?_⟩
      rcases h2 with h2 | h2
      · rw [h2]; exact hless
      · exact gLess_trans U _ _ _ h2 hless
    · push_neg at hb
      obtain ⟨val, hg, hle⟩ := hb
      rw [findPathRelax_cons_worse goal cur v rest os g val hg (not_lt.mpr hle)]
      exact ih os g hnat hdom hrest

/-- The main loop of `FindPath` returns from every state whose g-scores are
whole numbers on cells of a finite set that holds the walkable cells. -/
theorem findPathLoop_some (w : World) (goal : Point) (U : Finset Point)
    (hU : ∀ p, w.IsWalkable p = true → p ∈ U) :
    ∀ (a b c : Nat) (st : PriorityQueue × GScoreMap),
      (∀ p x, st.2 p = some x → ∃ k : ℕ, x = (k : ℚ)) → (∀ p x, st.2 p = some x → p ∈ U) →
      unseenCount U st.2 = a → gSum U st.2 = b → st.1.length = c →
      ∃ fuel path, findPathLoop goal w fuel st = some path := by
  intro a
  induction a using Nat.strong_induction_on with
  | _ a iha =>
    intro b
    induction b using Nat.strong_induction_on with
    | _ b ihb =>
      intro c
      induction c using Nat.strong_induction_on with
      | _ c ihc =>
        intro st hnat hdom ha hb hc
        cases hs : findPathStep goal w st with
        | inl path => exact ⟨1, path, by simp [findPathLoop, hs]⟩
        | inr st1 =>
          have hs0 := hs
          unfold findPathStep at hs
          cases hp : heapPop st.1 with
          | none => rw [hp] at hs; cases hs
          | some x =>
            obtain ⟨cur, os1⟩ := x
            rw [hp] at hs
            simp only at hs
            split_ifs at hs with hgoal
            have hst1 := Sum.inr.inj hs
            obtain ⟨hlen, -, -⟩ := heapPop_some _ _ _ hp
            have hl : ∀ v ∈ GetNeighbors cur.Position w, v ∈ U := by
              intro v hv
              obtain ⟨d, hd, hvd, hvw⟩ := (mem_GetNeighbors w _ v).1 hv
              exact hU v hvw
            obtain ⟨⟨n1, d1⟩, h2⟩ :=
              findPathRelax_measure goal U cur (GetNeighbors cur.Position w) os1 st.2
                hnat hdom hl
            rw [hst1] at n1 d1 h2
            have key : ∃ fuel path, findPathLoop goal w fuel st1 = some path := by
              rcases h2 with h2 | (h2 | ⟨h2, h3⟩)
              · refine ihc os1.length (by rw [← hc]; omega) st1 n1 d1 ?_ ?_ ?_
                · rw [h2, ha]
                · rw [h2, hb]
                · rw [h2]
              · exact iha _ (by rw [← ha]; exact h2) _ _ st1 n1 d1 rfl rfl rfl
              · exact ihb _ (by rw [← hb]; exact h3) _ st1 n1 d1 (by rw [h2, ha]) rfl rfl
            obtain ⟨fuel, path, hf⟩ := key
            exact ⟨fuel + 1, path, by simp [findPathLoop, hs0, hf]⟩

/-- Function `FindPath` returns on every input once the fuel is large enough. -/
theorem FindPath_some (w : World) (start goal : Point) :
    ∃ N path, ∀ fuel, N ≤ fuel → FindPath fuel start goal w = some path := by
  obtain ⟨N, path, h⟩ := findPathLoop_some w goal (worldCells w start)
    (fun p hp => walkable_mem_worldCells w start p hp) _ _ _ (findPathInit start goal)
    (by
      intro p x hx
      simp only [findPathInit, GScoreMap.set, GScoreMap.empty] at hx
      split_ifs at hx with h
      exact ⟨0, by rw [← Option.some.inj hx]; simp⟩)
    (by
      intro p x hx
      simp only [findPathInit, GScoreMap.set, GScoreMap.empty] at hx
      split_ifs at hx with h
      rw [h]
      exact Finset.mem_insert_self _ _) rfl rfl rfl
  refine ⟨N, path, fun fuel hle => ?_⟩
  obtain ⟨k, rfl⟩ := Nat.exists_eq_add_of_le hle
  exact findPathLoop_mono goal w N k _ _ h

/-- C39: for any two option records with `AllowBreaking` off,
`FindPathWithOptions` returns once the fuel is large enough, and returns the
same result for both (so the same `Path`, `TotalCost`, `WaterCrossed` and
`VerticalChange`: `AllowPlacing`, `AvoidWater`, `MinimiseHeight` and
`HeuristicWeight` have no effect); its `BlocksPlaced` is empty and its
`NodesExplored` is 0. -/
theorem FindPathWithOptions_options_ignored (w : World) (start goal : Point)
    (o1 o2 : PathfindingOptions) (h1 : o1.AllowBreaking = false)
    (h2 : o2.AllowBreaking = false) :
    ∃ N, ∀ fuel, N ≤ fuel → ∃ r,
      FindPathWithOptions fuel start goal w o1 = some r ∧
      FindPathWithOptions fuel start goal w o2 = some r ∧
      r.BlocksPlaced = [] ∧ r.NodesExplored = 0 := by
  obtain ⟨N, path, hN⟩ := FindPath_some w start goal
  refine ⟨N, fun fuel hf => ?_⟩
  have h := hN fuel hf
  unfold FindPathWithOptions
  simp only [h1, h2, Bool.false_eq_true, if_false, findPathWithPlacing, findPathStandard, h]
  cases o1.AllowPlacing <;> cases o2.AllowPlacing <;> simp

theorem FindPathWithOptions_options_ignored_witness :
    ∃ N, ∀ fuel, N ≤ fuel → ∃ r,
      FindPathWithOptions fuel ⟨0, 1, 0⟩ ⟨2, 1, 0⟩ waterLine {} = some r ∧
      FindPathWithOptions fuel ⟨0, 1, 0⟩ ⟨2, 1, 0⟩ waterLine
        { AllowPlacing := true, AvoidWater := true, MinimiseHeight := true,
          HeuristicWeight := 2 } = some r ∧
      r.BlocksPlaced = [] ∧ r.NodesExplored = 0 :=
  FindPathWithOptions_options_ignored waterLine ⟨0, 1, 0⟩ ⟨2, 1, 0⟩ {}
    { AllowPlacing := true, AvoidWater := true, MinimiseHeight := true, HeuristicWeight := 2 }
    rfl rfl

/-! ## The rasterised line of Theta* -/

theorem foldl_const_iterate {α β : Type} (f : α → α) (l : List β) (a : α) :
    l.foldl (fun s _ => f s) a = f^[l.length] a := by
  induction l generalizing a with
  | nil => rfl
  | cons b rest ih =>
    simp only [List.foldl_cons, List.length_cons, Function.iterate_succ, Function.comp_apply]
    exact ih _

theorem length_cast_list (l : List Nat) :
    (show List Int from (do let a ← l; pure (a : Int))).length = l.length := by
  induction l with
  | nil => rfl
  | cons a l ih =>
    show (_ :: _).length = _
    simp only [List.length_cons]
    exact congrArg (· + 1) ih

theorem intRange_length (lo hi : Int) : (intRange lo hi).length = (hi - lo + 1).toNat := by
  unfold intRange
  rw [List.length_map]
  exact (length_cast_list _).trans (List.length_range _)

theorem getLast?_snoc {α : Type} (l : List α) (a : α) : (l ++ [a]).getLast? = some a := by
  simp

theorem abs_mul_sign (d : Int) : abs d * sign d = d := by
  unfold abs sign
  split_ifs <;> omega

theorem sign_of_abs_pos (d : Int) (h : 1 ≤ abs d) : sign d = 1 ∨ sign d = -1 := by
  unfold abs at h
  unfold sign
  split_ifs at h ⊢ <;> omega

theorem sign_bounds (d : Int) : -1 ≤ sign d ∧ sign d ≤ 1 := by
  unfold sign
  split_ifs <;> omega

theorem LineInv.start_state (x0 y0 z0 dx dy dz sx sy sz : Int) (hdx : 1 ≤ dx) :
    LineInv x0 y0 z0 dx dy dz sx sy sz 0 ⟨[], x0, y0, z0, 2 * dy - dx, 2 * dz - dx⟩ where
  len := rfl
  hx := by simp
  e1_lo := by simp only; omega
  e1_hi := by simp only; omega
  e2_lo := by simp only; omega
  e2_hi := by simp only; omega
  hy := ⟨0, by simp, by simp⟩
  hz := ⟨0, by simp, by simp⟩
  head := rfl
  chain := by simp

theorem LineInv.advance (x0 y0 z0 dx dy dz sx sy sz : Int) (hdy : 0 ≤ dy) (hyx : dy ≤ dx)
    (hdz : 0 ≤ dz) (hzx : dz ≤ dx) (hsx : sx = 1 ∨ sx = -1)
    (hsy : -1 ≤ sy ∧ sy ≤ 1) (hsz : -1 ≤ sz ∧ sz ≤ 1)
    (hsy1 : 1 ≤ dy → sy = 1 ∨ sy = -1) (hsz1 : 1 ≤ dz → sz = 1 ∨ sz = -1) (hdx : 1 ≤ dx)
    (n : Nat) (s : LineState) (h : LineInv x0 y0 z0 dx dy dz sx sy sz n s) :
    LineInv x0 y0 z0 dx dy dz sx sy sz (n + 1) (lineStepX dx dy dz sx sy sz s) := by
  obtain ⟨ky, hy1, hy2⟩ := h.hy
  obtain ⟨kz, hz1, hz2⟩ := h.hz
  have h1 := h.e1_lo
  have h2 := h.e1_hi
  have h3 := h.e2_lo
  have h4 := h.e2_hi
  constructor
  · simp [lineStepX, h.len]
  · simp only [lineStepX, h.hx]
    push_cast
    ring
  · simp only [lineStepX]
    split_ifs <;> omega
  · simp only [lineStepX]
    split_ifs <;> omega
  · simp only [lineStepX]
    split_ifs <;> omega
  · simp only [lineStepX]
    split_ifs <;> omega
  · simp only [lineStepX]
    by_cases he : s.err1 > 0
    · refine ⟨ky + 1, ?_, ?_⟩
      · rw [if_pos he, hy1]; ring
      · rw [if_pos he, hy2]; push_cast; ring
    · refine ⟨ky, ?_, ?_⟩
      · rw [if_neg he, hy1]
      · rw [if_neg he, hy2]; push_cast; ring
  · simp only [lineStepX]
    by_cases he : s.err2 > 0
    · refine ⟨kz + 1, ?_, ?_⟩
      · rw [if_pos he, hz1]; ring
      · rw [if_pos he, hz2]; push_cast; ring
    · refine ⟨kz, ?_, ?_⟩
      · rw [if_neg he, hz1]
      · rw [if_neg he, hz2]; push_cast; ring
  · have := h.head
    simp only [lineStepX]
    rw [List.head?_append_of_ne_nil _ (by simp)]
    exact this
  · simp only [lineStepX]
    rw [List.chain'_append]
    refine ⟨h.chain, by simp, ?_⟩
    intro p hp q hq
    rw [getLast?_snoc] at hp
    simp only [Option.mem_def, Option.some.injEq, List.head?_cons] at hp hq
    subst hp hq
    refine ⟨by simp only; omega, ?_, ?_, ?_, ?_⟩
    · simp only
      split_ifs <;> omega
    · simp only
      split_ifs <;> omega
    · intro e
      have he : s.err1 > 0 := by omega
      have := hsy1 (by omega)
      simp only [if_pos he]
      omega
    · intro e
      have he : s.err2 > 0 := by omega
      have := hsz1 (by omega)
      simp only [if_pos he]
      omega

theorem LineInv.iterate (x0 y0 z0 dx dy dz sx sy sz : Int) (hdy : 0 ≤ dy) (hyx : dy ≤ dx)
    (hdz : 0 ≤ dz) (hzx : dz ≤ dx) (hsx : sx = 1 ∨ sx = -1)
    (hsy : -1 ≤ sy ∧ sy ≤ 1) (hsz : -1 ≤ sz ∧ sz ≤ 1)
    (hsy1 : 1 ≤ dy → sy = 1 ∨ sy = -1) (hsz1 : 1 ≤ dz → sz = 1 ∨ sz = -1) (hdx : 1 ≤ dx)
    (n : Nat) :
    LineInv x0 y0 z0 dx dy dz sx sy sz n
      ((lineStepX dx dy dz sx sy sz)^[n] ⟨[], x0, y0, z0, 2 * dy - dx, 2 * dz - dx⟩) := by
  induction n with
  | zero => exact LineInv.start_state x0 y0 z0 dx dy dz sx sy sz hdx
  | succ n ih =>
    rw [Function.iterate_succ_apply']
    exact LineInv.advance x0 y0 z0 dx dy dz sx sy sz hdy hyx hdz hzx hsx hsy hsz hsy1 hsz1 hdx n _ ih

/-- The count of minor steps after `dx` rounds: the error term pins it to
`dy`. -/
theorem line_minor_count (dx dy k e : Int) (hdx : 1 ≤ dx) (hlo : 2 * dy - 2 * dx < e)
    (hhi : e ≤ 2 * dy) (he : e = 2 * dy - dx + 2 * dy * dx - 2 * dx * k) : k = dy := by
  have h1 : -dx < 2 * dx * (dy - k) := by
    have : 2 * dx * (dy - k) = 2 * dy * dx - 2 * dx * k := by ring
    omega
  have h2 : 2 * dx * (dy - k) ≤ dx := by
    have : 2 * dx * (dy - k) = 2 * dy * dx - 2 * dx * k := by ring
    omega
  by_contra hne
  rcases lt_or_gt_of_ne hne with hlt | hgt
  · have : 1 ≤ dy - k := by omega
    have h3 : 2 * dx * 1 ≤ 2 * dx * (dy - k) := by
      apply mul_le_mul_of_nonneg_left this
      omega
    omega
  · have : dy - k ≤ -1 := by omega
    have h3 : 2 * dx * (dy - k) ≤ 2 * dx * (-1) := by
      apply mul_le_mul_of_nonneg_left this
      omega
    omega

/-- The X loop of `getLineOfSightPoints`, run for `dx + 1` rounds with
`dx ≥ 1`: the cells collected. -/
theorem lineX_spec (x0 y0 z0 dx dy dz sx sy sz : Int) (hdy : 0 ≤ dy) (hyx : dy ≤ dx)
    (hdz : 0 ≤ dz) (hzx : dz ≤ dx) (hsx : sx = 1 ∨ sx = -1)
    (hsy : -1 ≤ sy ∧ sy ≤ 1) (hsz : -1 ≤ sz ∧ sz ≤ 1)
    (hsy1 : 1 ≤ dy → sy = 1 ∨ sy = -1) (hsz1 : 1 ≤ dz → sz = 1 ∨ sz = -1) (hdx : 1 ≤ dx)
    (pts : List Point)
    (hp : pts = ((intRange 0 dx).foldl (fun s _ => lineStepX dx dy dz sx sy sz s)
      ⟨[], x0, y0, z0, 2 * dy - dx, 2 * dz - dx⟩).points) :
    (pts.length : Int) = dx + 1 ∧ pts.head? = some ⟨x0, y0, z0⟩ ∧
      pts.getLast? = some ⟨x0 + dx * sx, y0 + dy * sy, z0 + dz * sz⟩ ∧
      List.Chain' (LineRel (dy = dx) (dz = dx)) pts := by
  have hlen : (intRange 0 dx).length = dx.toNat + 1 := by
    rw [intRange_length]
    omega
  rw [foldl_const_iterate, hlen, Function.iterate_succ_apply'] at hp
  have inv := LineInv.iterate x0 y0 z0 dx dy dz sx sy sz hdy hyx hdz hzx hsx hsy hsz hsy1 hsz1
    hdx dx.toNat
  generalize (lineStepX dx dy dz sx sy sz)^[dx.toNat]
    ⟨[], x0, y0, z0, 2 * dy - dx, 2 * dz - dx⟩ = s at hp inv
  have hpts : pts = s.points ++ [(⟨s.x, s.y, s.z⟩ : Point)] := by
    rw [hp]
    rfl
  have hn : ((dx.toNat : Nat) : Int) = dx := Int.toNat_of_nonneg (by omega)
  obtain ⟨ky, hy1, hy2⟩ := inv.hy
  obtain ⟨kz, hz1, hz2⟩ := inv.hz
  rw [hn] at hy2 hz2
  have hky := line_minor_count dx dy ky s.err1 hdx inv.e1_lo inv.e1_hi hy2
  have hkz := line_minor_count dx dz kz s.err2 hdx inv.e2_lo inv.e2_hi hz2
  refine ⟨?_, ?_, ?_, ?_⟩
  · rw [hpts, List.length_append, inv.len]
    simp only [List.length_singleton]
    push_cast
    omega
  · rw [hpts]
    exact inv.head
  · rw [hpts, getLast?_snoc]
    simp only [Option.some.injEq, Point.mk.injEq]
    refine ⟨?_, ?_, ?_⟩
    · rw [inv.hx, hn]
    · rw [hy1, hky]
    · rw [hz1, hkz]
  · rw [hpts]
    exact inv.chain
theorem LineState.swapXY_swapXY (s : LineState) : s.swapXY.swapXY = s := by
  cases s
  simp [LineState.swapXY, Function.comp_def, Point.swapXY]

theorem LineState.swapXZ_swapXZ (s : LineState) : s.swapXZ.swapXZ = s := by
  cases s
  simp [LineState.swapXZ, Function.comp_def, Point.swapXZ]

/-- The Y loop of `getLineOfSightPoints` is the X loop with the X and Y axes
exchanged. -/
theorem lineStepY_eq (dx dy dz sx sy sz : Int) (s : LineState) :
    lineStepY dx dy dz sx sy sz s = (lineStepX dy dx dz sy sx sz s.swapXY).swapXY := by
  have e : Point.swapXY ∘ Point.swapXY = id := funext fun p => rfl
  simp [lineStepY, lineStepX, LineState.swapXY, e]
  rfl

/-- The Z loop of `getLineOfSightPoints` is the X loop with the X and Z axes
exchanged. -/
theorem lineStepZ_eq (dx dy dz sx sy sz : Int) (s : LineState) :
    lineStepZ dx dy dz sx sy sz s = (lineStepX dz dy dx sz sy sx s.swapXZ).swapXZ := by
  have e : Point.swapXZ ∘ Point.swapXZ = id := funext fun p => rfl
  simp [lineStepZ, lineStepX, LineState.swapXZ, e]
  rfl

theorem lineStepY_iterate (dx dy dz sx sy sz : Int) (n : Nat) (s : LineState) :
    (lineStepY dx dy dz sx sy sz)^[n] s =
      ((lineStepX dy dx dz sy sx sz)^[n] s.swapXY).swapXY := by
  induction n with
  | zero => exact (LineState.swapXY_swapXY s).symm
  | succ n ih =>
    rw [Function.iterate_succ_apply', Function.iterate_succ_apply', ih, lineStepY_eq,
      LineState.swapXY_swapXY]

theorem lineStepZ_iterate (dx dy dz sx sy sz : Int) (n : Nat) (s : LineState) :
    (lineStepZ dx dy dz sx sy sz)^[n] s =
      ((lineStepX dz dy dx sz sy sx)^[n] s.swapXZ).swapXZ := by
  induction n with
  | zero => exact (LineState.swapXZ_swapXZ s).symm
  | succ n ih =>
    rw [Function.iterate_succ_apply', Function.iterate_succ_apply', ih, lineStepZ_eq,
      LineState.swapXZ_swapXZ]

theorem abs_le_one_iff (d : Int) : abs d ≤ 1 ↔ -1 ≤ d ∧ d ≤ 1 := by
  unfold abs
  split_ifs <;> omega

theorem abs_eq_one_iff (d : Int) : abs d = 1 ↔ d = 1 ∨ d = -1 := by
  unfold abs
  split_ifs <;> omega

/-- The cells of the line from `a` to `b` when the X distance is largest and
at least 1. -/
theorem line_branchX (a b : Point) (h1 : abs (b.X - a.X) ≥ abs (b.Y - a.Y))
    (h2 : abs (b.X - a.X) ≥ abs (b.Z - a.Z)) (h3 : 1 ≤ abs (b.X - a.X)) :
    ((getLineOfSightPoints a b).length : Int) = dominantDistance a b + 1 ∧
      (getLineOfSightPoints a b).head? = some a ∧
      (getLineOfSightPoints a b).getLast? = some b ∧
      List.Chain' (lineStep a b) (getLineOfSightPoints a b) := by
  have hD : dominantDistance a b = abs (b.X - a.X) := by
    unfold dominantDistance max
    split_ifs <;> omega
  obtain ⟨r1, r2, r3, r4⟩ := lineX_spec a.X a.Y a.Z (abs (b.X - a.X)) (abs (b.Y - a.Y))
    (abs (b.Z - a.Z)) (sign (b.X - a.X)) (sign (b.Y - a.Y)) (sign (b.Z - a.Z))
    (abs_nonneg_int _) h1 (abs_nonneg_int _) h2 (sign_of_abs_pos _ h3) (sign_bounds _)
    (sign_bounds _) (sign_of_abs_pos _) (sign_of_abs_pos _) h3 (getLineOfSightPoints a b)
    (by
      unfold getLineOfSightPoints
      simp only [h1, h2, and_self, if_true])
  refine ⟨by rw [r1, hD], r2, ?_, ?_⟩
  · rw [r3, abs_mul_sign, abs_mul_sign, abs_mul_sign]
    congr 1
    cases b
    simp
  · refine List.Chain'.imp ?_ r4
    intro p q ⟨c1, c2, c3, c4, c5⟩
    unfold lineStep
    rw [hD]
    simp only [abs_le_one_iff, abs_eq_one_iff]
    exact ⟨by omega, c2, c3, fun _ => c1, fun e => c4 e, fun e => c5 e⟩

/-- The cells of the line from `a` to `b` when the Y distance is largest and
at least 1. -/
theorem line_branchY (a b : Point) (h0 : ¬ (abs (b.X - a.X) ≥ abs (b.Y - a.Y) ∧
      abs (b.X - a.X) ≥ abs (b.Z - a.Z)))
    (h1 : abs (b.Y - a.Y) ≥ abs (b.X - a.X))
    (h2 : abs (b.Y - a.Y) ≥ abs (b.Z - a.Z)) (h3 : 1 ≤ abs (b.Y - a.Y)) :
    ((getLineOfSightPoints a b).length : Int) = dominantDistance a b + 1 ∧
      (getLineOfSightPoints a b).head? = some a ∧
      (getLineOfSightPoints a b).getLast? = some b ∧
      List.Chain' (lineStep a b) (getLineOfSightPoints a b) := by
  have hD : dominantDistance a b = abs (b.Y - a.Y) := by
    unfold dominantDistance max
    split_ifs <;> omega
  have hpts : getLineOfSightPoints a b =
      (((intRange 0 (abs (b.Y - a.Y))).foldl
        (fun s _ => lineStepX (abs (b.Y - a.Y)) (abs (b.X - a.X)) (abs (b.Z - a.Z))
          (sign (b.Y - a.Y)) (sign (b.X - a.X)) (sign (b.Z - a.Z)) s)
        ⟨[], a.Y, a.X, a.Z, 2 * abs (b.X - a.X) - abs (b.Y - a.Y),
          2 * abs (b.Z - a.Z) - abs (b.Y - a.Y)⟩).points).map Point.swapXY := by
    unfold getLineOfSightPoints
    simp only [h0, h1, h2, and_self, if_true, if_false]
    rw [foldl_const_iterate, foldl_const_iterate, lineStepY_iterate]
    rfl
  obtain ⟨r1, r2, r3, r4⟩ := lineX_spec a.Y a.X a.Z (abs (b.Y - a.Y)) (abs (b.X - a.X))
    (abs (b.Z - a.Z)) (sign (b.Y - a.Y)) (sign (b.X - a.X)) (sign (b.Z - a.Z))
    (abs_nonneg_int _) h1 (abs_nonneg_int _) h2 (sign_of_abs_pos _ h3) (sign_bounds _)
    (sign_bounds _) (sign_of_abs_pos _) (sign_of_abs_pos _) h3 _ rfl
  rw [hpts]
  refine ⟨by rw [List.length_map, r1, hD], ?_, ?_, ?_⟩
  · rw [List.head?_map, r2]
    rfl
  · rw [List.getLast?_map, r3, abs_mul_sign, abs_mul_sign, abs_mul_sign]
    simp only [Option.map_some', Point.swapXY, Option.some.injEq]
    cases b
    simp
  · rw [List.chain'_map]
    refine List.Chain'.imp ?_ r4
    intro p q ⟨c1, c2, c3, c4, c5⟩
    unfold lineStep
    rw [hD]
    simp only [abs_le_one_iff, abs_eq_one_iff, Point.swapXY]
    exact ⟨c2, by omega, c3, fun e => c4 e, fun _ => c1, fun e => c5 e⟩

/-- The cells of the line from `a` to `b` when the Z distance is largest and
at least 1. -/
theorem line_branchZ (a b : Point) (h0 : ¬ (abs (b.X - a.X) ≥ abs (b.Y - a.Y) ∧
      abs (b.X - a.X) ≥ abs (b.Z - a.Z)))
    (h0y : ¬ (abs (b.Y - a.Y) ≥ abs (b.X - a.X) ∧ abs (b.Y - a.Y) ≥ abs (b.Z - a.Z))) :
    ((getLineOfSightPoints a b).length : Int) = dominantDistance a b + 1 ∧
      (getLineOfSightPoints a b).head? = some a ∧
      (getLineOfSightPoints a b).getLast? = some b ∧
      List.Chain' (lineStep a b) (getLineOfSightPoints a b) := by
  have nx := abs_nonneg_int (b.X - a.X)
  have ny := abs_nonneg_int (b.Y - a.Y)
  have h1 : abs (b.Z - a.Z) ≥ abs (b.X - a.X) := by omega
  have h2 : abs (b.Z - a.Z) ≥ abs (b.Y - a.Y) := by omega
  have h3 : 1 ≤ abs (b.Z - a.Z) := by omega
  have hD : dominantDistance a b = abs (b.Z - a.Z) := by
    unfold dominantDistance max
    split_ifs <;> omega
  have hpts : getLineOfSightPoints a b =
      (((intRange 0 (abs (b.Z - a.Z))).foldl
        (fun s _ => lineStepX (abs (b.Z - a.Z)) (abs (b.Y - a.Y)) (abs (b.X - a.X))
          (sign (b.Z - a.Z)) (sign (b.Y - a.Y)) (sign (b.X - a.X)) s)
        ⟨[], a.Z, a.Y, a.X, 2 * abs (b.Y - a.Y) - abs (b.Z - a.Z),
          2 * abs (b.X - a.X) - abs (b.Z - a.Z)⟩).points).map Point.swapXZ := by
    unfold getLineOfSightPoints
    simp only [h0, h0y, if_false]
    rw [foldl_const_iterate, foldl_const_iterate, lineStepZ_iterate]
    rfl
  obtain ⟨r1, r2, r3, r4⟩ := lineX_spec a.Z a.Y a.X (abs (b.Z - a.Z)) (abs (b.Y - a.Y))
    (abs (b.X - a.X)) (sign (b.Z - a.Z)) (sign (b.Y - a.Y)) (sign (b.X - a.X))
    (abs_nonneg_int _) h2 (abs_nonneg_int _) h1 (sign_of_abs_pos _ h3) (sign_bounds _)
    (sign_bounds _) (sign_of_abs_pos _) (sign_of_abs_pos _) h3 _ rfl
  rw [hpts]
  refine ⟨by rw [List.length_map, r1, hD], ?_, ?_, ?_⟩
  · rw [List.head?_map, r2]
    rfl
  · rw [List.getLast?_map, r3, abs_mul_sign, abs_mul_sign, abs_mul_sign]
    simp only [Option.map_some', Point.swapXZ, Option.some.injEq]
    cases b
    simp
  · rw [List.chain'_map]
    refine List.Chain'.imp ?_ r4
    intro p q ⟨c1, c2, c3, c4, c5⟩
    unfold lineStep
    rw [hD]
    simp only [abs_le_one_iff, abs_eq_one_iff, Point.swapXZ]
    exact ⟨c3, c2, by omega, fun e => c5 e, fun e => c4 e, fun _ => c1⟩

/-- The line from a cell to itself is that cell. -/
theorem getLineOfSightPoints_same (a b : Point) (hx : abs (b.X - a.X) = 0)
    (hy : abs (b.Y - a.Y) = 0) (hz : abs (b.Z - a.Z) = 0) :
    getLineOfSightPoints a b = [a] ∧ a = b := by
  constructor
  · unfold getLineOfSightPoints
    simp only [hx, hy, hz]
    rfl
  · unfold abs at hx hy hz
    apply Point.eq_of_coords
    split_ifs at hx hy hz <;> omega

/-- Over unbounded integers `getLineOfSightPoints a b` has
`max(|dX|, |dY|, |dZ|) + 1` cells, the first is `a`, the last is `b`, and
consecutive cells differ by at most one unit on every axis and by exactly one
unit on every axis along which `a` and `b` are `max(|dX|, |dY|, |dZ|)` apart
(the dominant axis). -/
theorem getLineOfSightPoints_cells (a b : Point) :
    ((getLineOfSightPoints a b).length : Int) = dominantDistance a b + 1 ∧
      (getLineOfSightPoints a b).head? = some a ∧
      (getLineOfSightPoints a b).getLast? = some b ∧
      List.Chain' (lineStep a b) (getLineOfSightPoints a b) := by
  have nx := abs_nonneg_int (b.X - a.X)
  have ny := abs_nonneg_int (b.Y - a.Y)
  have nz := abs_nonneg_int (b.Z - a.Z)
  by_cases h0 : abs (b.X - a.X) ≥ abs (b.Y - a.Y) ∧ abs (b.X - a.X) ≥ abs (b.Z - a.Z)
  · by_cases h3 : 1 ≤ abs (b.X - a.X)
    · exact line_branchX a b h0.1 h0.2 h3
    · obtain ⟨e1, e2⟩ := getLineOfSightPoints_same a b (by omega) (by omega) (by omega)
      have hD : dominantDistance a b = 0 := by
        unfold dominantDistance max
        split_ifs <;> omega
      rw [e1, hD]
      refine ⟨rfl, rfl, ?_, by simp⟩
      rw [← e2]
      rfl
  · by_cases h0y : abs (b.Y - a.Y) ≥ abs (b.X - a.X) ∧ abs (b.Y - a.Y) ≥ abs (b.Z - a.Z)
    · exact line_branchY a b h0 h0y.1 h0y.2 (by omega)
    · exact line_branchZ a b h0 h0y

/-! ## Line of sight -/

/-- C33, counterexample: on the strip air, stone, air, the line from the
walkable cell (0,1,0) to the stone block (1,1,0) has no cell other than the two
ends, and `hasLineOfSight` is false: the walkability of an end cell does affect
the answer. -/
theorem hasLineOfSight_end_not_walkable :
    hasLineOfSight ⟨0, 1, 0⟩ ⟨1, 1, 0⟩ wallWorld = false ∧
    getLineOfSightPoints ⟨0, 1, 0⟩ ⟨1, 1, 0⟩ = [⟨0, 1, 0⟩, ⟨1, 1, 0⟩] ∧
    ∀ p ∈ getLineOfSightPoints ⟨0, 1, 0⟩ ⟨1, 1, 0⟩,
      p ≠ ⟨0, 1, 0⟩ → p ≠ ⟨1, 1, 0⟩ → wallWorld.IsWalkable p = true := by
  refine ⟨by decide, by decide, ?_⟩
  intro p hp h1 h2
  rw [show getLineOfSightPoints ⟨0, 1, 0⟩ ⟨1, 1, 0⟩ = [⟨0, 1, 0⟩, ⟨1, 1, 0⟩] by decide] at hp
  simp only [List.mem_cons, List.mem_singleton, List.not_mem_nil, or_false] at hp
  rcases hp with e | e
  · exact absurd e h1
  · exact absurd e h2

/-- C33: `hasLineOfSight a b` is true exactly when `a` and `b` are both
walkable and every cell of `getLineOfSightPoints a b` other than `a` and `b`
is walkable. -/
theorem hasLineOfSight_iff (w : World) (a b : Point) :
    hasLineOfSight a b w = true ↔
      w.IsWalkable a = true ∧ w.IsWalkable b = true ∧
        ∀ p ∈ getLineOfSightPoints a b, p ≠ a → p ≠ b → w.IsWalkable p = true := by
  unfold hasLineOfSight
  cases ha : w.IsWalkable a <;> cases hb : w.IsWalkable b <;>
    simp only [Bool.not_true, Bool.not_false, Bool.or_true, Bool.true_or, Bool.or_false,
      if_true, if_false, Bool.false_eq_true, false_and, and_false, true_and]
  rw [List.all_eq_true]
  constructor
  · intro h p hp h1 h2
    have := h p hp
    have e1 : isEqual p a = false := by
      cases h3 : isEqual p a with
      | false => rfl
      | true => exact absurd ((isEqual_iff _ _).1 h3) h1
    have e2 : isEqual p b = false := by
      cases h3 : isEqual p b with
      | false => rfl
      | true => exact absurd ((isEqual_iff _ _).1 h3) h2
    rw [e1, e2] at this
    simpa using this
  · intro h p hp
    by_cases h1 : p = a
    · subst h1
      simp [ha]
    · by_cases h2 : p = b
      · subst h2
        simp [hb]
      · simp [h p hp h1 h2]

/-! ## The neighbour order of IDA* -/

theorem set_getD_perm {α : Type} (d x : α) (t : List α) (j : Nat) (hj : j < t.length) :
    (t.getD j d :: t.set j x).Perm (x :: t) := by
  induction t generalizing j with
  | nil => simp at hj
  | cons y t ih =>
    cases j with
    | zero => exact List.Perm.swap _ _ _
    | succ k =>
      simp only [List.length_cons, Nat.add_lt_add_iff_right] at hj
      simp only [List.getD_cons_succ, List.set_cons_succ]
      exact (List.Perm.swap _ _ _).trans (((ih k hj).cons y).trans (List.Perm.swap _ _ _))

theorem swap_perm {α : Type} (d : α) (l : List α) (i j : Nat) (hij : i < j)
    (hj : j < l.length) :
    ((l.set i (l.getD j d)).set j (l.getD i d)).Perm l := by
  induction l generalizing i j with
  | nil => simp at hj
  | cons x t ih =>
    cases j with
    | zero => omega
    | succ j1 =>
      simp only [List.length_cons, Nat.add_lt_add_iff_right] at hj
      cases i with
      | zero =>
        simp only [List.set_cons_zero, List.set_cons_succ, List.getD_cons_succ,
          List.getD_cons_zero]
        exact set_getD_perm d x t j1 hj
      | succ i1 =>
        simp only [List.set_cons_succ, List.getD_cons_succ]
        exact (ih i1 j1 (by omega) hj).cons x

theorem swap_getD {α : Type} (d : α) (l : List α) (i j k : Nat) (hij : i < j)
    (hj : j < l.length) :
    ((l.set i (l.getD j d)).set j (l.getD i d)).getD k d =
      if k = j then l.getD i d else if k = i then l.getD j d else l.getD k d := by
  simp only [List.getD_eq_getElem?_getD, List.getElem?_set, List.length_set]
  by_cases h1 : k = j
  · subst h1
    simp [hj]
  · by_cases h2 : k = i
    · subst h2
      have : k < l.length := by omega
      simp [h1, this, Ne.symm h1]
    · simp [h1, h2, Ne.symm h1, Ne.symm h2]

theorem sortSwapStep_length (goal : Point) (o : PathfindingOptions) (i j : Nat)
    (l : List Point) : (sortSwapStep goal o i l j).length = l.length := by
  unfold sortSwapStep
  dsimp only
  split_ifs <;> simp

theorem sortSwapStep_perm (goal : Point) (o : PathfindingOptions) (i j : Nat) (l : List Point)
    (hij : i < j) (hj : j < l.length) : (sortSwapStep goal o i l j).Perm l := by
  unfold sortSwapStep
  dsimp only
  split_ifs
  · exact swap_perm _ l i j hij hj
  · exact List.Perm.refl _

/-- One run of the inner loop of `sortNeighborsByHeuristic` from `j` on: the
slice is rearranged, the cells before `i` stay in place, and the cell at `i`
ends no further from the goal than every cell behind it. -/
theorem sortInner_inv (goal : Point) (o : PathfindingOptions) (i n : Nat) :
    ∀ (m j : Nat) (l : List Point), j + m = n → i < j → l.length = n →
      SortedUpTo goal o i l →
      (∀ k, i < k → k < j →
        Heuristic (l.getD i ⟨0, 0, 0⟩) goal o ≤ Heuristic (l.getD k ⟨0, 0, 0⟩) goal o) →
      ((List.range' j m).foldl (sortSwapStep goal o i) l).length = n ∧
      ((List.range' j m).foldl (sortSwapStep goal o i) l).Perm l ∧
      SortedUpTo goal o i ((List.range' j m).foldl (sortSwapStep goal o i) l) ∧
      (∀ k, i < k → k < n →
        Heuristic (((List.range' j m).foldl (sortSwapStep goal o i) l).getD i ⟨0, 0, 0⟩) goal o ≤
          Heuristic (((List.range' j m).foldl (sortSwapStep goal o i) l).getD k ⟨0, 0, 0⟩)
            goal o) := by
  intro m
  induction m with
  | zero =>
    intro j l hjm hij hlen hs hk
    simp only [List.range'_zero, List.foldl_nil]
    exact ⟨hlen, List.Perm.refl _, hs, fun k h1 h2 => hk k h1 (by omega)⟩
  | succ m ih =>
    intro j l hjm hij hlen hs hk
    rw [List.range'_succ, List.foldl_cons]
    have hj : j < l.length := by omega
    have hlen1 := sortSwapStep_length goal o i j l
    have hperm1 := sortSwapStep_perm goal o i j l hij hj
    have key : SortedUpTo goal o i (sortSwapStep goal o i l j) ∧
        (∀ k, i < k → k < j + 1 →
          Heuristic ((sortSwapStep goal o i l j).getD i ⟨0, 0, 0⟩) goal o ≤
            Heuristic ((sortSwapStep goal o i l j).getD k ⟨0, 0, 0⟩) goal o) := by
      unfold sortSwapStep
      dsimp only
      by_cases hgt : Heuristic (l.getD i ⟨0, 0, 0⟩) goal o > Heuristic (l.getD j ⟨0, 0, 0⟩) goal o
      · rw [if_pos hgt]
        constructor
        · intro a b ha hab hb
          simp only [List.length_set] at hb
          rw [swap_getD _ l i j a hij hj, swap_getD _ l i j b hij hj]
          rw [if_neg (by omega), if_neg (by omega)]
          by_cases hbj : b = j
          · rw [if_pos hbj]
            exact hs a i ha ha (by omega)
          · rw [if_neg hbj]
            by_cases hbi : b = i
            · rw [if_pos hbi]
              exact hs a j ha (by omega) hj
            · rw [if_neg hbi]
              exact hs a b ha hab hb
        · intro k hik hkj
          rw [swap_getD _ l i j i hij hj, swap_getD _ l i j k hij hj]
          rw [if_neg (by omega), if_pos rfl]
          by_cases hkj1 : k = j
          · rw [if_pos hkj1]
            exact le_of_lt hgt
          · rw [if_neg hkj1, if_neg (by omega)]
            exact le_trans (le_of_lt hgt) (hk k hik (by omega))
      · rw [if_neg hgt]
        refine ⟨hs, ?_⟩
        intro k hik hkj
        by_cases hkj1 : k = j
        · rw [hkj1]
          exact not_lt.mp hgt
        · exact hk k hik (by omega)
    obtain ⟨r1, r2, r3, r4⟩ := ih (j + 1) (sortSwapStep goal o i l j) (by omega) (by omega)
      (by rw [hlen1, hlen]) key.1 key.2
    exact ⟨r1, r2.trans hperm1, r3, r4⟩

/-- The outer loop of `sortNeighborsByHeuristic` from `i` on. -/
theorem sortOuter_inv (goal : Point) (o : PathfindingOptions) (n : Nat) :
    ∀ (m i : Nat) (l : List Point), i + m = n → l.length = n → SortedUpTo goal o i l →
      ((List.range' i m).foldl
        (fun ns i => (List.range' (i + 1) (n - (i + 1))).foldl (sortSwapStep goal o i) ns)
        l).Perm l ∧
      SortedUpTo goal o n ((List.range' i m).foldl
        (fun ns i => (List.range' (i + 1) (n - (i + 1))).foldl (sortSwapStep goal o i) ns) l) := by
  intro m
  induction m with
  | zero =>
    intro i l him hlen hs
    simp only [List.range'_zero, List.foldl_nil]
    have : i = n := by omega
    subst this
    exact ⟨List.Perm.refl _, hs⟩
  | succ m ih =>
    intro i l him hlen hs
    rw [List.range'_succ, List.foldl_cons]
    obtain ⟨r1, r2, r3, r4⟩ := sortInner_inv goal o i n (n - (i + 1)) (i + 1) l (by omega)
      (by omega) hlen hs (fun k h1 h2 => by omega)
    have hs1 : SortedUpTo goal o (i + 1)
        ((List.range' (i + 1) (n - (i + 1))).foldl (sortSwapStep goal o i) l) := by
      intro a b ha hab hb
      by_cases hai : a = i
      · rw [hai]
        exact r4 b (by omega) (by omega)
      · exact r3 a b (by omega) hab hb
    obtain ⟨q1, q2⟩ := ih (i + 1) _ (by omega) r1 hs1
    exact ⟨q1.trans r2, q2⟩

/-- C37: the slice `sortNeighborsByHeuristic` leaves is a permutation of the
slice it was given, in non-decreasing order of `Heuristic(cell, goal,
options)`. -/
theorem sortNeighborsByHeuristic_sorted (neighbors : List Point) (goal : Point)
    (options : PathfindingOptions) :
    (sortNeighborsByHeuristic neighbors goal options).Perm neighbors ∧
      List.Pairwise (fun p q => Heuristic p goal options ≤ Heuristic q goal options)
        (sortNeighborsByHeuristic neighbors goal options) := by
  unfold sortNeighborsByHeuristic
  rw [List.range_eq_range']
  obtain ⟨h1, h2⟩ := sortOuter_inv goal options neighbors.length neighbors.length 0 neighbors
    (by omega) rfl (fun a b ha _ _ => by omega)
  refine ⟨h1, ?_⟩
  rw [List.pairwise_iff_getElem]
  intro i j hi hj hij
  have := h2 i j (by rw [h1.length_eq] at hi; exact hi) hij hj
  rw [List.getD_eq_getElem _ _ hi, List.getD_eq_getElem _ _ hj] at this
  exact this

/-! ## The vertex collector of Bellman-Ford -/

theorem vertexAdd_length_le (vs : List Point) (p : Point) :
    (vertexAdd vs p).length ≤ vs.length + 1 := by
  unfold vertexAdd
  split_ifs <;> simp

theorem collectVisit_length (l : List Point) (st : CollectState) :
    (collectVisit l st).vertices.length ≤ st.vertices.length + l.length := by
  induction l generalizing st with
  | nil => simp [collectVisit]
  | cons v rest ih =>
    rw [collectVisit]
    split_ifs
    · have h1 := ih { visited := st.visited.add v, vertices := vertexAdd st.vertices v,
                       queue := st.queue ++ [v] }
      have h2 := vertexAdd_length_le st.vertices v
      simp only [List.length_cons] at h1 ⊢
      omega
    · have h1 := ih st
      simp only [List.length_cons]
      omega

theorem GetWalkableNeighbors_length (p : Point) (w : World) :
    (GetWalkableNeighbors p w).length ≤ 6 := by
  unfold GetWalkableNeighbors
  exact (List.length_filter_le _ _).trans (by simp)

theorem collectNeighbors_length (w : World) (o : PathfindingOptions) (c : Point) :
    (collectNeighbors w o c).length ≤ 6 := by
  unfold collectNeighbors
  split_ifs
  · exact (List.length_filter_le _ _).trans (by simp [directions6])
  · exact GetWalkableNeighbors_length c w
  · exact GetWalkableNeighbors_length c w

/-- The collector never returns more than 5005 cells: a round starts with fewer
than 5000 and adds at most six. -/
theorem collectLoop_bound (w : World) (o : PathfindingOptions) (fuel : Nat)
    (st : CollectState) (vs : List Point) (h : collectLoop w o fuel st = some vs)
    (hb : st.vertices.length ≤ 5005) : vs.length ≤ 5005 := by
  induction fuel generalizing st with
  | zero => simp [collectLoop] at h
  | succ fuel ih =>
    rw [collectLoop] at h
    cases hq : st.queue with
    | nil =>
      rw [hq] at h
      simp only [Option.some.injEq] at h
      rw [← h]
      exact hb
    | cons c q =>
      rw [hq] at h
      simp only at h
      split_ifs at h with hlt
      · refine ih _ h ?_
        have h1 := collectVisit_length (collectNeighbors w o c) { st with queue := q }
        have h2 := collectNeighbors_length w o c
        simp only at h1
        omega
      · simp only [Option.some.injEq] at h
        rw [← h]
        exact hb

theorem mem_GetWalkableNeighbors (w : World) (p v : Point) (h : v ∈ GetWalkableNeighbors p w) :
    w.IsWalkable v = true := by
  unfold GetWalkableNeighbors at h
  exact (List.mem_filter.1 h).2

theorem collectNeighbors_worldCells (w : World) (o : PathfindingOptions) (start c v : Point)
    (h : v ∈ collectNeighbors w o c) : v ∈ worldCells w start := by
  unfold collectNeighbors at h
  split_ifs at h
  · have := (List.mem_filter.1 h).2
    rw [Bool.or_eq_true] at this
    rcases this with h1 | h1
    · exact walkable_mem_worldCells w start v h1
    · exact canBreak_mem_worldCells w start v h1
  · exact walkable_mem_worldCells w start v (mem_GetWalkableNeighbors w c v h)
  · exact walkable_mem_worldCells w start v (mem_GetWalkableNeighbors w c v h)

theorem collectVisit_measure (U : Finset Point) (l : List Point) (hl : ∀ v ∈ l, v ∈ U)
    (st : CollectState) :
    2 * unvisited U (collectVisit l st).visited + (collectVisit l st).queue.length
      ≤ 2 * unvisited U st.visited + st.queue.length := by
  induction l generalizing st with
  | nil => exact le_refl _
  | cons v rest ih =>
    have hrest : ∀ x ∈ rest, x ∈ U := fun x hx => hl x (List.mem_cons_of_mem _ hx)
    rw [collectVisit]
    cases hvis : st.visited v with
    | true =>
      simp only [Bool.not_true, Bool.false_eq_true, if_false]
      exact ih hrest st
    | false =>
      simp only [Bool.not_false, if_true]
      have h1 := ih hrest { visited := st.visited.add v, vertices := vertexAdd st.vertices v,
                             queue := st.queue ++ [v] }
      have h2 := unvisited_add U st.visited v (hl v (List.mem_cons_self _ _)) hvis
      simp only [List.length_append, List.length_singleton] at h1
      omega

/-- The collector returns once the fuel exceeds twice the number of unvisited
cells of the world plus the length of the queue. -/
theorem collectLoop_some (w : World) (o : PathfindingOptions) (start : Point) (fuel : Nat)
    (st : CollectState)
    (hf : 2 * unvisited (worldCells w start) st.visited + st.queue.length < fuel) :
    ∃ vs, collectLoop w o fuel st = some vs := by
  induction fuel generalizing st with
  | zero => omega
  | succ fuel ih =>
    rw [collectLoop]
    cases hq : st.queue with
    | nil => exact ⟨_, rfl⟩
    | cons c q =>
      simp only
      split_ifs with hlt
      · apply ih
        have h1 := collectVisit_measure (worldCells w start) (collectNeighbors w o c)
          (fun v hv => collectNeighbors_worldCells w o start c v hv) { st with queue := q }
        rw [hq] at hf
        simp only [List.length_cons] at hf h1
        omega
      · exact ⟨_, rfl⟩

/-- Function `getLocalWalkableVertices` returns on every input once the fuel is
large enough, and returns at most 5005 cells. -/
theorem getLocalWalkableVertices_some (w : World) (start goal : Point)
    (o : PathfindingOptions) :
    ∃ N, ∀ fuel, N ≤ fuel → ∃ keys, getLocalWalkableVertices fuel start goal w o = some keys ∧
      keys.length ≤ 5005 := by
  refine ⟨2 * unvisited (worldCells w start) (PointSet.empty.add start) + 2, ?_⟩
  intro fuel hf
  obtain ⟨vs, hvs⟩ := collectLoop_some w o start fuel
    { vertices := vertexAdd (vertexAdd [] start) goal, queue := [start],
      visited := PointSet.empty.add start }
    (by simp only [List.length_singleton]; omega)
  refine ⟨vs, hvs, collectLoop_bound w o fuel _ vs hvs ?_⟩
  have h1 := vertexAdd_length_le (vertexAdd [] start) goal
  have h2 := vertexAdd_length_le [] start
  simp only [List.length_nil] at h2
  simp only
  omega
/-! ### A run of the collector that ends with 5001 cells -/

theorem isWalkable_of_all_walkable (l : List (Point × Block))
    (hall : ∀ x ∈ l, x.2.Walkable = true) (p : Point) :
    World.IsWalkable ⟨l⟩ p = true ↔ p ∈ l.map Prod.fst := by
  unfold World.IsWalkable World.GetBlock
  induction l with
  | nil => simp
  | cons x rest ih =>
    obtain ⟨k, b⟩ := x
    by_cases hk : p = k
    · subst hk
      have := hall (p, b) (List.mem_cons_self _ _)
      simp only at this
      simp [List.lookup, this]
    · have hb : (p == k) = false := by simpa using hk
      simp only [List.lookup, hb, List.map_cons, List.mem_cons, hk, false_or]
      exact ih (fun x hx => hall x (List.mem_cons_of_mem _ hx))

theorem forkWorld_walkable (p : Point) :
    forkWorld.IsWalkable p = true ↔
      (p.Y = 1 ∧ p.Z = 0 ∧ 0 ≤ p.X ∧ p.X < 4999) ∨ p = ⟨4998, 1, 1⟩ ∨ p = ⟨4998, 1, -1⟩ := by
  unfold forkWorld
  rw [isWalkable_of_all_walkable]
  · simp only [List.map_append, List.map_map, List.mem_append, List.mem_map, List.mem_range,
      Function.comp_apply, List.map_cons, List.map_nil, List.mem_cons, List.mem_singleton,
      List.not_mem_nil, or_false]
    constructor
    · rintro (⟨k, hk, rfl⟩ | h | h)
      · left
        refine ⟨?_, ?_, ?_, ?_⟩ <;> simp
        omega
      · exact Or.inr (Or.inl h)
      · exact Or.inr (Or.inr h)
    · rintro (⟨h1, h2, h3, h4⟩ | h | h)
      · left
        refine ⟨p.X.toNat, by omega, ?_⟩
        apply Point.eq_of_coords
        simp only
        omega
      · exact Or.inr (Or.inl h)
      · exact Or.inr (Or.inr h)
  · intro x hx
    simp only [List.mem_append, List.mem_map, List.mem_range, List.mem_cons, List.mem_singleton,
      List.not_mem_nil, or_false] at hx
    rcases hx with ⟨k, -, rfl⟩ | rfl | rfl <;> rfl

theorem forkWorld_walkable_false (p : Point)
    (h : ¬ ((p.Y = 1 ∧ p.Z = 0 ∧ 0 ≤ p.X ∧ p.X < 4999) ∨ p = ⟨4998, 1, 1⟩ ∨ p = ⟨4998, 1, -1⟩)) :
    forkWorld.IsWalkable p = false := by
  cases hw : forkWorld.IsWalkable p with
  | false => rfl
  | true => exact absurd ((forkWorld_walkable p).1 hw) h

/-- The walkable neighbours of a cell of the corridor other than the last. -/
theorem forkWorld_neighbors (k : Nat) (hk : k ≤ 4997) :
    GetWalkableNeighbors (forkCell k) forkWorld =
      forkCell (k + 1) :: (if 1 ≤ k then [forkCell (k - 1)] else []) := by
  have h1 : forkWorld.IsWalkable ⟨(k : Int) + 1, 1, 0⟩ = true :=
    (forkWorld_walkable _).2 (Or.inl ⟨rfl, rfl, by simp only; omega, by simp only; omega⟩)
  have h3 : forkWorld.IsWalkable ⟨(k : Int), 1 + 1, 0⟩ = false :=
    forkWorld_walkable_false _ (by simp)
  have h4 : forkWorld.IsWalkable ⟨(k : Int), 1 - 1, 0⟩ = false :=
    forkWorld_walkable_false _ (by simp)
  have h5 : forkWorld.IsWalkable ⟨(k : Int), 1, 0 + 1⟩ = false :=
    forkWorld_walkable_false _ (by simp only [Point.mk.injEq]; omega)
  have h6 : forkWorld.IsWalkable ⟨(k : Int), 1, 0 - 1⟩ = false :=
    forkWorld_walkable_false _ (by simp only [Point.mk.injEq]; omega)
  unfold GetWalkableNeighbors forkCell
  simp only [List.filter_cons, List.filter_nil, h1, h3, h4, h5, h6, if_true]
  by_cases h0 : 1 ≤ k
  · have h2 : forkWorld.IsWalkable ⟨(k : Int) - 1, 1, 0⟩ = true :=
      (forkWorld_walkable _).2 (Or.inl ⟨rfl, rfl, by simp only; omega, by simp only; omega⟩)
    simp only [h2, h0, if_true, Bool.false_eq_true, if_false]
    have e1 : ((k + 1 : Nat) : Int) = (k : Int) + 1 := by omega
    have e2 : ((k - 1 : Nat) : Int) = (k : Int) - 1 := by omega
    rw [e1, e2]
  · have h2 : forkWorld.IsWalkable ⟨(k : Int) - 1, 1, 0⟩ = false :=
      forkWorld_walkable_false _ (by simp only [Point.mk.injEq]; omega)
    simp only [h2, h0, if_false, Bool.false_eq_true]
    have e1 : ((k + 1 : Nat) : Int) = (k : Int) + 1 := by omega
    rw [e1]

/-- The walkable neighbours of the last cell of the corridor. -/
theorem forkWorld_neighbors_last :
    GetWalkableNeighbors (forkCell 4998) forkWorld =
      [forkCell 4997, ⟨4998, 1, 1⟩, ⟨4998, 1, -1⟩] := by
  have h1 : forkWorld.IsWalkable ⟨((4998 : Nat) : Int) + 1, 1, 0⟩ = false :=
    forkWorld_walkable_false _ (by simp)
  have h2 : forkWorld.IsWalkable ⟨((4998 : Nat) : Int) - 1, 1, 0⟩ = true :=
    (forkWorld_walkable _).2 (Or.inl ⟨rfl, rfl, by simp, by simp⟩)
  have h3 : forkWorld.IsWalkable ⟨((4998 : Nat) : Int), 1 + 1, 0⟩ = false :=
    forkWorld_walkable_false _ (by simp)
  have h4 : forkWorld.IsWalkable ⟨((4998 : Nat) : Int), 1 - 1, 0⟩ = false :=
    forkWorld_walkable_false _ (by simp)
  have h5 : forkWorld.IsWalkable ⟨((4998 : Nat) : Int), 1, 0 + 1⟩ = true :=
    (forkWorld_walkable _).2 (Or.inr (Or.inl (by simp)))
  have h6 : forkWorld.IsWalkable ⟨((4998 : Nat) : Int), 1, 0 - 1⟩ = true :=
    (forkWorld_walkable _).2 (Or.inr (Or.inr (by simp)))
  unfold GetWalkableNeighbors forkCell
  simp only [List.filter_cons, List.filter_nil, h1, h2, h3, h4, h5, h6, if_true,
    Bool.false_eq_true, if_false]
  simp

theorem forkCell_mem_range (j n : Nat) :
    forkCell j ∈ (List.range n).map forkCell ↔ j < n := by
  simp only [List.mem_map, List.mem_range, forkCell, Point.mk.injEq, and_true]
  constructor
  · rintro ⟨a, ha, e⟩
    omega
  · intro h
    exact ⟨j, h, rfl⟩

/-- One round of the collector on the corridor: the next cell is visited. -/
theorem ForkInv.next_cell (k : Nat) (hk : k ≤ 4997) (st : CollectState) (h : ForkInv k st) :
    ForkInv (k + 1)
      (collectVisit (collectNeighbors forkWorld {} (forkCell k)) { st with queue := [] }) := by
  have hn : collectNeighbors forkWorld {} (forkCell k) =
      forkCell (k + 1) :: (if 1 ≤ k then [forkCell (k - 1)] else []) := by
    unfold collectNeighbors
    simp only [Bool.false_eq_true, if_false]
    exact forkWorld_neighbors k hk
  rw [hn]
  have hnew : st.visited (forkCell (k + 1)) = false := by
    cases hv : st.visited (forkCell (k + 1)) with
    | false => rfl
    | true =>
      have := (h.visited _).1 hv
      rw [h.vertices, forkCell_mem_range] at this
      omega
  have hnotin : forkCell (k + 1) ∉ st.vertices := by
    rw [h.vertices, forkCell_mem_range]
    omega
  have hst1 : collectVisit (forkCell (k + 1) :: (if 1 ≤ k then [forkCell (k - 1)] else []))
      { st with queue := [] } =
      { visited := st.visited.add (forkCell (k + 1)),
        vertices := st.vertices ++ [forkCell (k + 1)],
        queue := [forkCell (k + 1)] } := by
    rw [collectVisit]
    simp only [hnew, Bool.not_false, if_true, vertexAdd, hnotin, if_false, List.nil_append]
    by_cases h0 : 1 ≤ k
    · simp only [h0, if_true]
      rw [collectVisit]
      have hold : st.visited (forkCell (k - 1)) = true := by
        rw [h.visited, h.vertices, forkCell_mem_range]
        omega
      simp only [PointSet.add_of_true _ _ _ hold, Bool.not_true, Bool.false_eq_true, if_false]
      rfl
    · simp only [h0, if_false]
      rfl
  rw [hst1]
  refine ⟨rfl, ?_, ?_⟩
  · simp only
    rw [h.vertices, List.range_succ (n := k + 1), List.map_append]
    rfl
  · intro p
    simp only [List.mem_append, List.mem_singleton]
    by_cases hp : p = forkCell (k + 1)
    · rw [hp, PointSet.add_self]
      simp
    · rw [PointSet.add_ne _ _ _ hp, h.visited]
      simp [hp]

/-- The collector on `forkWorld`, from the state in which the cell `k` of the
corridor is about to be popped, returns 5001 cells. -/
theorem collectLoop_fork :
    ∀ (d k : Nat) (st : CollectState), k + d = 4998 → ForkInv k st →
      ∃ vs, collectLoop forkWorld {} (d + 2) st = some vs ∧ vs.length = 5001 := by
  intro d
  induction d with
  | zero =>
    intro k st hk h
    have hk1 : k = 4998 := by omega
    subst hk1
    have hlen : st.vertices.length = 4999 := by
      rw [h.vertices]
      simp
    have hn : collectNeighbors forkWorld {} (forkCell 4998) =
        [forkCell 4997, ⟨4998, 1, 1⟩, ⟨4998, 1, -1⟩] := by
      unfold collectNeighbors
      simp only [Bool.false_eq_true, if_false]
      exact forkWorld_neighbors_last
    have hold : st.visited (forkCell 4997) = true := by
      rw [h.visited, h.vertices, forkCell_mem_range]
      omega
    have hs1 : (⟨4998, 1, 1⟩ : Point) ∉ st.vertices := by
      rw [h.vertices]
      simp [forkCell]
    have hs2 : (⟨4998, 1, -1⟩ : Point) ∉ st.vertices ++ [⟨4998, 1, 1⟩] := by
      rw [h.vertices]
      simp [forkCell]
    have hv1 : st.visited ⟨4998, 1, 1⟩ = false := by
      cases hv : st.visited ⟨4998, 1, 1⟩ with
      | false => rfl
      | true => exact absurd ((h.visited _).1 hv) hs1
    have hv2 : (st.visited.add ⟨4998, 1, 1⟩) ⟨4998, 1, -1⟩ = false := by
      rw [PointSet.add_ne _ _ _ (by simp)]
      cases hv : st.visited ⟨4998, 1, -1⟩ with
      | false => rfl
      | true =>
        exact absurd (List.mem_append_left _ ((h.visited _).1 hv)) hs2
    have hst1 : collectVisit [forkCell 4997, ⟨4998, 1, 1⟩, ⟨4998, 1, -1⟩]
        { st with queue := [] } =
        { visited := (st.visited.add ⟨4998, 1, 1⟩).add ⟨4998, 1, -1⟩,
          vertices := st.vertices ++ [⟨4998, 1, 1⟩] ++ [⟨4998, 1, -1⟩],
          queue := [⟨4998, 1, 1⟩, ⟨4998, 1, -1⟩] } := by
      rw [collectVisit]
      simp only [hold, Bool.not_true, Bool.false_eq_true, if_false]
      rw [collectVisit]
      simp only [hv1, Bool.not_false, if_true, vertexAdd, hs1, if_false, List.nil_append]
      rw [collectVisit]
      simp only [hv2, Bool.not_false, if_true, vertexAdd, hs2, if_false]
      rfl
    refine ⟨st.vertices ++ [⟨4998, 1, 1⟩] ++ [⟨4998, 1, -1⟩], ?_, ?_⟩
    · rw [collectLoop, h.queue]
      simp only [hlen, Nat.reduceLT, if_true]
      rw [hn, hst1, collectLoop]
      simp only [List.length_append, hlen, List.length_singleton, Nat.reduceAdd, Nat.lt_irrefl,
        Nat.reduceLT, if_false]
    · simp only [List.length_append, hlen, List.length_singleton]
  | succ d ih =>
    intro k st hk h
    have hlen : st.vertices.length = k + 1 := by
      rw [h.vertices]
      simp
    have hlt : st.vertices.length < 5000 := by omega
    obtain ⟨vs, h1, h2⟩ := ih (k + 1) _ (by omega) (ForkInv.next_cell k (by omega) st h)
    refine ⟨vs, ?_, h2⟩
    rw [collectLoop, h.queue]
    simp only [hlt, if_true]
    exact h1

/-! ### Bellman-Ford returns -/

theorem bfWeight_pos (w : World) (o : PathfindingOptions) (bp pp : PointSet) (u v : Point) :
    0 < bfWeight w o bp pp u v := by
  have h1 := GetMovementCost_pos w u v
  have h2 : (0 : ℚ) ≤ ((abs (v.Y - u.Y) : Int) : ℚ) := by exact_mod_cast abs_nonneg_int _
  unfold bfWeight
  dsimp only
  split_ifs <;> linarith

theorem DistMap.set_at (m : DistMap) (p : Point) (v : Option ℚ) : m.set p v p = some v := by
  simp [DistMap.set]

theorem DistMap.set_away (m : DistMap) (p : Point) (v : Option ℚ) (q : Point) (h : q ≠ p) :
    m.set p v q = m q := by
  simp [DistMap.set, h]

/-- Relaxing one edge keeps the invariant of Bellman-Ford. -/
theorem BFInv.relax (start : Point) (vs : List Point) (dist : DistMap) (pred : ParentMap)
    (h : BFInv start vs dist pred) (u v : Point) (du wt : ℚ) (dv : Option ℚ) (hwt : 0 < wt)
    (hu : dist u = some (some du)) (hv : dist v = some dv)
    (hlt : infLt (some (du + wt)) dv = true) :
    BFInv start vs (dist.set v (some (du + wt))) (pred.set v u) := by
  have hdu := h.nonneg u du hu
  have hvs : v ≠ start := by
    intro e
    rw [e, h.start_zero] at hv
    simp only [Option.some.injEq] at hv
    rw [← hv] at hlt
    simp only [infLt, decide_eq_true_eq] at hlt
    linarith
  have hvu : u ≠ v := by
    intro e
    rw [e, hv] at hu
    simp only [Option.some.injEq] at hu
    rw [hu] at hlt
    simp only [infLt, decide_eq_true_eq] at hlt
    linarith
  have hdv : ∀ y, dv = some y → du + wt < y := by
    intro y hy
    rw [hy] at hlt
    simpa [infLt] using hlt
  constructor
  · rw [DistMap.set_away _ _ _ _ (Ne.symm hvs)]
    exact h.start_zero
  · intro x
    by_cases hx : x = v
    · rw [hx, DistMap.set_at]
      have := (h.keys v).1 (by rw [hv]; simp)
      simpa using this
    · rw [DistMap.set_away _ _ _ _ hx]
      exact h.keys x
  · intro x d hx
    by_cases hxv : x = v
    · rw [hxv, DistMap.set_at] at hx
      simp only [Option.some.injEq] at hx
      linarith
    · rw [DistMap.set_away _ _ _ _ hxv] at hx
      exact h.nonneg x d hx
  · intro x d hx hxs
    by_cases hxv : x = v
    · rw [hxv, DistMap.set_at] at hx
      simp only [Option.some.injEq] at hx
      refine ⟨u, du, by rw [hxv, ParentMap.set_same], ?_, by linarith⟩
      rw [DistMap.set_away _ _ _ _ hvu]
      exact hu
    · rw [DistMap.set_away _ _ _ _ hxv] at hx
      obtain ⟨p, dp, hp1, hp2, hp3⟩ := h.parent x d hx hxs
      by_cases hpv : p = v
      · refine ⟨p, du + wt, by rw [ParentMap.set_other _ _ _ _ hxv]; exact hp1, ?_, ?_⟩
        · rw [hpv, DistMap.set_at]
        · rw [hpv, hv] at hp2
          simp only [Option.some.injEq] at hp2
          have := hdv dp hp2
          linarith
      · exact ⟨p, dp, by rw [ParentMap.set_other _ _ _ _ hxv]; exact hp1,
          by rw [DistMap.set_away _ _ _ _ hpv]; exact hp2, hp3⟩

theorem bfRelax_inv (w : World) (o : PathfindingOptions) (start : Point) (vs : List Point)
    (u : Point) (bp pp : PointSet) (l : List Point) (dist : DistMap) (pred : ParentMap)
    (any : Bool) (h : BFInv start vs dist pred) (hu : dist u ≠ none) :
    BFInv start vs (bfRelax w o u bp pp l (dist, pred, any)).1
      (bfRelax w o u bp pp l (dist, pred, any)).2.1 := by
  induction l generalizing dist pred any with
  | nil => exact h
  | cons v rest ih =>
    rw [bfRelax]
    cases hv : dist v with
    | none => exact ih dist pred any h hu
    | some dv =>
      simp only
      split_ifs with hlt
      · obtain ⟨x, hx⟩ := Option.ne_none_iff_exists'.1 hu
        have hget : dist.get u = x := by simp [DistMap.get, hx]
        rw [hget] at hlt ⊢
        cases x with
        | none => simp [infAdd, infLt] at hlt
        | some du =>
          simp only [infAdd, Option.map_some'] at hlt ⊢
          have h1 := BFInv.relax start vs dist pred h u v du _ dv (bfWeight_pos w o bp pp u v)
            hx hv hlt
          refine ih _ _ _ h1 ?_
          have := (h1.keys u).2 ((h.keys u).1 hu)
          exact this
      · exact ih dist pred any h hu

theorem bfPass_inv (w : World) (o : PathfindingOptions) (start : Point) (vs : List Point)
    (l : List Point) (hl : ∀ u ∈ l, u ∈ vs) (st : BFState)
    (h : BFInv start vs st.dist st.pred) :
    BFInv start vs (bfPass w o l st).dist (bfPass w o l st).pred := by
  induction l generalizing st with
  | nil => exact h
  | cons u rest ih =>
    have hrest : ∀ x ∈ rest, x ∈ vs := fun x hx => hl x (List.mem_cons_of_mem _ hx)
    rw [bfPass]
    split_ifs
    · exact ih hrest st h
    · refine ih hrest _ ?_
      exact bfRelax_inv w o start vs u _ _ _ st.dist st.pred st.anyUpdate h
        ((h.keys u).2 (Or.inr (hl u (List.mem_cons_self _ _))))

theorem bfPasses_inv (w : World) (o : PathfindingOptions) (start : Point) (vs : List Point)
    (n : Nat) (st : BFState) (h : BFInv start vs st.dist st.pred) :
    BFInv start vs (bfPasses w o vs n st).dist (bfPasses w o vs n st).pred := by
  induction n generalizing st with
  | zero => exact h
  | succ n ih =>
    rw [bfPasses]
    have h1 := bfPass_inv w o start vs vs (fun u hu => hu) { st with anyUpdate := false } h
    split_ifs
    · exact h1
    · exact ih _ h1

theorem dist_init (vs : List Point) (d : DistMap) (v : Point) :
    (vs.foldl (fun d v => d.set v none) d) v = if v ∈ vs then some none else d v := by
  induction vs generalizing d with
  | nil => simp
  | cons a rest ih =>
    rw [List.foldl_cons, ih]
    by_cases h1 : v ∈ rest
    · simp [h1]
    · by_cases h2 : v = a
      · simp [h2, DistMap.set_at]
      · simp [h1, h2, DistMap.set_away _ _ _ _ h2]

theorem BFInv.initial (start : Point) (vs : List Point) :
    BFInv start vs ((vs.foldl (fun d v => d.set v none) DistMap.empty).set start (some 0))
      ParentMap.empty := by
  constructor
  · exact DistMap.set_at _ _ _
  · intro v
    by_cases hv : v = start
    · simp [hv, DistMap.set_at]
    · rw [DistMap.set_away _ _ _ _ hv, dist_init]
      by_cases h1 : v ∈ vs <;> simp [h1, hv, DistMap.empty]
  · intro v d hd
    by_cases hv : v = start
    · rw [hv, DistMap.set_at] at hd
      simp only [Option.some.injEq] at hd
      rw [← hd]
    · rw [DistMap.set_away _ _ _ _ hv, dist_init] at hd
      by_cases h1 : v ∈ vs <;> simp [h1, DistMap.empty] at hd
  · intro v d hd hv
    rw [DistMap.set_away _ _ _ _ hv, dist_init] at hd
    by_cases h1 : v ∈ vs <;> simp [h1, DistMap.empty] at hd

theorem countP_lt_of_imp {α : Type} (p q : α → Bool) (l : List α)
    (himp : ∀ x ∈ l, p x = true → q x = true) (a : α) (ha : a ∈ l) (hq : q a = true)
    (hp : p a = false) : l.countP p < l.countP q := by
  induction l with
  | nil => cases ha
  | cons b rest ih =>
    have hrest : ∀ x ∈ rest, p x = true → q x = true :=
      fun x hx => himp x (List.mem_cons_of_mem _ hx)
    have hle : rest.countP p ≤ rest.countP q := List.countP_mono_left hrest
    rcases List.mem_cons.1 ha with e | hmem
    · subst e
      rw [List.countP_cons_of_neg _ _ (by simp [hp]), List.countP_cons_of_pos _ _ hq]
      omega
    · have := ih hrest hmem
      by_cases hb : p b = true
      · rw [List.countP_cons_of_pos _ _ hb,
          List.countP_cons_of_pos _ _ (himp b (List.mem_cons_self _ _) hb)]
        omega
      · rw [List.countP_cons_of_neg _ _ hb]
        by_cases hqb : q b = true
        · rw [List.countP_cons_of_pos _ _ hqb]
          omega
        · rw [List.countP_cons_of_neg _ _ hqb]
          exact this

theorem mem_finiteDists (start : Point) (vs : List Point) (dist : DistMap) (pred : ParentMap)
    (h : BFInv start vs dist pred) (u : Point) (du : ℚ) (hu : dist u = some (some du)) :
    du ∈ finiteDists start vs dist := by
  unfold finiteDists
  rw [List.mem_filterMap]
  refine ⟨u, ?_, by simp [hu]⟩
  have := (h.keys u).1 (by rw [hu]; simp)
  simpa using this

/-- The loop that follows `pred` back from a cell at a finite distance ends:
every round moves to a cell at a smaller finite distance. -/
theorem bfPath_some (start : Point) (vs : List Point) (dist : DistMap) (pred : ParentMap)
    (h : BFInv start vs dist pred) (fuel : Nat) (c : Point) (path : List Point) (d : ℚ)
    (hc : dist c = some (some d))
    (hf : (finiteDists start vs dist).countP (fun x => decide (x < d)) < fuel) :
    ∃ p, bfPath start pred fuel c path = some p := by
  induction fuel generalizing c path d with
  | zero => omega
  | succ fuel ih =>
    rw [bfPath]
    split_ifs with hcs
    · obtain ⟨u, du, h1, h2, h3⟩ := h.parent c d hc hcs
      rw [ParentMap.get_of_some _ _ _ h1]
      refine ih u _ du h2 ?_
      have := countP_lt_of_imp (fun x => decide (x < du)) (fun x => decide (x < d))
        (finiteDists start vs dist)
        (fun x _ hx => by
          simp only [decide_eq_true_eq] at hx ⊢
          linarith)
        du (mem_finiteDists start vs dist pred h u du h2) (by simpa using h3) (by simp)
      omega
    · exact ⟨_, rfl⟩

/-- From its slice of vertices on `FindPathBellmanFordWithOptions` returns
once the fuel exceeds the number of vertices by two, and `MaxMemoryUsed` is the
number of vertices. -/
theorem bellmanFordCore_some (fuel : Nat) (vs : List Point) (start goal : Point) (w : World)
    (o : PathfindingOptions) (hg : goal ∈ vs) (hf : vs.length + 2 ≤ fuel) :
    ∃ r, bellmanFordCore fuel vs start goal w o = some r ∧
      r.MaxMemoryUsed = (vs.length : Int) := by
  unfold bellmanFordCore
  dsimp only
  have inv := bfPasses_inv w o start vs (vs.length - 1)
    { dist := (vs.foldl (fun d v => d.set v none) DistMap.empty).set start (some 0),
      pred := ParentMap.empty, breakPoints := PointSet.empty, placePoints := PointSet.empty,
      nodesExplored := 0, anyUpdate := false } (BFInv.initial start vs)
  generalize bfPasses w o vs (vs.length - 1)
    { dist := (vs.foldl (fun d v => d.set v none) DistMap.empty).set start (some 0),
      pred := ParentMap.empty, breakPoints := PointSet.empty, placePoints := PointSet.empty,
      nodesExplored := 0, anyUpdate := false } = st at inv
  split_ifs with h1 h2
  · exact ⟨_, rfl, rfl⟩
  · exact ⟨_, rfl, rfl⟩
  · have hkey := (inv.keys goal).2 (Or.inr hg)
    obtain ⟨x, hx⟩ := Option.ne_none_iff_exists'.1 hkey
    have hget : st.dist.get goal = x := by simp [DistMap.get, hx]
    rw [hget] at h2
    cases x with
    | none => simp at h2
    | some d =>
      have hlen : (finiteDists start vs st.dist).countP (fun x => decide (x < d)) < fuel := by
        have h3 := List.countP_le_length (fun x => decide (x < d))
          (l := finiteDists start vs st.dist)
        have h4 : (finiteDists start vs st.dist).length ≤ (start :: vs).length :=
          List.length_filterMap_le _ _
        simp only [List.length_cons] at h4
        omega
      obtain ⟨p, hp⟩ := bfPath_some start vs st.dist st.pred inv fuel goal [goal] d hx hlen
      rw [hp]
      exact ⟨_, rfl, rfl⟩
theorem mem_vertexAdd (vs : List Point) (p q : Point) (h : q ∈ vs ∨ q = p) :
    q ∈ vertexAdd vs p := by
  unfold vertexAdd
  split_ifs with hp
  · rcases h with h | h
    · exact h
    · rw [h]; exact hp
  · rcases h with h | h
    · exact List.mem_append_left _ h
    · rw [h]; exact List.mem_append_right _ (List.mem_singleton_self _)

theorem collectVisit_mem (l : List Point) (st : CollectState) (p : Point)
    (hp : p ∈ st.vertices) : p ∈ (collectVisit l st).vertices := by
  induction l generalizing st with
  | nil => exact hp
  | cons v rest ih =>
    rw [collectVisit]
    split_ifs
    · exact ih _ (mem_vertexAdd _ _ _ (Or.inl hp))
    · exact ih st hp

theorem collectLoop_mem (w : World) (o : PathfindingOptions) (fuel : Nat) (st : CollectState)
    (vs : List Point) (h : collectLoop w o fuel st = some vs) (p : Point)
    (hp : p ∈ st.vertices) : p ∈ vs := by
  induction fuel generalizing st with
  | zero => simp [collectLoop] at h
  | succ fuel ih =>
    rw [collectLoop] at h
    cases hq : st.queue with
    | nil =>
      rw [hq] at h
      simp only [Option.some.injEq] at h
      rw [← h]
      exact hp
    | cons c q =>
      rw [hq] at h
      simp only at h
      split_ifs at h with hlt
      · exact ih _ h (collectVisit_mem _ _ p hp)
      · simp only [Option.some.injEq] at h
        rw [← h]
        exact hp

/-- C36, counterexample: on `forkWorld` (a corridor of 4999 walkable cells with
a walkable cell on either side of its last cell), from (0,1,0) to (0,1,0) with
no options, `getLocalWalkableVertices` returns 5001 cells: the round that pops
the last cell of the corridor starts with 4999 cells and adds two. -/
theorem getLocalWalkableVertices_fork :
    ∃ keys, getLocalWalkableVertices 5000 ⟨0, 1, 0⟩ ⟨0, 1, 0⟩ forkWorld {} = some keys ∧
      keys.length = 5001 := by
  unfold getLocalWalkableVertices
  refine collectLoop_fork 4998 0 _ (by omega) ⟨rfl, ?_, ?_⟩
  · simp [vertexAdd, forkCell, List.range_succ]
  · intro p
    simp only [vertexAdd, List.nil_append, List.not_mem_nil, if_false, List.mem_singleton, if_true]
    by_cases hp : p = ⟨0, 1, 0⟩
    · rw [hp, PointSet.add_self]
      simp
    · rw [PointSet.add_ne _ _ _ hp]
      simp [hp, PointSet.empty]

/-- C36: for every world, start, goal and option record, once the fuel is large
enough `getLocalWalkableVertices` returns, and the set it returns holds at most
5005 cells (a round of its loop starts with fewer than 5000 cells and adds at
most six); `FindPathBellmanFordWithOptions` then returns too, whatever the
order in which the set is handed out, and reports the number of cells of the
set as `MaxMemoryUsed`. -/
theorem bellmanFord_vertex_bound (w : World) (start goal : Point) (o : PathfindingOptions) :
    ∃ N, ∀ fuel, N ≤ fuel → ∃ keys,
      getLocalWalkableVertices fuel start goal w o = some keys ∧ keys.length ≤ 5005 ∧
      ∀ order : List Point → List Point, (∀ l, (order l).Perm l) →
        ∃ r, FindPathBellmanFordWithOptions order fuel start goal w o = some r ∧
          r.MaxMemoryUsed = (keys.length : Int) := by
  obtain ⟨N, hN⟩ := getLocalWalkableVertices_some w start goal o
  refine ⟨N + 5007, fun fuel hf => ?_⟩
  obtain ⟨keys, hk, hlen⟩ := hN fuel (by omega)
  refine ⟨keys, hk, hlen, fun order hperm => ?_⟩
  have hg : goal ∈ keys := by
    unfold getLocalWalkableVertices at hk
    exact collectLoop_mem w o fuel _ keys hk goal (mem_vertexAdd _ _ _ (Or.inr rfl))
  have hlen2 : (order keys).length = keys.length := (hperm keys).length_eq
  obtain ⟨r, hr1, hr2⟩ := bellmanFordCore_some fuel (order keys) start goal w o
    ((hperm keys).mem_iff.2 hg) (by omega)
  refine ⟨r, ?_, by rw [hr2, hlen2]⟩
  unfold FindPathBellmanFordWithOptions
  rw [hk]
  exact hr1

/-! ### The final pass of Bellman-Ford -/

/-- C31: on the corridor air (0,1,0), water (1,1,0), air (2,1,0) with
`AvoidWater`, from (0,1,0) to (2,1,0): the collected vertex set is the three
cells, each next to the one before, and in whatever order the set is handed
out the final pass fires and `FindPathBellmanFordWithOptions` returns an empty
path. The relaxation charges the edge into the water cell 10 more than
`GetMovementCost`, the final pass tests the same edge with `GetMovementCost`
alone. With no options the three-cell path is returned. -/
theorem bellmanFord_final_pass_fires :
    getLocalWalkableVertices 20 ⟨0, 1, 0⟩ ⟨2, 1, 0⟩ waterLine { AvoidWater := true } =
      some [⟨0, 1, 0⟩, ⟨2, 1, 0⟩, ⟨1, 1, 0⟩] ∧
    (⟨1, 1, 0⟩ : Point) ∈ GetWalkableNeighbors ⟨0, 1, 0⟩ waterLine ∧
    (⟨2, 1, 0⟩ : Point) ∈ GetWalkableNeighbors ⟨1, 1, 0⟩ waterLine ∧
    (∀ order : List Point → List Point, (∀ l, (order l).Perm l) →
      (FindPathBellmanFordWithOptions order 20 ⟨0, 1, 0⟩ ⟨2, 1, 0⟩ waterLine
        { AvoidWater := true }).map (fun r => r.Path) = some []) ∧
    (∀ order : List Point → List Point, (∀ l, (order l).Perm l) →
      (FindPathBellmanFordWithOptions order 20 ⟨0, 1, 0⟩ ⟨2, 1, 0⟩ waterLine {}).map
        (fun r => r.Path) = some [⟨0, 1, 0⟩, ⟨1, 1, 0⟩, ⟨2, 1, 0⟩]) := by
  have hk1 : getLocalWalkableVertices 20 ⟨0, 1, 0⟩ ⟨2, 1, 0⟩ waterLine { AvoidWater := true } =
      some [⟨0, 1, 0⟩, ⟨2, 1, 0⟩, ⟨1, 1, 0⟩] := by decide
  have hk2 : getLocalWalkableVertices 20 ⟨0, 1, 0⟩ ⟨2, 1, 0⟩ waterLine {} =
      some [⟨0, 1, 0⟩, ⟨2, 1, 0⟩, ⟨1, 1, 0⟩] := by decide
  refine ⟨hk1, by decide, by decide, ?_, ?_⟩
  · intro order hperm
    unfold FindPathBellmanFordWithOptions
    rw [hk1]
    dsimp only
    have hmem := List.mem_permutations.2 (hperm [⟨0, 1, 0⟩, ⟨2, 1, 0⟩, ⟨1, 1, 0⟩])
    generalize order [⟨0, 1, 0⟩, ⟨2, 1, 0⟩, ⟨1, 1, 0⟩] = vs at hmem
    revert vs
    decide!
  · intro order hperm
    unfold FindPathBellmanFordWithOptions
    rw [hk2]
    dsimp only
    have hmem := List.mem_permutations.2 (hperm [⟨0, 1, 0⟩, ⟨2, 1, 0⟩, ⟨1, 1, 0⟩])
    generalize order [⟨0, 1, 0⟩, ⟨2, 1, 0⟩, ⟨1, 1, 0⟩] = vs at hmem
    revert vs
    decide!

/-! ## Theta*: the search does not depend on square roots it never takes -/

theorem thetaMoveCost_congr (sqrt1 sqrt2 : ℚ → ℚ) (w : World) (o : PathfindingOptions)
    (bp pp : PointSet) (a b : Point)
    (h : euclideanDistance sqrt1 a b = euclideanDistance sqrt2 a b) :
    thetaMoveCost sqrt1 w o bp pp a b = thetaMoveCost sqrt2 w o bp pp a b := by
  unfold thetaMoveCost
  rw [h]

theorem thetaViaParent_congr (sqrt1 sqrt2 : ℚ → ℚ) (S : Point → Prop)
    (hS : ∀ a b, S a → S b → euclideanDistance sqrt1 a b = euclideanDistance sqrt2 a b)
    (goal : Point) (w : World) (o : PathfindingOptions) (cur : Node) (hcur : cur.InSet S)
    (bp pp : PointSet) (v : Point) (hv : S v) (st : PriorityQueue × GScoreMap) :
    thetaViaParent sqrt1 goal w o cur bp pp v st = thetaViaParent sqrt2 goal w o cur bp pp v st := by
  unfold thetaViaParent
  cases hp : cur.Parent with
  | none => rfl
  | some parent =>
    simp only
    rw [thetaMoveCost_congr sqrt1 sqrt2 w o bp pp parent.Position v
      (hS _ _ (hcur.2 parent hp) hv)]

theorem thetaViaCurrent_congr (sqrt1 sqrt2 : ℚ → ℚ) (S : Point → Prop)
    (hS : ∀ a b, S a → S b → euclideanDistance sqrt1 a b = euclideanDistance sqrt2 a b)
    (goal : Point) (w : World) (o : PathfindingOptions) (cur : Node) (hcur : cur.InSet S)
    (bp pp : PointSet) (v : Point) (hv : S v) (st : PriorityQueue × GScoreMap) :
    thetaViaCurrent sqrt1 goal w o cur bp pp v st =
      thetaViaCurrent sqrt2 goal w o cur bp pp v st := by
  unfold thetaViaCurrent
  rw [thetaMoveCost_congr sqrt1 sqrt2 w o bp pp cur.Position v (hS _ _ hcur.1 hv)]

theorem thetaRelax_congr (sqrt1 sqrt2 : ℚ → ℚ) (S : Point → Prop)
    (hS : ∀ a b, S a → S b → euclideanDistance sqrt1 a b = euclideanDistance sqrt2 a b)
    (goal : Point) (w : World) (o : PathfindingOptions) (cur : Node) (hcur : cur.InSet S)
    (bp pp : PointSet) (l : List Point) (hl : ∀ v ∈ l, S v) (st : PriorityQueue × GScoreMap) :
    thetaRelax sqrt1 goal w o cur bp pp l st = thetaRelax sqrt2 goal w o cur bp pp l st := by
  induction l generalizing st with
  | nil => rfl
  | cons v rest ih =>
    have hrest : ∀ x ∈ rest, S x := fun x hx => hl x (List.mem_cons_of_mem _ hx)
    have hv := hl v (List.mem_cons_self _ _)
    rw [thetaRelax, thetaRelax, thetaViaParent_congr sqrt1 sqrt2 S hS goal w o cur hcur bp pp v hv,
      thetaViaCurrent_congr sqrt1 sqrt2 S hS goal w o cur hcur bp pp v hv]
    cases thetaViaParent sqrt2 goal w o cur bp pp v st with
    | none => exact ih hrest _
    | some st1 => exact ih hrest _

theorem thetaViaParent_inSet (sqrt : ℚ → ℚ) (S : Point → Prop) (goal : Point) (w : World)
    (o : PathfindingOptions) (cur : Node) (hcur : cur.InSet S) (bp pp : PointSet) (v : Point)
    (hv : S v) (st st1 : PriorityQueue × GScoreMap) (hst : ∀ n ∈ st.1, n.InSet S)
    (h : thetaViaParent sqrt goal w o cur bp pp v st = some st1) : ∀ n ∈ st1.1, n.InSet S := by
  unfold thetaViaParent at h
  cases hp : cur.Parent with
  | none => rw [hp] at h; cases h
  | some parent =>
    rw [hp] at h
    simp only at h
    split_ifs at h with h1 h2
    simp only [Option.some.injEq] at h
    rw [← h]
    intro n hn
    rcases (heapPush_mem _ _ _).1 hn with e | hn
    · rw [e]
      refine ⟨hv, ?_⟩
      intro q hq
      simp only [Node.Parent, Option.some.injEq] at hq
      rw [← hq]
      exact hcur.2 parent hp
    · exact hst n hn

theorem thetaViaCurrent_inSet (sqrt : ℚ → ℚ) (S : Point → Prop) (goal : Point) (w : World)
    (o : PathfindingOptions) (cur : Node) (hcur : cur.InSet S) (bp pp : PointSet) (v : Point)
    (hv : S v) (st : PriorityQueue × GScoreMap) (hst : ∀ n ∈ st.1, n.InSet S) :
    ∀ n ∈ (thetaViaCurrent sqrt goal w o cur bp pp v st).1, n.InSet S := by
  unfold thetaViaCurrent
  dsimp only
  split_ifs
  · intro n hn
    rcases (heapPush_mem _ _ _).1 hn with e | hn
    · rw [e]
      refine ⟨hv, ?_⟩
      intro q hq
      simp only [Node.Parent, Option.some.injEq] at hq
      rw [← hq]
      exact hcur.1
    · exact hst n hn
  · exact hst

theorem thetaRelax_inSet (sqrt : ℚ → ℚ) (S : Point → Prop) (goal : Point) (w : World)
    (o : PathfindingOptions) (cur : Node) (hcur : cur.InSet S) (bp pp : PointSet)
    (l : List Point) (hl : ∀ v ∈ l, S v) (st : PriorityQueue × GScoreMap)
    (hst : ∀ n ∈ st.1, n.InSet S) :
    ∀ n ∈ (thetaRelax sqrt goal w o cur bp pp l st).1, n.InSet S := by
  induction l generalizing st with
  | nil => exact hst
  | cons v rest ih =>
    have hrest : ∀ x ∈ rest, S x := fun x hx => hl x (List.mem_cons_of_mem _ hx)
    have hv := hl v (List.mem_cons_self _ _)
    rw [thetaRelax]
    cases h : thetaViaParent sqrt goal w o cur bp pp v st with
    | none =>
      exact ih hrest _ (thetaViaCurrent_inSet sqrt S goal w o cur hcur bp pp v hv st hst)
    | some st1 =>
      exact ih hrest _ (thetaViaParent_inSet sqrt S goal w o cur hcur bp pp v hv st st1 hst h)

/-- Two square-root functions that agree on the distances between the cells of
a set closed under the expander give the same search from a state whose nodes
lie in the set. -/
theorem thetaLoop_congr (sqrt1 sqrt2 : ℚ → ℚ) (S : Point → Prop)
    (hS : ∀ a b, S a → S b → euclideanDistance sqrt1 a b = euclideanDistance sqrt2 a b)
    (goal : Point) (w : World) (o : PathfindingOptions)
    (hclosed : ∀ u bp pp v, S u → v ∈ (thetaExpand w o u bp pp).1 → S v) (fuel : Nat)
    (st : ThetaState) (hst : ∀ n ∈ st.openSet, n.InSet S) :
    thetaLoop sqrt1 goal w o fuel st = thetaLoop sqrt2 goal w o fuel st := by
  induction fuel generalizing st with
  | zero => rfl
  | succ fuel ih =>
    rw [thetaLoop, thetaLoop]
    unfold thetaStep
    cases hp : heapPop st.openSet with
    | none => rfl
    | some x =>
      obtain ⟨cur, os1⟩ := x
      obtain ⟨-, hmem, -⟩ := heapPop_some _ _ _ hp
      have hcur : cur.InSet S := hst cur ((hmem cur).2 (Or.inl rfl))
      have hos1 : ∀ n ∈ os1, n.InSet S := fun n hn => hst n ((hmem n).2 (Or.inr hn))
      simp only
      split_ifs with hg
      · rfl
      · have hl : ∀ v ∈ (thetaExpand w o cur.Position st.breakPoints st.placePoints).1, S v :=
          fun v hv => hclosed _ _ _ v hcur.1 hv
        rw [thetaRelax_congr sqrt1 sqrt2 S hS goal w o cur hcur _ _ _ hl]
        simp only
        apply ih
        exact thetaRelax_inSet sqrt2 S goal w o cur hcur _ _ _ hl (os1, st.gScore) hos1

/-- C34: on a corridor of three walkable cells (0,1,0), (1,1,0), (2,1,0), from
(0,1,0) to (2,1,0) with no options, the goal node has the start as parent (the
line between them, three cells long, is free), and the path returned is
(0,1,0), (0,1,0), (1,1,0), (2,1,0): its first two cells are equal. The
reconstruction appends the cells of the line, start included, to the path and
then puts the start in front once more. This holds for every square-root
function that is exact on 0, 1 and 4, the only roots the run takes. -/
theorem FindPathThetaStarWithOptions_repeats_start :
    getLineOfSightPoints ⟨0, 1, 0⟩ ⟨2, 1, 0⟩ = [⟨0, 1, 0⟩, ⟨1, 1, 0⟩, ⟨2, 1, 0⟩] ∧
    ∀ sqrt : ℚ → ℚ, sqrt 0 = 0 → sqrt 1 = 1 → sqrt 4 = 2 →
      FindPathThetaStarWithOptions sqrt 10 ⟨0, 1, 0⟩ ⟨2, 1, 0⟩ lineWorld {} =
        some { Path := [⟨0, 1, 0⟩, ⟨0, 1, 0⟩, ⟨1, 1, 0⟩, ⟨2, 1, 0⟩], NodesExplored := 3,
               TotalCost := 2 } := by
  refine ⟨by decide, ?_⟩
  intro sqrt h0 h1 h4
  have hcells : ∀ a, lineWorld.IsWalkable a = true →
      a = ⟨0, 1, 0⟩ ∨ a = ⟨1, 1, 0⟩ ∨ a = ⟨2, 1, 0⟩ := by
    intro a ha
    have := (isWalkable_of_all_walkable lineWorld.Blocks (by decide) a).1 ha
    simpa [lineWorld] using this
  have hS : ∀ a b, lineWorld.IsWalkable a = true → lineWorld.IsWalkable b = true →
      euclideanDistance sqrt a b =
        euclideanDistance (fun q => if q = 4 then 2 else if q = 1 then 1 else 0) a b := by
    intro a b ha hb
    rcases hcells a ha with rfl | rfl | rfl <;> rcases hcells b hb with rfl | rfl | rfl <;>
      norm_num [euclideanDistance, h0, h1, h4]
  have key := thetaLoop_congr sqrt (fun q => if q = 4 then 2 else if q = 1 then 1 else 0)
    (fun p => lineWorld.IsWalkable p = true) hS ⟨2, 1, 0⟩ lineWorld {}
    (by
      intro u bp pp v _ hv
      simp only [thetaExpand, Bool.false_eq_true, if_false] at hv
      rcases (mem_expandPlain _ _ _ _ _ _).1 hv with h | ⟨d, -, -, hw, -⟩
      · cases h
      · exact hw)
    10
    { openSet := heapPush [] (Node.root ⟨0, 1, 0⟩ 0 (Heuristic ⟨0, 1, 0⟩ ⟨2, 1, 0⟩ {})),
      gScore := GScoreMap.empty.set ⟨0, 1, 0⟩ 0,
      breakPoints := PointSet.empty, placePoints := PointSet.empty, nodesExplored := 0 }
    (by
      intro n hn
      rw [heapPush_nil, List.mem_singleton] at hn
      rw [hn]
      exact ⟨by decide, fun q hq => by simp [Node.Parent] at hq⟩)
  unfold FindPathThetaStarWithOptions
  rw [key]
  decide!

/-! ## IDA*: the deepening loop -/

theorem Heuristic_nonneg (a b : Point) (o : PathfindingOptions) : 0 ≤ Heuristic a b o := by
  unfold Heuristic
  have h1 : (0 : ℚ) ≤ ((abs (a.X - b.X) + abs (a.Z - b.Z) : Int) : ℚ) := by
    exact_mod_cast add_nonneg (abs_nonneg_int _) (abs_nonneg_int _)
  have h2 : (0 : ℚ) ≤ ((abs (a.Y - b.Y) : Int) : ℚ) := by
    exact_mod_cast abs_nonneg_int _
  dsimp only
  split_ifs <;> linarith

theorem GetMovementCost_ge_min (w : World) (u v : Point) :
    minMultiplier w ≤ w.GetMovementCost u v := by
  have h2 := GetMovementCost_eq_mul w u v
  have h3 := climbCost_ge_one u v
  have h4 := minMultiplier_le w v
  have h5 := minMultiplier_pos w
  have h6 : effectiveMultiplier w v ≤ climbCost u v * effectiveMultiplier w v := by
    have := mul_le_mul_of_nonneg_right h3 (le_of_lt (lt_of_lt_of_le h5 h4))
    linarith
  linarith

theorem idaCost_ge_min (w : World) (o : PathfindingOptions) (bp pp : PointSet) (u v : Point) :
    minMultiplier w ≤ idaCost w o bp pp u v := by
  have h1 := GetMovementCost_ge_min w u v
  have h2 : (0 : ℚ) ≤ ((abs (v.Y - u.Y) : Int) : ℚ) := by exact_mod_cast abs_nonneg_int _
  unfold idaCost
  dsimp only
  split_ifs <;> linarith

theorem Climbs.snoc (par : ParentMap) (n : Nat) (a b c : Point) (h : Climbs par n a b)
    (hb : par b = some c) : Climbs par (n + 1) a c := by
  induction n generalizing a with
  | zero =>
    simp only [Climbs] at h
    subst h
    exact ⟨c, hb, rfl⟩
  | succ n ih =>
    obtain ⟨d, hd, h1⟩ := h
    exact ⟨d, hd, ih d h1⟩

theorem PointSet.add_remove (m : PointSet) (p : Point) (h : m p = false) :
    (m.add p).remove p = m := by
  funext q
  unfold PointSet.remove PointSet.add
  by_cases hq : q = p
  · rw [hq, h]
    simp
  · simp [hq]

/-- The loop of `idaSearchWithOptions` over the neighbours of `current`, when
every recursive call at a cost within `m * k` of the bound returns as
`IDASpec` says: the loop returns; the parents of the cells visited on entry
are untouched; if it runs to its end `visited` is as on entry, and if it
leaves early there is a chain of at most `k + 1` parents from the goal to
`current`. -/
theorem idaNeighbors_spec (goal : Point) (w : World) (o : PathfindingOptions) (bound : ℚ)
    (k : Nat) (search : Point → ℚ → PointSet → ParentMap → Option IDAOutcome)
    (hsearch : ∀ nb g1 vis par, vis nb = false → bound - g1 < minMultiplier w * k →
      ∃ r, search nb g1 vis par = some r ∧ IDASpec goal vis par nb k r)
    (current : Point) (g : ℚ) (hg : bound - g < minMultiplier w * (k + 1 : Nat))
    (bp pp : PointSet) (V : PointSet) (parents0 : ParentMap)
    (l : List Point) (st : IDALoopState) (hvis : st.visited = V)
    (hpar : ∀ p, V p = true → st.parents p = parents0 p) :
    ∃ res, idaNeighbors search w o current g bp pp l st = some res ∧
      (∀ p, V p = true → res.1.parents p = parents0 p) ∧
      (res.2 = false → res.1.visited = V) ∧
      (res.2 = true → ∃ len, len ≤ k + 1 ∧ Climbs res.1.parents len goal current) := by
  induction l generalizing st with
  | nil =>
    exact ⟨(st, false), rfl, hpar, fun _ => hvis, (fun h => Bool.noConfusion h)⟩
  | cons nb rest ih =>
    rw [idaNeighbors]
    by_cases hnb : st.visited nb = true
    · rw [if_pos hnb]
      exact ih st hvis hpar
    · rw [if_neg hnb]
      have hnb1 : st.visited nb = false := by simpa using hnb
      have hVnb : V nb = false := by rw [← hvis]; exact hnb1
      have hcost := idaCost_ge_min w o bp pp current nb
      have hg1 : bound - (g + idaCost w o bp pp current nb) < minMultiplier w * k := by
        push_cast at hg
        linarith
      obtain ⟨r, hr, hframe, hnot, hfound⟩ :=
        hsearch nb (g + idaCost w o bp pp current nb) st.visited
          (st.parents.set nb current) hnb1 hg1
      simp only [hr]
      have hframe1 : ∀ p, V p = true → r.parents p = parents0 p := by
        intro p hp
        have hpn : p ≠ nb := by
          intro e
          rw [e, hVnb] at hp
          cases hp
        rw [hframe p (Or.inl (by rw [hvis]; exact hp)), ParentMap.set_other _ _ _ _ hpn]
        exact hpar p hp
      cases hf : r.found with
      | true =>
        simp only [if_true]
        refine ⟨_, rfl, hframe1, (fun h => Bool.noConfusion h), fun _ => ?_⟩
        obtain ⟨len, hlen, hc⟩ := hfound hf
        refine ⟨len + 1, by omega, Climbs.snoc _ _ _ _ _ hc ?_⟩
        show r.parents nb = some current
        rw [hframe nb (Or.inr rfl), ParentMap.set_same]
      | false =>
        simp only [Bool.false_eq_true, if_false]
        exact ih _ (by rw [hnot hf, hvis]) hframe1

/-- A call of `idaSearchWithOptions` whose cost is within `m * k` of the bound
returns once the fuel exceeds `k`, as `IDASpec` says (`m` is the least
multiplier of the world: every edge costs at least `m`). -/
theorem idaSearch_spec (goal : Point) (w : World) (o : PathfindingOptions) (bound : ℚ) :
    ∀ (k fuel : Nat), k + 1 ≤ fuel → ∀ (current : Point) (g : ℚ) (visited : PointSet)
      (parents : ParentMap), visited current = false → bound - g < minMultiplier w * k →
      ∃ r, idaSearchWithOptions goal w o bound fuel current g visited parents = some r ∧
        IDASpec goal visited parents current k r := by
  intro k
  induction k with
  | zero =>
    intro fuel hf current g visited parents _ hg
    obtain ⟨f1, rfl⟩ : ∃ f1, fuel = f1 + 1 := ⟨fuel - 1, by omega⟩
    rw [idaSearchWithOptions]
    have hh := Heuristic_nonneg current goal o
    have hgt : g + Heuristic current goal o > bound := by
      simp only [Nat.cast_zero, mul_zero] at hg
      linarith
    simp only [hgt, if_true]
    exact ⟨_, rfl, fun _ _ => rfl, fun _ => rfl, (fun h => Bool.noConfusion h)⟩
  | succ k ih =>
    intro fuel hf current g visited parents hvc hg
    obtain ⟨f1, rfl⟩ : ∃ f1, fuel = f1 + 1 := ⟨fuel - 1, by omega⟩
    rw [idaSearchWithOptions]
    dsimp only
    split_ifs with h1 h2
    · exact ⟨_, rfl, fun _ _ => rfl, fun _ => rfl, (fun h => Bool.noConfusion h)⟩
    · refine ⟨_, rfl, fun _ _ => rfl, (fun h => Bool.noConfusion h), fun _ => ⟨0, by omega, ?_⟩⟩
      exact (Point.eq_of_coords current goal h2).symm
    · obtain ⟨res, hres, hframe, hnot, hfound⟩ :=
        idaNeighbors_spec goal w o bound k (idaSearchWithOptions goal w o bound f1)
          (fun nb g1 vis par hv hb => ih f1 (by omega) nb g1 vis par hv hb)
          current g hg (idaExpand w o current).2.1 (idaExpand w o current).2.2
          (visited.add current) parents
          (sortNeighborsByHeuristic (idaExpand w o current).1 goal o)
          { minBound := none, totalExplored := 1, all := {}, visited := visited.add current,
            parents := parents } rfl (fun _ _ => rfl)
      rw [hres]
      obtain ⟨st, b⟩ := res
      have hfr : ∀ p, (visited p = true ∨ p = current) → st.parents p = parents p := by
        intro p hp
        apply hframe p
        rcases hp with hp | hp
        · exact PointSet.add_of_true _ _ _ hp
        · rw [hp]
          exact PointSet.add_self _ _
      cases b with
      | true =>
        exact ⟨_, rfl, hfr, (fun h => Bool.noConfusion h), fun _ => hfound rfl⟩
      | false =>
        refine ⟨_, rfl, hfr, fun _ => ?_, (fun h => Bool.noConfusion h)⟩
        simp only
        rw [hnot rfl]
        exact PointSet.add_remove visited current hvc

theorem idaNeighbors_mono (s1 s2 : Point → ℚ → PointSet → ParentMap → Option IDAOutcome)
    (h : ∀ nb g vis par r, s1 nb g vis par = some r → s2 nb g vis par = some r) (w : World)
    (o : PathfindingOptions) (current : Point) (g : ℚ) (bp pp : PointSet) (l : List Point)
    (st : IDALoopState) (res : IDALoopState × Bool)
    (hres : idaNeighbors s1 w o current g bp pp l st = some res) :
    idaNeighbors s2 w o current g bp pp l st = some res := by
  induction l generalizing st with
  | nil => exact hres
  | cons nb rest ih =>
    rw [idaNeighbors] at hres ⊢
    split_ifs at hres ⊢ with hv
    · exact ih st hres
    · cases hs : s1 nb (g + idaCost w o bp pp current nb) st.visited
          (st.parents.set nb current) with
      | none => simp [hs] at hres
      | some r =>
        simp only [hs] at hres
        simp only [h _ _ _ _ r hs]
        split_ifs at hres ⊢ <;> first | exact hres | exact ih _ hres

/-- More fuel does not change what `idaSearchWithOptions` returns. -/
theorem idaSearch_mono (goal : Point) (w : World) (o : PathfindingOptions) (bound : ℚ)
    (fuel : Nat) : ∀ (current : Point) (g : ℚ) (visited : PointSet) (parents : ParentMap)
      (r : IDAOutcome),
      idaSearchWithOptions goal w o bound fuel current g visited parents = some r →
      idaSearchWithOptions goal w o bound (fuel + 1) current g visited parents = some r := by
  induction fuel with
  | zero =>
    intro current g visited parents r h
    simp [idaSearchWithOptions] at h
  | succ fuel ih =>
    intro current g visited parents r h
    rw [idaSearchWithOptions] at h ⊢
    dsimp only at h ⊢
    split_ifs at h ⊢ with h1 h2
    · exact h
    · exact h
    · cases hn : idaNeighbors (idaSearchWithOptions goal w o bound fuel) w o current g
          (idaExpand w o current).2.1 (idaExpand w o current).2.2
          (sortNeighborsByHeuristic (idaExpand w o current).1 goal o)
          { minBound := none, totalExplored := 1, all := {}, visited := visited.add current,
            parents := parents } with
      | none => simp [hn] at h
      | some res =>
        rw [hn] at h
        rw [idaNeighbors_mono _ _ ih w o current g _ _ _ _ res hn]
        exact h

theorem idaSearch_mono_le (goal : Point) (w : World) (o : PathfindingOptions) (bound : ℚ)
    (fuel fuel1 : Nat) (hle : fuel ≤ fuel1) (current : Point) (g : ℚ) (visited : PointSet)
    (parents : ParentMap) (r : IDAOutcome)
    (h : idaSearchWithOptions goal w o bound fuel current g visited parents = some r) :
    idaSearchWithOptions goal w o bound fuel1 current g visited parents = some r := by
  induction fuel1 with
  | zero =>
    have : fuel = 0 := by omega
    rw [this] at h
    exact h
  | succ n ih =>
    by_cases e : fuel = n + 1
    · rw [← e]; exact h
    · exact idaSearch_mono goal w o bound n _ _ _ _ r (ih (by omega))

/-- The loop of `reconstructPath` along a chain of parents that ends in a cell
without a parent. -/
theorem reconstructPathLoop_some (par : ParentMap) (len : Nat) (a b : Point)
    (h : Climbs par len a b) (hb : par b = none) (fuel : Nat) (hf : len + 1 ≤ fuel)
    (path : List Point) (hne : path ≠ []) :
    ∃ p, reconstructPathLoop par fuel a path = some p ∧ p ≠ [] ∧
      p.getLast? = path.getLast? := by
  induction len generalizing a fuel path with
  | zero =>
    simp only [Climbs] at h
    subst h
    obtain ⟨f1, rfl⟩ : ∃ f1, fuel = f1 + 1 := ⟨fuel - 1, by omega⟩
    rw [reconstructPathLoop, hb]
    exact ⟨path, rfl, hne, rfl⟩
  | succ n ih =>
    obtain ⟨c, hc, h1⟩ := h
    obtain ⟨f1, rfl⟩ : ∃ f1, fuel = f1 + 1 := ⟨fuel - 1, by omega⟩
    rw [reconstructPathLoop, hc]
    obtain ⟨p, hp1, hp2, hp3⟩ := ih c h1 f1 (by omega) (c :: path) (by simp)
    refine ⟨p, hp1, hp2, ?_⟩
    rw [hp3]
    cases path with
    | nil => exact absurd rfl hne
    | cons x xs => rfl
theorem bound_lt_budget (w : World) (bound : ℚ) :
    bound - 0 < minMultiplier w * ((⌊bound / minMultiplier w⌋₊ + 1 : Nat) : ℚ) := by
  have hm := minMultiplier_pos w
  have h1 := Nat.lt_floor_add_one (bound / minMultiplier w)
  have h2 : bound < (⌊bound / minMultiplier w⌋₊ + 1 : ℚ) * minMultiplier w :=
    (div_lt_iff₀ hm).1 h1
  push_cast
  linarith

/-- The deepening loop of `FindPathIDAWithOptions` returns once the fuel is
large enough; it runs at least one round if it may and at most `n`, and a path
it returns is not empty and ends at the goal. -/
theorem idaLoop_spec (start goal : Point) (w : World) (o : PathfindingOptions) (maxIt : Int) :
    ∀ (n : Nat) (iterations ne : Int) (bound : ℚ) (bp pp : PointSet),
      ∃ N, ∀ fuel, N ≤ fuel → ∃ out,
        idaLoop fuel start goal w o maxIt n iterations ne bound bp pp = some out ∧
        iterations ≤ out.iterations ∧ out.iterations ≤ iterations + n ∧
        (1 ≤ n → iterations + 1 ≤ out.iterations) ∧
        (∀ p, out.finalPath = some p → p ≠ [] ∧ p.getLast? = some goal) := by
  intro n
  induction n with
  | zero =>
    intro iterations ne bound bp pp
    refine ⟨0, fun fuel _ => ⟨_, rfl, le_refl _, by simp, fun h => by omega, ?_⟩⟩
    intro p hp
    cases hp
  | succ n ih =>
    intro iterations ne bound bp pp
    obtain ⟨r0, hr0, hframe, -, hfound⟩ :=
      idaSearch_spec goal w o bound (⌊bound / minMultiplier w⌋₊ + 1)
        (⌊bound / minMultiplier w⌋₊ + 1 + 1) (le_refl _) start 0 PointSet.empty
        ParentMap.empty rfl (bound_lt_budget w bound)
    have hrun : ∀ fuel, ⌊bound / minMultiplier w⌋₊ + 1 + 1 ≤ fuel →
        idaSearchWithOptions goal w o bound fuel start 0 PointSet.empty ParentMap.empty =
          some r0 :=
      fun fuel hf => idaSearch_mono_le goal w o bound _ fuel hf _ _ _ _ r0 hr0
    cases hf : r0.found with
    | true =>
      obtain ⟨len, hlen, hc⟩ := hfound hf
      have hroot : r0.parents start = none := by
        rw [hframe start (Or.inr rfl)]
        rfl
      refine ⟨⌊bound / minMultiplier w⌋₊ + 1 + 1, fun fuel hfuel => ?_⟩
      obtain ⟨p, hp1, hp2, hp3⟩ := reconstructPathLoop_some r0.parents len goal start hc hroot
        fuel (by omega) [goal] (by simp)
      rw [idaLoop, hrun fuel hfuel]
      simp only [hf, if_true, reconstructPath, hp1]
      refine ⟨_, rfl, by simp, by simp only; push_cast; omega, fun _ => le_refl _, ?_⟩
      intro q hq
      simp only [Option.some.injEq] at hq
      rw [← hq]
      exact ⟨hp2, hp3⟩
    | false =>
      cases hb : r0.newBound with
      | none =>
        refine ⟨⌊bound / minMultiplier w⌋₊ + 1 + 1, fun fuel hfuel => ?_⟩
        rw [idaLoop, hrun fuel hfuel]
        simp only [hf, hb, Bool.false_eq_true, if_false]
        refine ⟨_, rfl, by simp, by simp only; push_cast; omega, fun _ => le_refl _, ?_⟩
        intro q hq
        cases hq
      | some nb =>
        by_cases hcap : iterations + 1 ≥ maxIt
        · refine ⟨⌊bound / minMultiplier w⌋₊ + 1 + 1, fun fuel hfuel => ?_⟩
          rw [idaLoop, hrun fuel hfuel]
          simp only [hf, hb, Bool.false_eq_true, if_false, hcap, if_true]
          refine ⟨_, rfl, by simp, by simp only; push_cast; omega, fun _ => le_refl _, ?_⟩
          intro q hq
          cases hq
        · obtain ⟨N2, hN2⟩ := ih (iterations + 1) (ne + r0.explored) nb
            (bp.union r0.manip.breaks) (pp.union r0.manip.places)
          refine ⟨⌊bound / minMultiplier w⌋₊ + 1 + 1 + N2, fun fuel hfuel => ?_⟩
          obtain ⟨out, ho1, ho2, ho3, -, ho5⟩ := hN2 fuel (by omega)
          rw [idaLoop, hrun fuel (by omega)]
          simp only [hf, hb, Bool.false_eq_true, if_false, hcap]
          refine ⟨out, ho1, by omega, by push_cast; omega, fun _ => by omega, ho5⟩

theorem iterationCap_eq (o : PathfindingOptions) :
    (if o.MaxIterations ≤ 0 then 1000 else o.MaxIterations) = iterationCap o := by
  unfold iterationCap
  split_ifs <;> omega

/-- C32: for every input `FindPathIDAWithOptions` returns once the fuel is
large enough, and reports `Iterations` between 1 and the cap (`MaxIterations`
if that is positive, 1000 otherwise); `Iterations` is the number of rounds of
the deepening loop; when the loop ends without a path the result has an empty
path, so when the cap is reached without finding the goal the result has an
empty path and `Iterations` equal to the cap; a path that is found is returned
and ends at the goal. -/
theorem FindPathIDAWithOptions_iterations (w : World) (start goal : Point)
    (o : PathfindingOptions) :
    ∃ N, ∀ fuel, N ≤ fuel → ∃ out r,
      idaLoop fuel start goal w o (iterationCap o) (iterationCap o).toNat 0 0
        (Heuristic start goal o) PointSet.empty PointSet.empty = some out ∧
      FindPathIDAWithOptions fuel start goal w o = some r ∧
      1 ≤ r.Iterations ∧ r.Iterations ≤ iterationCap o ∧
      r.Iterations = out.iterations ∧
      (out.finalPath = none → r.Path = []) ∧
      (out.finalPath = none → out.iterations = iterationCap o →
        r.Path = [] ∧ r.Iterations = iterationCap o) ∧
      (∀ p, out.finalPath = some p → r.Path = p ∧ p.getLast? = some goal) := by
  have hcap : 1 ≤ iterationCap o := by
    unfold iterationCap
    split_ifs <;> omega
  obtain ⟨N, hN⟩ := idaLoop_spec start goal w o (iterationCap o) (iterationCap o).toNat 0 0
    (Heuristic start goal o) PointSet.empty PointSet.empty
  refine ⟨N, fun fuel hf => ?_⟩
  obtain ⟨out, h1, h2, h3, h4, h5⟩ := hN fuel hf
  have h6 : 1 ≤ out.iterations := by
    have := h4 (by omega)
    omega
  have h7 : out.iterations ≤ iterationCap o := by
    have : (((iterationCap o).toNat : Nat) : Int) = iterationCap o :=
      Int.toNat_of_nonneg (by omega)
    omega
  unfold FindPathIDAWithOptions
  simp only [iterationCap_eq, h1]
  obtain ⟨fp, its, ne1, bp1, pp1⟩ := out
  cases fp with
  | none =>
    exact ⟨_, _, rfl, rfl, h6, h7, rfl, fun _ => rfl, fun _ e => ⟨rfl, e⟩,
      fun p hp1 => Option.noConfusion hp1⟩
  | some p =>
    obtain ⟨hne, hlast⟩ := h5 p rfl
    cases p with
    | nil => exact absurd rfl hne
    | cons first rest =>
      refine ⟨_, _, rfl, rfl, h6, h7, rfl, (fun e => Option.noConfusion e),
        (fun e => Option.noConfusion e), ?_⟩
      intro q hq
      simp only [Option.some.injEq] at hq
      rw [← hq]
      exact ⟨rfl, hlast⟩

/-- A run of IDA* that reaches its cap: on `fordWorld` with `AvoidWater` and
`MaxIterations = 1` the way round the water costs more than the first bound,
and the result has an empty path and `Iterations = 1`. -/
theorem FindPathIDAWithOptions_cap_example :
    FindPathIDAWithOptions 30 ⟨0, 1, 0⟩ ⟨2, 1, 0⟩ fordWorld
        { AvoidWater := true, MaxIterations := 1 } =
      some { Path := [], NodesExplored := 2, Iterations := 1 } := by
  decide!

/-! ## Rounding to `float64` -/

theorem pow2_eq (e : Int) : pow2 e = (2 : ℚ) ^ e := by
  unfold pow2
  split_ifs with h
  · obtain ⟨n, rfl⟩ := Int.eq_ofNat_of_zero_le h
    simp
  · obtain ⟨n, hn⟩ := Int.eq_ofNat_of_zero_le (by omega : 0 ≤ -e)
    have he : e = -(n : Int) := by omega
    subst he
    simp

theorem log2Fuel_spec : ∀ (fuel n : Nat), n ≤ fuel → n ≠ 0 →
    2 ^ log2Fuel fuel n ≤ n ∧ n < 2 ^ (log2Fuel fuel n + 1)
  | 0, n, h, h0 => absurd (Nat.le_zero.mp h) h0
  | fuel + 1, n, h, h0 => by
    unfold log2Fuel
    split_ifs with h2
    · have ih := log2Fuel_spec fuel (n / 2) (by omega) (by omega)
      generalize log2Fuel fuel (n / 2) = k at ih ⊢
      obtain ⟨i1, i2⟩ := ih
      constructor
      · rw [pow_succ]; omega
      · rw [pow_succ]; omega
    · simp; omega

theorem natLog2_spec (n : Nat) (h : n ≠ 0) :
    2 ^ natLog2 n ≤ n ∧ n < 2 ^ (natLog2 n + 1) :=
  log2Fuel_spec n n (le_refl n) h

theorem binaryExponent_spec (q : ℚ) (h : 0 < q) :
    (2 : ℚ) ^ binaryExponent q ≤ q ∧ q < (2 : ℚ) ^ (binaryExponent q + 1) := by
  have hnum : 0 < q.num := Rat.num_pos.mpr h
  obtain ⟨n, hn⟩ := Int.eq_ofNat_of_zero_le hnum.le
  have hn0 : n ≠ 0 := by rintro rfl; simp [hn] at hnum
  have hd0 : q.den ≠ 0 := q.den_nz
  obtain ⟨n1, n2⟩ := natLog2_spec n hn0
  obtain ⟨d1, d2⟩ := natLog2_spec q.den hd0
  have hq : q = (n : ℚ) / (q.den : ℚ) := by
    conv_lhs => rw [← Rat.num_div_den q, hn]
    simp
  have hdpos : (0 : ℚ) < (q.den : ℚ) := by exact_mod_cast Nat.pos_of_ne_zero hd0
  have n1q : (2 : ℚ) ^ natLog2 n ≤ (n : ℚ) := by exact_mod_cast n1
  have n2q : (n : ℚ) < (2 : ℚ) ^ (natLog2 n + 1) := by exact_mod_cast n2
  have d1q : (2 : ℚ) ^ natLog2 q.den ≤ (q.den : ℚ) := by exact_mod_cast d1
  have d2q : (q.den : ℚ) < (2 : ℚ) ^ (natLog2 q.den + 1) := by exact_mod_cast d2
  have two : (0 : ℚ) < 2 := by norm_num
  -- the estimate from the bit lengths
  have lo : (2 : ℚ) ^ ((natLog2 n : Int) - (natLog2 q.den : Int) - 1) ≤ q := by
    refine le_of_le_of_eq ((le_div_iff₀ hdpos).mpr ?_) hq.symm
    have e : (2 : ℚ) ^ ((natLog2 n : Int) - (natLog2 q.den : Int) - 1)
        * (2 : ℚ) ^ (natLog2 q.den + 1) = (2 : ℚ) ^ natLog2 n := by
      rw [← zpow_natCast (2 : ℚ) (natLog2 q.den + 1), ← zpow_add₀ two.ne',
        ← zpow_natCast (2 : ℚ) (natLog2 n)]
      congr 1
      push_cast
      ring
    have p : (0 : ℚ) < (2 : ℚ) ^ ((natLog2 n : Int) - (natLog2 q.den : Int) - 1) :=
      zpow_pos two _
    calc (2 : ℚ) ^ ((natLog2 n : Int) - (natLog2 q.den : Int) - 1) * (q.den : ℚ)
        ≤ (2 : ℚ) ^ ((natLog2 n : Int) - (natLog2 q.den : Int) - 1)
            * (2 : ℚ) ^ (natLog2 q.den + 1) := by
          exact mul_le_mul_of_nonneg_left d2q.le p.le
      _ = (2 : ℚ) ^ natLog2 n := e
      _ ≤ (n : ℚ) := n1q
  have hi : q < (2 : ℚ) ^ ((natLog2 n : Int) - (natLog2 q.den : Int) + 1) := by
    refine lt_of_eq_of_lt hq ((div_lt_iff₀ hdpos).mpr ?_)
    have e : (2 : ℚ) ^ ((natLog2 n : Int) - (natLog2 q.den : Int) + 1)
        * (2 : ℚ) ^ (natLog2 q.den) = (2 : ℚ) ^ (natLog2 n + 1) := by
      rw [← zpow_natCast (2 : ℚ) (natLog2 q.den), ← zpow_add₀ two.ne',
        ← zpow_natCast (2 : ℚ) (natLog2 n + 1)]
      congr 1
      push_cast
      ring
    have p : (0 : ℚ) < (2 : ℚ) ^ ((natLog2 n : Int) - (natLog2 q.den : Int) + 1) :=
      zpow_pos two _
    calc (n : ℚ) < (2 : ℚ) ^ (natLog2 n + 1) := n2q
      _ = (2 : ℚ) ^ ((natLog2 n : Int) - (natLog2 q.den : Int) + 1)
            * (2 : ℚ) ^ (natLog2 q.den) := e.symm
      _ ≤ (2 : ℚ) ^ ((natLog2 n : Int) - (natLog2 q.den : Int) + 1) * (q.den : ℚ) :=
          mul_le_mul_of_nonneg_left d1q p.le
  unfold binaryExponent
  simp only [hn, Int.natAbs_ofNat, pow2_eq]
  split_ifs with hc
  · exact ⟨hc, hi⟩
  · refine ⟨lo, ?_⟩
    rw [sub_add_cancel]
    exact not_le.mp hc

theorem two_zpow_pos (e : Int) : (0 : ℚ) < (2 : ℚ) ^ e := zpow_pos (by norm_num) e

theorem two_zpow_le {a b : Int} (h : a ≤ b) : (2 : ℚ) ^ a ≤ (2 : ℚ) ^ b :=
  zpow_le_zpow_right₀ (by norm_num) h

theorem two_zpow_lt_imp {a b : Int} (h : (2 : ℚ) ^ a < (2 : ℚ) ^ b) : a < b :=
  (zpow_lt_zpow_iff_right₀ (by norm_num : (1 : ℚ) < 2)).mp h

theorem two_zpow_add (a b : Int) : (2 : ℚ) ^ (a + b) = (2 : ℚ) ^ a * (2 : ℚ) ^ b :=
  zpow_add₀ (by norm_num) a b

theorem two_zpow_sub (a b : Int) : (2 : ℚ) ^ (a - b) = (2 : ℚ) ^ a / (2 : ℚ) ^ b :=
  zpow_sub₀ (by norm_num) a b

/-- A non-negative power of two is an integer. -/
theorem two_zpow_int {e : Int} (h : 0 ≤ e) : (2 : ℚ) ^ e = (((2 : Int) ^ e.toNat : Int) : ℚ) := by
  obtain ⟨n, rfl⟩ := Int.eq_ofNat_of_zero_le h
  simp

theorem roundHalfEven_spec (y : ℚ) : |(roundHalfEven y : ℚ) - y| ≤ 1 / 2 := by
  have h1 := Int.floor_le y
  have h2 := Int.lt_floor_add_one y
  unfold roundHalfEven
  simp only
  rw [abs_le]
  split_ifs with a b c
  · constructor <;> linarith
  · push_cast; constructor <;> linarith
  · have := not_lt.mp b; have := not_lt.mp a
    constructor <;> linarith
  · have := not_lt.mp b; have := not_lt.mp a
    push_cast; constructor <;> linarith

theorem floor_le_roundHalfEven (y : ℚ) : ⌊y⌋ ≤ roundHalfEven y := by
  unfold roundHalfEven
  simp only
  split_ifs <;> omega

theorem le_roundHalfEven {N : Int} {y : ℚ} (h : (N : ℚ) ≤ y) : N ≤ roundHalfEven y :=
  le_trans (Int.le_floor.mpr h) (floor_le_roundHalfEven y)

theorem roundHalfEven_intCast (n : Int) : roundHalfEven (n : ℚ) = n := by
  unfold roundHalfEven
  simp

/-- The exponent that `roundPos` works with. -/
theorem roundPos_eq (q : ℚ) :
    roundPos q = (roundHalfEven (q / (2 : ℚ) ^ (max (binaryExponent q) (-1022) - 52)) : ℚ)
      * (2 : ℚ) ^ (max (binaryExponent q) (-1022) - 52) := by
  unfold roundPos
  simp only [pow2_eq]

theorem max_cases (a b : Int) : (max a b = a ∧ b ≤ a) ∨ (max a b = b ∧ a ≤ b) := by
  unfold max
  split_ifs <;> omega

theorem roundPos_nonneg (q : ℚ) (h : 0 < q) : 0 ≤ roundPos q := by
  rw [roundPos_eq]
  have s := two_zpow_pos (max (binaryExponent q) (-1022) - 52)
  have : (0 : Int) ≤ roundHalfEven (q / (2 : ℚ) ^ (max (binaryExponent q) (-1022) - 52)) :=
    le_roundHalfEven (by push_cast; positivity)
  have : (0 : ℚ) ≤ (roundHalfEven (q / (2 : ℚ) ^ (max (binaryExponent q) (-1022) - 52)) : ℚ) := by
    exact_mod_cast this
  positivity

/-- Rounding does not cross a power of two from above. -/
theorem roundPos_ge (q : ℚ) (k : Int) (h : 0 < q) (hk : -1074 ≤ k) (hq : (2 : ℚ) ^ k ≤ q) :
    (2 : ℚ) ^ k ≤ roundPos q := by
  obtain ⟨e1, e2⟩ := binaryExponent_spec q h
  rw [roundPos_eq]
  generalize hE : max (binaryExponent q) (-1022) = E
  have hs := two_zpow_pos (E - 52)
  by_cases c : E - 52 ≤ k
  · have hN : (2 : ℚ) ^ (k - (E - 52)) = (((2 : Int) ^ (k - (E - 52)).toNat : Int) : ℚ) :=
      two_zpow_int (by omega)
    have h1 : (((2 : Int) ^ (k - (E - 52)).toNat : Int) : ℚ) ≤ q / (2 : ℚ) ^ (E - 52) := by
      rw [← hN, two_zpow_sub]
      exact div_le_div_of_nonneg_right hq hs.le
    have h2 := le_roundHalfEven h1
    have h3 : (((2 : Int) ^ (k - (E - 52)).toNat : Int) : ℚ)
        ≤ (roundHalfEven (q / (2 : ℚ) ^ (E - 52)) : ℚ) := by exact_mod_cast h2
    calc (2 : ℚ) ^ k = (2 : ℚ) ^ (k - (E - 52)) * (2 : ℚ) ^ (E - 52) := by
          rw [← two_zpow_add]; congr 1; ring
      _ ≤ _ := by rw [hN]; exact mul_le_mul_of_nonneg_right h3 hs.le
  · have hEe : E = binaryExponent q := by
      rcases max_cases (binaryExponent q) (-1022) with ⟨m1, _⟩ | ⟨m1, _⟩ <;> omega
    have hN : (2 : ℚ) ^ (52 : Int) = (((2 : Int) ^ (52 : Int).toNat : Int) : ℚ) :=
      two_zpow_int (by omega)
    have h1 : (((2 : Int) ^ (52 : Int).toNat : Int) : ℚ) ≤ q / (2 : ℚ) ^ (E - 52) := by
      rw [← hN, le_div_iff₀ hs, ← two_zpow_add]
      rw [hEe]
      have : (52 : Int) + (binaryExponent q - 52) = binaryExponent q := by ring
      rw [this]
      exact e1
    have h2 := le_roundHalfEven h1
    have h3 : (((2 : Int) ^ (52 : Int).toNat : Int) : ℚ)
        ≤ (roundHalfEven (q / (2 : ℚ) ^ (E - 52)) : ℚ) := by exact_mod_cast h2
    calc (2 : ℚ) ^ k ≤ (2 : ℚ) ^ E := two_zpow_le (by omega)
      _ = (2 : ℚ) ^ (52 : Int) * (2 : ℚ) ^ (E - 52) := by
          rw [← two_zpow_add]; congr 1; ring
      _ ≤ _ := by rw [hN]; exact mul_le_mul_of_nonneg_right h3 hs.le

/-- In the normal range rounding moves a value by at most `2^-53` of it. -/
theorem roundPos_rel (q : ℚ) (hq : (2 : ℚ) ^ (-1022 : Int) ≤ q) :
    |roundPos q - q| ≤ q * (2 : ℚ) ^ (-53 : Int) := by
  have h : 0 < q := lt_of_lt_of_le (two_zpow_pos _) hq
  obtain ⟨e1, e2⟩ := binaryExponent_spec q h
  have he : -1022 < binaryExponent q + 1 := two_zpow_lt_imp (lt_of_le_of_lt hq e2)
  rw [roundPos_eq]
  have hEe : max (binaryExponent q) (-1022) = binaryExponent q := by
    rcases max_cases (binaryExponent q) (-1022) with ⟨m1, _⟩ | ⟨m1, _⟩ <;> omega
  rw [hEe]
  generalize binaryExponent q = E at *
  have hs := two_zpow_pos (E - 52)
  have r := roundHalfEven_spec (q / (2 : ℚ) ^ (E - 52))
  have e : (roundHalfEven (q / (2 : ℚ) ^ (E - 52)) : ℚ) * (2 : ℚ) ^ (E - 52) - q
      = ((roundHalfEven (q / (2 : ℚ) ^ (E - 52)) : ℚ) - q / (2 : ℚ) ^ (E - 52))
        * (2 : ℚ) ^ (E - 52) := by
    field_simp
  rw [e, abs_mul, abs_of_pos hs]
  have e3 : (1 / 2 : ℚ) * (2 : ℚ) ^ (E - 52) = (2 : ℚ) ^ E * (2 : ℚ) ^ (-53 : Int) := by
    have : (1 / 2 : ℚ) = (2 : ℚ) ^ (-1 : Int) := by norm_num
    rw [this, ← two_zpow_add, ← two_zpow_add]
    congr 1
    ring
  calc _ ≤ (1 / 2 : ℚ) * (2 : ℚ) ^ (E - 52) := mul_le_mul_of_nonneg_right r hs.le
    _ = (2 : ℚ) ^ E * (2 : ℚ) ^ (-53 : Int) := e3
    _ ≤ q * (2 : ℚ) ^ (-53 : Int) := mul_le_mul_of_nonneg_right e1 (two_zpow_pos _).le

/-- A positive double is at least the smallest subnormal. -/
theorem roundPos_pos_ge (q : ℚ) (hr : 0 < roundPos q) : (2 : ℚ) ^ (-1074 : Int) ≤ roundPos q := by
  rw [roundPos_eq] at hr ⊢
  generalize hE : max (binaryExponent q) (-1022) = E at hr ⊢
  have hE2 : -1022 ≤ E := by
    rcases max_cases (binaryExponent q) (-1022) with ⟨m1, _⟩ | ⟨m1, _⟩ <;> omega
  have hs := two_zpow_pos (E - 52)
  generalize roundHalfEven (q / (2 : ℚ) ^ (E - 52)) = n at hr ⊢
  have hn : (0 : ℚ) < (n : ℚ) := pos_of_mul_pos_left hr hs.le
  have hn1 : (1 : Int) ≤ n := by
    have : (0 : Int) < n := by exact_mod_cast hn
    omega
  have hn2 : (1 : ℚ) ≤ (n : ℚ) := by exact_mod_cast hn1
  calc (2 : ℚ) ^ (-1074 : Int) ≤ (2 : ℚ) ^ (E - 52) := two_zpow_le (by omega)
    _ = 1 * (2 : ℚ) ^ (E - 52) := (one_mul _).symm
    _ ≤ _ := mul_le_mul_of_nonneg_right hn2 hs.le

/-- Integers of at most 53 bits are doubles. -/
theorem roundPos_int (n : Int) (h1 : 0 < n) (h2 : n ≤ 2 ^ 53) : roundPos (n : ℚ) = (n : ℚ) := by
  have hq : (0 : ℚ) < (n : ℚ) := by exact_mod_cast h1
  obtain ⟨e1, e2⟩ := binaryExponent_spec (n : ℚ) hq
  have hn1 : (2 : ℚ) ^ (0 : Int) ≤ (n : ℚ) := by
    have : (1 : ℚ) ≤ (n : ℚ) := by exact_mod_cast (by omega : (1 : Int) ≤ n)
    simpa using this
  have hn2 : (n : ℚ) ≤ (2 : ℚ) ^ (53 : Int) := by
    have : (n : ℚ) ≤ ((2 ^ 53 : Int) : ℚ) := by exact_mod_cast h2
    refine le_trans this ?_
    norm_num
  have he0 : 0 < binaryExponent (n : ℚ) + 1 := two_zpow_lt_imp (lt_of_le_of_lt hn1 e2)
  have he53 : binaryExponent (n : ℚ) ≤ 53 :=
    (zpow_le_zpow_iff_right₀ (by norm_num : (1 : ℚ) < 2)).mp (le_trans e1 hn2)
  rw [roundPos_eq]
  have hEe : max (binaryExponent (n : ℚ)) (-1022) = binaryExponent (n : ℚ) := by
    rcases max_cases (binaryExponent (n : ℚ)) (-1022) with ⟨m1, _⟩ | ⟨m1, _⟩ <;> omega
  rw [hEe]
  generalize binaryExponent (n : ℚ) = E at *
  have hs := two_zpow_pos (E - 52)
  suffices hint : ∃ N : Int, (n : ℚ) / (2 : ℚ) ^ (E - 52) = (N : ℚ) by
    obtain ⟨N, hN⟩ := hint
    rw [hN, roundHalfEven_intCast, ← hN]
    field_simp
  by_cases c : E ≤ 52
  · refine ⟨n * (2 : Int) ^ (52 - E).toNat, ?_⟩
    push_cast
    have : (2 : ℚ) ^ (52 - E) = (((2 : Int) ^ (52 - E).toNat : Int) : ℚ) :=
      two_zpow_int (by omega)
    push_cast at this
    rw [← this, div_eq_iff hs.ne', mul_assoc, ← two_zpow_add]
    have : (52 - E) + (E - 52) = 0 := by ring
    rw [this]
    simp
  · have hE : E = 53 := by omega
    subst hE
    have : (n : ℚ) = (2 : ℚ) ^ (53 : Int) := le_antisymm hn2 e1
    refine ⟨2 ^ 52, ?_⟩
    rw [this]
    norm_num

theorem round_of_pos (q : ℚ) (h : 0 < q) :
    Float64.round q =
      if roundPos q < (2 : ℚ) ^ (1024 : Int) then .finite (roundPos q) else .posInf := by
  unfold Float64.round
  rw [if_neg h.ne', if_pos h, pow2_eq]

theorem round_of_neg (q : ℚ) (h : q < 0) :
    Float64.round q =
      if roundPos (-q) < (2 : ℚ) ^ (1024 : Int) then .finite (-roundPos (-q)) else .negInf := by
  unfold Float64.round
  rw [if_neg h.ne, if_neg (not_lt.mpr h.le), pow2_eq]

theorem unitRoundoff_eq : unitRoundoff = (2 : ℚ) ^ (-53 : Int) := by
  unfold unitRoundoff
  norm_num

/-- Rounding in the normal range: the result is finite and near the value. -/
theorem round_normal (q : ℚ) (h1 : (2 : ℚ) ^ (-1022 : Int) ≤ q) (h2 : q ≤ (2 : ℚ) ^ (1023 : Int)) :
    ∃ r, Float64.round q = .finite r ∧ Near 1 r q := by
  have h : 0 < q := lt_of_lt_of_le (two_zpow_pos _) h1
  have hr := roundPos_rel q h1
  rw [← unitRoundoff_eq, abs_le] at hr
  have hu : unitRoundoff ≤ 1 := by unfold unitRoundoff; norm_num
  refine ⟨roundPos q, ?_, ?_, ?_⟩
  · rw [round_of_pos q h, if_pos]
    have : q * (1 + unitRoundoff) ≤ (2 : ℚ) ^ (1023 : Int) * 2 := by
      have : q * (1 + unitRoundoff) ≤ q * 2 :=
        mul_le_mul_of_nonneg_left (by linarith) h.le
      linarith
    have e : (2 : ℚ) ^ (1023 : Int) * 2 = (2 : ℚ) ^ (1024 : Int) := by
      have : (2 : ℚ) = (2 : ℚ) ^ (1 : Int) := by norm_num
      nth_rewrite 2 [this]
      rw [← two_zpow_add]
      norm_num
    have hlt : q * (1 + unitRoundoff) < (2 : ℚ) ^ (1023 : Int) * 2 := by
      have : q * (1 + unitRoundoff) < q * 2 :=
        mul_lt_mul_of_pos_left (by unfold unitRoundoff; norm_num) h
      linarith
    rw [← e]
    linarith
  · rw [pow_one]; linarith
  · rw [pow_one]; linarith

/-- Rounding a value that is at least a double `2^k` gives at least `2^k`. -/
theorem round_ge (q : ℚ) (k : Int) (hk : -1074 ≤ k) (hq : (2 : ℚ) ^ k ≤ q) :
    Float64.round q = .posInf ∨ ∃ r, Float64.round q = .finite r ∧ (2 : ℚ) ^ k ≤ r := by
  have h : 0 < q := lt_of_lt_of_le (two_zpow_pos _) hq
  rw [round_of_pos q h]
  split_ifs
  · exact Or.inr ⟨_, rfl, roundPos_ge q k h hk hq⟩
  · exact Or.inl rfl

theorem round_intCast (n : Int) (h1 : -2 ^ 53 ≤ n) (h2 : n ≤ 2 ^ 53) :
    Float64.round (n : ℚ) = .finite (n : ℚ) := by
  have big : ((2 ^ 53 : Int) : ℚ) < (2 : ℚ) ^ (1024 : Int) := by norm_num
  rcases lt_trichotomy n 0 with c | c | c
  · have hq : ((n : Int) : ℚ) < 0 := by exact_mod_cast c
    rw [round_of_neg _ hq]
    have e : -((n : Int) : ℚ) = ((-n : Int) : ℚ) := by push_cast; ring
    rw [e, roundPos_int (-n) (by omega) (by omega), if_pos]
    · push_cast; simp
    · have : ((-n : Int) : ℚ) ≤ ((2 ^ 53 : Int) : ℚ) := by exact_mod_cast (by omega : -n ≤ 2 ^ 53)
      linarith
  · subst c
    unfold Float64.round
    simp
  · have hq : (0 : ℚ) < ((n : Int) : ℚ) := by exact_mod_cast c
    rw [round_of_pos _ hq, roundPos_int n c h2, if_pos]
    have : ((n : Int) : ℚ) ≤ ((2 ^ 53 : Int) : ℚ) := by exact_mod_cast h2
    linarith

/-- What `0 < round q` says about the rounded value. -/
theorem round_pos_cases (q : ℚ) (h : (Float64.finite 0).lt (Float64.round q) = true) :
    0 < q ∧ (Float64.round q = .posInf ∨
      ∃ r, Float64.round q = .finite r ∧ (2 : ℚ) ^ (-1074 : Int) ≤ r) := by
  rcases lt_trichotomy q 0 with c | c | c
  · exfalso
    rw [round_of_neg q c] at h
    have := roundPos_nonneg (-q) (by linarith)
    split_ifs at h
    · simp only [Float64.lt, decide_eq_true_eq] at h
      linarith
    · simp [Float64.lt] at h
  · subst c
    exfalso
    unfold Float64.round at h
    simp [Float64.lt] at h
  · refine ⟨c, ?_⟩
    rw [round_of_pos q c] at h ⊢
    split_ifs at h ⊢
    · refine Or.inr ⟨_, rfl, roundPos_pos_ge q ?_⟩
      simpa [Float64.lt] using h
    · exact Or.inl rfl

theorem round_nonpos (q : ℚ) (h : q ≤ 0) :
    (Float64.finite 0).lt (Float64.round q) = false := by
  by_contra c
  have := (round_pos_cases q (by simpa using c)).1
  linarith

theorem unitRoundoff_pos : 0 < unitRoundoff := by unfold unitRoundoff; norm_num

theorem unitRoundoff_lt_one : unitRoundoff < 1 := by unfold unitRoundoff; norm_num

theorem near_self (E : ℚ) : Near 0 E E := by
  unfold Near
  simp

theorem near_mono {j k : Nat} {r E : ℚ} (h : Near j r E) (hE : 0 ≤ E) (hjk : j ≤ k) :
    Near k r E := by
  have u0 := unitRoundoff_pos
  have u1 := unitRoundoff_lt_one
  obtain ⟨a, b⟩ := h
  constructor
  · refine le_trans (mul_le_mul_of_nonneg_left ?_ hE) a
    exact pow_le_pow_of_le_one (by linarith) (by linarith) hjk
  · refine le_trans b (mul_le_mul_of_nonneg_left ?_ hE)
    exact pow_le_pow_right₀ (by linarith) hjk

theorem near_add {k : Nat} {a A b B : ℚ} (ha : Near k a A) (hb : Near k b B) :
    Near k (a + b) (A + B) := by
  obtain ⟨a1, a2⟩ := ha
  obtain ⟨b1, b2⟩ := hb
  constructor <;> rw [add_mul] <;> linarith

theorem near_lower_nonneg {k : Nat} {E : ℚ} (hE : 0 ≤ E) : 0 ≤ E * (1 - unitRoundoff) ^ k := by
  have u1 := unitRoundoff_lt_one
  have : 0 ≤ (1 - unitRoundoff) ^ k := pow_nonneg (by linarith) k
  positivity

theorem near_mul {j k : Nat} {a A b B : ℚ} (ha : Near j a A) (hb : Near k b B)
    (hA : 0 ≤ A) (hB : 0 ≤ B) : Near (j + k) (a * b) (A * B) := by
  obtain ⟨a1, a2⟩ := ha
  obtain ⟨b1, b2⟩ := hb
  have la := @near_lower_nonneg j A hA
  have lb := @near_lower_nonneg k B hB
  constructor
  · calc A * B * (1 - unitRoundoff) ^ (j + k)
        = (A * (1 - unitRoundoff) ^ j) * (B * (1 - unitRoundoff) ^ k) := by
          rw [pow_add]; ring
      _ ≤ a * b := mul_le_mul a1 b1 lb (le_trans la a1)
  · calc a * b ≤ (A * (1 + unitRoundoff) ^ j) * (B * (1 + unitRoundoff) ^ k) :=
          mul_le_mul a2 b2 (le_trans lb b1) (le_trans (le_trans la a1) a2)
      _ = A * B * (1 + unitRoundoff) ^ (j + k) := by rw [pow_add]; ring

theorem near_trans_one {k : Nat} {x r E : ℚ} (hx : Near k x E) (hr : Near 1 r x) :
    Near (k + 1) r E := by
  obtain ⟨a1, a2⟩ := hx
  obtain ⟨b1, b2⟩ := hr
  have u0 := unitRoundoff_pos
  have u1 := unitRoundoff_lt_one
  rw [pow_one] at b1 b2
  constructor
  · calc E * (1 - unitRoundoff) ^ (k + 1) = E * (1 - unitRoundoff) ^ k * (1 - unitRoundoff) := by
          rw [pow_succ]; ring
      _ ≤ x * (1 - unitRoundoff) := mul_le_mul_of_nonneg_right a1 (by linarith)
      _ ≤ r := b1
  · calc r ≤ x * (1 + unitRoundoff) := b2
      _ ≤ E * (1 + unitRoundoff) ^ k * (1 + unitRoundoff) :=
          mul_le_mul_of_nonneg_right a2 (by linarith)
      _ = E * (1 + unitRoundoff) ^ (k + 1) := by rw [pow_succ]; ring

/-- Up to six roundings keep a value within a factor of two. -/
theorem near_bounds {k : Nat} {r E : ℚ} (h : Near k r E) (hE : 0 ≤ E) (hk : k ≤ 6) :
    E / 2 ≤ r ∧ r ≤ E * 2 := by
  obtain ⟨a, b⟩ := near_mono h hE hk
  have l : (1 / 2 : ℚ) ≤ (1 - unitRoundoff) ^ 6 := by unfold unitRoundoff; norm_num
  have u : (1 + unitRoundoff) ^ 6 ≤ (2 : ℚ) := by unfold unitRoundoff; norm_num
  constructor
  · have := mul_le_mul_of_nonneg_left l hE
    linarith
  · have := mul_le_mul_of_nonneg_left u hE
    linarith

/-- Six roundings amount to a relative error of at most `2^-50`. -/
theorem near_close {k : Nat} {r E : ℚ} (h : Near k r E) (hE : 0 ≤ E) (hk : k ≤ 6) :
    |r - E| ≤ E / 2 ^ 50 := by
  obtain ⟨a, b⟩ := near_mono h hE hk
  have l : (1 - 1 / 2 ^ 50 : ℚ) ≤ (1 - unitRoundoff) ^ 6 := by unfold unitRoundoff; norm_num
  have u : (1 + unitRoundoff) ^ 6 ≤ (1 + 1 / 2 ^ 50 : ℚ) := by unfold unitRoundoff; norm_num
  have := mul_le_mul_of_nonneg_left l hE
  have := mul_le_mul_of_nonneg_left u hE
  rw [abs_le]
  constructor <;> linarith

/-- Rounding a value that is near `E` and in the normal range. -/
theorem near_round {k : Nat} {x E : ℚ} (hx : Near k x E)
    (h1 : (2 : ℚ) ^ (-1022 : Int) ≤ x) (h2 : x ≤ (2 : ℚ) ^ (1023 : Int)) :
    ∃ r, Float64.round x = .finite r ∧ Near (k + 1) r E := by
  obtain ⟨r, e, n⟩ := round_normal x h1 h2
  exact ⟨r, e, near_trans_one hx n⟩

/-! ## The movement cost on machine numbers -/

theorem GetMovementCost64_eq (w : World) (src dst : Point) :
    GetMovementCost64 w src dst =
      match w.GetBlock dst with
      | some toBlock =>
        if (Float64.finite 0).lt (Float64.round toBlock.MoveCost) then
          (climbCost64 src dst).mul (Float64.round toBlock.MoveCost)
        else climbCost64 src dst
      | none => climbCost64 src dst := rfl

theorem wrap64_eq (x : Int) (h1 : -2 ^ 63 ≤ x) (h2 : x < 2 ^ 63) : wrap64 x = x := by
  unfold wrap64
  omega

theorem round_1414 :
    Float64.round (1414 / 1000) = .finite (6368089873101881 / 4503599627370496) := by decide!

theorem round_02 :
    Float64.round (2 / 10) = .finite (3602879701896397 / 18014398509481984) := by decide!

theorem near_1414 : Near 1 (6368089873101881 / 4503599627370496) (1414 / 1000) := by
  unfold Near unitRoundoff
  norm_num

theorem near_02 : Near 1 (3602879701896397 / 18014398509481984) (2 / 10) := by
  unfold Near unitRoundoff
  norm_num

/-- Rounding a value between `2^-1000` and `2^1000`. -/
theorem round_mid (q : ℚ) (h1 : 1 / 2 ^ 1000 ≤ q) (h2 : q ≤ 2 ^ 1000) :
    ∃ r, Float64.round q = .finite r ∧ Near 1 r q :=
  round_normal q (le_trans (by norm_num) h1) (le_trans h2 (by norm_num))

theorem near_round_mid {k : Nat} {x E : ℚ} (hx : Near k x E) (h1 : 1 / 2 ^ 1000 ≤ x)
    (h2 : x ≤ 2 ^ 1000) : ∃ r, Float64.round x = .finite r ∧ Near (k + 1) r E :=
  near_round hx (le_trans (by norm_num) h1) (le_trans h2 (by norm_num))

/-- Rounding a value that is at least one and at most `2^1000`. -/
theorem round_ge_one (q : ℚ) (h1 : 1 ≤ q) (h2 : q ≤ 2 ^ 1000) :
    ∃ r, Float64.round q = .finite r ∧ Near 1 r q ∧ 1 ≤ r := by
  obtain ⟨r, e, n⟩ := round_mid q (le_trans (by norm_num) h1) h2
  refine ⟨r, e, n, ?_⟩
  rcases round_ge q 0 (by norm_num) (by simpa using h1) with c | ⟨r2, e2, g⟩
  · rw [e] at c; cases c
  · rw [e] at e2
    cases e2
    simpa using g

/-- The float64 of a positive `int`. -/
theorem ofInt_pos (n : Int) (h1 : 1 ≤ n) (h2 : n < 2 ^ 63) :
    ∃ x, Float64.ofInt n = .finite x ∧ Near 1 x (n : ℚ) ∧ 1 ≤ x ∧ x ≤ 2 ^ 64 := by
  have a : (1 : ℚ) ≤ (n : ℚ) := by exact_mod_cast h1
  have b : (n : ℚ) ≤ 2 ^ 63 := by exact_mod_cast h2.le
  obtain ⟨x, e, nr, g⟩ := round_ge_one (n : ℚ) a (le_trans b (by norm_num))
  refine ⟨x, e, nr, g, ?_⟩
  have := (near_bounds nr (by linarith) (by norm_num)).2
  linarith

theorem add_finite (a b : ℚ) :
    (Float64.finite a).add (.finite b) = Float64.round (a + b) := rfl

theorem mul_finite (a b : ℚ) :
    (Float64.finite a).mul (.finite b) = Float64.round (a * b) := rfl

/-- The base cost on machine numbers. -/
theorem baseCost64 (c : Prop) [Decidable c] :
    ∃ bq, (if c then Float64.round (1414 / 1000) else Float64.finite 1) = .finite bq ∧
      Near 1 bq (if c then (1414 / 1000 : ℚ) else 1) ∧ 1 ≤ bq ∧ bq ≤ 2 := by
  by_cases h : c
  · refine ⟨_, by rw [if_pos h, round_1414], by rw [if_pos h]; exact near_1414, ?_, ?_⟩ <;>
      norm_num
  · refine ⟨1, by rw [if_neg h], ?_, le_refl _, by norm_num⟩
    rw [if_neg h]
    exact near_mono (near_self 1) (by norm_num) (by norm_num)

/-- The penalty `k * float64(n)` added to the base cost, for a constant `k`
that is a double between 0.2 and 1. -/
theorem climb64 (bq base kq k : ℚ) (n : Int) (hb : Near 1 bq base) (hb1 : 1 ≤ bq)
    (hb2 : bq ≤ 2) (hbase : 0 ≤ base) (hk : Near 1 kq k) (hk0 : 1 / 8 ≤ k) (hk1 : k ≤ 1)
    (h1 : 1 ≤ n) (h2 : n < 2 ^ 63) :
    ∃ B, (Float64.finite bq).add ((Float64.finite kq).mul (Float64.ofInt n)) = .finite B ∧
      Near 4 B (base + k * (n : ℚ)) ∧ 1 ≤ B ∧ B ≤ 2 ^ 66 := by
  obtain ⟨x, ex, nx, x1, x2⟩ := ofInt_pos n h1 h2
  have n0 : (1 : ℚ) ≤ (n : ℚ) := by exact_mod_cast h1
  have n1 : (n : ℚ) ≤ 2 ^ 63 := by exact_mod_cast h2.le
  have k0 : (0 : ℚ) ≤ k := by linarith
  obtain ⟨kb1, kb2⟩ := near_bounds hk k0 (by norm_num)
  have kq0 : (1 / 16 : ℚ) ≤ kq := by linarith
  have kq1 : kq ≤ 2 := by linarith
  -- the product
  have np : Near 2 (kq * x) (k * (n : ℚ)) := near_mul hk nx k0 (by linarith)
  have p1 : (1 / 16 : ℚ) ≤ kq * x := by nlinarith
  have p2 : kq * x ≤ 2 ^ 65 := by nlinarith
  obtain ⟨t, et, nt⟩ := near_round_mid np (le_trans (by norm_num) p1) (le_trans p2 (by norm_num))
  have kn0 : (0 : ℚ) ≤ k * (n : ℚ) := by positivity
  obtain ⟨tb1, tb2⟩ := near_bounds nt kn0 (by norm_num)
  have t0 : (0 : ℚ) ≤ t := by linarith
  have t2 : t ≤ 2 ^ 64 := by nlinarith
  -- the sum
  have ns : Near 3 (bq + t) (base + k * (n : ℚ)) :=
    near_add (near_mono hb hbase (by norm_num)) nt
  obtain ⟨B, eB, nB, B1⟩ := round_ge_one (bq + t) (by linarith) (by
    have : bq + t ≤ 2 ^ 65 := by linarith
    exact le_trans this (by norm_num))
  refine ⟨B, ?_, near_trans_one ns nB, B1, ?_⟩
  · rw [ex, mul_finite, et, add_finite, eB]
  · have := (near_bounds nB (by linarith) (by norm_num)).2
    linarith

/-- The cost before the multiplier on machine numbers is the exact one up to
four roundings, when the difference of the heights does not wrap. -/
theorem climbCost64_near (src dst : Point) (h1 : -2 ^ 63 < dst.Y - src.Y)
    (h2 : dst.Y - src.Y < 2 ^ 63) :
    ∃ B, climbCost64 src dst = .finite B ∧ Near 4 B (climbCost src dst) ∧ 1 ≤ B ∧
      B ≤ 2 ^ 66 := by
  obtain ⟨bq, eb, nb, b1, b2⟩ := baseCost64 (src.X ≠ dst.X ∧ src.Z ≠ dst.Z)
  have hbase : (0 : ℚ) ≤ (if src.X ≠ dst.X ∧ src.Z ≠ dst.Z then (1414 / 1000 : ℚ) else 1) := by
    split_ifs <;> norm_num
  unfold climbCost64 climbCost
  simp only [eb]
  generalize (if src.X ≠ dst.X ∧ src.Z ≠ dst.Z then (1414 / 1000 : ℚ) else 1) = base at nb hbase ⊢
  by_cases up : dst.Y > src.Y
  · rw [if_pos up, if_pos up, wrap64_eq _ (by omega) h2]
    exact climb64 bq base 1 1 _ nb b1 b2 hbase
      (near_mono (near_self 1) (by norm_num) (by norm_num)) (by norm_num) (by norm_num)
      (by omega) h2
  · by_cases dn : dst.Y < src.Y
    · rw [if_neg up, if_neg up, if_pos dn, if_pos dn, wrap64_eq _ (by omega) (by omega), round_02]
      exact climb64 bq base _ (2 / 10) _ nb b1 b2 hbase near_02 (by norm_num) (by norm_num)
        (by omega) (by omega)
    · rw [if_neg up, if_neg up, if_neg dn, if_neg dn, add_zero]
      exact ⟨bq, rfl, near_mono nb hbase (by norm_num), b1, by linarith⟩

/-- On machine numbers `GetMovementCost` is the exact cost up to six roundings,
when the difference of the heights does not wrap and the multiplier of the
destination neither overflows nor underflows. -/
theorem GetMovementCost64_near (w : World) (src dst : Point) (h1 : -2 ^ 63 < dst.Y - src.Y)
    (h2 : dst.Y - src.Y < 2 ^ 63) (m1 : 1 / 2 ^ 900 ≤ effectiveMultiplier w dst)
    (m2 : effectiveMultiplier w dst ≤ 2 ^ 900) :
    ∃ q, GetMovementCost64 w src dst = .finite q ∧ Near 6 q (w.GetMovementCost src dst) := by
  obtain ⟨B, eB, nB, B1, B2⟩ := climbCost64_near src dst h1 h2
  have hc : (1 : ℚ) ≤ climbCost src dst := climbCost_ge_one src dst
  rw [GetMovementCost64_eq, GetMovementCost_eq_mul, eB]
  unfold effectiveMultiplier at m1 m2 ⊢
  cases hb : w.GetBlock dst with
  | none =>
    simp only
    rw [mul_one]
    exact ⟨B, rfl, near_mono nB (by linarith) (by norm_num)⟩
  | some b =>
    rw [hb] at m1 m2
    simp only at m1 m2 ⊢
    by_cases hm : b.MoveCost > 0
    · rw [if_pos hm] at m1 m2 ⊢
      obtain ⟨mf, em, nm⟩ := round_mid b.MoveCost (le_trans (by norm_num) m1)
        (le_trans m2 (by norm_num))
      obtain ⟨mb1, mb2⟩ := near_bounds nm hm.le (by norm_num)
      have mf0 : 0 < mf := by linarith
      have hlt : (Float64.finite 0).lt (Float64.finite mf) = true := by
        simp [Float64.lt, mf0]
      rw [em, if_pos hlt, mul_finite]
      have np : Near 5 (B * mf) (climbCost src dst * b.MoveCost) :=
        near_mul nB nm (by linarith) hm.le
      have p1 : (1 / 2 ^ 901 : ℚ) ≤ B * mf := by
        have : (1 / 2 ^ 901 : ℚ) ≤ mf := by
          have e : (1 / 2 ^ 901 : ℚ) = (1 / 2 ^ 900) / 2 := by norm_num
          rw [e]
          linarith
        nlinarith
      have p2 : B * mf ≤ 2 ^ 967 := by
        have : mf ≤ 2 ^ 901 := by
          have e : (2 ^ 901 : ℚ) = 2 ^ 900 * 2 := by norm_num
          rw [e]
          linarith
        have e : (2 ^ 967 : ℚ) = 2 ^ 66 * 2 ^ 901 := by norm_num
        rw [e]
        exact mul_le_mul B2 this mf0.le (by norm_num)
      exact near_round_mid np (le_trans (by norm_num) p1) (le_trans p2 (by norm_num))
    · rw [if_neg hm, mul_one, if_neg]
      · exact ⟨B, rfl, near_mono nB (by linarith) (by norm_num)⟩
      · rw [round_nonpos _ (not_lt.mp hm)]
        simp

theorem GetMovementCost64_eq_formula (w : World) (src dst : Point)
    (h1 : -2 ^ 63 < dst.Y - src.Y) (h2 : dst.Y - src.Y < 2 ^ 63) :
    GetMovementCost64 w src dst = movementCostFormula64 w src dst := by
  unfold GetMovementCost64 movementCostFormula64 Float64.ofInt
  rw [wrap64_eq (dst.Y - src.Y) (by omega) h2, wrap64_eq (src.Y - dst.Y) (by omega) (by omega)]

theorem positive_lt (f : Float64) (h : f.Positive) : (Float64.finite 0).lt f = true := by
  rcases h with rfl | ⟨r, rfl, hr⟩
  · rfl
  · have := two_zpow_pos (-1074)
    simp only [Float64.lt, decide_eq_true_eq]
    linarith

theorem positive_of_ge_one (r : ℚ) (h : 1 ≤ r) : (Float64.finite r).Positive := by
  refine Or.inr ⟨r, rfl, le_trans ?_ h⟩
  norm_num

theorem positive_round (q : ℚ) (h : (2 : ℚ) ^ (-1074 : Int) ≤ q) : (Float64.round q).Positive :=
  round_ge q (-1074) (le_refl _) h

/-- Adding a non-negative double to a positive one. -/
theorem positive_add (f : Float64) (c : ℚ) (h : f.Positive) (hc : 0 ≤ c) :
    (f.add (.finite c)).Positive := by
  rcases h with rfl | ⟨r, rfl, hr⟩
  · exact Or.inl rfl
  · rw [add_finite]
    exact positive_round _ (by linarith)

/-- Multiplying a double that is at least one by a positive one. -/
theorem positive_mul (B : ℚ) (f : Float64) (hB : 1 ≤ B) (h : f.Positive) :
    ((Float64.finite B).mul f).Positive := by
  rcases h with rfl | ⟨r, rfl, hr⟩
  · left
    have h0 : B ≠ 0 := by linarith
    have h1 : 0 < B := by linarith
    simp [Float64.mul, Float64.scaleInf, h0, h1]
  · rw [mul_finite]
    refine positive_round _ (le_trans hr ?_)
    have := two_zpow_pos (-1074)
    nlinarith

theorem GetMovementCost64_positive (w : World) (src dst : Point)
    (h1 : -2 ^ 63 < dst.Y - src.Y) (h2 : dst.Y - src.Y < 2 ^ 63) :
    (GetMovementCost64 w src dst).Positive := by
  obtain ⟨B, eB, _, B1, _⟩ := climbCost64_near src dst h1 h2
  rw [GetMovementCost64_eq, eB]
  cases w.GetBlock dst with
  | none => exact positive_of_ge_one B B1
  | some b =>
    simp only
    split_ifs with hm
    · obtain ⟨_, c⟩ := round_pos_cases _ hm
      exact positive_mul B _ B1 c
    · exact positive_of_ge_one B B1

theorem abs64_eq (x : Int) (h1 : -2 ^ 63 < x) (h2 : x < 2 ^ 63) : abs64 x = |x| := by
  unfold abs64
  split_ifs with h
  · rw [wrap64_eq _ (by omega) (by omega), abs_of_neg h]
  · rw [abs_of_nonneg (by omega)]

/-- The height surcharge on machine numbers is a non-negative double. -/
theorem heightSurcharge64 (d : Int) (h0 : d ≠ 0) (h1 : -2 ^ 63 < d) (h2 : d < 2 ^ 63) :
    ∃ t, (Float64.finite 2).mul (Float64.ofInt (abs64 (wrap64 d))) = .finite t ∧ 0 ≤ t := by
  rw [wrap64_eq d (by omega) h2, abs64_eq d h1 h2]
  have a1 : 1 ≤ |d| := Int.one_le_abs h0
  have a2 : |d| < 2 ^ 63 := abs_lt.mpr ⟨by omega, h2⟩
  obtain ⟨x, ex, _, x1, x2⟩ := ofInt_pos |d| a1 a2
  obtain ⟨t, et, _, t1⟩ := round_ge_one (2 * x) (by linarith) (by
    have : 2 * x ≤ 2 ^ 65 := by linarith
    exact le_trans this (by norm_num))
  exact ⟨t, by rw [ex, mul_finite, et], by linarith⟩

theorem dijkstraMoveCost64_positive (w : World) (o : PathfindingOptions) (bp pp : PointSet)
    (u v : Point) (h1 : -2 ^ 63 < v.Y - u.Y) (h2 : v.Y - u.Y < 2 ^ 63) :
    (dijkstraMoveCost64 w o bp pp u v).Positive := by
  have h0 := GetMovementCost64_positive w u v h1 h2
  unfold dijkstraMoveCost64
  simp only
  generalize GetMovementCost64 w u v = c0 at h0 ⊢
  have s1 : (if bp v = true then c0.add (.finite 5) else c0).Positive := by
    split_ifs
    · exact positive_add _ _ h0 (by norm_num)
    · exact h0
  generalize (if bp v = true then c0.add (.finite 5) else c0) = c1 at s1 ⊢
  have s2 : (if pp v = true then c1.add (.finite 3) else c1).Positive := by
    split_ifs
    · exact positive_add _ _ s1 (by norm_num)
    · exact s1
  generalize (if pp v = true then c1.add (.finite 3) else c1) = c2 at s2 ⊢
  have s3 : (if (o.AvoidWater && w.GetBlockType v == "water") = true then
      c2.add (.finite 10) else c2).Positive := by
    split_ifs
    · exact positive_add _ _ s2 (by norm_num)
    · exact s2
  generalize (if (o.AvoidWater && w.GetBlockType v == "water") = true then
      c2.add (.finite 10) else c2) = c3 at s3 ⊢
  split_ifs with hh
  · have hne : v.Y - u.Y ≠ 0 := by
      simp only [Bool.and_eq_true, bne_iff_ne, ne_eq] at hh
      omega
    obtain ⟨t, et, t0⟩ := heightSurcharge64 (v.Y - u.Y) hne h1 h2
    rw [et]
    exact positive_add _ _ s3 t0
  · exact s3

theorem breakingMoveCost64_positive (w : World) (o : PathfindingOptions) (u : Point)
    (ni : NeighborInfo) (h1 : -2 ^ 63 < ni.Point.Y - u.Y) (h2 : ni.Point.Y - u.Y < 2 ^ 63) :
    (breakingMoveCost64 w o u ni).Positive := by
  have h0 := GetMovementCost64_positive w u ni.Point h1 h2
  unfold breakingMoveCost64
  simp only
  generalize GetMovementCost64 w u ni.Point = c0 at h0 ⊢
  have s1 : (if ni.RequiresBreaking = true then c0.add (.finite 5) else c0).Positive := by
    split_ifs
    · exact positive_add _ _ h0 (by norm_num)
    · exact h0
  generalize (if ni.RequiresBreaking = true then c0.add (.finite 5) else c0) = c1 at s1 ⊢
  have s3 : (if (o.AvoidWater && w.GetBlockType ni.Point == "water") = true then
      c1.add (.finite 10) else c1).Positive := by
    split_ifs
    · exact positive_add _ _ s1 (by norm_num)
    · exact s1
  generalize (if (o.AvoidWater && w.GetBlockType ni.Point == "water") = true then
      c1.add (.finite 10) else c1) = c3 at s3 ⊢
  split_ifs with hh
  · have hne : ni.Point.Y - u.Y ≠ 0 := by
      simp only [Bool.and_eq_true, bne_iff_ne, ne_eq] at hh
      omega
    obtain ⟨t, et, t0⟩ := heightSurcharge64 (ni.Point.Y - u.Y) hne h1 h2
    rw [et]
    exact positive_add _ _ s3 t0
  · exact s3

/-- The two directions of a climb, over the rationals. -/
theorem climbCost_up_down (a b : Point) (hy : b.Y > a.Y) :
    climbCost a b - climbCost b a = (8 / 10) * ((b.Y - a.Y : Int) : ℚ) ∧
      climbCost a b + climbCost b a ≤ 5 * ((b.Y - a.Y : Int) : ℚ) := by
  have hd : (1 : ℚ) ≤ ((b.Y - a.Y : Int) : ℚ) := by
    exact_mod_cast (by omega : (1 : Int) ≤ b.Y - a.Y)
  unfold climbCost
  have h1 : ¬ (a.Y > b.Y) := by omega
  have h2 : ¬ (b.Y < a.Y) := by omega
  have h3 : a.Y < b.Y := hy
  have h4 : (b.X ≠ a.X ∧ b.Z ≠ a.Z) ↔ (a.X ≠ b.X ∧ a.Z ≠ b.Z) := by
    constructor <;> rintro ⟨h, h'⟩ <;> exact ⟨Ne.symm h, Ne.symm h'⟩
  simp only [hy, h1, h2, h3, h4, if_true, if_false]
  constructor
  · ring
  · split_ifs <;> linarith

/-! ## The rasterised line on the 64-bit `int` -/

theorem abs64_eq_abs (x : Int) (h1 : -2 ^ 63 < x) (h2 : x < 2 ^ 63) : abs64 x = abs x := by
  unfold abs64 abs
  split_ifs with h
  · rw [wrap64_eq _ (by omega) (by omega)]
  · rfl

theorem lineStepX64_eq (dx dy dz sx sy sz : Int) (s : LineState)
    (hD : dx ≤ 2 ^ 61) (hp : 0 ≤ dy ∧ dy ≤ dx) (hq : 0 ≤ dz ∧ dz ≤ dx)
    (hsx : -1 ≤ sx ∧ sx ≤ 1) (hsy : -1 ≤ sy ∧ sy ≤ 1) (hsz : -1 ≤ sz ∧ sz ≤ 1)
    (hx : -2 ^ 62 ≤ s.x ∧ s.x ≤ 2 ^ 62) (hy : -2 ^ 62 ≤ s.y ∧ s.y ≤ 2 ^ 62)
    (hz : -2 ^ 62 ≤ s.z ∧ s.z ≤ 2 ^ 62)
    (h1 : 2 * dy - 2 * dx ≤ s.err1 ∧ s.err1 ≤ 2 * dy)
    (h2 : 2 * dz - 2 * dx ≤ s.err2 ∧ s.err2 ≤ 2 * dz) :
    lineStepX64 dx dy dz sx sy sz s = lineStepX dx dy dz sx sy sz s := by
  unfold lineStepX64 lineStepX
  simp only
  rw [wrap64_eq (2 * dx) (by omega) (by omega), wrap64_eq (2 * dy) (by omega) (by omega),
    wrap64_eq (2 * dz) (by omega) (by omega), wrap64_eq (s.x + sx) (by omega) (by omega)]
  split_ifs <;> simp (disch := omega) only [wrap64_eq]

theorem lineStepY64_eq (dx dy dz sx sy sz : Int) (s : LineState)
    (hD : dy ≤ 2 ^ 61) (hp : 0 ≤ dx ∧ dx ≤ dy) (hq : 0 ≤ dz ∧ dz ≤ dy)
    (hsx : -1 ≤ sx ∧ sx ≤ 1) (hsy : -1 ≤ sy ∧ sy ≤ 1) (hsz : -1 ≤ sz ∧ sz ≤ 1)
    (hx : -2 ^ 62 ≤ s.x ∧ s.x ≤ 2 ^ 62) (hy : -2 ^ 62 ≤ s.y ∧ s.y ≤ 2 ^ 62)
    (hz : -2 ^ 62 ≤ s.z ∧ s.z ≤ 2 ^ 62)
    (h1 : 2 * dx - 2 * dy ≤ s.err1 ∧ s.err1 ≤ 2 * dx)
    (h2 : 2 * dz - 2 * dy ≤ s.err2 ∧ s.err2 ≤ 2 * dz) :
    lineStepY64 dx dy dz sx sy sz s = lineStepY dx dy dz sx sy sz s := by
  unfold lineStepY64 lineStepY
  simp only
  rw [wrap64_eq (2 * dx) (by omega) (by omega), wrap64_eq (2 * dy) (by omega) (by omega),
    wrap64_eq (2 * dz) (by omega) (by omega), wrap64_eq (s.y + sy) (by omega) (by omega)]
  split_ifs <;> simp (disch := omega) only [wrap64_eq]

theorem lineStepZ64_eq (dx dy dz sx sy sz : Int) (s : LineState)
    (hD : dz ≤ 2 ^ 61) (hp : 0 ≤ dy ∧ dy ≤ dz) (hq : 0 ≤ dx ∧ dx ≤ dz)
    (hsx : -1 ≤ sx ∧ sx ≤ 1) (hsy : -1 ≤ sy ∧ sy ≤ 1) (hsz : -1 ≤ sz ∧ sz ≤ 1)
    (hx : -2 ^ 62 ≤ s.x ∧ s.x ≤ 2 ^ 62) (hy : -2 ^ 62 ≤ s.y ∧ s.y ≤ 2 ^ 62)
    (hz : -2 ^ 62 ≤ s.z ∧ s.z ≤ 2 ^ 62)
    (h1 : 2 * dy - 2 * dz ≤ s.err1 ∧ s.err1 ≤ 2 * dy)
    (h2 : 2 * dx - 2 * dz ≤ s.err2 ∧ s.err2 ≤ 2 * dx) :
    lineStepZ64 dx dy dz sx sy sz s = lineStepZ dx dy dz sx sy sz s := by
  unfold lineStepZ64 lineStepZ
  simp only
  rw [wrap64_eq (2 * dx) (by omega) (by omega), wrap64_eq (2 * dy) (by omega) (by omega),
    wrap64_eq (2 * dz) (by omega) (by omega), wrap64_eq (s.z + sz) (by omega) (by omega)]
  split_ifs <;> simp (disch := omega) only [wrap64_eq]

theorem lineBound_stepX (x0 y0 z0 dx dy dz sx sy sz : Int) (n : Nat) (s : LineState)
    (hdy : 0 ≤ dy ∧ dy ≤ dx) (hdz : 0 ≤ dz ∧ dz ≤ dx)
    (hsx : -1 ≤ sx ∧ sx ≤ 1) (hsy : -1 ≤ sy ∧ sy ≤ 1) (hsz : -1 ≤ sz ∧ sz ≤ 1)
    (h : LineBound x0 y0 z0 dx dy dz n s) :
    LineBound x0 y0 z0 dx dy dz (n + 1) (lineStepX dx dy dz sx sy sz s) := by
  obtain ⟨bx, by1, bz, b1, b2⟩ := h
  unfold LineBound lineStepX
  simp only
  push_cast
  refine ⟨by omega, ?_, ?_, ?_, ?_⟩ <;> split_ifs <;> omega

theorem lineBound_stepY (x0 y0 z0 dx dy dz sx sy sz : Int) (n : Nat) (s : LineState)
    (hdx : 0 ≤ dx ∧ dx ≤ dy) (hdz : 0 ≤ dz ∧ dz ≤ dy)
    (hsx : -1 ≤ sx ∧ sx ≤ 1) (hsy : -1 ≤ sy ∧ sy ≤ 1) (hsz : -1 ≤ sz ∧ sz ≤ 1)
    (h : LineBound x0 y0 z0 dy dx dz n s) :
    LineBound x0 y0 z0 dy dx dz (n + 1) (lineStepY dx dy dz sx sy sz s) := by
  obtain ⟨bx, by1, bz, b1, b2⟩ := h
  unfold LineBound lineStepY
  simp only
  push_cast
  refine ⟨?_, by omega, ?_, ?_, ?_⟩ <;> split_ifs <;> omega

theorem lineBound_stepZ (x0 y0 z0 dx dy dz sx sy sz : Int) (n : Nat) (s : LineState)
    (hdx : 0 ≤ dx ∧ dx ≤ dz) (hdy : 0 ≤ dy ∧ dy ≤ dz)
    (hsx : -1 ≤ sx ∧ sx ≤ 1) (hsy : -1 ≤ sy ∧ sy ≤ 1) (hsz : -1 ≤ sz ∧ sz ≤ 1)
    (h : LineBound x0 y0 z0 dz dy dx n s) :
    LineBound x0 y0 z0 dz dy dx (n + 1) (lineStepZ dx dy dz sx sy sz s) := by
  obtain ⟨bx, by1, bz, b1, b2⟩ := h
  unfold LineBound lineStepZ
  simp only
  push_cast
  refine ⟨?_, ?_, by omega, ?_, ?_⟩ <;> split_ifs <;> omega

/-- The loop on the 64-bit `int` runs its body `d + 1` times when the body
agrees with `body` on the states that satisfy an invariant. -/
theorem lineLoop64_spec (body64 body : LineState → LineState) (d : Int)
    (Inv : Nat → LineState → Prop) (hd : d < 2 ^ 62)
    (hstep : ∀ (n : Nat) (s : LineState), (n : Int) ≤ d → Inv n s →
      body64 s = body s ∧ Inv (n + 1) (body s)) :
    ∀ (k n : Nat) (s : LineState) (fuel : Nat), (n : Int) + k = d + 1 → Inv n s →
      k + 1 ≤ fuel → lineLoop64 body64 d fuel n s = some (body^[k] s)
  | 0, n, s, fuel, hn, _, hf => by
    obtain ⟨f, rfl⟩ : ∃ f, fuel = f + 1 := ⟨fuel - 1, by omega⟩
    unfold lineLoop64
    rw [if_neg (by omega)]
    rfl
  | k + 1, n, s, fuel, hn, hi, hf => by
    obtain ⟨f, rfl⟩ : ∃ f, fuel = f + 1 := ⟨fuel - 1, by omega⟩
    obtain ⟨e, i2⟩ := hstep n s (by omega) hi
    unfold lineLoop64
    rw [if_pos (by omega), wrap64_eq _ (by omega) (by omega), e]
    have := lineLoop64_spec body64 body d Inv hd hstep k (n + 1) (body s) f
      (by push_cast; omega) i2 (by omega)
    rw [Function.iterate_succ_apply]
    exact_mod_cast this

theorem abs_small (d : Int) (h1 : -2 ^ 61 ≤ d) (h2 : d ≤ 2 ^ 61) :
    0 ≤ abs d ∧ abs d ≤ 2 ^ 61 := by
  unfold abs
  split_ifs <;> omega

/-- On small cells the line computed on the 64-bit `int` is the one computed on
unbounded integers. -/
theorem getLineOfSightPoints64_eq (a b : Point) (ha : a.Small) (hb : b.Small) (fuel : Nat)
    (hf : dominantDistance a b + 2 ≤ (fuel : Int)) :
    getLineOfSightPoints64 fuel a b = some (getLineOfSightPoints a b) := by
  obtain ⟨⟨ax1, ax2⟩, ⟨ay1, ay2⟩, ⟨az1, az2⟩⟩ := ha
  obtain ⟨⟨bx1, bx2⟩, ⟨by1, by2⟩, ⟨bz1, bz2⟩⟩ := hb
  unfold getLineOfSightPoints64 getLineOfSightPoints
  unfold dominantDistance at hf
  rw [wrap64_eq (b.X - a.X) (by omega) (by omega), wrap64_eq (b.Y - a.Y) (by omega) (by omega),
    wrap64_eq (b.Z - a.Z) (by omega) (by omega), abs64_eq_abs _ (by omega) (by omega),
    abs64_eq_abs _ (by omega) (by omega), abs64_eq_abs _ (by omega) (by omega)]
  obtain ⟨dx0, dx1⟩ := abs_small (b.X - a.X) (by omega) (by omega)
  obtain ⟨dy0, dy1⟩ := abs_small (b.Y - a.Y) (by omega) (by omega)
  obtain ⟨dz0, dz1⟩ := abs_small (b.Z - a.Z) (by omega) (by omega)
  have hsx := sign_bounds (b.X - a.X)
  have hsy := sign_bounds (b.Y - a.Y)
  have hsz := sign_bounds (b.Z - a.Z)
  generalize abs (b.X - a.X) = dx at *
  generalize abs (b.Y - a.Y) = dy at *
  generalize abs (b.Z - a.Z) = dz at *
  generalize sign (b.X - a.X) = sx at *
  generalize sign (b.Y - a.Y) = sy at *
  generalize sign (b.Z - a.Z) = sz at *
  simp only
  rw [wrap64_eq (2 * dx) (by omega) (by omega), wrap64_eq (2 * dy) (by omega) (by omega),
    wrap64_eq (2 * dz) (by omega) (by omega)]
  unfold max at hf
  by_cases cx : dx ≥ dy ∧ dx ≥ dz
  · rw [if_pos cx, if_pos cx, wrap64_eq _ (by omega) (by omega),
      wrap64_eq _ (by omega) (by omega), foldl_const_iterate, intRange_length]
    have hfuel : (dx + 1).toNat + 1 ≤ fuel := by
      split_ifs at hf <;> omega
    have := lineLoop64_spec (lineStepX64 dx dy dz sx sy sz) (lineStepX dx dy dz sx sy sz) dx
      (LineBound a.X a.Y a.Z dx dy dz) (by omega)
      (fun n s hn hi => ⟨lineStepX64_eq dx dy dz sx sy sz s dx1 ⟨dy0, cx.1⟩ ⟨dz0, cx.2⟩
          hsx hsy hsz (by obtain ⟨h, _⟩ := hi; omega) (by obtain ⟨_, h, _⟩ := hi; omega)
          (by obtain ⟨_, _, h, _⟩ := hi; omega) (by obtain ⟨_, _, _, h, _⟩ := hi; omega)
          (by obtain ⟨_, _, _, _, h⟩ := hi; omega),
        lineBound_stepX a.X a.Y a.Z dx dy dz sx sy sz n s ⟨dy0, cx.1⟩ ⟨dz0, cx.2⟩
          hsx hsy hsz hi⟩)
      (dx + 1).toNat 0 ⟨[], a.X, a.Y, a.Z, 2 * dy - dx, 2 * dz - dx⟩ fuel (by omega)
      (by unfold LineBound; simp only; omega) hfuel
    rw [show dx - 0 + 1 = dx + 1 by ring]
    simp only [Nat.cast_zero] at this
    rw [this]
    rfl
  · rw [if_neg cx, if_neg cx]
    by_cases cy : dy ≥ dx ∧ dy ≥ dz
    · rw [if_pos cy, if_pos cy, wrap64_eq _ (by omega) (by omega),
        wrap64_eq _ (by omega) (by omega), foldl_const_iterate, intRange_length]
      have hfuel : (dy + 1).toNat + 1 ≤ fuel := by
        split_ifs at hf <;> omega
      have := lineLoop64_spec (lineStepY64 dx dy dz sx sy sz) (lineStepY dx dy dz sx sy sz) dy
        (LineBound a.X a.Y a.Z dy dx dz) (by omega)
        (fun n s hn hi => ⟨lineStepY64_eq dx dy dz sx sy sz s dy1 ⟨dx0, cy.1⟩ ⟨dz0, cy.2⟩
            hsx hsy hsz (by obtain ⟨h, _⟩ := hi; omega) (by obtain ⟨_, h, _⟩ := hi; omega)
            (by obtain ⟨_, _, h, _⟩ := hi; omega) (by obtain ⟨_, _, _, h, _⟩ := hi; omega)
            (by obtain ⟨_, _, _, _, h⟩ := hi; omega),
          lineBound_stepY a.X a.Y a.Z dx dy dz sx sy sz n s ⟨dx0, cy.1⟩ ⟨dz0, cy.2⟩
            hsx hsy hsz hi⟩)
        (dy + 1).toNat 0 ⟨[], a.X, a.Y, a.Z, 2 * dx - dy, 2 * dz - dy⟩ fuel (by omega)
        (by unfold LineBound; simp only; omega) hfuel
      rw [show dy - 0 + 1 = dy + 1 by ring]
      simp only [Nat.cast_zero] at this
      rw [this]
      rfl
    · rw [if_neg cy, if_neg cy, wrap64_eq _ (by omega) (by omega),
        wrap64_eq _ (by omega) (by omega), foldl_const_iterate, intRange_length]
      have hfuel : (dz + 1).toNat + 1 ≤ fuel := by
        split_ifs at hf <;> omega
      have := lineLoop64_spec (lineStepZ64 dx dy dz sx sy sz) (lineStepZ dx dy dz sx sy sz) dz
        (LineBound a.X a.Y a.Z dz dy dx) (by omega)
        (fun n s hn hi => ⟨lineStepZ64_eq dx dy dz sx sy sz s dz1 ⟨dy0, by omega⟩ ⟨dx0, by omega⟩
            hsx hsy hsz (by obtain ⟨h, _⟩ := hi; omega) (by obtain ⟨_, h, _⟩ := hi; omega)
            (by obtain ⟨_, _, h, _⟩ := hi; omega) (by obtain ⟨_, _, _, h, _⟩ := hi; omega)
            (by obtain ⟨_, _, _, _, h⟩ := hi; omega),
          lineBound_stepZ a.X a.Y a.Z dx dy dz sx sy sz n s ⟨dx0, by omega⟩ ⟨dy0, by omega⟩
            hsx hsy hsz hi⟩)
        (dz + 1).toNat 0 ⟨[], a.X, a.Y, a.Z, 2 * dy - dz, 2 * dx - dz⟩ fuel (by omega)
        (by unfold LineBound; simp only; omega) hfuel
      rw [show dz - 0 + 1 = dz + 1 by ring]
      simp only [Nat.cast_zero] at this
      rw [this]
      rfl

/-! ## Claims about the movement cost and the heuristic on machine numbers -/

/-- C1, counterexample: from (0,-1,0) up to (0,2^63-1,0) in the empty world the
`int` difference of the heights wraps to `-2^63` and `GetMovementCost` returns
`1 + float64(-2^63) = -2^63`, where the closed form has `1 + 2^63` (`2^63`
after rounding to `float64`). -/
theorem GetMovementCost64_wraps :
    GetMovementCost64 NewWorld ⟨0, -1, 0⟩ ⟨0, 2 ^ 63 - 1, 0⟩ = .finite (-2 ^ 63) ∧
    climbCost ⟨0, -1, 0⟩ ⟨0, 2 ^ 63 - 1, 0⟩ * effectiveMultiplier NewWorld ⟨0, 2 ^ 63 - 1, 0⟩
      = 1 + 2 ^ 63 ∧
    movementCostFormula64 NewWorld ⟨0, -1, 0⟩ ⟨0, 2 ^ 63 - 1, 0⟩ = .finite (2 ^ 63) := by
  refine ⟨by decide!, by decide!, by decide!⟩

/-- C1, amended: for cells whose heights differ by less than `2^63`, so that the
`int` difference does not wrap, `GetMovementCost from to` is the closed form
(base cost 1.414 on a horizontal diagonal and 1 otherwise, plus 1 per unit of
ascent or 0.2 per unit of descent, multiplied by the destination block's
`MoveCost` exactly when the destination has a block and that multiplier is
positive) with each operation rounded to `float64`; when the multiplier that is
applied lies between `2^-900` and `2^900` the result is finite and within a
relative error of `2^-50` of the exact value of the closed form. -/
theorem GetMovementCost64_formula (w : World) (src dst : Point)
    (h1 : -2 ^ 63 < dst.Y - src.Y) (h2 : dst.Y - src.Y < 2 ^ 63) :
    GetMovementCost64 w src dst = movementCostFormula64 w src dst ∧
      (1 / 2 ^ 900 ≤ effectiveMultiplier w dst → effectiveMultiplier w dst ≤ 2 ^ 900 →
        ∃ q, GetMovementCost64 w src dst = .finite q ∧
          |q - climbCost src dst * effectiveMultiplier w dst|
            ≤ climbCost src dst * effectiveMultiplier w dst / 2 ^ 50) := by
  refine ⟨GetMovementCost64_eq_formula w src dst h1 h2, fun m1 m2 => ?_⟩
  obtain ⟨q, e, n⟩ := GetMovementCost64_near w src dst h1 h2 m1 m2
  refine ⟨q, e, ?_⟩
  rw [← GetMovementCost_eq_mul]
  exact near_close n (GetMovementCost_pos w src dst).le (le_refl 6)

theorem GetMovementCost64_formula_witness :
    GetMovementCost64 sandSteps ⟨0, 3, 0⟩ ⟨0, 1, 0⟩
        = movementCostFormula64 sandSteps ⟨0, 3, 0⟩ ⟨0, 1, 0⟩ ∧
      ∃ q, GetMovementCost64 sandSteps ⟨0, 3, 0⟩ ⟨0, 1, 0⟩ = .finite q ∧
        |q - climbCost ⟨0, 3, 0⟩ ⟨0, 1, 0⟩ * effectiveMultiplier sandSteps ⟨0, 1, 0⟩|
          ≤ climbCost ⟨0, 3, 0⟩ ⟨0, 1, 0⟩ * effectiveMultiplier sandSteps ⟨0, 1, 0⟩ / 2 ^ 50 :=
  ⟨(GetMovementCost64_formula sandSteps ⟨0, 3, 0⟩ ⟨0, 1, 0⟩ (by decide) (by decide)).1,
    (GetMovementCost64_formula sandSteps ⟨0, 3, 0⟩ ⟨0, 1, 0⟩ (by decide) (by decide)).2
      (by decide!) (by decide!)⟩

/-- C11, counterexample: `Heuristic` from (2^63-1,0,0) to (-1,0,0) is `-2^63`
(the difference wraps and `abs` returns the most negative `int` unchanged),
not `2^63`; and from (2^53+1,0,0) to (0,0,0) it is `2^53`, the conversion to
`float64` rounding the distance `2^53+1`. -/
theorem Heuristic64_wraps :
    Heuristic64 ⟨2 ^ 63 - 1, 0, 0⟩ ⟨-1, 0, 0⟩ {} = .finite (-2 ^ 63) ∧
    Heuristic64 ⟨2 ^ 53 + 1, 0, 0⟩ ⟨0, 0, 0⟩ {} = .finite (2 ^ 53) := by
  refine ⟨by decide!, by decide!⟩

/-- C11, amended: when `|a.X-b.X| + |a.Z-b.Z| + w*|a.Y-b.Y|` is at most `2^53`,
with `w = 2` when `MinimiseHeight` is set and `w = 1` otherwise, `Heuristic a b
options` is exactly that value. -/
theorem Heuristic64_formula (a b : Point) (options : PathfindingOptions)
    (h : |a.X - b.X| + |a.Z - b.Z|
      + (if options.MinimiseHeight = true then 2 else 1) * |a.Y - b.Y| ≤ 2 ^ 53) :
    Heuristic64 a b options =
      .finite (((|a.X - b.X| : Int) : ℚ) + ((|a.Z - b.Z| : Int) : ℚ)
        + (if options.MinimiseHeight = true then 2 else 1) * ((|a.Y - b.Y| : Int) : ℚ)) := by
  have nx := abs_nonneg (a.X - b.X)
  have ny := abs_nonneg (a.Y - b.Y)
  have nz := abs_nonneg (a.Z - b.Z)
  have hw : |a.Y - b.Y| ≤ (if options.MinimiseHeight = true then 2 else 1) * |a.Y - b.Y| := by
    split_ifs <;> omega
  have bx : |a.X - b.X| ≤ 2 ^ 53 := by omega
  have by1 : |a.Y - b.Y| ≤ 2 ^ 53 := by omega
  have bz : |a.Z - b.Z| ≤ 2 ^ 53 := by omega
  obtain ⟨x1, x2⟩ := abs_le.mp bx
  obtain ⟨y1, y2⟩ := abs_le.mp by1
  obtain ⟨z1, z2⟩ := abs_le.mp bz
  unfold Heuristic64 Float64.ofInt
  rw [wrap64_eq (a.X - b.X) (by omega) (by omega), wrap64_eq (a.Y - b.Y) (by omega) (by omega),
    wrap64_eq (a.Z - b.Z) (by omega) (by omega), abs64_eq _ (by omega) (by omega),
    abs64_eq _ (by omega) (by omega), abs64_eq _ (by omega) (by omega),
    wrap64_eq _ (by omega) (by omega), round_intCast _ (by omega) (by omega),
    round_intCast _ (by omega) (by omega)]
  simp only
  split_ifs with hm
  · rw [if_pos hm] at h
    have e1 : (((|a.Y - b.Y| : Int) : ℚ)) * 2 = ((|a.Y - b.Y| * 2 : Int) : ℚ) := by push_cast; ring
    have e2 : ((|a.X - b.X| + |a.Z - b.Z| : Int) : ℚ) + ((|a.Y - b.Y| * 2 : Int) : ℚ)
        = ((|a.X - b.X| + |a.Z - b.Z| + |a.Y - b.Y| * 2 : Int) : ℚ) := by push_cast; ring
    rw [mul_finite, e1, round_intCast _ (by omega) (by omega), add_finite, e2,
      round_intCast _ (by omega) (by omega)]
    congr 1
    push_cast
    ring
  · rw [if_neg hm] at h
    have e2 : ((|a.X - b.X| + |a.Z - b.Z| : Int) : ℚ) + ((|a.Y - b.Y| : Int) : ℚ)
        = ((|a.X - b.X| + |a.Z - b.Z| + |a.Y - b.Y| : Int) : ℚ) := by push_cast; ring
    rw [add_finite, e2, round_intCast _ (by omega) (by omega)]
    congr 1
    push_cast
    ring

theorem Heuristic64_formula_witness :
    Heuristic64 ⟨3, 1, -2⟩ ⟨0, 5, 4⟩ { MinimiseHeight := true } =
      .finite (((|(3 : Int) - 0| : Int) : ℚ) + ((|(-2 : Int) - 4| : Int) : ℚ)
        + (if ({ MinimiseHeight := true } : PathfindingOptions).MinimiseHeight = true
            then 2 else 1) * ((|(1 : Int) - 5| : Int) : ℚ)) :=
  Heuristic64_formula ⟨3, 1, -2⟩ ⟨0, 5, 4⟩ { MinimiseHeight := true } (by decide)

/-- C15, counterexample: on two sand cells (multiplier 1.5) two levels apart the
climb costs 4.5 and the descent 2.0999999999999996, so the difference is not
`0.8 * 2 * 1.5`; with the multiplier 1.6e308 both costs are `+Inf`, and with
the multiplier `2^-1074` on a diagonal step both are `2^-1073`, so neither is
strictly greater; from height -1 to height 2^63-1 in the empty world the
differences wrap and the climb, `-2^63`, costs less than the descent. -/
theorem GetMovementCost64_asymmetry_fails :
    (effectiveMultiplier sandSteps ⟨0, 1, 0⟩ = 3 / 2 ∧
      effectiveMultiplier sandSteps ⟨0, 3, 0⟩ = 3 / 2 ∧
      GetMovementCost64 sandSteps ⟨0, 1, 0⟩ ⟨0, 3, 0⟩ = .finite (9 / 2) ∧
      GetMovementCost64 sandSteps ⟨0, 3, 0⟩ ⟨0, 1, 0⟩
        = .finite (1182194902184755 / 562949953421312) ∧
      (9 / 2 : ℚ) - 1182194902184755 / 562949953421312 ≠ (8 / 10) * 2 * (3 / 2)) ∧
    (GetMovementCost64 heavySteps ⟨0, 1, 0⟩ ⟨0, 3, 0⟩ = .posInf ∧
      GetMovementCost64 heavySteps ⟨0, 3, 0⟩ ⟨0, 1, 0⟩ = .posInf) ∧
    (GetMovementCost64 faintSteps ⟨0, 1, 0⟩ ⟨1, 2, 1⟩ = .finite (1 / 2 ^ 1073) ∧
      GetMovementCost64 faintSteps ⟨1, 2, 1⟩ ⟨0, 1, 0⟩ = .finite (1 / 2 ^ 1073)) ∧
    (GetMovementCost64 NewWorld ⟨0, -1, 0⟩ ⟨0, 2 ^ 63 - 1, 0⟩ = .finite (-2 ^ 63) ∧
      GetMovementCost64 NewWorld ⟨0, 2 ^ 63 - 1, 0⟩ ⟨0, -1, 0⟩
        = .finite (-1844674407370955264)) := by
  refine ⟨⟨by decide!, by decide!, by decide!, by decide!, by norm_num⟩,
    ⟨by decide!, by decide!⟩, ⟨by decide!, by decide!⟩, ⟨by decide!, by decide!⟩⟩

/-- C15, amended: for cells `a`, `b` with `b.Y > a.Y`, `b.Y - a.Y < 2^63`, whose
blocks apply the same effective multiplier `m` with `2^-900 ≤ m ≤ 2^900`, both
costs are finite, going up from `a` to `b` costs strictly more than going down
from `b` to `a`, and the difference is `0.8 * (b.Y - a.Y) * m` to within a
relative error of `2^-47`. -/
theorem GetMovementCost64_asymmetry (w : World) (a b : Point) (m : ℚ) (hy : b.Y > a.Y)
    (hr : b.Y - a.Y < 2 ^ 63) (ha : effectiveMultiplier w a = m)
    (hb : effectiveMultiplier w b = m) (m1 : 1 / 2 ^ 900 ≤ m) (m2 : m ≤ 2 ^ 900) :
    ∃ up down, GetMovementCost64 w a b = .finite up ∧
      GetMovementCost64 w b a = .finite down ∧ down < up ∧
      |(up - down) - (8 / 10) * ((b.Y - a.Y : Int) : ℚ) * m|
        ≤ (8 / 10) * ((b.Y - a.Y : Int) : ℚ) * m / 2 ^ 47 := by
  have hm : 0 < m := lt_of_lt_of_le (by norm_num) m1
  have hd : (1 : ℚ) ≤ ((b.Y - a.Y : Int) : ℚ) := by
    exact_mod_cast (by omega : (1 : Int) ≤ b.Y - a.Y)
  obtain ⟨up, eu, nu⟩ := GetMovementCost64_near w a b (by omega) hr (by rw [hb]; exact m1)
    (by rw [hb]; exact m2)
  obtain ⟨down, ed, nd⟩ := GetMovementCost64_near w b a (by omega) (by omega)
    (by rw [ha]; exact m1) (by rw [ha]; exact m2)
  have cu := near_close nu (GetMovementCost_pos w a b).le (le_refl 6)
  have cd := near_close nd (GetMovementCost_pos w b a).le (le_refl 6)
  rw [GetMovementCost_eq_mul, hb] at cu
  rw [GetMovementCost_eq_mul, ha] at cd
  obtain ⟨k1, k2⟩ := climbCost_up_down a b hy
  have c1 := climbCost_ge_one a b
  have c2 := climbCost_ge_one b a
  generalize climbCost a b = U at *
  generalize climbCost b a = D at *
  generalize ((b.Y - a.Y : Int) : ℚ) = d at *
  rw [abs_le] at cu cd
  obtain ⟨cu1, cu2⟩ := cu
  obtain ⟨cd1, cd2⟩ := cd
  have s : (U * m + D * m) / 2 ^ 50 ≤ (8 / 10) * d * m / 2 ^ 47 := by
    have : (U + D) * m ≤ 5 * d * m := mul_le_mul_of_nonneg_right k2 hm.le
    have e : (8 / 10) * d * m / 2 ^ 47 = (64 / 10) * d * m / 2 ^ 50 := by norm_num; ring
    rw [e]
    have dm : 0 ≤ d * m := mul_nonneg (by linarith) hm.le
    apply div_le_div_of_nonneg_right _ (by norm_num)
    nlinarith
  have e : U * m - D * m = (8 / 10) * d * m := by rw [← sub_mul, k1]
  have p : 0 < (8 / 10) * d * m := mul_pos (mul_pos (by norm_num) (by linarith)) hm
  have q : (8 / 10) * d * m / 2 ^ 47 < (8 / 10) * d * m := by
    rw [div_lt_iff₀ (by norm_num)]
    have : (1 : ℚ) < 2 ^ 47 := by norm_num
    nlinarith
  have t1 : U * m / 2 ^ 50 + D * m / 2 ^ 50 = (U * m + D * m) / 2 ^ 50 := by ring
  refine ⟨up, down, eu, ed, ?_, ?_⟩
  · linarith
  · rw [abs_le]
    constructor <;> linarith

theorem GetMovementCost64_asymmetry_witness :
    ∃ up down, GetMovementCost64 sandSteps ⟨0, 1, 0⟩ ⟨0, 3, 0⟩ = .finite up ∧
      GetMovementCost64 sandSteps ⟨0, 3, 0⟩ ⟨0, 1, 0⟩ = .finite down ∧ down < up ∧
      |(up - down) - (8 / 10) * (((3 : Int) - 1 : Int) : ℚ) * (3 / 2)|
        ≤ (8 / 10) * (((3 : Int) - 1 : Int) : ℚ) * (3 / 2) / 2 ^ 47 :=
  GetMovementCost64_asymmetry sandSteps ⟨0, 1, 0⟩ ⟨0, 3, 0⟩ (3 / 2) (by decide) (by decide)
    (by decide!) (by decide!) (by norm_num) (by norm_num)

/-- C16, counterexample: from height `-2^63` up to height `2^63-1` in the empty
world the `int` difference of the heights wraps to `-1`, and `GetMovementCost`
returns `1 + 1.0 * (-1) = 0`, which is not strictly positive. -/
theorem GetMovementCost64_zero :
    GetMovementCost64 NewWorld ⟨0, -2 ^ 63, 0⟩ ⟨0, 2 ^ 63 - 1, 0⟩ = .finite 0 ∧
    (Float64.finite 0).lt (GetMovementCost64 NewWorld ⟨0, -2 ^ 63, 0⟩ ⟨0, 2 ^ 63 - 1, 0⟩)
      = false := by
  refine ⟨by decide!, by decide!⟩

/-- C16, amended: in every world, whatever the multipliers of its blocks, and
for all cells whose heights differ by less than `2^63`, `GetMovementCost` is
greater than zero (a positive `float64`, or `+Inf` when the product
overflows), and so are the edge costs that Dijkstra and the breaking search
build from it by adding surcharges. -/
theorem edge_costs64_positive (w : World) (o : PathfindingOptions) (u v : Point)
    (bp pp : PointSet) (ni : NeighborInfo) (h1 : -2 ^ 63 < v.Y - u.Y)
    (h2 : v.Y - u.Y < 2 ^ 63) (h3 : -2 ^ 63 < ni.Point.Y - u.Y)
    (h4 : ni.Point.Y - u.Y < 2 ^ 63) :
    (Float64.finite 0).lt (GetMovementCost64 w u v) = true ∧
      (Float64.finite 0).lt (dijkstraMoveCost64 w o bp pp u v) = true ∧
      (Float64.finite 0).lt (breakingMoveCost64 w o u ni) = true :=
  ⟨positive_lt _ (GetMovementCost64_positive w u v h1 h2),
    positive_lt _ (dijkstraMoveCost64_positive w o bp pp u v h1 h2),
    positive_lt _ (breakingMoveCost64_positive w o u ni h3 h4)⟩

theorem edge_costs64_positive_witness :
    (Float64.finite 0).lt (GetMovementCost64 iceWorld ⟨0, 1, 0⟩ ⟨1, 1, 0⟩) = true ∧
      (Float64.finite 0).lt (dijkstraMoveCost64 iceWorld {} (fun _ => false) (fun _ => false)
        ⟨0, 1, 0⟩ ⟨1, 1, 0⟩) = true ∧
      (Float64.finite 0).lt (breakingMoveCost64 iceWorld {} ⟨0, 1, 0⟩
        ⟨⟨1, 1, 0⟩, false, false⟩) = true :=
  edge_costs64_positive iceWorld {} ⟨0, 1, 0⟩ ⟨1, 1, 0⟩ (fun _ => false) (fun _ => false)
    ⟨⟨1, 1, 0⟩, false, false⟩ (by decide) (by decide) (by decide) (by decide)

/-! ## Claims about the rasterised line on the 64-bit `int` -/

/-- C38, counterexample: from (-1,0,0) to (2^63-1,0,0) the difference of the X
coordinates wraps to `-2^63`, `abs` returns it unchanged, the loop along Y runs
(`dy = 0 ≥ dx`) and appends one cell: the function returns the single cell
(-1,0,0), not `2^63 + 1` cells ending at (2^63-1,0,0). -/
theorem getLineOfSightPoints64_wraps :
    getLineOfSightPoints64 2 ⟨-1, 0, 0⟩ ⟨2 ^ 63 - 1, 0, 0⟩ = some [⟨-1, 0, 0⟩] ∧
    getLineOfSightPoints64 1000 ⟨-1, 0, 0⟩ ⟨2 ^ 63 - 1, 0, 0⟩ = some [⟨-1, 0, 0⟩] ∧
    dominantDistance ⟨-1, 0, 0⟩ ⟨2 ^ 63 - 1, 0, 0⟩ + 1 = 2 ^ 63 + 1 := by
  refine ⟨by decide!, by decide!, by decide!⟩

/-- C38, amended: for cells `a`, `b` whose coordinates have a magnitude of at
most `2^60`, `getLineOfSightPoints a b` returns (the loop ends within
`max(|dX|, |dY|, |dZ|) + 2` tests of its condition) a list of
`max(|dX|, |dY|, |dZ|) + 1` cells, the first is `a`, the last is `b`, and
consecutive cells differ by at most one unit on every axis and by exactly one
unit on every axis along which `a` and `b` are `max(|dX|, |dY|, |dZ|)` apart
(the dominant axis). -/
theorem getLineOfSightPoints64_cells (a b : Point) (ha : a.Small) (hb : b.Small) (fuel : Nat)
    (hf : dominantDistance a b + 2 ≤ (fuel : Int)) :
    ∃ l, getLineOfSightPoints64 fuel a b = some l ∧
      (l.length : Int) = dominantDistance a b + 1 ∧ l.head? = some a ∧
      l.getLast? = some b ∧ List.Chain' (lineStep a b) l :=
  ⟨_, getLineOfSightPoints64_eq a b ha hb fuel hf, getLineOfSightPoints_cells a b⟩

theorem getLineOfSightPoints64_cells_witness :
    ∃ l, getLineOfSightPoints64 10 ⟨0, 0, 0⟩ ⟨3, 1, -2⟩ = some l ∧
      (l.length : Int) = dominantDistance ⟨0, 0, 0⟩ ⟨3, 1, -2⟩ + 1 ∧
      l.head? = some ⟨0, 0, 0⟩ ∧ l.getLast? = some ⟨3, 1, -2⟩ ∧
      List.Chain' (lineStep ⟨0, 0, 0⟩ ⟨3, 1, -2⟩) l :=
  getLineOfSightPoints64_cells ⟨0, 0, 0⟩ ⟨3, 1, -2⟩ (by unfold Point.Small; decide)
    (by unfold Point.Small; decide) 10 (by decide)

end Paritone
